import Mathlib

/-!
BinaryContext: address-space index, jump-table analysis, function registry

A shallow embedding of `bolt/lib/Core/BinaryContext.cpp`, and of
`mlir::verifyInBoundsSlice` of `mlir/lib/Interfaces/ViewLikeInterface.cpp`.

* `std::map<uint64_t, T>` is a list kept in key order; an iterator into the map is the
  split of that list into the entries before the iterator, the entry it points to and
  the entries after it.
* A `BinaryData *` is the address of the object it points to (the key of the object in
  `BinaryDataMap`); a `BinaryFunction *` is the address of the function.
* An `MCSymbol *` is the symbol's name: `MCContext::getOrCreateSymbol` interns names, so
  two handles are equal exactly when the names are.
* `uint64_t` arithmetic is arithmetic on `Nat` reduced modulo `2^64`; `int64_t`
  arithmetic is arithmetic on `Int` reduced to the range of two's complement.
-/

namespace Bolt

/-! ## Machine integers and names -/

/-- Reduction of a natural number to the range of `uint64_t`. -/
def wrap64 (n : Nat) : Nat := n % 18446744073709551616

/-- Subtraction on `uint64_t`. -/
def sub64 (a b : Nat) : Nat := wrap64 (a + 18446744073709551616 - wrap64 b)

/-- Handle of an interned symbol. -/
abbrev MCSymbol := String

/-- One upper-case hexadecimal digit. -/
def hexDigit (d : Nat) : Char := "0123456789ABCDEF".data.getD d '0'

/-- Digits of `Twine::utohexstr`, most significant first; sixteen digits are enough
for a 64-bit value. -/
def utohexstrAux : Nat → Nat → List Char → List Char
  | 0, _, acc => acc
  | fuel + 1, n, acc =>
    if n < 16 then hexDigit n :: acc
    else utohexstrAux fuel (n / 16) (hexDigit (n % 16) :: acc)

/-- `Twine::utohexstr`: upper-case hexadecimal without leading zeros. -/
def utohexstr (n : Nat) : String := String.mk (utohexstrAux 16 n [])

/-- `StringRef::starts_with`. -/
def startsWith (s p : String) : Bool := p.data.isPrefixOf s.data

/-! ## Sections -/

/-- A section of the input binary, with the attributes the analysed code reads.
`Relocations` holds the in-section offsets that carry a relocation record. -/
structure BinarySection where
  Name : String
  Address : Nat
  Size : Nat
  IsAllocatable : Bool
  IsText : Bool
  IsVirtual : Bool
  Contents : List Nat
  Relocations : List Nat
  deriving DecidableEq

namespace BinarySection

/-- `BinarySection::getEndAddress`. -/
def getEndAddress (S : BinarySection) : Nat := wrap64 (S.Address + S.Size)

end BinarySection

/-- The section returned by `absoluteSection()`: the unique section named `<absolute>`,
which has no address, no size and no flags. -/
def absoluteSection : BinarySection :=
  { Name := "<absolute>", Address := 0, Size := 0, IsAllocatable := false,
    IsText := false, IsVirtual := false, Contents := [], Relocations := [] }

/-! ## Binary data objects -/

/-- Record of one named address range (`BinaryData`). `Parent` is the handle of the
parent object, `none` for a null pointer. -/
structure BinaryData where
  Symbols : List MCSymbol
  Address : Nat
  Size : Nat
  Alignment : Nat
  Section : BinarySection
  Flags : Nat
  Parent : Option Nat
  IsJumpTable : Bool
  deriving DecidableEq

namespace BinaryData

/-- Modelled from the spec: `BinaryData::getEndAddress` (BinaryData.h is not among the
sources); the end of the range of an "address, size" record. -/
def getEndAddress (BD : BinaryData) : Nat := wrap64 (BD.Address + BD.Size)

/-- Modelled from the spec: `BinaryData::containsAddress` (BinaryData.h is not among
the sources): an object contains `a` when `start <= a < start + size`, or `a = start`
for a zero-size object. -/
def containsAddress (BD : BinaryData) (a : Nat) : Bool :=
  (decide (BD.Address ≤ a) && decide (a < BD.getEndAddress)) ||
    (decide (BD.Address = a) && decide (BD.Size = 0))

/-- Modelled from the spec: `BinaryData::containsRange` (BinaryData.h is not among the
sources): the object contains the first address of the range and the range ends no
later than the object. -/
def containsRange (BD : BinaryData) (a s : Nat) : Bool :=
  BD.containsAddress a && decide (wrap64 (a + s) ≤ BD.getEndAddress)

/-- Modelled from the spec: `BinaryData::hasName` (BinaryData.h is not among the
sources): the name is one of the "symbol names that alias the same address". -/
def hasName (BD : BinaryData) (Name : String) : Bool := BD.Symbols.contains Name

/-- Modelled from the spec: `BinaryData::updateSize` (BinaryData.h is not among the
sources): a later, larger size replaces the recorded one. -/
def updateSize (BD : BinaryData) (N : Nat) : BinaryData :=
  if N > BD.Size then { BD with Size := N } else BD

/-- Modelled from the spec: `BinaryData::getSymbol` (BinaryData.h is not among the
sources): the first of the object's symbols. -/
def getSymbol (BD : BinaryData) : MCSymbol := BD.Symbols.headD ""

/-- Modelled from the spec: `BinaryData::getName` (BinaryData.h is not among the
sources): the name of the first symbol. -/
def getName (BD : BinaryData) : String := BD.getSymbol

/-- Modelled from the spec: `BinaryData::isObject` (BinaryData.h is not among the
sources): every record that is not a jump table. -/
def isObject (BD : BinaryData) : Bool := !BD.IsJumpTable

/-- Assignment to the `Parent` field. -/
def setParent (BD : BinaryData) (p : Option Nat) : BinaryData := { BD with Parent := p }

end BinaryData

/-! ## Functions and jump tables -/

/-- `BinaryFunction::State`. -/
inductive FunctionState where
  | Empty
  | Disassembled
  | CFG
  | CFG_Finalized
  | EmittedCFG
  | Emitted
  deriving DecidableEq

/-- `JumpTable::JumpTableType`. -/
inductive JumpTableType where
  | JTT_NORMAL
  | JTT_PIC
  deriving DecidableEq

/-- The architecture of the target triple. -/
inductive Arch where
  | x86_64
  | aarch64
  | riscv64
  deriving DecidableEq

/-- The fields of `BinaryFunction` that `BinaryContext.cpp` reads and writes. A function
is referred to by its address. `Instructions` holds the offsets at which the
disassembled function has an instruction; `SecondaryEntryPoints` maps the offset of an
additional entry point to its symbol. -/
structure BinaryFunction where
  Symbols : List MCSymbol
  Aliases : List String
  Address : Nat
  Size : Nat
  MaxSize : Nat
  CurrentState : FunctionState
  Instructions : List Nat
  IsSimple : Bool
  IsIgnored : Bool
  FoldedIntoFunction : Option Nat
  HasFunctionsFoldedInto : Bool
  HasInternalLabelReference : Bool
  HasIndirectTargetToSplitFragment : Bool
  Fragments : List Nat
  ParentFragments : List Nat
  SecondaryEntryPoints : List (Nat × MCSymbol)
  JumpTables : List Nat
  deriving DecidableEq

namespace BinaryFunction

/-- Modelled from the spec: `BinaryFunction::containsAddress` (BinaryFunction.h is not
among the sources): the address "falls within its size (or maximum size, if
requested)". -/
def containsAddress (BF : BinaryFunction) (PC : Nat) (UseMaxSize : Bool) : Bool :=
  if UseMaxSize then decide (BF.Address ≤ PC) && decide (PC < wrap64 (BF.Address + BF.MaxSize))
  else decide (BF.Address ≤ PC) && decide (PC < wrap64 (BF.Address + BF.Size))

/-- Modelled from the spec: `BinaryFunction::getOneName` (BinaryFunction.h is not among
the sources): the name of the first symbol of the function. -/
def getOneName (BF : BinaryFunction) : String := BF.Symbols.headD ""

/-- Modelled from the spec: `BinaryFunction::getSymbol` (BinaryFunction.h is not among
the sources): the first symbol of the function. -/
def getSymbol (BF : BinaryFunction) : MCSymbol := BF.Symbols.headD ""

/-- Modelled from the spec: `BinaryFunction::isMultiEntry` (BinaryFunction.h is not
among the sources): the function has an entry point besides its start. -/
def isMultiEntry (BF : BinaryFunction) : Bool := !BF.SecondaryEntryPoints.isEmpty

/-- Modelled from the spec: `BinaryFunction::getInstructionAtOffset` (BinaryFunction.h
is not among the sources): whether the offset "is a valid instruction boundary". -/
def hasInstructionAtOffset (BF : BinaryFunction) (Offset : Nat) : Bool :=
  BF.Instructions.contains Offset

/-- Modelled from the spec: `BinaryFunction::getEntryIDForSymbol` (BinaryFunction.cpp is
not among the sources): 0 for a function with a single entry and for the symbols of the
function itself, the position of the entry point otherwise. -/
def getEntryIDForSymbol (BF : BinaryFunction) (Symbol : MCSymbol) : Nat :=
  if !BF.isMultiEntry then 0
  else if BF.Symbols.contains Symbol then 0
  else (BF.SecondaryEntryPoints.map (fun e => e.2)).indexOf Symbol + 1

/-- The function record that the constructor `BinaryFunction(Name, Section, Address,
Size, BC)` builds. -/
def create (Name : String) (Address Size : Nat) : BinaryFunction :=
  { Symbols := [Name], Aliases := [], Address := Address, Size := Size, MaxSize := Size,
    CurrentState := FunctionState.Empty, Instructions := [], IsSimple := true,
    IsIgnored := false, FoldedIntoFunction := none, HasFunctionsFoldedInto := false,
    HasInternalLabelReference := false, HasIndirectTargetToSplitFragment := false,
    Fragments := [], ParentFragments := [], SecondaryEntryPoints := [], JumpTables := [] }

end BinaryFunction

/-- The fields of `JumpTable` that `BinaryContext.cpp` reads and writes. `Parents` holds
the handles of the owning functions, `Labels` maps an offset in the table to a label. -/
structure JumpTable where
  Address : Nat
  Size : Nat
  EntrySize : Nat
  JTType : JumpTableType
  Labels : List (Nat × MCSymbol)
  Parents : List Nat
  EntriesAsAddress : List Nat
  IsSplit : Bool
  deriving DecidableEq

/-! ## The context -/

/-- The fields of `BinaryContext` that the modelled operations read and write. -/
structure BinaryContext where
  /-- The names interned in the `MCContext`. -/
  Ctx : List String
  /-- All registered sections, in the order of the `Sections` set. -/
  Sections : List BinarySection
  /-- The `AddressToSection` multimap, in key order. -/
  AddressToSection : List BinarySection
  /-- The `BinaryDataMap`, in key order. -/
  BinaryDataMap : List BinaryData
  /-- The `GlobalSymbols` map from a name to the object handle. -/
  GlobalSymbols : List (String × Nat)
  /-- The `BinaryFunctions` map, in key order. -/
  BinaryFunctions : List BinaryFunction
  /-- The `SymbolToFunctionMap`, from a symbol to the function handle. -/
  SymbolToFunctionMap : List (String × Nat)
  /-- The classes of `FragmentClasses`. -/
  FragmentClasses : List (List Nat)
  /-- The `JumpTables` map, in key order. -/
  JumpTables : List JumpTable
  /-- The `JumpTableIds` map. -/
  JumpTableIds : List (Nat × Nat)
  /-- The addresses in `DataPCRelocations`. -/
  DataPCRelocations : List Nat
  /-- The list `InterproceduralReferences` of (function, address) pairs. -/
  InterproceduralReferences : List (Nat × Nat)
  HasRelocations : Bool
  /-- The architecture of `TheTriple`. -/
  TheArch : Arch
  /-- The value of `AsmInfo->getCodePointerSize()`. -/
  CodePointerSize : Nat
  /-- The value of `AsmInfo->isLittleEndian()`. -/
  IsLittleEndian : Bool
  deriving DecidableEq

/-- A context with no section, object or function, for an x86-64 target. -/
def emptyContext : BinaryContext :=
  { Ctx := [], Sections := [], AddressToSection := [], BinaryDataMap := [],
    GlobalSymbols := [], BinaryFunctions := [], SymbolToFunctionMap := [],
    FragmentClasses := [], JumpTables := [], JumpTableIds := [], DataPCRelocations := [],
    InterproceduralReferences := [], HasRelocations := false, TheArch := Arch.x86_64,
    CodePointerSize := 8, IsLittleEndian := true }

/-- `BinaryContext::isX86`. -/
def isX86 (BC : BinaryContext) : Bool := decide (BC.TheArch = Arch.x86_64)

/-- `BinaryContext::isAArch64`. -/
def isAArch64 (BC : BinaryContext) : Bool := decide (BC.TheArch = Arch.aarch64)

/-- `MCContext::getOrCreateSymbol`: intern the name. -/
def getOrCreateSymbol (Ctx : List String) (Name : String) : List String :=
  if Ctx.contains Name then Ctx else Ctx ++ [Name]

/-- `Map[Key] = Value` on a map kept as an association list. -/
def assign {β : Type} (m : List (String × β)) (k : String) (v : β) : List (String × β) :=
  match m with
  | [] => [(k, v)]
  | (k', v') :: rest => if k' = k then (k, v) :: rest else (k', v') :: assign rest k v

/-- `Map.find(Key)` on a map kept as an association list. -/
def lookup {β : Type} (m : List (String × β)) (k : String) : Option β :=
  match m with
  | [] => none
  | (k', v') :: rest => if k' = k then some v' else lookup rest k

/-- `BinaryContext::getSectionForAddress`: the last section of the address map that
starts at or below `Address`, if `Address` is below its end (a section of size zero
counts as one byte long). -/
def getSectionForAddress (BC : BinaryContext) (Address : Nat) : Option BinarySection :=
  match (BC.AddressToSection.takeWhile (fun S => decide (S.Address ≤ Address))).getLast? with
  | none => none
  | some SI =>
    let UpperBound := wrap64 (SI.Address + SI.Size)
    let UpperBound := if SI.Size = 0 then wrap64 (UpperBound + 1) else UpperBound
    if UpperBound > Address then some SI else none

/-- `BinaryContext::registerSection`: only allocatable sections with a non-zero address
enter the address map, after the sections already registered at the same address. -/
def registerSection (BC : BinaryContext) (S : BinarySection) : BinaryContext :=
  { BC with
    Sections := BC.Sections ++ [S]
    AddressToSection :=
      if S.IsAllocatable && decide (S.Address ≠ 0) then
        BC.AddressToSection.takeWhile (fun T => decide (T.Address ≤ S.Address)) ++
          S :: BC.AddressToSection.dropWhile (fun T => decide (T.Address ≤ S.Address))
      else BC.AddressToSection }

/-- `allocatableSections()`: the registered sections that are allocatable. -/
def allocatableSections (BC : BinaryContext) : List BinarySection :=
  BC.Sections.filter (fun S => S.IsAllocatable)

/-! ## Iterators into the object map -/

/-- Entries before `lower_bound(Address)`. -/
def entriesBelow (m : List BinaryData) (Address : Nat) : List BinaryData :=
  m.takeWhile (fun BD => decide (BD.Address < Address))

/-- Entries from `lower_bound(Address)` on. -/
def entriesFrom (m : List BinaryData) (Address : Nat) : List BinaryData :=
  m.dropWhile (fun BD => decide (BD.Address < Address))

/-- `BinaryDataMap.find(Address)` as an iterator: the entries before the match, the
match, and the entries after it. -/
def findIter (m : List BinaryData) (Address : Nat) :
    Option (List BinaryData × BinaryData × List BinaryData) :=
  match entriesFrom m Address with
  | [] => none
  | BD :: post => if BD.Address = Address then some (entriesBelow m Address, BD, post) else none

/-- `getBinaryDataAtAddress`: the object registered exactly at `Address`. -/
def getBinaryDataAtAddress (m : List BinaryData) (Address : Nat) : Option BinaryData :=
  (findIter m Address).map (fun r => r.2.1)

/-! ## Nesting maintenance -/

/-- The loop of `fixParents` over the entries after the iterator:
`while (Itr != end && OldParent && Itr->Parent == OldParent)`. -/
def fixParentsTail (OldParent NewParent : Option Nat) : List BinaryData → List BinaryData
  | [] => []
  | BD :: rest =>
    if OldParent.isSome && decide (BD.Parent = OldParent) then
      BD.setParent NewParent :: fixParentsTail OldParent NewParent rest
    else BD :: rest

/-- The loop `while (Prev)` of `updateObjectNesting`. `pre` are the entries before the
iterator, `GAI` the entry at the iterator and `post` the entries after it; the loop
follows the parent links starting at `Prev` and calls `fixParents(GAI, ...)` for each.
The links of a map form chains without repetition, so a number of steps equal to the
number of entries lets the loop run to its end. -/
def walkPrev (pre : List BinaryData) :
    Nat → Option Nat → BinaryData → List BinaryData → BinaryData × List BinaryData
  | 0, _, GAI, post => (GAI, post)
  | _ + 1, none, GAI, post => (GAI, post)
  | fuel + 1, some p, GAI, post =>
    match getBinaryDataAtAddress (pre ++ GAI :: post) p with
    | none => (GAI, post)
    | some Prev =>
      let NewParent : Option Nat :=
        if Prev.Section = GAI.Section ∧ Prev.containsRange GAI.Address GAI.Size = true
        then some p else none
      let GAI1 := GAI.setParent NewParent
      let post1 := fixParentsTail GAI.Parent NewParent post
      walkPrev pre fuel
        ((getBinaryDataAtAddress (pre ++ GAI1 :: post1) p).bind (fun P => P.Parent)) GAI1 post1

/-- The second loop of `updateObjectNesting`: the entries after the iterator that `BD`
contains become children of `BD`. -/
def absorbFollowing (BD : BinaryData) : List BinaryData → List BinaryData
  | [] => []
  | X :: rest =>
    if BD.containsRange X.Address X.Size then
      X.setParent (some BD.Address) :: absorbFollowing BD rest
    else X :: rest

/-- `BinaryContext::updateObjectNesting(GAI)`, the iterator given as `pre`, `GAI`,
`post`; the result is the updated map. -/
def updateObjectNesting (pre : List BinaryData) (GAI : BinaryData) (post : List BinaryData) :
    List BinaryData :=
  let r : BinaryData × List BinaryData :=
    match pre.getLast? with
    | none => (GAI, post)
    | some Prev => walkPrev pre (pre.length + post.length + 1) (some Prev.Address) GAI post
  let GAI1 := r.1
  let post1 := r.2
  if GAI1.Size ≠ 0 then
    let BD : BinaryData :=
      match GAI1.Parent with
      | none => GAI1
      | some p => (getBinaryDataAtAddress (pre ++ GAI1 :: post1) p).getD GAI1
    pre ++ GAI1 :: absorbFollowing BD post1
  else pre ++ GAI1 :: post1

/-- `BinaryContext::validateObjectNesting`, inner loop: the entries that follow `Itr`,
are of its section and lie in its range must have `Itr` as parent. Returns the validity
of the run and the entries left after it. -/
def validateRun (Itr : BinaryData) : List BinaryData → Bool × List BinaryData
  | [] => (true, [])
  | Next :: rest =>
    if Itr.Section = Next.Section ∧ Itr.containsRange Next.Address Next.Size = true then
      let r := validateRun Itr rest
      (decide (Next.Parent = some Itr.Address) && r.1, r.2)
    else (true, Next :: rest)

/-- `BinaryContext::validateObjectNesting`, outer loop, bounded by the number of
entries. -/
def validateObjectNestingAux : Nat → List BinaryData → Bool
  | 0, _ => true
  | _, [] => true
  | fuel + 1, Itr :: rest =>
    let r := validateRun Itr rest
    r.1 && validateObjectNestingAux fuel r.2

/-- `BinaryContext::validateObjectNesting`. -/
def validateObjectNesting (m : List BinaryData) : Bool :=
  validateObjectNestingAux m.length m

/-! ## Registration -/

/-- The object `new BinaryData(*Symbol, Address, Size, Alignment ? Alignment : 1, Section,
Flags)` that `registerNameAtAddress` builds for an unoccupied address; its section is
the section of the address, or the absolute section. The parameter `Alignment` of
`registerNameAtAddress` is a `uint16_t`. -/
def newBinaryData (BC : BinaryContext) (Name : String) (Address Size Alignment Flags : Nat) :
    BinaryData :=
  { Symbols := [Name], Address := Address, Size := Size,
    Alignment := if Alignment % 65536 ≠ 0 then Alignment % 65536 else 1,
    Section := (getSectionForAddress BC Address).getD absoluteSection,
    Flags := Flags, Parent := none, IsJumpTable := false }

/-- The update of an object already registered at the address when the name is new:
`BD->updateSize(Size); BD->Symbols.push_back(Symbol)`. -/
def addName (BD : BinaryData) (Size : Nat) (Symbol : MCSymbol) : BinaryData :=
  { BD.updateSize Size with Symbols := (BD.updateSize Size).Symbols ++ [Symbol] }

/-- `BinaryContext::registerNameAtAddress`; returns the symbol and the new context. -/
def registerNameAtAddress (BC : BinaryContext) (Name : String)
    (Address Size Alignment Flags : Nat) : MCSymbol × BinaryContext :=
  let Symbol : MCSymbol := Name
  let BC := { BC with Ctx := getOrCreateSymbol BC.Ctx Name }
  match findIter BC.BinaryDataMap Address with
  | none =>
    let BD := newBinaryData BC Symbol Address Size Alignment Flags
    (Symbol,
      { BC with
        BinaryDataMap :=
          updateObjectNesting (entriesBelow BC.BinaryDataMap Address) BD
            (entriesFrom BC.BinaryDataMap Address)
        GlobalSymbols := assign BC.GlobalSymbols Name Address })
  | some (pre, BD, post) =>
    if BD.hasName Name then (Symbol, BC)
    else
      (Symbol,
        { BC with
          BinaryDataMap := pre ++ addName BD Size Symbol :: post
          GlobalSymbols := assign BC.GlobalSymbols Name Address })

/-- `BinaryContext::setBinaryDataSize`; returns the result and the new map. An address
with no object fails the assertion and returns false. -/
def setBinaryDataSize (m : List BinaryData) (Address Size : Nat) : Bool × List BinaryData :=
  match findIter m Address with
  | none => (false, m)
  | some (pre, NI, post) =>
    if NI.Size = 0 then (true, updateObjectNesting pre { NI with Size := Size } post)
    else (false, m)

/-- `BinaryContext::getOrCreateGlobalSymbol`. -/
def getOrCreateGlobalSymbol (BC : BinaryContext) (Address : Nat) (Prefix : String)
    (Size Alignment Flags : Nat) : MCSymbol × BinaryContext :=
  match getBinaryDataAtAddress BC.BinaryDataMap Address with
  | some BD => (BD.getSymbol, BC)
  | none =>
    let Name := Prefix ++ "0x" ++ utohexstr Address
    registerNameAtAddress BC Name Address Size Alignment Flags

/-! ## Hole synthesis -/

/-- The filter `isNotHole` of `fixBinaryDataHoles`: a parentless object of `Section`
that is not a zero-size anonymous object. -/
def isNotHole (Section : BinarySection) (BD : BinaryData) : Bool :=
  let isHole : Bool :=
    BD.Parent.isNone && decide (BD.Size = 0) && BD.isObject &&
      (startsWith BD.getName "SYMBOLat0x" || startsWith BD.getName "DATAat0x" ||
        startsWith BD.getName "ANONYMOUS")
  !isHole && decide (BD.Section = Section) && BD.Parent.isNone

/-- The loop `while (Itr != End)` of `fixBinaryDataHoles` over the filtered entries;
returns the final `EndAddress` and the holes found, in address order. -/
def scanHoles : Nat → List BinaryData → Nat × List (Nat × Nat)
  | EndAddress, [] => (EndAddress, [])
  | EndAddress, BD :: rest =>
    let r := scanHoles BD.getEndAddress rest
    if BD.Address > EndAddress then (r.1, (EndAddress, BD.Address - EndAddress) :: r.2)
    else r

/-- The vector `Holes` that `fixBinaryDataHoles` computes for one section. -/
def sectionHoles (m : List BinaryData) (Section : BinarySection) : List (Nat × Nat) :=
  let r := scanHoles Section.Address (m.filter (isNotHole Section))
  if r.1 < Section.getEndAddress then r.2 ++ [(r.1, Section.getEndAddress - r.1)] else r.2

/-- The body of the loop over `Holes` of `fixBinaryDataHoles`. -/
def fillHole (Section : BinarySection) (BC : BinaryContext) (Hole : Nat × Nat) :
    BinaryContext :=
  match getBinaryDataAtAddress BC.BinaryDataMap Hole.1 with
  | some BD =>
    if BD.Section = Section then
      { BC with BinaryDataMap := (setBinaryDataSize BC.BinaryDataMap Hole.1 Hole.2).2 }
    else BC
  | none => (getOrCreateGlobalSymbol BC Hole.1 "HOLEat" Hole.2 1 0).2

/-- The body of the loop over the allocatable sections of `fixBinaryDataHoles`. -/
def fixSectionHoles (BC : BinaryContext) (Section : BinarySection) : BinaryContext :=
  (sectionHoles BC.BinaryDataMap Section).foldl (fillHole Section) BC

/-- `BinaryContext::fixBinaryDataHoles`. -/
def fixBinaryDataHoles (BC : BinaryContext) : BinaryContext :=
  (allocatableSections BC).foldl fixSectionHoles BC

/-! ## Function registry -/

/-- `BinaryFunctions.find(Address)`: the function registered at `Address`. -/
def getFunction (fs : List BinaryFunction) (Address : Nat) : Option BinaryFunction :=
  fs.find? (fun F => decide (F.Address = Address))

/-- Assignment through a `BinaryFunction &`: the function with the given handle is
replaced by its image under `f`. -/
def updateFunction (fs : List BinaryFunction) (Address : Nat)
    (f : BinaryFunction → BinaryFunction) : List BinaryFunction :=
  fs.map (fun F => if F.Address = Address then f F else F)

/-- `BinaryFunctions.erase(FI)` for the iterator of the function at `Address`. -/
def eraseFunction (fs : List BinaryFunction) (Address : Nat) : List BinaryFunction :=
  fs.filter (fun F => decide (F.Address ≠ Address))

/-- `BinaryFunctions.emplace(Address, F)`: insertion in key order, nothing when the key
is taken. -/
def emplaceFunction (fs : List BinaryFunction) (F : BinaryFunction) : List BinaryFunction :=
  match getFunction fs F.Address with
  | some _ => fs
  | none =>
    fs.takeWhile (fun G => decide (G.Address < F.Address)) ++
      F :: fs.dropWhile (fun G => decide (G.Address < F.Address))

/-- `BinaryContext::getBinaryFunctionContainingAddress`. -/
def getBinaryFunctionContainingAddress (BC : BinaryContext) (Address : Nat)
    (CheckPastEnd UseMaxSize : Bool) : Option BinaryFunction :=
  match (BC.BinaryFunctions.takeWhile (fun F => decide (F.Address ≤ Address))).getLast? with
  | none => none
  | some FI =>
    let UsedSize := if UseMaxSize then FI.MaxSize else FI.Size
    if Address ≥ wrap64 (FI.Address + UsedSize + (if CheckPastEnd then 1 else 0)) then none
    else some FI

/-- `BinaryContext::getFunctionForSymbol`: the function the symbol maps to, with the
entry ID of the symbol in it. -/
def getFunctionForSymbol (BC : BinaryContext) (Symbol : MCSymbol) :
    Option (BinaryFunction × Nat) :=
  match lookup BC.SymbolToFunctionMap Symbol with
  | none => none
  | some h =>
    match getFunction BC.BinaryFunctions h with
    | none => none
    | some BF => some (BF, BF.getEntryIDForSymbol Symbol)

/-- `BinaryContext::getBinaryFunctionAtAddress`. -/
def getBinaryFunctionAtAddress (BC : BinaryContext) (Address : Nat) : Option BinaryFunction :=
  match getFunction BC.BinaryFunctions Address with
  | some BF => some BF
  | none =>
    match getBinaryDataAtAddress BC.BinaryDataMap Address with
    | none => none
    | some BD =>
      match getFunctionForSymbol BC BD.getSymbol with
      | some (BF, EntryID) => if EntryID = 0 then some BF else none
      | none => none

/-- `BinaryContext::createBinaryFunction`; the function must not be registered yet (the
source asserts it). `BF` is `&Result.first->second`, the function that the map holds at
the address after the `emplace`. -/
def createBinaryFunction (BC : BinaryContext) (Name : String)
    (Address Size SymbolSize Alignment : Nat) : BinaryContext :=
  let Result := emplaceFunction BC.BinaryFunctions (BinaryFunction.create Name Address Size)
  let BF := (getFunction Result Address).getD (BinaryFunction.create Name Address Size)
  let BC := { BC with BinaryFunctions := Result }
  let BC := (registerNameAtAddress BC Name Address (if SymbolSize ≠ 0 then SymbolSize else Size)
    Alignment 0).2
  { BC with SymbolToFunctionMap := assign BC.SymbolToFunctionMap BF.getSymbol Address }

/-- Modelled from the spec: `EquivalenceClasses::isEquivalent` on `FragmentClasses` (the
class is not among the sources): "an equivalence relation (union-find) over
BinaryFunctions"; two handles are related when they are equal or lie in one class. -/
def areRelatedFragments (BC : BinaryContext) (LHS RHS : Nat) : Bool :=
  decide (LHS = RHS) || BC.FragmentClasses.any (fun c => c.contains LHS && c.contains RHS)

/-- `BinaryContext::foldFunction(ChildBF, ParentBF)`, the functions given by their
handles. The profile data that relocation mode merges into the parent is not part of
the model. -/
def foldFunction (BC : BinaryContext) (Child Parent : Nat) : BinaryContext :=
  match getFunction BC.BinaryFunctions Child with
  | none => BC
  | some ChildBF =>
    let ChildName := ChildBF.getOneName
    -- Move symbols over and update bookkeeping info.
    let fs := updateFunction BC.BinaryFunctions Parent
      (fun P => { P with Symbols := P.Symbols ++ ChildBF.Symbols })
    let s2f := ChildBF.Symbols.foldl (fun m Symbol => assign m Symbol Parent)
      BC.SymbolToFunctionMap
    let fs := updateFunction fs Child (fun C => { C with Symbols := [] })
    -- Move other names the child function is known under.
    let fs := updateFunction fs Parent
      (fun P => { P with Aliases := P.Aliases ++ ChildBF.Aliases })
    let fs := updateFunction fs Child (fun C => { C with Aliases := [] })
    let BC := { BC with BinaryFunctions := fs, SymbolToFunctionMap := s2f }
    let BC :=
      if BC.HasRelocations then
        { BC with BinaryFunctions := eraseFunction BC.BinaryFunctions Child }
      else
        let NewName := "__ICF_" ++ ChildName
        { BC with
          Ctx := getOrCreateSymbol BC.Ctx NewName
          BinaryFunctions :=
            updateFunction BC.BinaryFunctions Child
              (fun C => { C with Symbols := C.Symbols ++ [NewName],
                                 FoldedIntoFunction := some Parent }) }
    { BC with
      BinaryFunctions :=
        updateFunction BC.BinaryFunctions Parent
          (fun P => { P with HasFunctionsFoldedInto := true }) }

/-! ## Reading section contents -/

/-- `DataExtractor::getUnsigned`: the value of `Size` bytes at `Offset`, zero when the
bytes are not all inside the data. -/
def extractUnsigned (IsLittleEndian : Bool) (Contents : List Nat) (Offset Size : Nat) : Nat :=
  if Offset + Size ≤ Contents.length then
    let bytes := (Contents.drop Offset).take Size
    let bytes := if IsLittleEndian then bytes else bytes.reverse
    bytes.foldr (fun b acc => b % 256 + 256 * acc) 0
  else 0

/-- `BinaryContext::getUnsignedValueAtAddress`; `none` is the `bad_address` error. -/
def getUnsignedValueAtAddress (BC : BinaryContext) (Address Size : Nat) : Option Nat :=
  match getSectionForAddress BC Address with
  | none => none
  | some S =>
    if S.IsVirtual then some 0
    else some (extractUnsigned BC.IsLittleEndian S.Contents (sub64 Address S.Address) Size)

/-- `BinaryContext::getSignedValueAtAddress`; `none` is the `bad_address` error. The
value of `DataExtractor::getSigned` is the sign extension of the unsigned value. -/
def getSignedValueAtAddress (BC : BinaryContext) (Address Size : Nat) : Option Int :=
  match getUnsignedValueAtAddress BC Address Size with
  | none => none
  | some v =>
    if 2 * v ≥ 256 ^ Size then some ((v : Int) - ((256 ^ Size : Nat) : Int)) else some (v : Int)

/-- `getPointerAtAddress`: an unsigned value of the size of a code pointer. -/
def getPointerAtAddress (BC : BinaryContext) (Address : Nat) : Option Nat :=
  getUnsignedValueAtAddress BC Address BC.CodePointerSize

/-- `BinaryContext::getRelocationAt`: whether the section of the address has a
relocation at the offset of the address. -/
def getRelocationAt (BC : BinaryContext) (Address : Nat) : Bool :=
  match getSectionForAddress BC Address with
  | none => false
  | some S => S.Relocations.contains (sub64 Address S.Address)

/-- `getJumpTableEntrySize`. -/
def getJumpTableEntrySize (BC : BinaryContext) (JTType : JumpTableType) : Nat :=
  if JTType = JumpTableType.JTT_PIC then 4 else BC.CodePointerSize

/-! ## Jump-table analysis -/

/-- The local variables of `analyzeJumpTable` that the scan updates, with the two
optional outputs (`none` for a null pointer). -/
structure ScanState where
  HasUnreachable : Bool
  HasStartAsEntry : Bool
  NumRealEntries : Nat
  TrimmedSize : Nat
  EntriesAsAddress : Option (List Nat)
  HasEntryInFragment : Option Bool
  deriving DecidableEq

/-- The lambda `addEntryAddress` of `analyzeJumpTable`. -/
def addEntryAddress (s : ScanState) (EntryAddress : Nat) (Unreachable : Bool) : ScanState :=
  match s.EntriesAsAddress with
  | none => s
  | some es =>
    let es := es ++ [EntryAddress]
    { s with
      EntriesAsAddress := some es
      TrimmedSize := if !Unreachable then es.length else s.TrimmedSize }

/-- The value of the table entry at `EntryAddress`; `none` when the read dereferences
an error. -/
def entryValue (BC : BinaryContext) (Address : Nat) (JTType : JumpTableType)
    (EntryAddress EntrySize : Nat) : Option Nat :=
  if JTType = JumpTableType.JTT_PIC then
    (getSignedValueAtAddress BC EntryAddress EntrySize).map
      (fun v => (((Address : Int) + v) % 18446744073709551616).toNat)
  else getPointerAtAddress BC EntryAddress

/-- The `for` loop of `analyzeJumpTable` from `EntryAddress` on. The first argument
bounds the number of iterations; `none` is returned when an entry read dereferences an
error or the bound is used up. -/
def scanEntries (BC : BinaryContext) (Address : Nat) (JTType : JumpTableType)
    (BF : BinaryFunction) (UpperBound EntrySize : Nat) :
    Nat → Nat → ScanState → Option ScanState
  | 0, _, _ => none
  | fuel + 1, EntryAddress, s =>
    if ¬ EntryAddress ≤ sub64 UpperBound EntrySize then some s
    else if BC.HasRelocations ∧ JTType = JumpTableType.JTT_PIC ∧
        BC.DataPCRelocations.contains EntryAddress = false then some s
    else if BC.HasRelocations ∧ JTType = JumpTableType.JTT_NORMAL ∧
        getRelocationAt BC EntryAddress = false then some s
    else
      match entryValue BC Address JTType EntryAddress EntrySize with
      | none => none
      | some Value =>
        let Next := wrap64 (EntryAddress + EntrySize)
        -- __builtin_unreachable() case.
        if Value = wrap64 (BF.Address + BF.Size) then
          scanEntries BC Address JTType BF UpperBound EntrySize fuel Next
            { addEntryAddress s Value true with HasUnreachable := true }
        -- Function start is another special case.
        else if Value = BF.Address then
          scanEntries BC Address JTType BF UpperBound EntrySize fuel Next
            (addEntryAddress { s with HasStartAsEntry := true } Value false)
        else
          -- Function or one of its fragments.
          match getBinaryFunctionContainingAddress BC Value false false with
          | none => some s
          | some TargetBF =>
            if areRelatedFragments BC TargetBF.Address BF.Address = false then some s
            -- Check there is an instruction at this offset.
            else if TargetBF.CurrentState = FunctionState.Disassembled ∧
                TargetBF.hasInstructionAtOffset (sub64 Value TargetBF.Address) = false
            then some s
            else
              let s := { s with NumRealEntries := s.NumRealEntries + 1 }
              let s :=
                if TargetBF.Address ≠ BF.Address ∧ s.HasEntryInFragment.isSome then
                  { s with HasEntryInFragment := some true }
                else s
              scanEntries BC Address JTType BF UpperBound EntrySize fuel Next
                (addEntryAddress s Value false)

/-- The upper bound of the scan of `analyzeJumpTable`: the end of `Section`, lowered to
the end of a sized object registered at `Address` and to a non-zero `NextJTAddress`. -/
def scanUpperBound (BC : BinaryContext) (Section : BinarySection)
    (Address NextJTAddress : Nat) : Nat :=
  let UpperBound := Section.getEndAddress
  let UpperBound :=
    match getBinaryDataAtAddress BC.BinaryDataMap Address with
    | some JumpTableBD => if JumpTableBD.Size ≠ 0 then JumpTableBD.getEndAddress else UpperBound
    | none => UpperBound
  if NextJTAddress ≠ 0 then min NextJTAddress UpperBound else UpperBound

/-- The result of `analyzeJumpTable`: the returned value and the two outputs. -/
structure JumpTableAnalysis where
  Result : Bool
  EntriesAsAddress : Option (List Nat)
  HasEntryInFragment : Option Bool
  deriving DecidableEq

/-- `BinaryContext::analyzeJumpTable`. `EntriesAsAddress` and `HasEntryInFragment` are
the values behind the two output pointers, `none` for a null pointer. The result is
`none` when the scan reads an entry for which no section is found (the dereference of an
error value) or does not end within `2^64` iterations. -/
def analyzeJumpTable (BC : BinaryContext) (Address : Nat) (JTType : JumpTableType)
    (BF : BinaryFunction) (NextJTAddress : Nat) (EntriesAsAddress : Option (List Nat))
    (HasEntryInFragment : Option Bool) : Option JumpTableAnalysis :=
  -- Target address of __builtin_unreachable.
  let UnreachableAddress := wrap64 (BF.Address + BF.Size)
  match getSectionForAddress BC Address with
  | none => some { Result := false, EntriesAsAddress := EntriesAsAddress,
                   HasEntryInFragment := HasEntryInFragment }
  | some Section =>
    let UpperBound := scanUpperBound BC Section Address NextJTAddress
    let EntrySize := getJumpTableEntrySize BC JTType
    let init : ScanState :=
      { HasUnreachable := false, HasStartAsEntry := false, NumRealEntries := 0,
        TrimmedSize := 0, EntriesAsAddress := EntriesAsAddress,
        HasEntryInFragment := HasEntryInFragment }
    match scanEntries BC Address JTType BF UpperBound EntrySize 18446744073709551616
        Address init with
    | none => none
    | some s =>
      -- Trim direct/normal jump table to exclude trailing unreachable entries that
      -- can collide with a function address.
      let Entries :=
        match s.EntriesAsAddress with
        | none => none
        | some es =>
          if JTType = JumpTableType.JTT_NORMAL ∧ s.TrimmedSize ≠ es.length ∧
              (getBinaryFunctionAtAddress BC UnreachableAddress).isSome then
            some (es.take s.TrimmedSize ++ List.replicate (s.TrimmedSize - es.length) 0)
          else some es
      some
        { Result :=
            decide (s.NumRealEntries + (if s.HasUnreachable || s.HasStartAsEntry then 1 else 0) ≥ 2)
          EntriesAsAddress := Entries
          HasEntryInFragment := s.HasEntryInFragment }

/-! ## Address references -/

/-- The loop of `getBinaryDataContainingAddressImpl` over the parents of the entry found,
bounded by the number of entries of the map. -/
def searchParents (m : List BinaryData) (Address : Nat) : Nat → Option Nat → Option BinaryData
  | 0, _ => none
  | _ + 1, none => none
  | fuel + 1, some p =>
    match getBinaryDataAtAddress m p with
    | none => none
    | some BD =>
      if BD.containsAddress Address then some BD else searchParents m Address fuel BD.Parent

/-- `BinaryContext::getBinaryDataContainingAddressImpl`. -/
def getBinaryDataContainingAddress (m : List BinaryData) (Address : Nat) : Option BinaryData :=
  let NI : Option BinaryData :=
    match entriesFrom m Address with
    | X :: _ => if X.Address = Address then some X else (entriesBelow m Address).getLast?
    | [] => (entriesBelow m Address).getLast?
  match NI with
  | none => none
  | some NI =>
    if NI.containsAddress Address then some NI
    else searchParents m Address m.length NI.Parent

/-- `MemoryContentsType`. -/
inductive MemoryContentsType where
  | UNKNOWN
  | POSSIBLE_JUMP_TABLE
  | POSSIBLE_PIC_JUMP_TABLE
  deriving DecidableEq

/-- `BinaryContext::analyzeMemoryAt`; `none` when a jump-table scan has no result. -/
def analyzeMemoryAt (BC : BinaryContext) (Address : Nat) (BF : BinaryFunction) :
    Option MemoryContentsType :=
  if !isX86 BC then some MemoryContentsType.UNKNOWN
  else
    match getSectionForAddress BC Address with
    | none => some MemoryContentsType.UNKNOWN
    | some Section =>
      if Section.IsVirtual then some MemoryContentsType.UNKNOWN
      else if Section.IsText then some MemoryContentsType.UNKNOWN
      else
        match analyzeJumpTable BC Address JumpTableType.JTT_PIC BF 0 none none with
        | none => none
        | some r =>
          if r.Result then some MemoryContentsType.POSSIBLE_PIC_JUMP_TABLE
          else
            match analyzeJumpTable BC Address JumpTableType.JTT_NORMAL BF 0 none none with
            | none => none
            | some r =>
              if r.Result then some MemoryContentsType.POSSIBLE_JUMP_TABLE
              else some MemoryContentsType.UNKNOWN

/-- Modelled from the spec: `getJumpTableContainingAddress` (BinaryContext.h and
BinaryFunction.h are not among the sources): the "jump-table covering a given address"
among the tables with the given addresses, the last table that starts at or below the
address if the address is inside it (a table of size zero covers its own address). -/
def getJumpTableContainingAddress (BC : BinaryContext) (keys : List Nat) (Address : Nat) :
    Option JumpTable :=
  match ((BC.JumpTables.filter (fun JT => keys.contains JT.Address)).takeWhile
      (fun JT => decide (JT.Address ≤ Address))).getLast? with
  | none => none
  | some JT =>
    if wrap64 (JT.Address + JT.Size) > Address then some JT
    else if JT.Size = 0 ∧ JT.Address = Address then some JT
    else none

/-- `BinaryContext::isInternalSymbolName` (declared in BinaryContext.h): names the
optimizer generates itself. -/
def isInternalSymbolName (Name : String) : Bool :=
  startsWith Name "SYMBOLat" || startsWith Name "DATAat" || startsWith Name "HOLEat"

/-- `BinaryContext::generateJumpTableName`; returns the name and the updated
`JumpTableIds`. -/
def generateJumpTableName (BC : BinaryContext) (BF : BinaryFunction) (Address : Nat) :
    String × List (Nat × Nat) :=
  let mk (Id Offset : Nat) : String :=
    "JUMP_TABLE/" ++ BF.getOneName ++ "." ++ toString Id ++
      (if Offset ≠ 0 then "." ++ toString Offset else "")
  match getJumpTableContainingAddress BC BF.JumpTables Address with
  | some JT =>
    let Offset := sub64 Address JT.Address
    match JT.Labels.find? (fun e => decide (e.1 = Offset)) with
    | some e => (e.2, BC.JumpTableIds)
    | none =>
      let Id := ((BC.JumpTableIds.find? (fun e => decide (e.1 = JT.Address))).map
        (fun e => e.2)).getD 0
      (mk Id Offset, BC.JumpTableIds)
  | none =>
    let Id := BF.JumpTables.length
    (mk Id 0,
      if BC.JumpTableIds.any (fun e => decide (e.1 = Address)) then
        BC.JumpTableIds.map (fun e => if e.1 = Address then (Address, Id) else e)
      else BC.JumpTableIds ++ [(Address, Id)])

/-- `JumpTables.emplace(Address, JT)`: insertion in key order, nothing when the key is
taken. -/
def emplaceJumpTable (jts : List JumpTable) (JT : JumpTable) : List JumpTable :=
  if jts.any (fun T => decide (T.Address = JT.Address)) then jts
  else
    jts.takeWhile (fun T => decide (T.Address < JT.Address)) ++
      JT :: jts.dropWhile (fun T => decide (T.Address < JT.Address))

/-- `Function.JumpTables.emplace(Address, JT)` on the keys of the map of a function. -/
def emplaceKey (keys : List Nat) (Address : Nat) : List Nat :=
  if keys.contains Address then keys
  else keys.takeWhile (fun k => decide (k < Address)) ++
    Address :: keys.dropWhile (fun k => decide (k < Address))

/-- `BinaryContext::getOrCreateJumpTable`, the function given by its handle. -/
def getOrCreateJumpTable (BC : BinaryContext) (Function : Nat) (Address : Nat)
    (JTType : JumpTableType) : MCSymbol × BinaryContext :=
  match getJumpTableContainingAddress BC (BC.JumpTables.map (fun T => T.Address)) Address with
  | some JT =>
    -- Two fragments of same function access same jump table
    let FirstLabel := ((JT.Labels.find? (fun e => decide (e.1 = 0))).map (fun e => e.2)).getD ""
    if JT.Parents.contains Function then (FirstLabel, BC)
    else
      let fs :=
        match JT.Parents with
        | [P] => updateFunction BC.BinaryFunctions P
            (fun F => { F with HasIndirectTargetToSplitFragment := true })
        | _ => BC.BinaryFunctions
      let fs := updateFunction fs Function
        (fun F => { F with HasIndirectTargetToSplitFragment := true,
                           JumpTables := emplaceKey F.JumpTables Address })
      (FirstLabel,
        { BC with
          BinaryFunctions := fs
          JumpTables := BC.JumpTables.map
            (fun T => if T.Address = JT.Address then { T with Parents := T.Parents ++ [Function] }
              else T) })
  | none =>
    -- Re-use the existing symbol if possible.
    let JTLabel : Option MCSymbol :=
      match getBinaryDataAtAddress BC.BinaryDataMap Address with
      | some Object => if !isInternalSymbolName Object.getSymbol then some Object.getSymbol else none
      | none => none
    let EntrySize := getJumpTableEntrySize BC JTType
    let r : MCSymbol × BinaryContext :=
      match JTLabel with
      | some L => (L, BC)
      | none =>
        match getFunction BC.BinaryFunctions Function with
        | none => ("", BC)
        | some BF =>
          let n := generateJumpTableName BC BF Address
          registerNameAtAddress { BC with JumpTableIds := n.2 } n.1 Address 0 EntrySize 0
    let BC := r.2
    let JT : JumpTable :=
      { Address := Address, Size := 0, EntrySize := EntrySize, JTType := JTType,
        Labels := [(0, r.1)], Parents := [Function], EntriesAsAddress := [], IsSplit := false }
    (r.1,
      { BC with
        JumpTables := emplaceJumpTable BC.JumpTables JT
        BinaryFunctions := updateFunction BC.BinaryFunctions Function
          (fun F => { F with JumpTables := emplaceKey F.JumpTables Address }) })

/-- Modelled from the spec: `BinaryFunction::addEntryPointAtOffset` (BinaryFunction.cpp
is not among the sources): "record it as an additional entry point of `fromFunction` and
return that label"; an offset that is an entry point already keeps its label. -/
def addEntryPointAtOffset (BF : BinaryFunction) (Offset : Nat) : MCSymbol × BinaryFunction :=
  match BF.SecondaryEntryPoints.find? (fun e => decide (e.1 = Offset)) with
  | some e => (e.2, BF)
  | none =>
    let EntrySymbol := "__ENTRY_" ++ BF.getOneName ++ "@0x" ++ utohexstr (wrap64 (BF.Address + Offset))
    (EntrySymbol, { BF with SecondaryEntryPoints := BF.SecondaryEntryPoints ++ [(Offset, EntrySymbol)] })

/-- The constant-island block at the head of `handleAddressRef`, taken on AArch64 only.
Its helpers (`getOrCreateIslandAccess`, `getOrCreateProxyIslandAccess`,
`createIslandDependency`) are members of `BinaryFunction`, whose source is not present:
the block is a parameter that, given the context, the address and the handle of the
referring function, yields the island symbol and the updated context when an island
claims the address. -/
abbrev IslandAccess := BinaryContext → Nat → Nat → Option (MCSymbol × BinaryContext)

/-- `BinaryContext::handleAddressRef`, the referring function given by its handle.
Returns the pair of symbol and addend with the updated context; `none` when no function
has the handle or a jump-table scan has no result. -/
def handleAddressRef (island : IslandAccess) (BC : BinaryContext) (Address : Nat) (BF : Nat)
    (IsPCRel : Bool) : Option ((MCSymbol × Nat) × BinaryContext) :=
  match getFunction BC.BinaryFunctions BF with
  | none => none
  | some Fn =>
    match (if isAArch64 BC then island BC Address BF else none) with
    | some r => some ((r.1, 0), r.2)
    | none =>
      -- Note that the address does not necessarily have to reside inside
      -- a section, it could be an absolute address too.
      let inText : Bool :=
        match getSectionForAddress BC Address with
        | some Section => Section.IsText
        | none => false
      if inText ∧ Fn.containsAddress Address (isAArch64 BC) = true ∧ Address ≠ Fn.Address then
        -- The address could potentially escape. Mark it as another entry
        -- point into the function.
        let e := addEntryPointAtOffset { Fn with HasInternalLabelReference := true }
          (sub64 Address Fn.Address)
        some ((e.1, 0),
          { BC with BinaryFunctions := updateFunction BC.BinaryFunctions BF (fun _ => e.2) })
      else
        let BC :=
          if inText ∧ Fn.containsAddress Address (isAArch64 BC) = false then
            { BC with InterproceduralReferences := BC.InterproceduralReferences ++ [(BF, Address)] }
          else BC
        -- With relocations, catch jump table references outside of the basic block
        -- containing the indirect jump.
        match (if BC.HasRelocations then analyzeMemoryAt BC Address Fn
               else some MemoryContentsType.UNKNOWN) with
        | none => none
        | some MemType =>
          if BC.HasRelocations ∧ MemType = MemoryContentsType.POSSIBLE_PIC_JUMP_TABLE ∧
              IsPCRel = true then
            let r := getOrCreateJumpTable BC BF Address JumpTableType.JTT_PIC
            some ((r.1, 0), r.2)
          else
            match getBinaryDataContainingAddress BC.BinaryDataMap Address with
            | some BD => some ((BD.getSymbol, sub64 Address BD.Address), BC)
            | none =>
              let r := getOrCreateGlobalSymbol BC Address "DATAat" 0 0 0
              some ((r.1, 0), r.2)

/-! ## Well-formedness of the index

The predicates below state, for a context, what the specification calls a laminar,
validly nested index whose objects lie inside their sections. -/

/-- The keys of the object map increase strictly (the order of `std::map`). -/
def SortedMap (m : List BinaryData) : Prop :=
  m.Pairwise (fun X Y => X.Address < Y.Address)

/-- Two ranges are disjoint or one contains the other. -/
def LaminarPair (X Y : BinaryData) : Prop :=
  X.Address + X.Size ≤ Y.Address ∨ Y.Address + Y.Size ≤ X.Address ∨
    (X.Address ≤ Y.Address ∧ Y.Address + Y.Size ≤ X.Address + X.Size) ∨
    (Y.Address ≤ X.Address ∧ X.Address + X.Size ≤ Y.Address + Y.Size)

/-- Any two objects of one section are disjoint or nested. -/
def Laminar (m : List BinaryData) : Prop :=
  ∀ X ∈ m, ∀ Y ∈ m, X.Section = Y.Section → LaminarPair X Y

/-- The parent links are those that `updateObjectNesting` maintains and
`validateObjectNesting` checks: the parent of an object is a parentless object of its
section that contains its range, and an object without parent is contained in no other
object of its section. -/
def ValidNesting (m : List BinaryData) : Prop :=
  ∀ B ∈ m,
    (B.Parent.isSome = true →
      ∃ A ∈ m, some A.Address = B.Parent ∧ A.Parent = none ∧ A.Section = B.Section ∧
        A.Address ≠ B.Address ∧ A.containsRange B.Address B.Size = true) ∧
    (B.Parent = none →
      ∀ A ∈ m, A.Section = B.Section → A.Address ≠ B.Address →
        A.containsRange B.Address B.Size = false)

/-- Every object of `m` belongs to the section of its address (the absolute section when
there is none) and, in an allocatable section, ends no later than the section. -/
def InsideSections (BC : BinaryContext) (m : List BinaryData) : Prop :=
  ∀ B ∈ m,
    B.Section = (getSectionForAddress BC B.Address).getD absoluteSection ∧
    (B.Section.IsAllocatable = true → B.Address + B.Size ≤ B.Section.Address + B.Section.Size)

/-- No allocatable section is overlapped: every address in the range of an allocatable
section is attributed to that section by `getSectionForAddress`, and the range fits in
64 bits. -/
def SectionsDisjoint (BC : BinaryContext) : Prop :=
  ∀ S ∈ BC.Sections, S.IsAllocatable = true →
    S.Address + S.Size < 18446744073709551616 ∧
    ∀ a, S.Address ≤ a → a < S.Address + S.Size → getSectionForAddress BC a = some S

/-- A well-formed index: ordered map, sections that do not overlap, objects inside their
sections, laminar ranges and valid parent links. -/
structure IndexOK (BC : BinaryContext) : Prop where
  sorted : SortedMap BC.BinaryDataMap
  sections : SectionsDisjoint BC
  inside : InsideSections BC BC.BinaryDataMap
  laminar : Laminar BC.BinaryDataMap
  nesting : ValidNesting BC.BinaryDataMap

/-- The range `[h, h + len)` is a non-empty part of the range of `S` that no object
visited by the scan of `fixBinaryDataHoles` (a parentless object of `S` other than a
zero-size anonymous one) overlaps. -/
def IsGap (m : List BinaryData) (S : BinarySection) (h len : Nat) : Prop :=
  0 < len ∧ S.Address ≤ h ∧ h + len ≤ S.Address + S.Size ∧
    ∀ T ∈ m, isNotHole S T = true → T.Address + T.Size ≤ h ∨ h + len ≤ T.Address

/-- A gap of `S` in the sense of the scan: `[g, e)` is overlapped by no visited object,
starts at the start of the section or at the end of a visited object, and ends at the
end of the section or at the start of a visited object. -/
def IsMaximalGap (m : List BinaryData) (S : BinarySection) (g e : Nat) : Prop :=
  IsGap m S g (e - g) ∧ g < e ∧
    (g = S.Address ∨ ∃ T ∈ m, isNotHole S T = true ∧ T.Address + T.Size = g) ∧
    (e = S.Address + S.Size ∨ ∃ T ∈ m, isNotHole S T = true ∧ T.Address = e)

/-- The parentless objects of `S` are pairwise disjoint and their ranges cover exactly
the range of `S`. -/
def Covered (m : List BinaryData) (S : BinarySection) : Prop :=
  (∀ X ∈ m, ∀ Y ∈ m, X.Section = S → Y.Section = S → X.Parent = none → Y.Parent = none →
      X.Address ≠ Y.Address →
      X.Address + X.Size ≤ Y.Address ∨ Y.Address + Y.Size ≤ X.Address) ∧
  (∀ a, (S.Address ≤ a ∧ a < S.Address + S.Size) ↔
      ∃ X ∈ m, X.Section = S ∧ X.Parent = none ∧ X.Address ≤ a ∧ a < X.Address + X.Size)

/-! ## Predicates and objects used in the statements about hole synthesis -/

/-- An allocatable section that owns every address of its range. -/
structure SecOK (BC : BinaryContext) (S : BinarySection) : Prop where
  alloc : S.IsAllocatable = true
  bound : S.Address + S.Size < 18446744073709551616
  own : ∀ a, S.Address ≤ a → a < S.Address + S.Size → getSectionForAddress BC a = some S

/-- Well-formedness of a map relative to the sections of a context. -/
structure MapOK (BC : BinaryContext) (m : List BinaryData) : Prop where
  sorted : SortedMap m
  inside : InsideSections BC m
  laminar : Laminar m
  nesting : ValidNesting m

/-- The effect of the second loop of `updateObjectNesting` on one entry: an entry that
`H` contains becomes a child of `H`. -/
def absorbIf (H X : BinaryData) : BinaryData :=
  if H.containsRange X.Address X.Size = true then X.setParent (some H.Address) else X

/-- The hypotheses under which a gap object `H` is put into a map `pre ++ post` that has
no object at the first address of the gap. -/
structure GapInsert (BC : BinaryContext) (S : BinarySection) (pre post : List BinaryData)
    (H : BinaryData) (h len : Nat) : Prop where
  sec : SecOK BC S
  map : MapOK BC (pre ++ post)
  gap : IsGap (pre ++ post) S h len
  below : ∀ Q ∈ pre, Q.Address < h
  above : ∀ Q ∈ post, h < Q.Address
  addr : H.Address = h
  size : H.Size = len
  parent : H.Parent = none
  section_eq : H.Section = S

/-- The map `pre ++ post` with the gap object `H` put in between. -/
def filled (pre post : List BinaryData) (H : BinaryData) : List BinaryData :=
  pre.map (absorbIf H) ++ H :: post.map (absorbIf H)

/-- The object that fills a gap: a new object named `HOLEat0x...`, or the object of size
zero found at the first address of the gap, grown. -/
def gapObject (BC : BinaryContext) (h len : Nat) : BinaryData :=
  match getBinaryDataAtAddress BC.BinaryDataMap h with
  | some D => { D with Size := len }
  | none => newBinaryData BC ("HOLEat" ++ "0x" ++ utohexstr h) h len 1 0

/-- The holes still to be filled: each is a gap of the map, they are in address order
and disjoint, and every address of the section is in a visited object or in a hole. -/
structure HolesInv (m : List BinaryData) (S : BinarySection) (holes : List (Nat × Nat)) :
    Prop where
  gaps : ∀ hole ∈ holes, IsGap m S hole.1 hole.2
  ordered : holes.Pairwise (fun a b => a.1 + a.2 ≤ b.1)
  covering : ∀ a, S.Address ≤ a → a < S.Address + S.Size →
    (∃ X ∈ m, isNotHole S X = true ∧ X.Address ≤ a ∧ a < X.Address + X.Size) ∨
    ∃ hole ∈ holes, hole.1 ≤ a ∧ a < hole.1 + hole.2

/-- A mutation of the address index. -/
inductive Mutation where
  | registerName (Name : String) (Address Size Alignment Flags : Nat)
  | setSize (Address Size : Nat)
  | fixHoles

/-- The context after a mutation. -/
def applyMutation (BC : BinaryContext) : Mutation → BinaryContext
  | Mutation.registerName n a s al f => (registerNameAtAddress BC n a s al f).2
  | Mutation.setSize a s =>
    { BC with BinaryDataMap := (setBinaryDataSize BC.BinaryDataMap a s).2 }
  | Mutation.fixHoles => fixBinaryDataHoles BC

/-- The context after a sequence of mutations. -/
def runMutations (BC : BinaryContext) (ms : List Mutation) : BinaryContext :=
  ms.foldl applyMutation BC

/-- The range `[a, a + s)` is disjoint from or nested with the range of every object of
`Section` registered at another address. -/
def RangeAdmissible (m : List BinaryData) (Section : BinarySection) (a s : Nat) : Prop :=
  ∀ X ∈ m, X.Address ≠ a → X.Section = Section →
    X.Address + X.Size ≤ a ∨ a + s ≤ X.Address ∨
      (X.Address ≤ a ∧ a + s ≤ X.Address + X.Size) ∨
      (a ≤ X.Address ∧ X.Address + X.Size ≤ a + s)

/-- The condition under which a mutation keeps the index laminar: the range that a
registration or a size update commits is disjoint from or nested with the other objects
of its section; hole synthesis runs on a well-formed index. -/
def Admissible (BC : BinaryContext) : Mutation → Prop
  | Mutation.registerName n a s _ _ =>
    match getBinaryDataAtAddress BC.BinaryDataMap a with
    | none =>
      RangeAdmissible BC.BinaryDataMap ((getSectionForAddress BC a).getD absoluteSection) a s
    | some BD =>
      BD.hasName n = true ∨ RangeAdmissible BC.BinaryDataMap BD.Section a (max BD.Size s)
  | Mutation.setSize a s =>
    match getBinaryDataAtAddress BC.BinaryDataMap a with
    | none => True
    | some BD => BD.Size ≠ 0 ∨ RangeAdmissible BC.BinaryDataMap BD.Section a s
  | Mutation.fixHoles => IndexOK BC

/-- Every mutation of the sequence is admissible in the context it is applied to. -/
def AllAdmissible : BinaryContext → List Mutation → Prop
  | _, [] => True
  | BC, m :: rest => Admissible BC m ∧ AllAdmissible (applyMutation BC m) rest

/-! ## The scan of `analyzeJumpTable`, as the specification words it -/

/-- The relocation check of the specification: where relocation records are
authoritative, "a relocation to be present at the entry's byte offset for the configured
table type". -/
def hasEntryRelocation (BC : BinaryContext) (JTType : JumpTableType) (EntryAddress : Nat) :
    Bool :=
  !BC.HasRelocations ||
    (if JTType = JumpTableType.JTT_PIC then BC.DataPCRelocations.contains EntryAddress
     else getRelocationAt BC EntryAddress)

/-- The target of an entry whose value is neither the start nor the end of the owning
function: the function that contains the value, if it is the owning function or a
related fragment and the value is "at an offset that is a valid instruction boundary if
the target is already disassembled". -/
def entryTarget (BC : BinaryContext) (BF : BinaryFunction) (Value : Nat) :
    Option BinaryFunction :=
  match getBinaryFunctionContainingAddress BC Value false false with
  | none => none
  | some TargetBF =>
    if areRelatedFragments BC TargetBF.Address BF.Address = true ∧
        ¬ (TargetBF.CurrentState = FunctionState.Disassembled ∧
          TargetBF.hasInstructionAtOffset (sub64 Value TargetBF.Address) = false)
    then some TargetBF else none

/-- The scanned entries from `EntryAddress` on: the values of the entries up to (not
including) the first entry that does not fit under the upper bound or fails the
relocation, fragment-membership or instruction-boundary check; each value comes with
the flag "targets a function other than the owning one". An entry fits under the upper
bound when its address is at most the bound less the entry size, in 64-bit arithmetic.
`none` when an entry cannot be read or the first argument is used up. -/
def scannedFrom (BC : BinaryContext) (Address : Nat) (JTType : JumpTableType)
    (BF : BinaryFunction) (UpperBound EntrySize : Nat) : Nat → Nat → Option (List (Nat × Bool))
  | 0, _ => none
  | fuel + 1, EntryAddress =>
    if ¬ EntryAddress ≤ sub64 UpperBound EntrySize then some []
    else if hasEntryRelocation BC JTType EntryAddress = false then some []
    else
      match entryValue BC Address JTType EntryAddress EntrySize with
      | none => none
      | some Value =>
        if Value = wrap64 (BF.Address + BF.Size) ∨ Value = BF.Address then
          (scannedFrom BC Address JTType BF UpperBound EntrySize fuel
            (wrap64 (EntryAddress + EntrySize))).map (fun l => (Value, false) :: l)
        else
          match entryTarget BC BF Value with
          | none => some []
          | some TargetBF =>
            (scannedFrom BC Address JTType BF UpperBound EntrySize fuel
              (wrap64 (EntryAddress + EntrySize))).map
              (fun l => (Value, decide (TargetBF.Address ≠ BF.Address)) :: l)

/-- The scanned entries of a candidate table at `Address`: none when the address is in no
section. -/
def scannedEntries (BC : BinaryContext) (Address : Nat) (JTType : JumpTableType)
    (BF : BinaryFunction) (NextJTAddress : Nat) : Option (List (Nat × Bool)) :=
  match getSectionForAddress BC Address with
  | none => some []
  | some Section =>
    scannedFrom BC Address JTType BF (scanUpperBound BC Section Address NextJTAddress)
      (getJumpTableEntrySize BC JTType) 18446744073709551616 Address

/-- The number `N` of scanned entries whose value is neither the start nor the end
address of the owning function. -/
def numRealEntries (BF : BinaryFunction) (vs : List (Nat × Bool)) : Nat :=
  vs.countP (fun v => decide (v.1 ≠ BF.Address) && decide (v.1 ≠ wrap64 (BF.Address + BF.Size)))

/-- Whether some scanned entry equals the start or the end address of the owning
function. -/
def hasSpecialEntry (BF : BinaryFunction) (vs : List (Nat × Bool)) : Bool :=
  vs.any (fun v => decide (v.1 = BF.Address) || decide (v.1 = wrap64 (BF.Address + BF.Size)))

/-- The update of the scan state for one scanned entry. -/
def recordEntry (BF : BinaryFunction) (s : ScanState) (v : Nat × Bool) : ScanState :=
  if v.1 = wrap64 (BF.Address + BF.Size) then
    { addEntryAddress s v.1 true with HasUnreachable := true }
  else if v.1 = BF.Address then addEntryAddress { s with HasStartAsEntry := true } v.1 false
  else
    let s := { s with NumRealEntries := s.NumRealEntries + 1 }
    let s := if v.2 = true ∧ s.HasEntryInFragment.isSome then
      { s with HasEntryInFragment := some true } else s
    addEntryAddress s v.1 false

/-- A list without its trailing entries equal to `x`. -/
def dropTrailing (x : Nat) (l : List Nat) : List Nat :=
  (l.reverse.dropWhile (fun v => decide (v = x))).reverse

/-! ## Concrete contexts -/

/-- An allocatable text section `[0x1000, 0x1100)`. -/
def textSection : BinarySection :=
  { Name := ".text", Address := 0x1000, Size := 0x100, IsAllocatable := true, IsText := true,
    IsVirtual := false, Contents := [], Relocations := [] }

/-- The scenario of the specification: `.text` = `[0x1000, 0x1100)` with function `foo` at
`0x1000` of size `0x50` and function `bar` at `0x1080` of size `0x20`. -/
def scenarioContext : BinaryContext :=
  createBinaryFunction
    (createBinaryFunction (registerSection emptyContext textSection) "foo" 0x1000 0x50 0 0)
    "bar" 0x1080 0x20 0 0

/-- Two allocatable sections that start at the same address, `.a` = `[0x1000, 0x1100)`
and `.b` = `[0x1000, 0x1080)`, and no object. -/
def overlapContext : BinaryContext :=
  registerSection
    (registerSection emptyContext { textSection with Name := ".a" })
    { textSection with Name := ".b", Size := 0x80 }

/-- A small allocatable data section `[0x2000, 0x2020)`. -/
def dataSection : BinarySection :=
  { Name := ".data", Address := 0x2000, Size := 0x20, IsAllocatable := true, IsText := false,
    IsVirtual := false, Contents := [], Relocations := [] }

/-- An index with nested objects and an anonymous object of size zero: `.data` =
`[0x2000, 0x2020)` with `a` = `[0x2000, 0x2008)`, an anonymous object at `0x200C`,
`b` = `[0x2010, 0x2018)` and `c` = `[0x2012, 0x2014)` inside `b`. -/
def nestedContext : BinaryContext :=
  (registerNameAtAddress
    (registerNameAtAddress
      (registerNameAtAddress
        (registerNameAtAddress (registerSection emptyContext dataSection) "a" 0x2000 0x8 1 0).2
        "b" 0x2010 0x8 1 0).2
      "c" 0x2012 0x2 1 0).2
    "DATAat0x200C" 0x200C 0 1 0).2

/-- Two allocatable sections that start at the same address, `.c` = `[0x3000, 0x3040)`
and `.d` = `[0x3000, 0x3020)`, and no object. -/
def overlapContext2 : BinaryContext :=
  registerSection
    (registerSection emptyContext
      { dataSection with Name := ".c", Address := 0x3000, Size := 0x40 })
    { dataSection with Name := ".d", Address := 0x3000, Size := 0x20 }

/-- A sequence of admissible mutations: three registrations with disjoint or nested
ranges, an anonymous object of size zero, a size update and hole synthesis. -/
def admissibleRun : List Mutation :=
  [Mutation.registerName "a" 0x2000 0x8 1 0, Mutation.registerName "b" 0x2010 0x8 1 0,
    Mutation.registerName "c" 0x2012 0x2 1 0, Mutation.registerName "DATAat0x200C" 0x200C 0 1 0,
    Mutation.setSize 0x200C 0x2, Mutation.fixHoles]

/-- Little-endian bytes of a 64-bit value. -/
def le64 (v : Nat) : List Nat := (List.range 8).map (fun i => (v / 256 ^ i) % 256)

/-- A read-only data section at `0x2000` holding the given 64-bit table entries. -/
def tableSection (entries : List Nat) : BinarySection :=
  { Name := ".rodata", Address := 0x2000, Size := 8 * entries.length, IsAllocatable := true,
    IsText := false, IsVirtual := false, Contents := (entries.map le64).flatten,
    Relocations := [] }

/-- A context with `.text`, a table of the given entries at `0x2000`, and the function `f`
spanning `[0x1000, 0x1040)`. -/
def tableContext (entries : List Nat) : BinaryContext :=
  createBinaryFunction
    (registerSection (registerSection emptyContext textSection) (tableSection entries))
    "f" 0x1000 0x40 0 0

/-- The context `tableContext` with a second function `g` at `0x1040`, the end of `f`. -/
def tableContextNext (entries : List Nat) : BinaryContext :=
  createBinaryFunction (tableContext entries) "g" 0x1040 0x40 0 0

/-- The function `f` of `tableContext`. -/
def tableOwner : BinaryFunction := BinaryFunction.create "f" 0x1000 0x40

/-- The scenario context in relocation mode. -/
def scenarioContextReloc : BinaryContext := { scenarioContext with HasRelocations := true }

/-- The island block of a target without constant islands: no island claims an address. -/
def noIsland : IslandAccess := fun _ _ _ => none

/-- A context whose function `f`, of range `[0x2000, 0x2020)`, lies in the data section
`.data`. -/
def dataFunctionContext : BinaryContext :=
  createBinaryFunction (registerSection emptyContext dataSection) "f" 0x2000 0x20 0 0

/-- The keys of the function map increase strictly (the order of `std::map`). -/
def SortedFunctions (fs : List BinaryFunction) : Prop :=
  fs.Pairwise (fun F G => F.Address < G.Address)

/-- The address map is in key order and holds registered, allocatable sections with a
non-zero address only. -/
def AddressMapOK (ss : List BinarySection) (l : List BinarySection) : Prop :=
  l.Pairwise (fun S T => S.Address ≤ T.Address) ∧
    ∀ T ∈ l, T.IsAllocatable = true ∧ T.Address ≠ 0 ∧ T ∈ ss

/-- Insertion of a handle into a set of handles kept as a list. -/
def insertHandle (l : List Nat) (h : Nat) : List Nat := if l.contains h then l else l ++ [h]

/-- Modelled from the spec: `BinaryFunction::isChildOf` (BinaryFunction.h is not among
the sources): the target "is already a child of owner" when the owner is among its
parent fragments. -/
def BinaryFunction.isChildOf (BF : BinaryFunction) (Other : Nat) : Bool :=
  BF.ParentFragments.contains Other

/-- Modelled from the spec: `BinaryFunction::addParentFragment` (BinaryFunction.h is not
among the sources): one direction of "links both directions". -/
def BinaryFunction.addParentFragment (BF : BinaryFunction) (Parent : Nat) : BinaryFunction :=
  { BF with ParentFragments := insertHandle BF.ParentFragments Parent }

/-- Modelled from the spec: `BinaryFunction::addFragment` (BinaryFunction.h is not among
the sources): the other direction of "links both directions". -/
def BinaryFunction.addFragment (BF : BinaryFunction) (Fragment : Nat) : BinaryFunction :=
  { BF with Fragments := insertHandle BF.Fragments Fragment }

/-- Modelled from the spec: `BinaryFunction::setSimple` (BinaryFunction.h is not among
the sources): the flag that "marks both non-rewritable". -/
def BinaryFunction.setSimple (BF : BinaryFunction) (Simple : Bool) : BinaryFunction :=
  { BF with IsSimple := Simple }

/-- Modelled from the spec: `EquivalenceClasses::unionSets` (the class is not among the
sources): "unions their identities in FragmentRelation"; the classes of the two handles
are merged into one class that holds both. -/
def unionSets (classes : List (List Nat)) (a b : Nat) : List (List Nat) :=
  (a :: b :: (classes.filter (fun c => c.contains a || c.contains b)).flatten) ::
    classes.filter (fun c => !(c.contains a || c.contains b))

/-- `BinaryContext::registerFragment(TargetFunction, Function)`, the functions given by
their handles; returns the result and the new context. -/
def registerFragment (BC : BinaryContext) (TargetFunction Function : Nat) :
    Bool × BinaryContext :=
  match getFunction BC.BinaryFunctions TargetFunction with
  | none => (true, BC)
  | some Target =>
    if Target.isChildOf Function then (true, BC)
    else
      let fs := updateFunction BC.BinaryFunctions TargetFunction
        (fun F => F.addParentFragment Function)
      let fs := updateFunction fs Function (fun F => F.addFragment TargetFunction)
      let classes := unionSets BC.FragmentClasses TargetFunction Function
      let fs :=
        if !BC.HasRelocations then
          updateFunction (updateFunction fs TargetFunction (fun F => F.setSimple false))
            Function (fun F => F.setSimple false)
        else fs
      (true, { BC with BinaryFunctions := fs, FragmentClasses := classes })

/-- Little-endian bytes of a 32-bit value. -/
def le32 (v : Nat) : List Nat := (List.range 4).map (fun i => (v / 256 ^ i) % 256)

/-- A read-only data section at `0x2000` holding a PIC table: each entry is the 32-bit
difference between the given target and the table address. -/
def picTableSection (targets : List Nat) : BinarySection :=
  { Name := ".rodata", Address := 0x2000, Size := 4 * targets.length, IsAllocatable := true,
    IsText := false, IsVirtual := false,
    Contents := (targets.map (fun t => le32 ((t + 4294967296 - 0x2000) % 4294967296))).flatten,
    Relocations := [] }

/-- A context with `.text`, a PIC table of the given targets at `0x2000`, the function `f`
spanning `[0x1000, 0x1040)` and the function `g` at `0x1040`, the end of `f`. -/
def picTableContext (targets : List Nat) : BinaryContext :=
  createBinaryFunction
    (createBinaryFunction
      (registerSection (registerSection emptyContext textSection) (picTableSection targets))
      "f" 0x1000 0x40 0 0)
    "g" 0x1040 0x40 0 0

/-- The context `tableContext` with an object `next` registered at `0x2008`, inside the
table. -/
def tableContextObject (entries : List Nat) : BinaryContext :=
  (registerNameAtAddress (tableContext entries) "next" 0x2008 8 1 0).2

/-- The object contains the address, as the specification words it: `start <= a < start +
size`, "or a = start for a zero-size object". -/
def Covers (X : BinaryData) (a : Nat) : Prop :=
  (X.Address ≤ a ∧ a < X.Address + X.Size) ∨ (a = X.Address ∧ X.Size = 0)

/-- No range of the map reaches the end of the 64-bit address space. -/
def NoWrap (m : List BinaryData) : Prop :=
  ∀ X ∈ m, X.Address + X.Size < 18446744073709551616

/-- An object that starts inside another object belongs to the section of that object. -/
def NestsWithinSection (m : List BinaryData) : Prop :=
  ∀ X ∈ m, ∀ Y ∈ m, X.Address < Y.Address → Y.Address < X.Address + X.Size →
    X.Section = Y.Section

/-- A context in which an object lies across a section boundary: `.data` =
`[0x2000, 0x2020)`, the object `x` = `[0x1FF0, 0x2020)` that starts before `.data` (it
belongs to the absolute section), the object `p` = `[0x2000, 0x2008)` of `.data`, and the
function `f` = `[0x1000, 0x1040)`. -/
def crossSectionContext : BinaryContext :=
  createBinaryFunction
    (registerNameAtAddress
      (registerNameAtAddress (registerSection emptyContext dataSection) "x" 0x1FF0 0x30 1 0).2
      "p" 0x2000 8 1 0).2
    "f" 0x1000 0x40 0 0

/-- Two contexts on which the scan of a candidate table at `a` reads the same data: the
sections, the relocation data, the target description and the fragment classes are the
same, the functions of the second are the images of those of the first under a map that
keeps their address, sizes, state and instructions, and the upper bound of the scan at
`a` is the same. -/
structure SameScan (BC BC2 : BinaryContext) (a : Nat) (g : BinaryFunction → BinaryFunction) :
    Prop where
  sections : BC2.AddressToSection = BC.AddressToSection
  relocs : BC2.HasRelocations = BC.HasRelocations
  pcrel : BC2.DataPCRelocations = BC.DataPCRelocations
  pointer : BC2.CodePointerSize = BC.CodePointerSize
  endian : BC2.IsLittleEndian = BC.IsLittleEndian
  arch : BC2.TheArch = BC.TheArch
  classes : BC2.FragmentClasses = BC.FragmentClasses
  functions : BC2.BinaryFunctions = BC.BinaryFunctions.map g
  address : ∀ F, (g F).Address = F.Address
  size : ∀ F, (g F).Size = F.Size
  maxSize : ∀ F, (g F).MaxSize = F.MaxSize
  state : ∀ F, (g F).CurrentState = F.CurrentState
  instructions : ∀ F, (g F).Instructions = F.Instructions
  bound : ∀ S N, scanUpperBound BC2 S a N = scanUpperBound BC S a N

/-- The call `handleAddressRef(Address, BF, IsPCRel)` reaches its fallback step: the
function is registered, no constant island claims the address, the address is not an
escaped label of the function, and with relocations the memory analysis has a result that
does not lead to a PIC jump table. -/
def ReachesFallback (island : IslandAccess) (BC : BinaryContext) (Address BF : Nat)
    (IsPCRel : Bool) : Prop :=
  ∃ Fn, getFunction BC.BinaryFunctions BF = some Fn ∧
    (isAArch64 BC = true → island BC Address BF = none) ∧
    ¬ ((∃ Section, getSectionForAddress BC Address = some Section ∧ Section.IsText = true) ∧
        Fn.containsAddress Address (isAArch64 BC) = true ∧ Address ≠ Fn.Address) ∧
    (BC.HasRelocations = true →
      ∃ MemType, analyzeMemoryAt BC Address Fn = some MemType ∧
        ¬ (MemType = MemoryContentsType.POSSIBLE_PIC_JUMP_TABLE ∧ IsPCRel = true))

/-- The range of `A` contains the range of `B`, an object at another address: `B` starts
inside `A`, after the start of `A`, and ends no later than `A`. -/
def Encloses (A B : BinaryData) : Prop :=
  A.Address < B.Address ∧ B.Address < A.Address + A.Size ∧
    B.Address + B.Size ≤ A.Address + A.Size

/-- The parent of every object is the outermost object that contains it: an object with
a parent is contained in its parent, which has no parent itself, and an object without
parent is contained in no object. -/
def OutermostParents (m : List BinaryData) : Prop :=
  ∀ B ∈ m,
    (∀ p, B.Parent = some p → ∃ A ∈ m, A.Address = p ∧ A.Parent = none ∧ Encloses A B) ∧
    (B.Parent = none → ∀ A ∈ m, ¬ Encloses A B)

/-- An index of objects of the one section `S`: ordered by address, the ranges inside the
64-bit address space and pairwise disjoint or nested, and every parent the outermost
container. -/
structure FlatIndex (S : BinarySection) (m : List BinaryData) : Prop where
  sorted : SortedMap m
  sec : ∀ X ∈ m, X.Section = S
  nowrap : NoWrap m
  laminar : ∀ X ∈ m, ∀ Y ∈ m, LaminarPair X Y
  parents : OutermostParents m

/-- The setting of an insertion: the map `pre ++ post` is a flat index of `S`, and `G` is
a parentless object of `S` at an address between `pre` and `post` whose range is disjoint
from or nested with every range of the map. -/
structure FlatInsert (S : BinarySection) (pre post : List BinaryData) (G : BinaryData) :
    Prop where
  map : FlatIndex S (pre ++ post)
  below : ∀ X ∈ pre, X.Address < G.Address
  above : ∀ X ∈ post, G.Address < X.Address
  sec : G.Section = S
  parent : G.Parent = none
  nowrap : G.Address + G.Size < 18446744073709551616
  laminar : ∀ X ∈ pre ++ post, LaminarPair X G

/-- The arguments of one call of `registerNameAtAddress`. -/
structure Registration where
  Name : String
  Address : Nat
  Size : Nat
  Alignment : Nat
  Flags : Nat
  deriving DecidableEq

/-- The context after the calls of `registerNameAtAddress` of a list, in order. -/
def registerObjects (BC : BinaryContext) (rs : List Registration) : BinaryContext :=
  rs.foldl
    (fun BC r => (registerNameAtAddress BC r.Name r.Address r.Size r.Alignment r.Flags).2) BC

/-- The ranges `[a, a + s)` and `[b, b + t)` are disjoint or one contains the other. -/
def RangesNested (a s b t : Nat) : Prop :=
  a + s ≤ b ∨ b + t ≤ a ∨ (a ≤ b ∧ b + t ≤ a + s) ∨ (b ≤ a ∧ a + s ≤ b + t)

instance (a s b t : Nat) : Decidable (RangesNested a s b t) := by
  unfold RangesNested
  infer_instance

/-- The registrations `A` = `[0, 100)`, `B` = `[10, 50)`, `C` = `[20, 30)`, in that
order. -/
def nestingExample : List Registration :=
  [{ Name := "A", Address := 0, Size := 100, Alignment := 1, Flags := 0 },
   { Name := "B", Address := 10, Size := 40, Alignment := 1, Flags := 0 },
   { Name := "C", Address := 20, Size := 10, Alignment := 1, Flags := 0 }]

/-- The address of the `i`-th entry that the loop of `analyzeJumpTable` visits, counted
from `EntryAddress`: the step is `EntryAddress += EntrySize` in 64-bit arithmetic. -/
def entryAddressAt (EntrySize : Nat) : Nat → Nat → Nat
  | 0, EntryAddress => EntryAddress
  | i + 1, EntryAddress => entryAddressAt EntrySize i (wrap64 (EntryAddress + EntrySize))

/-- A PIC table of three entries at `0x2000` in a context with relocations, with
PC-relative relocations at the first two entries only. -/
def picRelocContext : BinaryContext :=
  { picTableContext [0x1010, 0x1020, 0x1030] with
    HasRelocations := true
    DataPCRelocations := [0x2000, 0x2004] }

/-- A table at `0x2000` with an entry in `f` and an entry in `g`, after `g` = `[0x1040,
0x1080)` was registered as a fragment of `f` = `[0x1000, 0x1040)`. -/
def splitTableContext : BinaryContext :=
  (registerFragment (tableContextNext [0x1010, 0x1050]) 0x1040 0x1000).2

/-- The text section in relocation mode with the function `foo` = `[0x1000, 0x1050)`
created in it. -/
def relocFooContext : BinaryContext :=
  createBinaryFunction { registerSection emptyContext textSection with HasRelocations := true }
    "foo" 0x1000 0x50 0 0

/-- The context `relocFooContext` after the name `d` was registered at `0x1080` and the
function `bar` = `[0x1080, 0x10A0)` was then created at that address: the object at
`0x1080` carries the symbols `d` and `bar`, in this order. -/
def aliasedBarContext : BinaryContext :=
  createBinaryFunction (registerNameAtAddress relocFooContext "d" 0x1080 0 0 0).2
    "bar" 0x1080 0x20 0 0

/-! ## Slice bounds: `mlir::verifyInBoundsSlice` of ViewLikeInterface.cpp -/

/-- An `int64_t` result: the value of the integer `x` in 64-bit two's complement. -/
def wrapInt64 (x : Int) : Int :=
  (x + 9223372036854775808) % 18446744073709551616 - 9223372036854775808

/-- Modelled from the spec: `ShapedType::kDynamic` (BuiltinTypeInterfaces.h is not among
the sources), the value that stands for a dynamic extent, offset, size or stride: the
least `int64_t`. -/
def ShapedType.kDynamic : Int := -9223372036854775808

/-- Modelled from the spec: `ShapedType::isDynamic` (BuiltinTypeInterfaces.h is not among
the sources): the value is the dynamic marker, any other value is static. -/
def ShapedType.isDynamic (v : Int) : Bool := decide (v = ShapedType.kDynamic)

/-- The record `SliceBoundsVerificationResult`. -/
structure SliceBoundsVerificationResult where
  isValid : Bool
  errorMessage : String
  deriving DecidableEq

/-- The loop of `mlir::verifyInBoundsSlice` from dimension `i` on, with `n` dimensions
left; an index outside a list is `none`. -/
def verifyDims (shape staticOffsets staticSizes staticStrides : List Int) :
    Nat → Nat → Option SliceBoundsVerificationResult
  | 0, _ => some { isValid := true, errorMessage := "" }
  | n + 1, i =>
    match shape[i]? with
    | none => none
    | some d =>
      -- Nothing to verify for dynamic source dims.
      if ShapedType.isDynamic d then
        verifyDims shape staticOffsets staticSizes staticStrides n (i + 1)
      else
        match staticOffsets[i]? with
        | none => none
        | some off =>
          -- Nothing to verify if the offset is dynamic.
          if ShapedType.isDynamic off then
            verifyDims shape staticOffsets staticSizes staticStrides n (i + 1)
          else if off ≥ d then
            some { isValid := false
                   errorMessage := "offset " ++ toString i ++ " is out-of-bounds: " ++
                     toString off ++ " >= " ++ toString d }
          else
            match staticSizes[i]? with
            | none => none
            | some sz =>
              if ShapedType.isDynamic sz then
                verifyDims shape staticOffsets staticSizes staticStrides n (i + 1)
              else
                match staticStrides[i]? with
                | none => none
                | some st =>
                  if ShapedType.isDynamic st then
                    verifyDims shape staticOffsets staticSizes staticStrides n (i + 1)
                  else
                    let lastPos := wrapInt64 (off + wrapInt64 (wrapInt64 (sz - 1) * st))
                    if lastPos ≥ d then
                      some { isValid := false
                             errorMessage := "slice along dimension " ++ toString i ++
                               " runs out-of-bounds: " ++ toString lastPos ++ " >= " ++
                               toString d }
                    else
                      verifyDims shape staticOffsets staticSizes staticStrides n (i + 1)

/-- `mlir::verifyInBoundsSlice` on static values; the message is built whatever
`generateErrorMessage` is. -/
def verifyInBoundsSlice (shape staticOffsets staticSizes staticStrides : List Int)
    (_generateErrorMessage : Bool) : Option SliceBoundsVerificationResult :=
  verifyDims shape staticOffsets staticSizes staticStrides shape.length 0

/-- The condition of the specification on one dimension, over the integers: when the
extent `d` and the offset are static, the offset is below `d` and, when the size and the
stride are static too, so is the last position `off + (sz - 1) * st`. -/
def dimInBounds (d off sz st : Int) : Bool :=
  if ShapedType.isDynamic d || ShapedType.isDynamic off then true
  else decide (off < d) &&
    (if ShapedType.isDynamic sz || ShapedType.isDynamic st then true
     else decide (off + (sz - 1) * st < d))

/-- The condition of the specification on dimension `i` of a slice. -/
def dimInBoundsAt (shape offsets sizes strides : List Int) (i : Nat) : Bool :=
  dimInBounds (shape.getD i 0) (offsets.getD i 0) (sizes.getD i 0) (strides.getD i 0)

/-- The condition of the specification on a slice: every dimension is in bounds. -/
def sliceInBounds (shape offsets sizes strides : List Int) : Bool :=
  (List.range shape.length).all (dimInBoundsAt shape offsets sizes strides)

/-- The message of the specification for a violating dimension `i`: the dimension and
the offending value, the offset when it is not below the extent, the last position
otherwise. -/
def boundsMessage (shape offsets sizes strides : List Int) (i : Nat) : String :=
  if offsets.getD i 0 ≥ shape.getD i 0 then
    "offset " ++ toString i ++ " is out-of-bounds: " ++ toString (offsets.getD i 0) ++
      " >= " ++ toString (shape.getD i 0)
  else
    "slice along dimension " ++ toString i ++ " runs out-of-bounds: " ++
      toString (offsets.getD i 0 + (sizes.getD i 0 - 1) * strides.getD i 0) ++ " >= " ++
      toString (shape.getD i 0)

/-- The last position of dimension `i` is an `int64_t` value, when the dimension is
static throughout. -/
def LastPosInRange (shape offsets sizes strides : List Int) (i : Nat) : Prop :=
  ShapedType.isDynamic (shape.getD i 0) = false → ShapedType.isDynamic (offsets.getD i 0) = false →
  ShapedType.isDynamic (sizes.getD i 0) = false →
  ShapedType.isDynamic (strides.getD i 0) = false →
    -9223372036854775808 ≤ offsets.getD i 0 + (sizes.getD i 0 - 1) * strides.getD i 0 ∧
    offsets.getD i 0 + (sizes.getD i 0 - 1) * strides.getD i 0 < 9223372036854775808

/-- The call `handleAArch64Veneer(Address)` of `processInterproceduralReferences`. It
rests on the disassembler and on `MCPlusBuilder::matchLinkerVeneer`, whose sources are
not present: the call is a parameter that yields the context with the veneer function
created when a veneer is matched at the address, and `none` when the call returns
false. -/
abbrev VeneerHandler := BinaryContext → Nat → Option BinaryContext

/-- Modelled from the spec: `BinaryFunction::setMaxSize` (BinaryFunction.h is not among
the sources), the assignment of the "separately tracked maximum size". -/
def BinaryFunction.setMaxSize (BF : BinaryFunction) (Size : Nat) : BinaryFunction :=
  { BF with MaxSize := Size }

/-- The body of the loop of `BinaryContext::processInterproceduralReferences` for one
deferred pair of a function handle and an address. `HasBATSection` is the member of that
name and `processAllFunctions` the value of `opts::processAllFunctions()`. The result is
`none` when the handle names no function, when the assertion on the section fails and
when the pass exits with the error of the strict mode; warnings are not modelled. -/
def processInterproceduralReference (HasBATSection processAllFunctions : Bool)
    (veneer : VeneerHandler) (BC : BinaryContext) (It : Nat × Nat) : Option BinaryContext :=
  match getFunction BC.BinaryFunctions It.1 with
  | none => none
  | some Function =>
    let Address := It.2
    -- Process interprocedural references from ignored functions in BAT mode
    -- (non-simple in non-relocation mode) to properly register entry points
    if Address = 0 ∨ (Function.IsIgnored = true ∧ HasBATSection = false) then some BC
    else
      match getBinaryFunctionContainingAddress BC Address false false with
      | some TargetFunction =>
        if TargetFunction.Address = Function.Address then some BC
        else if sub64 Address TargetFunction.Address ≠ 0 then
          some { BC with
            BinaryFunctions := updateFunction BC.BinaryFunctions TargetFunction.Address
              (fun T => (addEntryPointAtOffset T (sub64 Address TargetFunction.Address)).2) }
        else some BC
      | none =>
        -- Check if address falls in function padding space - this could be
        -- unmarked data in code. In this case adjust the padding space size.
        match getSectionForAddress BC Address with
        | none => none
        | some Section =>
          if Section.IsText = false then some BC
          -- PLT requires special handling and could be ignored in this context.
          else if Section.Name = ".plt" ∨ Section.Name = ".plt.got" then some BC
          else
            -- Check if it is aarch64 veneer written at Address
            match (if isAArch64 BC then veneer BC Address else none) with
            | some BC2 => some BC2
            | none =>
              if processAllFunctions then none
              else
                match getBinaryFunctionContainingAddress BC Address false true with
                | some TargetFunction =>
                  -- We are not going to overwrite non-simple functions, but for simple
                  -- ones - adjust the padding size.
                  if TargetFunction.IsSimple then
                    some { BC with
                      BinaryFunctions := updateFunction BC.BinaryFunctions TargetFunction.Address
                        (fun T => T.setMaxSize T.Size) }
                  else some BC
                | none => some BC

/-- The loop of `processInterproceduralReferences` over the deferred pairs. -/
def processReferences (HasBATSection processAllFunctions : Bool) (veneer : VeneerHandler) :
    List (Nat × Nat) → BinaryContext → Option BinaryContext
  | [], BC => some BC
  | It :: rest, BC =>
    match processInterproceduralReference HasBATSection processAllFunctions veneer BC It with
    | none => none
    | some BC2 => processReferences HasBATSection processAllFunctions veneer rest BC2

/-- `BinaryContext::processInterproceduralReferences`: the loop over the deferred pairs
recorded at the call, then `InterproceduralReferences.clear()`. -/
def processInterproceduralReferences (HasBATSection processAllFunctions : Bool)
    (veneer : VeneerHandler) (BC : BinaryContext) : Option BinaryContext :=
  (processReferences HasBATSection processAllFunctions veneer BC.InterproceduralReferences
    BC).map (fun BC2 => { BC2 with InterproceduralReferences := [] })

/-- No veneer is matched at any address. -/
def noVeneer : VeneerHandler := fun _ _ => none

/-- The scenario context with the maximum size of `foo` = `[0x1000, 0x1050)` set to
`0x80`, so that `[0x1050, 0x1080)` is the padding of `foo`, and with the deferred
reference from `bar` to the address `0x1060` in that padding. -/
def paddedContext : BinaryContext :=
  { scenarioContext with
    BinaryFunctions := updateFunction scenarioContext.BinaryFunctions 0x1000
      (fun F => F.setMaxSize 0x80)
    InterproceduralReferences := [(0x1080, 0x1060)] }

/-- Modelled from the spec: `BinaryFunction::setHasIndirectTargetToSplitFragment`
(BinaryFunction.h is not among the sources), the assignment of the flag of that name. -/
def BinaryFunction.setHasIndirectTargetToSplitFragment (BF : BinaryFunction) (V : Bool) :
    BinaryFunction :=
  { BF with HasIndirectTargetToSplitFragment := V }

/-- The work list of `skipMarkedFragments` and the member `FragmentsToSkip`, a set of
function handles kept as a list. -/
structure SkipState where
  FragmentQueue : List Nat
  FragmentsToSkip : List Nat
  deriving DecidableEq

/-- The lambda `addToWorklist` of `skipMarkedFragments`; `addFragmentsToSkip` (declared in
BinaryContext.h, which is not among the sources) inserts the function into
`FragmentsToSkip`. -/
def addToWorklist (s : SkipState) (Function : Nat) : SkipState :=
  if s.FragmentsToSkip.contains Function then s
  else
    { FragmentQueue := s.FragmentQueue ++ [Function]
      FragmentsToSkip := insertHandle s.FragmentsToSkip Function }

/-- The loop `for (size_t I = 0; I != FragmentQueue.size(); I++)` of
`skipMarkedFragments`, from index `I`. The result is `none` when the iteration bound is
used up, when the assertion on `FragmentsToSkip` fails and when a handle names no
function. -/
def skipLoop : Nat → Nat → SkipState → List BinaryFunction →
    Option (SkipState × List BinaryFunction)
  | 0, _, _, _ => none
  | fuel + 1, I, s, fs =>
    if I = s.FragmentQueue.length then some (s, fs)
    else
      match s.FragmentQueue[I]? with
      | none => none
      | some BF =>
        if s.FragmentsToSkip.contains BF = false then none
        else
          match getFunction fs BF with
          | none => none
          | some F =>
            let fs := updateFunction fs BF
              (fun G => (G.setSimple false).setHasIndirectTargetToSplitFragment true)
            let s := F.Fragments.foldl addToWorklist s
            let s := F.ParentFragments.foldl addToWorklist s
            skipLoop fuel (I + 1) s fs

/-- `BinaryContext::skipMarkedFragments` on the set `FragmentsToSkip`, with a bound on
the number of iterations; returns the context and the set. -/
def skipMarkedFragments (fuel : Nat) (BC : BinaryContext) (FragmentsToSkip : List Nat) :
    Option (BinaryContext × List Nat) :=
  (skipLoop fuel 0 { FragmentQueue := FragmentsToSkip, FragmentsToSkip := FragmentsToSkip }
    BC.BinaryFunctions).map
      (fun r => ({ BC with BinaryFunctions := r.2 }, r.1.FragmentsToSkip))

/-- The functions reachable from the handles of `init` through `Fragments` and
`ParentFragments` links. -/
inductive FragmentReachable (fs : List BinaryFunction) (init : List Nat) : Nat → Prop
  | marked (h : Nat) : h ∈ init → FragmentReachable fs init h
  | fragment (h g : Nat) (F : BinaryFunction) : FragmentReachable fs init h →
      getFunction fs h = some F → g ∈ F.Fragments → FragmentReachable fs init g
  | parent (h g : Nat) (F : BinaryFunction) : FragmentReachable fs init h →
      getFunction fs h = some F → g ∈ F.ParentFragments → FragmentReachable fs init g

/-- The marks that `skipMarkedFragments` sets on a function. -/
def skipMark (G : BinaryFunction) : BinaryFunction :=
  (G.setSimple false).setHasIndirectTargetToSplitFragment true

/-- The functions of `fs0` with those at the handles of `done` marked. -/
def markedUpTo (fs0 : List BinaryFunction) (done : List Nat) : List BinaryFunction :=
  fs0.map (fun F => if done.contains F.Address then skipMark F else F)

/-- The invariant of the loop of `skipMarkedFragments` at index `I`. -/
structure SkipInv (fs0 : List BinaryFunction) (init : List Nat) (I : Nat) (s : SkipState)
    (fs : List BinaryFunction) : Prop where
  eq : s.FragmentsToSkip = s.FragmentQueue
  nodup : s.FragmentQueue.Nodup
  le : I ≤ s.FragmentQueue.length
  init_sub : ∀ h ∈ init, h ∈ s.FragmentQueue
  reach : ∀ h ∈ s.FragmentQueue, FragmentReachable fs0 init h
  closed : ∀ h ∈ s.FragmentQueue.take I, ∀ F, getFunction fs0 h = some F →
    ∀ g, (g ∈ F.Fragments ∨ g ∈ F.ParentFragments) → g ∈ s.FragmentQueue
  marked : fs = markedUpTo fs0 (s.FragmentQueue.take I)

/-- The condition of the loop of `postProcessSymbolTable` under which an entry is
reported as a zero-sized top level symbol. `BinaryData::isAbsolute` and the conversion of
the section to `bool` are declared in headers that are not among the sources and are
parameters. -/
def isZeroSizedTopLevel (isAbsolute : BinaryData → Bool) (sectionValid : BinarySection → Bool)
    (BD : BinaryData) : Bool :=
  (startsWith BD.getName "SYMBOLat" || startsWith BD.getName "DATAat") &&
    BD.Parent.isNone && decide (BD.Size = 0) && !isAbsolute BD && sectionValid BD.Section

/-- `BinaryContext::postProcessSymbolTable` up to the assertion: the context after
`fixBinaryDataHoles` and the value of `Valid`. The symbol hashes generated after the
assertion are not modelled. -/
def postProcessSymbolTable (isAbsolute : BinaryData → Bool)
    (sectionValid : BinarySection → Bool) (BC : BinaryContext) : BinaryContext × Bool :=
  let BC := fixBinaryDataHoles BC
  (BC, BC.BinaryDataMap.all (fun BD => !isZeroSizedTopLevel isAbsolute sectionValid BD))

/-- Two allocatable sections that overlap in part, `.a` = `[0x1000, 0x1020)` and `.b` =
`[0x1010, 0x1040)`, with the object `o` = `[0x1010, 0x1018)` and the anonymous object
`DATAat0x1020` of size zero, both of `.b`. -/
def staggeredContext : BinaryContext :=
  registerObjects
    (registerSection
      (registerSection emptyContext
        { dataSection with Name := ".a", Address := 0x1000, Size := 0x20 })
      { dataSection with Name := ".b", Address := 0x1010, Size := 0x30 })
    [{ Name := "o", Address := 0x1010, Size := 0x8, Alignment := 1, Flags := 0 },
     { Name := "DATAat0x1020", Address := 0x1020, Size := 0, Alignment := 1, Flags := 0 }]

def topFunctionContext : BinaryContext :=
  createBinaryFunction emptyContext "h" 0xFFFFFFFFFFFFFFF0 0x10 0 0

def highSection : BinarySection :=
  { Name := ".hi", Address := 0xFFFFFFFFFFFFFF00, Size := 0x100, IsAllocatable := true,
    IsText := false, IsVirtual := false, Contents := [], Relocations := [] }

/-- The object with its section replaced by the absolute section. The nesting code of an
index whose sections do not interleave acts on the index as on the index of these
objects, which is an index of one section. -/
def BinaryData.flatten (X : BinaryData) : BinaryData := { X with Section := absoluteSection }

/-- The states whose jump-table map is the work of `getOrCreateJumpTable`: the map is
empty at first, `getOrCreateJumpTable` adds a table or a parent of a table, and every
other step leaves the map as it is. -/
inductive TablesBuilt : BinaryContext → Prop
  | empty (BC : BinaryContext) : BC.JumpTables = [] → TablesBuilt BC
  | create (BC : BinaryContext) (Function a : Nat) (JTType : JumpTableType) :
      TablesBuilt BC → a < 18446744073709551616 →
      TablesBuilt (getOrCreateJumpTable BC Function a JTType).2
  | other (BC BC2 : BinaryContext) : TablesBuilt BC → BC2.JumpTables = BC.JumpTables →
      TablesBuilt BC2

theorem entriesBelow_append_entriesFrom (m : List BinaryData) (a : Nat) :
    entriesBelow m a ++ entriesFrom m a = m := by
  simp [entriesBelow, entriesFrom]

theorem entriesBelow_lt (m : List BinaryData) (a : Nat) :
    ∀ x ∈ entriesBelow m a, x.Address < a := by
  intro x hx
  have := List.mem_takeWhile_imp hx
  simpa using this

theorem entriesFrom_head (m : List BinaryData) (a : Nat) (x : BinaryData) (post : List BinaryData)
    (h : entriesFrom m a = x :: post) : ¬ x.Address < a := by
  have := List.head_dropWhile_not (fun BD : BinaryData => decide (BD.Address < a)) m
  unfold entriesFrom at h
  simp [h] at this
  omega

theorem entriesBelow_split (pre : List BinaryData) (x : BinaryData) (post : List BinaryData)
    (a : Nat) (hpre : ∀ y ∈ pre, y.Address < a) (hx : ¬ x.Address < a) :
    entriesBelow (pre ++ x :: post) a = pre ∧ entriesFrom (pre ++ x :: post) a = x :: post := by
  induction pre with
  | nil => simp [entriesBelow, entriesFrom, List.takeWhile, List.dropWhile, hx]
  | cons y pre ih =>
    have hy : y.Address < a := hpre y (by simp)
    have := ih (fun z hz => hpre z (by simp [hz]))
    simp only [entriesBelow, entriesFrom] at this ⊢
    simp [List.takeWhile, List.dropWhile, hy, this.1, this.2]

theorem findIter_split (pre : List BinaryData) (x : BinaryData) (post : List BinaryData)
    (hpre : ∀ y ∈ pre, y.Address < x.Address) :
    findIter (pre ++ x :: post) x.Address = some (pre, x, post) := by
  have h := entriesBelow_split pre x post x.Address hpre (by omega)
  simp [findIter, h.1, h.2]

theorem findIter_some (m : List BinaryData) (a : Nat) (pre post : List BinaryData) (x : BinaryData)
    (h : findIter m a = some (pre, x, post)) :
    m = pre ++ x :: post ∧ x.Address = a ∧ (∀ y ∈ pre, y.Address < a) := by
  unfold findIter at h
  split at h
  · simp at h
  · rename_i BD post' heq
    split at h
    · rename_i hBD
      simp only [Option.some.injEq, Prod.mk.injEq] at h
      obtain ⟨h1, h2, h3⟩ := h
      subst h1 h2 h3
      refine ⟨?_, hBD, entriesBelow_lt m a⟩
      rw [← heq, entriesBelow_append_entriesFrom]
    · simp at h

theorem walkPrev_fields (pre : List BinaryData) (fuel : Nat) (p : Option Nat) (GAI : BinaryData)
    (post : List BinaryData) :
    (walkPrev pre fuel p GAI post).1.setParent none = GAI.setParent none := by
  induction fuel generalizing p GAI post with
  | zero => simp [walkPrev]
  | succ n ih =>
    cases p with
    | none => simp [walkPrev]
    | some q =>
      simp only [walkPrev]
      split
      · rfl
      · rw [ih]; simp [BinaryData.setParent]

theorem updateObjectNesting_shape (pre : List BinaryData) (GAI : BinaryData)
    (post : List BinaryData) :
    ∃ G post1, updateObjectNesting pre GAI post = pre ++ G :: post1 ∧
      G.setParent none = GAI.setParent none := by
  unfold updateObjectNesting
  simp only
  cases pre.getLast? with
  | none => simp only; split <;> exact ⟨_, _, rfl, rfl⟩
  | some Prev => simp only; split <;> exact ⟨_, _, rfl, walkPrev_fields _ _ _ _ _⟩

theorem setParent_none_eq {G H : BinaryData} (h : G.setParent none = H.setParent none) :
    G.Address = H.Address ∧ G.Symbols = H.Symbols ∧ G.Size = H.Size ∧ G.Section = H.Section := by
  cases G; cases H
  simp only [BinaryData.setParent, BinaryData.mk.injEq] at h
  simp [h]

theorem getOrCreateSymbol_idem (Ctx : List String) (Name : String) :
    getOrCreateSymbol (getOrCreateSymbol Ctx Name) Name = getOrCreateSymbol Ctx Name := by
  unfold getOrCreateSymbol
  by_cases h : Ctx.contains Name = true
  · simp only [h, if_true]
  · simp only [h, Bool.false_eq_true, if_false]
    simp

theorem updateSize_Address (BD : BinaryData) (N : Nat) :
    (BD.updateSize N).Address = BD.Address := by
  unfold BinaryData.updateSize; split <;> rfl

theorem registerNameAtAddress_fst (BC : BinaryContext) (Name : String)
    (Address Size Alignment Flags : Nat) :
    (registerNameAtAddress BC Name Address Size Alignment Flags).1 = Name := by
  unfold registerNameAtAddress
  simp only
  split
  · rfl
  · split <;> rfl

theorem registerNameAtAddress_Ctx (BC : BinaryContext) (Name : String)
    (Address Size Alignment Flags : Nat) :
    (registerNameAtAddress BC Name Address Size Alignment Flags).2.Ctx =
      getOrCreateSymbol BC.Ctx Name := by
  unfold registerNameAtAddress
  simp only
  split
  · rfl
  · split <;> rfl

theorem registerNameAtAddress_map_new (BC : BinaryContext) (Name : String)
    (Address Size Alignment Flags : Nat) (h : findIter BC.BinaryDataMap Address = none) :
    (registerNameAtAddress BC Name Address Size Alignment Flags).2.BinaryDataMap =
      updateObjectNesting (entriesBelow BC.BinaryDataMap Address)
        (newBinaryData BC Name Address Size Alignment Flags)
        (entriesFrom BC.BinaryDataMap Address) := by
  unfold registerNameAtAddress
  simp only [h]
  rfl

theorem registerNameAtAddress_map_known (BC : BinaryContext) (Name : String)
    (Address Size Alignment Flags : Nat) (pre post : List BinaryData) (BD : BinaryData)
    (h : findIter BC.BinaryDataMap Address = some (pre, BD, post)) :
    (registerNameAtAddress BC Name Address Size Alignment Flags).2.BinaryDataMap =
      if BD.hasName Name then BC.BinaryDataMap
      else pre ++ addName BD Size Name :: post := by
  unfold registerNameAtAddress
  simp only [h]
  split <;> rfl

/-- The object that `registerNameAtAddress` leaves at `Address` carries `Name`. -/
theorem registerNameAtAddress_registered (BC : BinaryContext) (Name : String)
    (Address Size Alignment Flags : Nat) :
    ∃ pre BD post,
      findIter (registerNameAtAddress BC Name Address Size Alignment Flags).2.BinaryDataMap
        Address = some (pre, BD, post) ∧ BD.hasName Name = true := by
  cases hfind : findIter BC.BinaryDataMap Address with
  | none =>
    rw [registerNameAtAddress_map_new _ _ _ _ _ _ hfind]
    obtain ⟨G, post1, hshape, hG⟩ := updateObjectNesting_shape
      (entriesBelow BC.BinaryDataMap Address)
      (newBinaryData BC Name Address Size Alignment Flags)
      (entriesFrom BC.BinaryDataMap Address)
    have hf := setParent_none_eq hG
    simp only [newBinaryData] at hf
    have hfi := findIter_split (entriesBelow BC.BinaryDataMap Address) G post1
      (by rw [hf.1]; exact entriesBelow_lt _ _)
    rw [hf.1] at hfi
    refine ⟨entriesBelow BC.BinaryDataMap Address, G, post1, ?_, ?_⟩
    · rw [hshape]; exact hfi
    · simp [BinaryData.hasName, hf.2.1]
  | some r =>
    obtain ⟨pre, BD, post⟩ := r
    obtain ⟨hm, hBD, hpre⟩ := findIter_some _ _ _ _ _ hfind
    rw [registerNameAtAddress_map_known _ _ _ _ _ _ _ _ _ hfind]
    by_cases hn : BD.hasName Name = true
    · simp only [hn, if_true]
      exact ⟨pre, BD, post, hfind, hn⟩
    · simp only [hn, Bool.false_eq_true, if_false]
      have hA : (addName BD Size Name).Address = Address := by
        simp [addName, updateSize_Address, hBD]
      refine ⟨pre, addName BD Size Name, post, ?_, ?_⟩
      · have hfi := findIter_split pre (addName BD Size Name) post
          (by rw [hA]; exact hpre)
        rw [hA] at hfi; exact hfi
      · simp [BinaryData.hasName, addName]

/-- Claim C1. A second call of `registerNameAtAddress` with the same name and address (and any
size, alignment and flags) returns the symbol of the first call and leaves the context
as the first call left it. -/
theorem registerNameAtAddress_idempotent (BC : BinaryContext) (Name : String)
    (Address Size Alignment Flags Size2 Alignment2 Flags2 : Nat) :
    registerNameAtAddress (registerNameAtAddress BC Name Address Size Alignment Flags).2
        Name Address Size2 Alignment2 Flags2 =
      registerNameAtAddress BC Name Address Size Alignment Flags := by
  obtain ⟨pre, BD, post, hfind, hname⟩ :=
    registerNameAtAddress_registered BC Name Address Size Alignment Flags
  have h1 := registerNameAtAddress_fst BC Name Address Size Alignment Flags
  have h2 := registerNameAtAddress_Ctx BC Name Address Size Alignment Flags
  generalize registerNameAtAddress BC Name Address Size Alignment Flags = r at *
  obtain ⟨sym, BC1⟩ := r
  simp only at h1 h2 hfind
  subst h1
  unfold registerNameAtAddress
  simp only [hfind, hname, if_true, h2, getOrCreateSymbol_idem]
  rw [← h2]

/-! ## Theorems: hole synthesis and laminarity -/

theorem getBinaryDataAtAddress_some {m : List BinaryData} {a : Nat} {Q : BinaryData}
    (h : getBinaryDataAtAddress m a = some Q) : Q ∈ m ∧ Q.Address = a := by
  unfold getBinaryDataAtAddress at h
  cases hf : findIter m a with
  | none => simp [hf] at h
  | some r =>
    obtain ⟨pre, X, post⟩ := r
    simp only [hf, Option.map_some', Option.some.injEq] at h
    subst h
    obtain ⟨hm, hX, -⟩ := findIter_some _ _ _ _ _ hf
    exact ⟨by rw [hm]; simp, hX⟩

theorem fixParentsTail_none (NewParent : Option Nat) (l : List BinaryData) :
    fixParentsTail none NewParent l = l := by
  cases l <;> simp [fixParentsTail]

theorem setParent_self (G : BinaryData) (h : G.Parent = none) : G.setParent none = G := by
  cases G
  simp only [BinaryData.setParent, BinaryData.mk.injEq, true_and]
  simp_all

/-- The loop over the parents of the predecessor leaves a parentless entry alone when no
other entry of its section contains its range. -/
theorem walkPrev_root (pre post : List BinaryData) (GAI : BinaryData)
    (hG : GAI.Parent = none)
    (hno : ∀ Q ∈ pre ++ post, Q.Parent ≠ some GAI.Address ∧
      ¬ (Q.Section = GAI.Section ∧ Q.containsRange GAI.Address GAI.Size = true))
    (fuel : Nat) (p : Option Nat) (hp : p ≠ some GAI.Address) :
    walkPrev pre fuel p GAI post = (GAI, post) := by
  induction fuel generalizing p with
  | zero => simp [walkPrev]
  | succ n ih =>
    cases p with
    | none => simp [walkPrev]
    | some q =>
      simp only [walkPrev]
      cases hl : getBinaryDataAtAddress (pre ++ GAI :: post) q with
      | none => rfl
      | some Q =>
        obtain ⟨hQm, hQa⟩ := getBinaryDataAtAddress_some hl
        have hQne : Q ≠ GAI := by
          intro h; subst h; exact hp (by rw [hQa])
        have hQ : Q ∈ pre ++ post := by
          simp only [List.mem_append, List.mem_cons] at hQm ⊢
          rcases hQm with h | h | h
          · exact Or.inl h
          · exact absurd h hQne
          · exact Or.inr h
        obtain ⟨hpar, hcont⟩ := hno Q hQ
        simp only [hcont, if_false, hG, fixParentsTail_none, setParent_self GAI hG, hl,
          Option.bind_some]
        exact ih _ hpar

/-- `updateObjectNesting` on a parentless entry with a size that no other entry of its
section contains: the entry stays parentless and absorbs the entries that follow. -/
theorem updateObjectNesting_root (pre post : List BinaryData) (GAI : BinaryData)
    (hG : GAI.Parent = none) (hS : GAI.Size ≠ 0)
    (hpre : ∀ Q ∈ pre, Q.Address ≠ GAI.Address)
    (hno : ∀ Q ∈ pre ++ post, Q.Parent ≠ some GAI.Address ∧
      ¬ (Q.Section = GAI.Section ∧ Q.containsRange GAI.Address GAI.Size = true)) :
    updateObjectNesting pre GAI post = pre ++ GAI :: absorbFollowing GAI post := by
  unfold updateObjectNesting
  cases hlast : pre.getLast? with
  | none => simp [hS, hG]
  | some Prev =>
    have hPrev : Prev ∈ pre := List.mem_of_getLast?_eq_some hlast
    have := walkPrev_root pre post GAI hG hno (pre.length + post.length + 1)
      (some Prev.Address) (by
        intro h
        exact hpre Prev hPrev (by simpa using h))
    simp [this, hS, hG]

theorem absorbFollowing_eq_map (BD : BinaryData) (l : List BinaryData)
    (hpfx : ∀ l1 X l2, l = l1 ++ X :: l2 → BD.containsRange X.Address X.Size = false →
      ∀ Y ∈ l2, BD.containsRange Y.Address Y.Size = false) :
    absorbFollowing BD l =
      l.map (fun X => if BD.containsRange X.Address X.Size = true
        then X.setParent (some BD.Address) else X) := by
  induction l with
  | nil => simp [absorbFollowing]
  | cons X rest ih =>
    by_cases hc : BD.containsRange X.Address X.Size = true
    · simp only [absorbFollowing, hc, if_true, List.map_cons]
      congr 1
      apply ih
      intro l1 Y l2 hl hY
      exact hpfx (X :: l1) Y l2 (by simp [hl]) hY
    · simp only [Bool.not_eq_true] at hc
      have hrest := hpfx [] X rest rfl hc
      simp only [absorbFollowing, hc, Bool.false_eq_true, if_false, List.map_cons]
      congr 1
      symm
      calc rest.map (fun X => if BD.containsRange X.Address X.Size = true
              then X.setParent (some BD.Address) else X)
          = rest.map id := by
            apply List.map_congr_left
            intro Y hY
            simp [hrest Y hY]
        _ = rest := by simp

theorem isNotHole_true {S : BinarySection} {T : BinaryData} (h : isNotHole S T = true) :
    T.Section = S ∧ T.Parent = none := by
  unfold isNotHole at h
  simp only [Bool.and_eq_true, decide_eq_true_eq, Option.isNone_iff_eq_none] at h
  exact ⟨h.1.2, h.2⟩

theorem isNotHole_of_size {S : BinarySection} {T : BinaryData} (hs : T.Section = S)
    (hp : T.Parent = none) (hz : T.Size ≠ 0) : isNotHole S T = true := by
  unfold isNotHole
  simp [hs, hp, hz]

theorem size_zero_of_not_isNotHole {S : BinarySection} {T : BinaryData}
    (h : isNotHole S T = false) (hs : T.Section = S) (hp : T.Parent = none) : T.Size = 0 := by
  by_contra hz
  rw [isNotHole_of_size hs hp hz] at h
  exact absurd h (by decide)

theorem containsRange_bounded {A : BinaryData} {a s : Nat}
    (hA : A.Address + A.Size < 18446744073709551616) (hB : a + s < 18446744073709551616) :
    A.containsRange a s = true ↔
      ((A.Address ≤ a ∧ a < A.Address + A.Size) ∨ (A.Address = a ∧ A.Size = 0)) ∧
        a + s ≤ A.Address + A.Size := by
  simp [BinaryData.containsRange, BinaryData.containsAddress, BinaryData.getEndAddress, wrap64,
    Nat.mod_eq_of_lt hA, Nat.mod_eq_of_lt hB]

theorem getSectionForAddress_some {BC : BinaryContext} {a : Nat} {S : BinarySection}
    (h : getSectionForAddress BC a = some S) : S.Address ≤ a := by
  unfold getSectionForAddress at h
  split at h
  · simp at h
  · rename_i SI hlast
    have hmem := List.mem_of_getLast?_eq_some hlast
    have := List.mem_takeWhile_imp hmem
    simp only [decide_eq_true_eq] at this
    simp only at h
    have hS : SI = S := by
      split at h <;> split at h <;> first | (simp only [Option.some.injEq] at h; exact h) | simp at h
    subst hS
    exact this

theorem obj_in_section {BC : BinaryContext} {m : List BinaryData} {S : BinarySection}
    {B : BinaryData} (hin : InsideSections BC m) (hS : SecOK BC S) (hB : B ∈ m)
    (hBS : B.Section = S) :
    S.Address ≤ B.Address ∧ B.Address + B.Size ≤ S.Address + S.Size := by
  obtain ⟨h1, h2⟩ := hin B hB
  refine ⟨?_, ?_⟩
  · cases hl : getSectionForAddress BC B.Address with
    | none =>
      rw [hl, hBS] at h1
      simp only [Option.getD_none] at h1
      have := hS.alloc
      rw [h1] at this
      exact absurd this (by decide)
    | some S' =>
      rw [hl, hBS] at h1
      simp only [Option.getD_some] at h1
      subst h1
      exact getSectionForAddress_some hl
  · rw [hBS] at h2
    exact h2 hS.alloc

theorem obj_section_of_addr {BC : BinaryContext} {m : List BinaryData} {S : BinarySection}
    {B : BinaryData} (hin : InsideSections BC m) (hS : SecOK BC S) (hB : B ∈ m)
    (h1 : S.Address ≤ B.Address) (h2 : B.Address < S.Address + S.Size) : B.Section = S := by
  rw [(hin B hB).1, hS.own _ h1 h2]
  rfl

theorem sorted_addr_inj {m : List BinaryData} (hs : SortedMap m) {X Y : BinaryData}
    (hX : X ∈ m) (hY : Y ∈ m) (h : X.Address = Y.Address) : X = Y := by
  induction m with
  | nil => simp at hX
  | cons Z rest ih =>
    unfold SortedMap at hs
    rw [List.pairwise_cons] at hs
    simp only [List.mem_cons] at hX hY
    rcases hX with hX | hX <;> rcases hY with hY | hY
    · rw [hX, hY]
    · subst hX; have := hs.1 Y hY; omega
    · subst hY; have := hs.1 X hX; omega
    · exact ih hs.2 hX hY

/-- The parent of an object of `S` is an object visited by the scan that contains it. -/
theorem parent_solid {BC : BinaryContext} {m : List BinaryData} {S : BinarySection}
    (hm : MapOK BC m) (hS : SecOK BC S) {Q : BinaryData} (hQ : Q ∈ m) (hQS : Q.Section = S)
    (hp : Q.Parent.isSome = true) :
    ∃ A ∈ m, isNotHole S A = true ∧ A.Address ≤ Q.Address ∧ Q.Address < A.Address + A.Size ∧
      Q.Address + Q.Size ≤ A.Address + A.Size ∧ some A.Address = Q.Parent := by
  obtain ⟨A, hA, hAp, hAn, hAS, hne, hc⟩ := (hm.nesting Q hQ).1 hp
  have hAS' : A.Section = S := by rw [hAS, hQS]
  have hAb := obj_in_section hm.inside hS hA hAS'
  have hQb := obj_in_section hm.inside hS hQ hQS
  have hb := hS.bound
  rw [containsRange_bounded (by omega) (by omega)] at hc
  refine ⟨A, hA, ?_, ?_, ?_, ?_, hAp⟩
  · apply isNotHole_of_size hAS' hAn
    omega
  all_goals omega

/-- Objects of `S` that start before a gap end before it. -/
theorem before_gap {BC : BinaryContext} {m : List BinaryData} {S : BinarySection}
    (hm : MapOK BC m) (hS : SecOK BC S) {h len : Nat} (hg : IsGap m S h len)
    {Q : BinaryData} (hQ : Q ∈ m) (hQS : Q.Section = S) (hlt : Q.Address < h) :
    Q.Address + Q.Size ≤ h := by
  obtain ⟨hlen, hlo, hhi, hgap⟩ := hg
  cases hp : Q.Parent with
  | some p =>
    obtain ⟨A, hA, hAsolid, h1, h2, h3, -⟩ := parent_solid hm hS hQ hQS (by simp [hp])
    rcases hgap A hA hAsolid with h4 | h4 <;> omega
  | none =>
    by_cases hsolid : isNotHole S Q = true
    · rcases hgap Q hQ hsolid with h4 | h4 <;> omega
    · have := size_zero_of_not_isNotHole (by simpa using hsolid) hQS hp
      omega

/-- Objects of `S` that start inside a gap are parentless and of size zero, and are
visited by the scan only at the first address of the gap. -/
theorem inside_gap {BC : BinaryContext} {m : List BinaryData} {S : BinarySection}
    (hm : MapOK BC m) (hS : SecOK BC S) {h len : Nat} (hg : IsGap m S h len)
    {Q : BinaryData} (hQ : Q ∈ m) (hQS : Q.Section = S) (h1 : h ≤ Q.Address)
    (h2 : Q.Address < h + len) :
    Q.Parent = none ∧ Q.Size = 0 ∧ (isNotHole S Q = true → Q.Address = h) := by
  obtain ⟨hlen, hlo, hhi, hgap⟩ := hg
  have hpar : Q.Parent = none := by
    cases hp : Q.Parent with
    | none => rfl
    | some p =>
      obtain ⟨A, hA, hAsolid, h3, h4, h5, -⟩ := parent_solid hm hS hQ hQS (by simp [hp])
      rcases hgap A hA hAsolid with h6 | h6 <;> omega
  by_cases hsolid : isNotHole S Q = true
  · rcases hgap Q hQ hsolid with h4 | h4
    · exact ⟨hpar, by omega, fun _ => by omega⟩
    · omega
  · exact ⟨hpar, size_zero_of_not_isNotHole (by simpa using hsolid) hQS hpar,
      fun h => absurd h hsolid⟩

theorem absorbIf_Address (H X : BinaryData) : (absorbIf H X).Address = X.Address := by
  unfold absorbIf; split <;> rfl

theorem absorbIf_Size (H X : BinaryData) : (absorbIf H X).Size = X.Size := by
  unfold absorbIf; split <;> rfl

theorem absorbIf_Section (H X : BinaryData) : (absorbIf H X).Section = X.Section := by
  unfold absorbIf; split <;> rfl

theorem absorbIf_containsRange (H X : BinaryData) (a s : Nat) :
    (absorbIf H X).containsRange a s = X.containsRange a s := by
  unfold absorbIf; split <;> rfl

theorem absorbIf_of_not {H X : BinaryData} (h : H.containsRange X.Address X.Size = false) :
    absorbIf H X = X := by
  unfold absorbIf; simp [h]

theorem absorbIf_of_contains {H X : BinaryData} (h : H.containsRange X.Address X.Size = true) :
    absorbIf H X = X.setParent (some H.Address) := by
  unfold absorbIf; simp [h]

theorem containsRange_imp_le {H : BinaryData} {a s : Nat} (h : H.containsRange a s = true) :
    H.Address ≤ a := by
  simp only [BinaryData.containsRange, BinaryData.containsAddress, Bool.and_eq_true,
    Bool.or_eq_true, decide_eq_true_eq] at h
  omega

theorem containsRange_imp_lt {H : BinaryData} {a s : Nat}
    (hH : H.Address + H.Size < 18446744073709551616) (hz : H.Size ≠ 0)
    (h : H.containsRange a s = true) : H.Address ≤ a ∧ a < H.Address + H.Size := by
  simp only [BinaryData.containsRange, BinaryData.containsAddress, Bool.and_eq_true,
    Bool.or_eq_true, decide_eq_true_eq, BinaryData.getEndAddress, wrap64,
    Nat.mod_eq_of_lt hH] at h
  omega

namespace GapInsert

variable {BC : BinaryContext} {S : BinarySection} {pre post : List BinaryData}
  {H : BinaryData} {h len : Nat}

theorem len_pos (g : GapInsert BC S pre post H h len) : 0 < len := g.gap.1

theorem bound (g : GapInsert BC S pre post H h len) :
    H.Address + H.Size < 18446744073709551616 := by
  have := g.gap.2.2.1
  have := g.sec.bound
  rw [g.addr, g.size]; omega

theorem ne_addr (g : GapInsert BC S pre post H h len) {Q : BinaryData} (hQ : Q ∈ pre ++ post) :
    Q.Address ≠ h := by
  rcases List.mem_append.1 hQ with hq | hq
  · have := g.below Q hq; omega
  · have := g.above Q hq; omega

/-- No other object of the section contains the range of the gap. -/
theorem not_contained (g : GapInsert BC S pre post H h len) {Q : BinaryData}
    (hQ : Q ∈ pre ++ post) (hQS : Q.Section = S) : Q.containsRange h len = false := by
  have hb := obj_in_section g.map.inside g.sec hQ hQS
  have hs := g.sec.bound
  obtain ⟨hlen, hlo, hhi, -⟩ := g.gap
  by_contra hc
  simp only [Bool.not_eq_false] at hc
  rw [containsRange_bounded (by omega) (by omega)] at hc
  rcases List.mem_append.1 hQ with hq | hq
  · have := g.below Q hq
    have := before_gap g.map g.sec g.gap hQ hQS this
    omega
  · have := g.above Q hq
    omega

/-- An object that the gap object contains is an object of the section, of size zero and
parentless, strictly inside the gap. -/
theorem contained (g : GapInsert BC S pre post H h len) {Q : BinaryData}
    (hQ : Q ∈ pre ++ post) (hc : H.containsRange Q.Address Q.Size = true) :
    Q.Section = S ∧ Q.Size = 0 ∧ Q.Parent = none ∧ h < Q.Address ∧ Q.Address < h + len := by
  have hlt := containsRange_imp_lt g.bound (by rw [g.size]; have := g.len_pos; omega) hc
  rw [g.addr, g.size] at hlt
  obtain ⟨hlen, hlo, hhi, -⟩ := g.gap
  have hQS : Q.Section = S := obj_section_of_addr g.map.inside g.sec hQ (by omega) (by omega)
  obtain ⟨h1, h2, -⟩ := inside_gap g.map g.sec g.gap hQ hQS hlt.1 hlt.2
  have := g.ne_addr hQ
  exact ⟨hQS, h2, h1, by omega, hlt.2⟩

/-- An object of the map that starts inside the gap is contained in the gap object. -/
theorem contains_of_inside (g : GapInsert BC S pre post H h len) {Q : BinaryData}
    (hQ : Q ∈ pre ++ post) (h1 : h ≤ Q.Address) (h2 : Q.Address < h + len) :
    H.containsRange Q.Address Q.Size = true := by
  obtain ⟨hlen, hlo, hhi, -⟩ := g.gap
  have hs := g.sec.bound
  have hQS : Q.Section = S := obj_section_of_addr g.map.inside g.sec hQ (by omega) (by omega)
  obtain ⟨-, hz, -⟩ := inside_gap g.map g.sec g.gap hQ hQS h1 h2
  rw [containsRange_bounded g.bound (by omega), g.addr, g.size]
  omega

theorem absorbIf_pre (g : GapInsert BC S pre post H h len) :
    pre.map (absorbIf H) = pre := by
  calc pre.map (absorbIf H) = pre.map id := by
        apply List.map_congr_left
        intro Q hQ
        apply absorbIf_of_not
        by_contra hc
        simp only [Bool.not_eq_false] at hc
        have := containsRange_imp_le hc
        have := g.below Q hQ
        rw [g.addr] at *
        omega
    _ = pre := by simp

/-- The map after the gap object is put in. -/
theorem update_eq (g : GapInsert BC S pre post H h len) :
    updateObjectNesting pre H post =
      pre.map (absorbIf H) ++ H :: post.map (absorbIf H) := by
  have hno : ∀ Q ∈ pre ++ post, Q.Parent ≠ some H.Address ∧
      ¬ (Q.Section = H.Section ∧ Q.containsRange H.Address H.Size = true) := by
    intro Q hQ
    constructor
    · intro hp
      obtain ⟨A, hA, hAp, -⟩ := (g.map.nesting Q hQ).1 (by simp [hp])
      rw [hp] at hAp
      simp only [Option.some.injEq] at hAp
      exact g.ne_addr hA (by rw [hAp, g.addr])
    · rintro ⟨hs, hc⟩
      rw [g.section_eq] at hs
      rw [g.addr, g.size, g.not_contained hQ hs] at hc
      exact absurd hc (by decide)
  rw [updateObjectNesting_root pre post H g.parent
    (by rw [g.size]; have := g.len_pos; omega)
    (fun Q hQ => by have := g.below Q hQ; rw [g.addr]; omega) hno]
  rw [g.absorbIf_pre]
  congr 2
  apply absorbFollowing_eq_map
  intro l1 X l2 hl hX Y hY
  have hXm : X ∈ pre ++ post := by rw [hl]; simp
  have hYm : Y ∈ pre ++ post := by rw [hl]; simp [hY]
  have hsorted : X.Address < Y.Address := by
    have := g.map.sorted
    unfold SortedMap at this
    rw [hl, List.pairwise_append] at this
    have h2 := this.2.1
    rw [List.pairwise_append] at h2
    have h3 := h2.2.1
    rw [List.pairwise_cons] at h3
    exact h3.1 Y hY
  have hXge : h + len ≤ X.Address := by
    by_contra hlt
    have hXa := g.above X (by rw [hl]; simp)
    have := g.contains_of_inside hXm (by omega) (by omega)
    rw [this] at hX
    exact absurd hX (by decide)
  by_contra hc
  simp only [Bool.not_eq_false] at hc
  have := (g.contained hYm hc).2.2.2.2
  omega

end GapInsert

theorem mem_filled {pre post : List BinaryData} {H X : BinaryData} :
    X ∈ filled pre post H ↔ X = H ∨ ∃ Q ∈ pre ++ post, X = absorbIf H Q := by
  unfold filled
  simp only [List.mem_append, List.mem_cons, List.mem_map]
  constructor
  · rintro (⟨Q, hQ, rfl⟩ | rfl | ⟨Q, hQ, rfl⟩)
    · exact Or.inr ⟨Q, Or.inl hQ, rfl⟩
    · exact Or.inl rfl
    · exact Or.inr ⟨Q, Or.inr hQ, rfl⟩
  · rintro (rfl | ⟨Q, hQ | hQ, rfl⟩)
    · exact Or.inr (Or.inl rfl)
    · exact Or.inl ⟨Q, hQ, rfl⟩
    · exact Or.inr (Or.inr ⟨Q, hQ, rfl⟩)

theorem laminarPair_symm {X Y : BinaryData} (h : LaminarPair X Y) : LaminarPair Y X := by
  unfold LaminarPair at *
  omega

theorem laminarPair_congr {X Y X' Y' : BinaryData} (hX : X'.Address = X.Address)
    (hXs : X'.Size = X.Size) (hY : Y'.Address = Y.Address) (hYs : Y'.Size = Y.Size)
    (h : LaminarPair X Y) : LaminarPair X' Y' := by
  unfold LaminarPair at *
  omega

namespace GapInsert

variable {BC : BinaryContext} {S : BinarySection} {pre post : List BinaryData}
  {H : BinaryData} {h len : Nat}

theorem filled_sorted (g : GapInsert BC S pre post H h len) :
    SortedMap (filled pre post H) := by
  have hs := g.map.sorted
  unfold SortedMap filled at *
  rw [List.pairwise_append] at hs ⊢
  obtain ⟨h1, h2, h3⟩ := hs
  refine ⟨?_, ?_, ?_⟩
  · rw [List.pairwise_map]
    exact h1.imp (by intro a b hab; simpa [absorbIf_Address] using hab)
  · rw [List.pairwise_cons]
    refine ⟨?_, ?_⟩
    · intro X hX
      obtain ⟨Q, hQ, rfl⟩ := List.mem_map.1 hX
      rw [absorbIf_Address, g.addr]
      exact g.above Q hQ
    · rw [List.pairwise_map]
      exact h2.imp (by intro a b hab; simpa [absorbIf_Address] using hab)
  · intro X hX Y hY
    obtain ⟨Q, hQ, rfl⟩ := List.mem_map.1 hX
    rw [absorbIf_Address]
    rcases List.mem_cons.1 hY with rfl | hY
    · rw [g.addr]; exact g.below Q hQ
    · obtain ⟨R, hR, rfl⟩ := List.mem_map.1 hY
      rw [absorbIf_Address]
      exact h3 Q hQ R hR

theorem filled_inside (g : GapInsert BC S pre post H h len) :
    InsideSections BC (filled pre post H) := by
  intro X hX
  rcases mem_filled.1 hX with rfl | ⟨Q, hQ, rfl⟩
  · obtain ⟨hlen, hlo, hhi, -⟩ := g.gap
    rw [g.section_eq, g.addr, g.size, g.sec.own h hlo (by omega)]
    exact ⟨rfl, fun _ => hhi⟩
  · rw [absorbIf_Address, absorbIf_Size, absorbIf_Section]
    exact g.map.inside Q hQ

theorem laminar_H (g : GapInsert BC S pre post H h len) {Q : BinaryData}
    (hQ : Q ∈ pre ++ post) (hQS : Q.Section = S) : LaminarPair H Q := by
  unfold LaminarPair
  rw [g.addr, g.size]
  rcases List.mem_append.1 hQ with hq | hq
  · have := before_gap g.map g.sec g.gap hQ hQS (g.below Q hq)
    omega
  · have hgt := g.above Q hq
    by_cases hlt : Q.Address < h + len
    · obtain ⟨-, hz, -⟩ := inside_gap g.map g.sec g.gap hQ hQS (by omega) hlt
      omega
    · omega

theorem filled_laminar (g : GapInsert BC S pre post H h len) :
    Laminar (filled pre post H) := by
  intro X hX Y hY hXY
  rcases mem_filled.1 hX with rfl | ⟨Q, hQ, rfl⟩ <;>
    rcases mem_filled.1 hY with rfl | ⟨R, hR, rfl⟩
  · unfold LaminarPair; omega
  · rw [absorbIf_Section, g.section_eq] at hXY
    exact laminarPair_congr rfl rfl (absorbIf_Address _ _) (absorbIf_Size _ _)
      (g.laminar_H hR hXY.symm)
  · rw [absorbIf_Section, g.section_eq] at hXY
    exact laminarPair_congr (absorbIf_Address _ _) (absorbIf_Size _ _) rfl rfl
      (laminarPair_symm (g.laminar_H hQ hXY))
  · rw [absorbIf_Section, absorbIf_Section] at hXY
    exact laminarPair_congr (absorbIf_Address _ _) (absorbIf_Size _ _) (absorbIf_Address _ _)
      (absorbIf_Size _ _) (g.map.laminar Q hQ R hR hXY)

/-- A zero-size object contains the range of no object at another address. -/
theorem zero_size_contains {A : BinaryData} {a s : Nat} (hz : A.Size = 0) (hne : A.Address ≠ a) :
    A.containsRange a s = false := by
  by_contra hc
  simp only [Bool.not_eq_false, BinaryData.containsRange, BinaryData.containsAddress,
    Bool.and_eq_true, Bool.or_eq_true, decide_eq_true_eq, BinaryData.getEndAddress, wrap64,
    hz, Nat.add_zero] at hc
  have := Nat.mod_le A.Address 18446744073709551616
  omega

theorem filled_nesting (g : GapInsert BC S pre post H h len) :
    ValidNesting (filled pre post H) := by
  intro X hX
  rcases mem_filled.1 hX with rfl | ⟨Q, hQ, rfl⟩
  · refine ⟨by simp [g.parent], ?_⟩
    intro _ A hA hAS hne
    rcases mem_filled.1 hA with rfl | ⟨R, hR, rfl⟩
    · exact absurd rfl hne
    · rw [absorbIf_Section, g.section_eq] at hAS
      rw [absorbIf_containsRange, g.addr, g.size]
      exact g.not_contained hR hAS
  · by_cases hc : H.containsRange Q.Address Q.Size = true
    · obtain ⟨hQS, hz, hp, h1, h2⟩ := g.contained hQ hc
      rw [absorbIf_of_contains hc]
      refine ⟨fun _ => ⟨H, mem_filled.2 (Or.inl rfl), rfl, g.parent, ?_, ?_, hc⟩, ?_⟩
      · rw [g.section_eq]; exact hQS.symm
      · rw [g.addr]; exact (g.ne_addr hQ).symm
      · intro hn; simp [BinaryData.setParent] at hn
    · simp only [Bool.not_eq_true] at hc
      rw [absorbIf_of_not hc]
      refine ⟨?_, ?_⟩
      · intro hp
        obtain ⟨A, hA, hAp, hAn, hAS, hne, hAc⟩ := (g.map.nesting Q hQ).1 hp
        refine ⟨A, mem_filled.2 (Or.inr ⟨A, hA, ?_⟩), hAp, hAn, hAS, hne, hAc⟩
        symm
        apply absorbIf_of_not
        by_contra hHA
        simp only [Bool.not_eq_false] at hHA
        have hz := (g.contained hA hHA).2.1
        rw [zero_size_contains hz hne] at hAc
        exact absurd hAc (by decide)
      · intro hp A hA hAS hne
        rcases mem_filled.1 hA with rfl | ⟨R, hR, rfl⟩
        · exact hc
        · rw [absorbIf_Section] at hAS
          rw [absorbIf_Address] at hne
          rw [absorbIf_containsRange]
          exact (g.map.nesting Q hQ).2 hp R hR hAS hne

theorem filled_ok (g : GapInsert BC S pre post H h len) : MapOK BC (filled pre post H) :=
  ⟨g.filled_sorted, g.filled_inside, g.filled_laminar, g.filled_nesting⟩

/-- The objects the scan visits after the gap object is put in are the gap object and
objects it visited before. -/
theorem filled_solid (g : GapInsert BC S pre post H h len) {T : BinaryData}
    (hT : T ∈ filled pre post H) (hs : isNotHole S T = true) :
    T = H ∨ T ∈ pre ++ post := by
  rcases mem_filled.1 hT with rfl | ⟨Q, hQ, rfl⟩
  · exact Or.inl rfl
  · right
    by_cases hc : H.containsRange Q.Address Q.Size = true
    · rw [absorbIf_of_contains hc] at hs
      have := (isNotHole_true hs).2
      simp [BinaryData.setParent] at this
    · simp only [Bool.not_eq_true] at hc
      rw [absorbIf_of_not hc]
      exact hQ

/-- Objects that do not start inside the gap stay as they are. -/
theorem filled_keeps (g : GapInsert BC S pre post H h len) {X : BinaryData}
    (hX : X ∈ pre ++ post) (hout : X.Address < h ∨ h + len ≤ X.Address) :
    X ∈ filled pre post H := by
  refine mem_filled.2 (Or.inr ⟨X, hX, ?_⟩)
  symm
  apply absorbIf_of_not
  by_contra hc
  simp only [Bool.not_eq_false] at hc
  have := g.contained hX hc
  omega

/-- Objects of other sections are not touched. -/
theorem filled_frame (g : GapInsert BC S pre post H h len) {X : BinaryData}
    (hXS : X.Section ≠ S) : X ∈ filled pre post H ↔ X ∈ pre ++ post := by
  constructor
  · intro hX
    rcases mem_filled.1 hX with rfl | ⟨Q, hQ, rfl⟩
    · exact absurd g.section_eq hXS
    · rw [absorbIf_Section] at hXS
      by_cases hc : H.containsRange Q.Address Q.Size = true
      · exact absurd (g.contained hQ hc).1 hXS
      · simp only [Bool.not_eq_true] at hc
        rw [absorbIf_of_not hc]
        exact hQ
  · intro hX
    refine mem_filled.2 (Or.inr ⟨X, hX, ?_⟩)
    symm
    apply absorbIf_of_not
    by_contra hc
    simp only [Bool.not_eq_false] at hc
    exact hXS (g.contained hX hc).1

end GapInsert

theorem getSectionForAddress_congr {BC1 BC2 : BinaryContext}
    (h : BC1.AddressToSection = BC2.AddressToSection) (a : Nat) :
    getSectionForAddress BC1 a = getSectionForAddress BC2 a := by
  unfold getSectionForAddress
  rw [h]

theorem MapOK.congrSections {BC1 BC2 : BinaryContext} {m : List BinaryData}
    (h : BC1.AddressToSection = BC2.AddressToSection) (hm : MapOK BC1 m) : MapOK BC2 m := by
  refine ⟨hm.sorted, ?_, hm.laminar, hm.nesting⟩
  intro B hB
  rw [← getSectionForAddress_congr h]
  exact hm.inside B hB

theorem SecOK.congrSec {BC1 BC2 : BinaryContext} {S : BinarySection}
    (h : BC1.AddressToSection = BC2.AddressToSection) (hS : SecOK BC1 S) : SecOK BC2 S := by
  refine ⟨hS.alloc, hS.bound, ?_⟩
  intro a h1 h2
  rw [← getSectionForAddress_congr h]
  exact hS.own a h1 h2

/-- Removing an object of size zero keeps a map well formed. -/
theorem MapOK.removeZero {BC : BinaryContext} {pre post : List BinaryData} {D : BinaryData}
    (hm : MapOK BC (pre ++ D :: post)) (hz : D.Size = 0) : MapOK BC (pre ++ post) := by
  have hsub : ∀ X, X ∈ pre ++ post → X ∈ pre ++ D :: post := by
    intro X hX
    simp only [List.mem_append, List.mem_cons] at hX ⊢
    tauto
  refine ⟨?_, ?_, ?_, ?_⟩
  · have := hm.sorted
    unfold SortedMap at *
    exact this.sublist (by simp)
  · intro B hB
    exact hm.inside B (hsub B hB)
  · intro X hX Y hY
    exact hm.laminar X (hsub X hX) Y (hsub Y hY)
  · intro B hB
    refine ⟨?_, ?_⟩
    · intro hp
      obtain ⟨A, hA, hAp, hAn, hAS, hne, hAc⟩ := (hm.nesting B (hsub B hB)).1 hp
      refine ⟨A, ?_, hAp, hAn, hAS, hne, hAc⟩
      simp only [List.mem_append, List.mem_cons] at hA ⊢
      rcases hA with hA | rfl | hA
      · exact Or.inl hA
      · rw [GapInsert.zero_size_contains hz hne] at hAc
        exact absurd hAc (by decide)
      · exact Or.inr hA
    · intro hp A hA
      exact (hm.nesting B (hsub B hB)).2 hp A (hsub A hA)

theorem IsGap.mono {m m' : List BinaryData} {S : BinarySection} {h len : Nat}
    (hg : IsGap m S h len) (hsub : ∀ T ∈ m', isNotHole S T = true → T ∈ m) :
    IsGap m' S h len := by
  obtain ⟨h1, h2, h3, h4⟩ := hg
  exact ⟨h1, h2, h3, fun T hT hs => h4 T (hsub T hT hs) hs⟩

theorem entriesFrom_above {m : List BinaryData} {a : Nat} (hs : SortedMap m)
    (hf : findIter m a = none) : ∀ Q ∈ entriesFrom m a, a < Q.Address := by
  intro Q hQ
  cases hfr : entriesFrom m a with
  | nil => rw [hfr] at hQ; simp at hQ
  | cons X rest =>
    have hX := entriesFrom_head m a X rest hfr
    have hXne : X.Address ≠ a := by
      intro h
      unfold findIter at hf
      simp [hfr, h] at hf
    have hsorted : SortedMap (X :: rest) := by
      unfold SortedMap at *
      rw [← hfr]
      have := entriesBelow_append_entriesFrom m a
      rw [← this] at hs
      exact (List.pairwise_append.1 hs).2.1
    rw [hfr] at hQ
    rcases List.mem_cons.1 hQ with rfl | hQ
    · omega
    · unfold SortedMap at hsorted
      have := (List.pairwise_cons.1 hsorted).1 Q hQ
      omega

/-- What `fillHole` does to a well-formed map for a gap of the section: the map becomes
the map without the object at the first address of the gap, with the gap object put
in. -/
theorem fillHole_spec {BC : BinaryContext} {S : BinarySection} {h len : Nat}
    (hm : MapOK BC BC.BinaryDataMap) (hS : SecOK BC S)
    (hg : IsGap BC.BinaryDataMap S h len) :
    ∃ pre post,
      GapInsert BC S pre post (gapObject BC h len) h len ∧
      (fillHole S BC (h, len)).BinaryDataMap = filled pre post (gapObject BC h len) ∧
      (fillHole S BC (h, len)).AddressToSection = BC.AddressToSection ∧
      (fillHole S BC (h, len)).Sections = BC.Sections ∧
      (∀ X ∈ pre ++ post, X ∈ BC.BinaryDataMap) ∧
      (∀ X ∈ BC.BinaryDataMap, X.Address ≠ h → X ∈ pre ++ post) := by
  obtain ⟨hlen, hlo, hhi, hsolid⟩ := hg
  have hg : IsGap BC.BinaryDataMap S h len := ⟨hlen, hlo, hhi, hsolid⟩
  cases hf : findIter BC.BinaryDataMap h with
  | none =>
    have hget : getBinaryDataAtAddress BC.BinaryDataMap h = none := by
      simp [getBinaryDataAtAddress, hf]
    have happ := entriesBelow_append_entriesFrom BC.BinaryDataMap h
    refine ⟨entriesBelow BC.BinaryDataMap h, entriesFrom BC.BinaryDataMap h, ?_, ?_, ?_, ?_, ?_, ?_⟩
    · refine ⟨hS, by rw [happ]; exact hm, by rw [happ]; exact hg, entriesBelow_lt _ _,
        entriesFrom_above hm.sorted hf, ?_, ?_, ?_, ?_⟩
      · simp [gapObject, hget, newBinaryData]
      · simp [gapObject, hget, newBinaryData]
      · simp [gapObject, hget, newBinaryData]
      · simp only [gapObject, hget, newBinaryData]
        rw [hS.own h hlo (by omega)]
        rfl
    · have hg' : GapInsert BC S (entriesBelow BC.BinaryDataMap h) (entriesFrom BC.BinaryDataMap h)
          (gapObject BC h len) h len := by
        refine ⟨hS, by rw [happ]; exact hm, by rw [happ]; exact hg, entriesBelow_lt _ _,
          entriesFrom_above hm.sorted hf, ?_, ?_, ?_, ?_⟩
        · simp [gapObject, hget, newBinaryData]
        · simp [gapObject, hget, newBinaryData]
        · simp [gapObject, hget, newBinaryData]
        · simp only [gapObject, hget, newBinaryData]
          rw [hS.own h hlo (by omega)]
          rfl
      unfold filled
      rw [← hg'.update_eq]
      simp only [fillHole, hget, getOrCreateGlobalSymbol]
      rw [registerNameAtAddress_map_new _ _ _ _ _ _ hf]
      simp [gapObject, hget]
    · simp only [fillHole, hget, getOrCreateGlobalSymbol, registerNameAtAddress, hf]
    · simp only [fillHole, hget, getOrCreateGlobalSymbol, registerNameAtAddress, hf]
    · intro X hX; rw [happ] at hX; exact hX
    · intro X hX _; rw [happ]; exact hX
  | some r =>
    obtain ⟨pre, D, post⟩ := r
    obtain ⟨hmeq, hDa, hpre⟩ := findIter_some _ _ _ _ _ hf
    have hget : getBinaryDataAtAddress BC.BinaryDataMap h = some D := by
      simp [getBinaryDataAtAddress, hf]
    have hDm : D ∈ BC.BinaryDataMap := by rw [hmeq]; simp
    have hDS : D.Section = S :=
      obj_section_of_addr hm.inside hS hDm (by omega) (by omega)
    obtain ⟨hDp, hDz, -⟩ := inside_gap hm hS hg hDm hDS (by omega) (by omega)
    have hm' : MapOK BC (pre ++ D :: post) := by rw [← hmeq]; exact hm
    have hpost : ∀ Q ∈ post, h < Q.Address := by
      intro Q hQ
      have := hm'.sorted
      unfold SortedMap at this
      have := ((List.pairwise_cons.1 (List.pairwise_append.1 this).2.1).1 Q hQ)
      omega
    have hsub : ∀ X, X ∈ pre ++ post → X ∈ BC.BinaryDataMap := by
      intro X hX
      rw [hmeq]
      simp only [List.mem_append, List.mem_cons] at hX ⊢
      tauto
    have hg' : GapInsert BC S pre post (gapObject BC h len) h len := by
      refine ⟨hS, hm'.removeZero hDz, hg.mono (fun T hT _ => hsub T hT), hpre, hpost,
        ?_, ?_, ?_, ?_⟩
      · simp [gapObject, hget, hDa]
      · simp [gapObject, hget]
      · simp [gapObject, hget, hDp]
      · simp [gapObject, hget, hDS]
    refine ⟨pre, post, hg', ?_, ?_, ?_, hsub, ?_⟩
    · unfold filled
      rw [← hg'.update_eq]
      simp [fillHole, hget, hDS, setBinaryDataSize, hf, hDz, gapObject]
    · simp only [fillHole, hget, hDS, if_true]
    · simp only [fillHole, hget, hDS, if_true]
    · intro X hX hne
      rw [hmeq] at hX
      simp only [List.mem_append, List.mem_cons] at hX ⊢
      rcases hX with hX | rfl | hX
      · exact Or.inl hX
      · exact absurd hDa hne
      · exact Or.inr hX

/-- Two parentless objects of one section do not overlap. -/
theorem top_disjoint {BC : BinaryContext} {m : List BinaryData} {S : BinarySection}
    (hm : MapOK BC m) (hS : SecOK BC S) {X Y : BinaryData} (hX : X ∈ m) (hY : Y ∈ m)
    (hXS : X.Section = S) (hYS : Y.Section = S) (_hXp : X.Parent = none) (hYp : Y.Parent = none)
    (hlt : X.Address < Y.Address) : X.Address + X.Size ≤ Y.Address := by
  have hXb := obj_in_section hm.inside hS hX hXS
  have hYb := obj_in_section hm.inside hS hY hYS
  have hb := hS.bound
  have hl := hm.laminar X hX Y hY (by rw [hXS, hYS])
  have hn := (hm.nesting Y hY).2 hYp X hX (by rw [hXS, hYS]) (by omega)
  by_contra hc
  have : X.containsRange Y.Address Y.Size = true := by
    rw [containsRange_bounded (by omega) (by omega)]
    unfold LaminarPair at hl
    omega
  rw [this] at hn
  exact absurd hn (by decide)

/-- What the scan loop of `fixBinaryDataHoles` returns on a list of disjoint objects in
address order that start at or after `E`. -/
theorem scanHoles_spec : ∀ (L : List BinaryData) (E : Nat),
    (∀ X ∈ L, E ≤ X.Address ∧ X.Address + X.Size < 18446744073709551616) →
    L.Pairwise (fun X Y => X.Address + X.Size ≤ Y.Address) →
    E ≤ (scanHoles E L).1 ∧
    (∀ B, E ≤ B → (∀ X ∈ L, X.Address + X.Size ≤ B) → (scanHoles E L).1 ≤ B) ∧
    (∀ X ∈ L, X.Address + X.Size ≤ (scanHoles E L).1) ∧
    (∀ hole ∈ (scanHoles E L).2, 0 < hole.2 ∧ E ≤ hole.1 ∧
      hole.1 + hole.2 ≤ (scanHoles E L).1 ∧
      ∀ T ∈ L, T.Address + T.Size ≤ hole.1 ∨ hole.1 + hole.2 ≤ T.Address) ∧
    (scanHoles E L).2.Pairwise (fun a b => a.1 + a.2 ≤ b.1) ∧
    (∀ a, E ≤ a → a < (scanHoles E L).1 →
      (∃ X ∈ L, X.Address ≤ a ∧ a < X.Address + X.Size) ∨
      ∃ hole ∈ (scanHoles E L).2, hole.1 ≤ a ∧ a < hole.1 + hole.2) := by
  intro L
  induction L with
  | nil =>
    intro E _ _
    simp [scanHoles]
  | cons T rest ih =>
    intro E hE hp
    obtain ⟨hTE, hTb⟩ := hE T (by simp)
    rw [List.pairwise_cons] at hp
    have hend : T.getEndAddress = T.Address + T.Size := by
      simp [BinaryData.getEndAddress, wrap64, Nat.mod_eq_of_lt hTb]
    obtain ⟨i1, i2, i3, i4, i5, i6⟩ := ih (T.Address + T.Size)
      (fun X hX => ⟨hp.1 X hX, (hE X (by simp [hX])).2⟩) hp.2
    have hscan : scanHoles E (T :: rest) =
        if T.Address > E then
          ((scanHoles (T.Address + T.Size) rest).1,
            (E, T.Address - E) :: (scanHoles (T.Address + T.Size) rest).2)
        else scanHoles (T.Address + T.Size) rest := by
      simp [scanHoles, hend]
    rw [hscan]
    by_cases hgt : T.Address > E
    · simp only [hgt, if_true]
      refine ⟨by omega, ?_, ?_, ?_, ?_, ?_⟩
      · intro B hB hX
        exact i2 B (hX T (by simp)) (fun X hX' => hX X (by simp [hX']))
      · intro X hX
        rcases List.mem_cons.1 hX with rfl | hX
        · exact i1
        · exact i3 X hX
      · intro hole hh
        rcases List.mem_cons.1 hh with rfl | hh
        · refine ⟨by simp; omega, le_refl _, by simp; omega, ?_⟩
          intro T' hT'
          rcases List.mem_cons.1 hT' with rfl | hT'
          · right; simp; omega
          · right; have := hp.1 T' hT'; simp; omega
        · obtain ⟨j1, j2, j3, j4⟩ := i4 hole hh
          refine ⟨j1, by omega, j3, ?_⟩
          intro T' hT'
          rcases List.mem_cons.1 hT' with rfl | hT'
          · left; omega
          · exact j4 T' hT'
      · rw [List.pairwise_cons]
        refine ⟨?_, i5⟩
        intro hole hh
        have := (i4 hole hh).2.1
        simp; omega
      · intro a ha1 ha2
        by_cases h1 : a < T.Address
        · right
          exact ⟨(E, T.Address - E), by simp, by simp; omega⟩
        · by_cases h2 : a < T.Address + T.Size
          · left; exact ⟨T, by simp, by omega, h2⟩
          · rcases i6 a (by omega) ha2 with ⟨X, hX, hXa⟩ | ⟨hole, hh, hha⟩
            · left; exact ⟨X, by simp [hX], hXa⟩
            · right; exact ⟨hole, by simp [hh], hha⟩
    · simp only [hgt, if_false]
      refine ⟨by omega, ?_, ?_, ?_, i5, ?_⟩
      · intro B hB hX
        exact i2 B (hX T (by simp)) (fun X hX' => hX X (by simp [hX']))
      · intro X hX
        rcases List.mem_cons.1 hX with rfl | hX
        · exact i1
        · exact i3 X hX
      · intro hole hh
        obtain ⟨j1, j2, j3, j4⟩ := i4 hole hh
        refine ⟨j1, by omega, j3, ?_⟩
        intro T' hT'
        rcases List.mem_cons.1 hT' with rfl | hT'
        · left; omega
        · exact j4 T' hT'
      · intro a ha1 ha2
        by_cases h2 : a < T.Address + T.Size
        · left; exact ⟨T, by simp, by omega, h2⟩
        · rcases i6 a (by omega) ha2 with ⟨X, hX, hXa⟩ | ⟨hole, hh, hha⟩
          · left; exact ⟨X, by simp [hX], hXa⟩
          · right; exact ⟨hole, by simp [hh], hha⟩

/-- The holes that `fixBinaryDataHoles` computes for a section are the gaps of the
section. -/
theorem sectionHoles_inv {BC : BinaryContext} {m : List BinaryData} {S : BinarySection}
    (hm : MapOK BC m) (hS : SecOK BC S) : HolesInv m S (sectionHoles m S) := by
  have hb := hS.bound
  have hL : ∀ X ∈ m.filter (isNotHole S), X ∈ m ∧ isNotHole S X = true := by
    intro X hX
    exact List.mem_filter.1 hX
  have hbounds : ∀ X ∈ m.filter (isNotHole S),
      S.Address ≤ X.Address ∧ X.Address + X.Size ≤ S.Address + S.Size := by
    intro X hX
    obtain ⟨h1, h2⟩ := hL X hX
    exact obj_in_section hm.inside hS h1 (isNotHole_true h2).1
  have hchain : (m.filter (isNotHole S)).Pairwise
      (fun X Y => X.Address + X.Size ≤ Y.Address) := by
    have hs : (m.filter (isNotHole S)).Pairwise (fun X Y => X.Address < Y.Address) :=
      hm.sorted.sublist (List.filter_sublist _)
    have hs2 : (m.filter (isNotHole S)).Pairwise
        (fun X Y => X ∈ m.filter (isNotHole S) ∧ Y ∈ m.filter (isNotHole S) ∧
          X.Address < Y.Address) := by
      rw [List.pairwise_iff_forall_sublist] at hs ⊢
      intro a b hab
      exact ⟨hab.subset (by simp), hab.subset (by simp), hs hab⟩
    refine hs2.imp ?_
    rintro X Y ⟨hX, hY, hlt⟩
    obtain ⟨hX1, hX2⟩ := hL X hX
    obtain ⟨hY1, hY2⟩ := hL Y hY
    exact top_disjoint hm hS hX1 hY1 (isNotHole_true hX2).1 (isNotHole_true hY2).1
      (isNotHole_true hX2).2 (isNotHole_true hY2).2 hlt
  obtain ⟨s1, s2, s3, s4, s5, s6⟩ := scanHoles_spec (m.filter (isNotHole S)) S.Address
    (fun X hX => ⟨(hbounds X hX).1, by have := (hbounds X hX).2; omega⟩) hchain
  have hle := s2 (S.Address + S.Size) (by omega) (fun X hX => (hbounds X hX).2)
  have hSend : S.getEndAddress = S.Address + S.Size := by
    simp [BinarySection.getEndAddress, wrap64, Nat.mod_eq_of_lt hb]
  have hgap_of : ∀ hole ∈ (scanHoles S.Address (m.filter (isNotHole S))).2,
      IsGap m S hole.1 hole.2 := by
    intro hole hh
    obtain ⟨j1, j2, j3, j4⟩ := s4 hole hh
    refine ⟨j1, j2, by omega, ?_⟩
    intro T hT hTs
    exact j4 T (List.mem_filter.2 ⟨hT, hTs⟩)
  unfold sectionHoles
  simp only [hSend]
  by_cases hend : (scanHoles S.Address (m.filter (isNotHole S))).1 < S.Address + S.Size
  · simp only [hend, if_true]
    refine ⟨?_, ?_, ?_⟩
    · intro hole hh
      rcases List.mem_append.1 hh with hh | hh
      · exact hgap_of hole hh
      · simp only [List.mem_singleton] at hh
        subst hh
        refine ⟨by simp; omega, s1, by simp; omega, ?_⟩
        intro T hT hTs
        left
        exact s3 T (List.mem_filter.2 ⟨hT, hTs⟩)
    · rw [List.pairwise_append]
      refine ⟨s5, by simp, ?_⟩
      intro a ha b hb'
      simp only [List.mem_singleton] at hb'
      subst hb'
      exact (s4 a ha).2.2.1
    · intro a ha1 ha2
      by_cases hlt : a < (scanHoles S.Address (m.filter (isNotHole S))).1
      · rcases s6 a ha1 hlt with ⟨X, hX, hXa⟩ | ⟨hole, hh, hha⟩
        · left; exact ⟨X, (hL X hX).1, (hL X hX).2, hXa⟩
        · right; exact ⟨hole, List.mem_append.2 (Or.inl hh), hha⟩
      · right
        exact ⟨_, List.mem_append.2 (Or.inr (List.mem_singleton.2 rfl)), by simp; omega⟩
  · simp only [hend, if_false]
    refine ⟨hgap_of, s5, ?_⟩
    intro a ha1 ha2
    rcases s6 a ha1 (by omega) with ⟨X, hX, hXa⟩ | ⟨hole, hh, hha⟩
    · left; exact ⟨X, (hL X hX).1, (hL X hX).2, hXa⟩
    · right; exact ⟨hole, hh, hha⟩

/-- When no hole is left, the parentless objects of the section cover it exactly. -/
theorem covered_of_no_holes {BC : BinaryContext} {m : List BinaryData} {S : BinarySection}
    (hm : MapOK BC m) (hS : SecOK BC S) (hinv : HolesInv m S []) : Covered m S := by
  refine ⟨?_, ?_⟩
  · intro X hX Y hY hXS hYS hXp hYp hne
    rcases Nat.lt_or_gt_of_ne hne with hlt | hlt
    · left; exact top_disjoint hm hS hX hY hXS hYS hXp hYp hlt
    · right; exact top_disjoint hm hS hY hX hYS hXS hYp hXp hlt
  · intro a
    constructor
    · rintro ⟨h1, h2⟩
      rcases hinv.covering a h1 h2 with ⟨X, hX, hXs, hXa⟩ | ⟨hole, hh, -⟩
      · exact ⟨X, hX, (isNotHole_true hXs).1, (isNotHole_true hXs).2, hXa⟩
      · simp at hh
    · rintro ⟨X, hX, hXS, -, h1, h2⟩
      have := obj_in_section hm.inside hS hX hXS
      omega

/-- One iteration of the loop over the holes of a section. -/
theorem fillHole_step {BC : BinaryContext} {S : BinarySection} {hole : Nat × Nat}
    {rest : List (Nat × Nat)} (hm : MapOK BC BC.BinaryDataMap) (hS : SecOK BC S)
    (hinv : HolesInv BC.BinaryDataMap S (hole :: rest)) :
    MapOK (fillHole S BC hole) (fillHole S BC hole).BinaryDataMap ∧
    (fillHole S BC hole).AddressToSection = BC.AddressToSection ∧
    (fillHole S BC hole).Sections = BC.Sections ∧
    HolesInv (fillHole S BC hole).BinaryDataMap S rest ∧
    (∀ X ∈ BC.BinaryDataMap, X.Size ≠ 0 → X ∈ (fillHole S BC hole).BinaryDataMap) ∧
    (∀ X, (X.Address < hole.1 ∨ hole.1 + hole.2 ≤ X.Address) →
      (X ∈ (fillHole S BC hole).BinaryDataMap ↔ X ∈ BC.BinaryDataMap)) ∧
    (∀ X, X.Section ≠ S →
      (X ∈ (fillHole S BC hole).BinaryDataMap ↔ X ∈ BC.BinaryDataMap)) ∧
    gapObject BC hole.1 hole.2 ∈ (fillHole S BC hole).BinaryDataMap := by
  obtain ⟨h, len⟩ := hole
  have hg : IsGap BC.BinaryDataMap S h len := hinv.gaps (h, len) (by simp)
  obtain ⟨pre, post, g, hmap, hsec, hsecs, hsub, hsup⟩ := fillHole_spec hm hS hg
  obtain ⟨hlen, hlo, hhi, hsolid⟩ := hg
  have hg : IsGap BC.BinaryDataMap S h len := ⟨hlen, hlo, hhi, hsolid⟩
  have hord := List.pairwise_cons.1 hinv.ordered
  -- objects outside the gap are kept as they are
  have hout : ∀ X, (X.Address < h ∨ h + len ≤ X.Address) →
      (X ∈ filled pre post (gapObject BC h len) ↔ X ∈ BC.BinaryDataMap) := by
    intro X hXo
    constructor
    · intro hX
      rcases mem_filled.1 hX with rfl | ⟨Q, hQ, rfl⟩
      · rw [g.addr] at hXo; omega
      · rw [absorbIf_Address] at hXo
        have : (gapObject BC h len).containsRange Q.Address Q.Size = false := by
          by_contra hc
          simp only [Bool.not_eq_false] at hc
          have := g.contained hQ hc
          omega
        rw [absorbIf_of_not this]
        exact hsub Q hQ
    · intro hX
      exact g.filled_keeps (hsup X hX (by omega)) hXo
  have hsized : ∀ X ∈ BC.BinaryDataMap, X.Size ≠ 0 →
      X.Address < h ∨ h + len ≤ X.Address := by
    intro X hX hz
    by_contra hc
    have hXS : X.Section = S := obj_section_of_addr hm.inside hS hX (by omega) (by omega)
    exact hz (inside_gap hm hS hg hX hXS (by omega) (by omega)).2.1
  refine ⟨?_, hsec, hsecs, ?_, ?_, ?_, ?_, ?_⟩
  · rw [hmap]
    exact g.filled_ok.congrSections hsec.symm
  · rw [hmap]
    refine ⟨?_, hord.2, ?_⟩
    · intro hole' hh'
      obtain ⟨k1, k2, k3, k4⟩ := hinv.gaps hole' (by simp [hh'])
      refine ⟨k1, k2, k3, ?_⟩
      intro T hT hTs
      rcases g.filled_solid hT hTs with rfl | hTo
      · left
        rw [g.addr, g.size]
        exact hord.1 hole' hh'
      · exact k4 T (hsub T hTo) hTs
    · intro a ha1 ha2
      rcases hinv.covering a ha1 ha2 with ⟨X, hX, hXs, hXa⟩ | ⟨hole', hh', hha⟩
      · left
        refine ⟨X, (hout X (hsized X hX (by omega))).2 hX, hXs, hXa⟩
      · rcases List.mem_cons.1 hh' with rfl | hh'
        · left
          refine ⟨gapObject BC h len, mem_filled.2 (Or.inl rfl), ?_, ?_⟩
          · exact isNotHole_of_size g.section_eq g.parent (by rw [g.size]; omega)
          · rw [g.addr, g.size]; exact hha
        · right; exact ⟨hole', hh', hha⟩
  · intro X hX hz
    rw [hmap]
    exact (hout X (hsized X hX hz)).2 hX
  · intro X hXo
    rw [hmap]
    exact hout X hXo
  · intro X hXS
    rw [hmap, g.filled_frame hXS]
    constructor
    · exact hsub X
    · intro hX
      apply hsup X hX
      intro ha
      exact hXS (obj_section_of_addr hm.inside hS hX (by omega) (by omega))
  · rw [hmap]
    exact mem_filled.2 (Or.inl rfl)

theorem getBinaryDataAtAddress_eq_some {m : List BinaryData} (hs : SortedMap m) {a : Nat}
    {D : BinaryData} (hD : D ∈ m) (ha : D.Address = a) :
    getBinaryDataAtAddress m a = some D := by
  cases hget : getBinaryDataAtAddress m a with
  | some Q =>
    obtain ⟨hQ, hQa⟩ := getBinaryDataAtAddress_some hget
    rw [sorted_addr_inj hs hQ hD (by omega)]
  | none =>
    exfalso
    unfold getBinaryDataAtAddress at hget
    simp only [Option.map_eq_none'] at hget
    have hfrom := entriesFrom_above hs hget
    have hbelow := entriesBelow_lt m a
    have : D ∈ entriesBelow m a ++ entriesFrom m a := by
      rw [entriesBelow_append_entriesFrom]; exact hD
    rcases List.mem_append.1 this with h | h
    · have := hbelow D h; omega
    · have := hfrom D h; omega

/-- The object registered at an address is determined by the objects at that address. -/
theorem getBinaryDataAtAddress_congr {m m' : List BinaryData} (hs : SortedMap m)
    (hs' : SortedMap m') {a : Nat}
    (h : ∀ X, X.Address = a → (X ∈ m' ↔ X ∈ m)) :
    getBinaryDataAtAddress m' a = getBinaryDataAtAddress m a := by
  cases hget : getBinaryDataAtAddress m a with
  | some Q =>
    obtain ⟨hQ, hQa⟩ := getBinaryDataAtAddress_some hget
    exact getBinaryDataAtAddress_eq_some hs' ((h Q hQa).2 hQ) hQa
  | none =>
    cases hget' : getBinaryDataAtAddress m' a with
    | none => rfl
    | some Q =>
      obtain ⟨hQ, hQa⟩ := getBinaryDataAtAddress_some hget'
      rw [getBinaryDataAtAddress_eq_some hs ((h Q hQa).1 hQ) hQa] at hget
      exact absurd hget (by simp)

theorem gapObject_congr {BC BC' : BinaryContext} (hs : SortedMap BC.BinaryDataMap)
    (hs' : SortedMap BC'.BinaryDataMap) (hsec : BC'.AddressToSection = BC.AddressToSection)
    {h len : Nat} (hm : ∀ X, X.Address = h → (X ∈ BC'.BinaryDataMap ↔ X ∈ BC.BinaryDataMap)) :
    gapObject BC' h len = gapObject BC h len := by
  unfold gapObject
  rw [getBinaryDataAtAddress_congr hs hs' hm]
  cases getBinaryDataAtAddress BC.BinaryDataMap h with
  | some D => rfl
  | none =>
    simp only [newBinaryData]
    rw [getSectionForAddress_congr hsec]

/-- The loop over the holes of a section. -/
theorem fillHoles_fold {S : BinarySection} : ∀ (holes : List (Nat × Nat)) (BC : BinaryContext),
    MapOK BC BC.BinaryDataMap → SecOK BC S → HolesInv BC.BinaryDataMap S holes →
    MapOK (holes.foldl (fillHole S) BC) (holes.foldl (fillHole S) BC).BinaryDataMap ∧
    (holes.foldl (fillHole S) BC).AddressToSection = BC.AddressToSection ∧
    (holes.foldl (fillHole S) BC).Sections = BC.Sections ∧
    Covered (holes.foldl (fillHole S) BC).BinaryDataMap S ∧
    (∀ X ∈ BC.BinaryDataMap, X.Size ≠ 0 → X ∈ (holes.foldl (fillHole S) BC).BinaryDataMap) ∧
    (∀ X, X.Section ≠ S →
      (X ∈ (holes.foldl (fillHole S) BC).BinaryDataMap ↔ X ∈ BC.BinaryDataMap)) ∧
    (∀ hole ∈ holes,
      gapObject BC hole.1 hole.2 ∈ (holes.foldl (fillHole S) BC).BinaryDataMap) := by
  intro holes
  induction holes with
  | nil =>
    intro BC hm hS hinv
    show MapOK BC BC.BinaryDataMap ∧ BC.AddressToSection = BC.AddressToSection ∧
      BC.Sections = BC.Sections ∧ Covered BC.BinaryDataMap S ∧
      (∀ X ∈ BC.BinaryDataMap, X.Size ≠ 0 → X ∈ BC.BinaryDataMap) ∧
      (∀ X, X.Section ≠ S → (X ∈ BC.BinaryDataMap ↔ X ∈ BC.BinaryDataMap)) ∧
      (∀ hole ∈ ([] : List (Nat × Nat)), gapObject BC hole.1 hole.2 ∈ BC.BinaryDataMap)
    exact ⟨hm, rfl, rfl, covered_of_no_holes hm hS hinv, fun X hX _ => hX,
      fun X _ => Iff.rfl, by simp⟩
  | cons hole rest ih =>
    intro BC hm hS hinv
    obtain ⟨s1, s2, s3, s4, s5, s6, s7, s8⟩ := fillHole_step hm hS hinv
    obtain ⟨t1, t2, t3, t4, t5, t6, t7⟩ := ih (fillHole S BC hole) s1 (hS.congrSec s2.symm) s4
    simp only [List.foldl_cons]
    refine ⟨t1, by rw [t2, s2], by rw [t3, s3], t4, ?_, ?_, ?_⟩
    · intro X hX hz
      exact t5 X (s5 X hX hz) hz
    · intro X hXS
      rw [t6 X hXS, s7 X hXS]
    · intro hole' hh'
      have hgz : (gapObject BC hole.1 hole.2).Size ≠ 0 := by
        obtain ⟨h, len⟩ := hole
        have hg : IsGap BC.BinaryDataMap S h len := hinv.gaps (h, len) (by simp)
        obtain ⟨pre, post, g, -⟩ := fillHole_spec hm hS hg
        rw [g.size]
        have := g.len_pos
        omega
      rcases List.mem_cons.1 hh' with rfl | hh'
      · exact t5 _ s8 hgz
      · have hord := (List.pairwise_cons.1 hinv.ordered).1 hole' hh'
        have hpos := (hinv.gaps hole (by simp)).1
        have : gapObject (fillHole S BC hole) hole'.1 hole'.2 = gapObject BC hole'.1 hole'.2 := by
          apply gapObject_congr hm.sorted s1.sorted s2
          intro X hXa
          exact s6 X (by omega)
        rw [← this]
        exact t7 hole' hh'

/-- The body of the loop over the sections, for one allocatable section that owns its
range: the section ends up covered, objects with a size stay, and so do the objects of
other sections. -/
theorem fixSectionHoles_spec {BC : BinaryContext} {S : BinarySection}
    (hm : MapOK BC BC.BinaryDataMap) (hS : SecOK BC S) :
    MapOK (fixSectionHoles BC S) (fixSectionHoles BC S).BinaryDataMap ∧
    (fixSectionHoles BC S).AddressToSection = BC.AddressToSection ∧
    (fixSectionHoles BC S).Sections = BC.Sections ∧
    Covered (fixSectionHoles BC S).BinaryDataMap S ∧
    (∀ X ∈ BC.BinaryDataMap, X.Size ≠ 0 → X ∈ (fixSectionHoles BC S).BinaryDataMap) ∧
    (∀ X, X.Section ≠ S →
      (X ∈ (fixSectionHoles BC S).BinaryDataMap ↔ X ∈ BC.BinaryDataMap)) ∧
    (∀ hole ∈ sectionHoles BC.BinaryDataMap S,
      gapObject BC hole.1 hole.2 ∈ (fixSectionHoles BC S).BinaryDataMap) :=
  fillHoles_fold (sectionHoles BC.BinaryDataMap S) BC hm hS (sectionHoles_inv hm hS)

theorem Covered.congrCovered {m m' : List BinaryData} {S : BinarySection}
    (h : ∀ X, X.Section = S → (X ∈ m' ↔ X ∈ m)) (hc : Covered m S) : Covered m' S := by
  obtain ⟨c1, c2⟩ := hc
  refine ⟨?_, ?_⟩
  · intro X hX Y hY hXS hYS
    exact c1 X ((h X hXS).1 hX) Y ((h Y hYS).1 hY) hXS hYS
  · intro a
    rw [c2 a]
    constructor
    · rintro ⟨X, hX, hXS, hr⟩
      exact ⟨X, (h X hXS).2 hX, hXS, hr⟩
    · rintro ⟨X, hX, hXS, hr⟩
      exact ⟨X, (h X hXS).1 hX, hXS, hr⟩

/-- The loop over the sections. -/
theorem sections_fold : ∀ (secs : List BinarySection) (BC : BinaryContext),
    MapOK BC BC.BinaryDataMap → (∀ S ∈ secs, SecOK BC S) →
    MapOK (secs.foldl fixSectionHoles BC) (secs.foldl fixSectionHoles BC).BinaryDataMap ∧
    (secs.foldl fixSectionHoles BC).AddressToSection = BC.AddressToSection ∧
    (∀ S ∈ secs, Covered (secs.foldl fixSectionHoles BC).BinaryDataMap S) ∧
    (∀ X ∈ BC.BinaryDataMap, X.Size ≠ 0 → X ∈ (secs.foldl fixSectionHoles BC).BinaryDataMap) ∧
    (∀ X, (∀ S ∈ secs, X.Section ≠ S) →
      (X ∈ (secs.foldl fixSectionHoles BC).BinaryDataMap ↔ X ∈ BC.BinaryDataMap)) := by
  intro secs
  induction secs with
  | nil =>
    intro BC hm _
    exact ⟨hm, rfl, by simp, fun X hX _ => hX, fun X _ => Iff.rfl⟩
  | cons S rest ih =>
    intro BC hm hsecs
    obtain ⟨s1, s2, -, s4, s5, s6, -⟩ := fixSectionHoles_spec hm (hsecs S (by simp))
    obtain ⟨t1, t2, t3, t4, t5⟩ := ih (fixSectionHoles BC S) s1
      (fun S' hS' => (hsecs S' (by simp [hS'])).congrSec s2.symm)
    simp only [List.foldl_cons]
    refine ⟨t1, by rw [t2, s2], ?_, ?_, ?_⟩
    · intro S' hS'
      by_cases hin : S' ∈ rest
      · exact t3 S' hin
      · have hSS : S' = S := by
          rcases List.mem_cons.1 hS' with h | h
          · exact h
          · exact absurd h hin
        subst hSS
        apply Covered.congrCovered _ s4
        intro X hXS
        apply t5 X
        intro S'' hS''
        rw [hXS]
        intro heq
        exact hin (heq ▸ hS'')
    · intro X hX hz
      exact t4 X (s5 X hX hz) hz
    · intro X hX
      rw [t5 X (fun S' hS' => hX S' (by simp [hS'])), s6 X (hX S (by simp))]

theorem IndexOK.mapOK {BC : BinaryContext} (h : IndexOK BC) : MapOK BC BC.BinaryDataMap :=
  ⟨h.sorted, h.inside, h.laminar, h.nesting⟩

theorem IndexOK.secOK {BC : BinaryContext} (h : IndexOK BC) {S : BinarySection}
    (hS : S ∈ allocatableSections BC) : SecOK BC S := by
  unfold allocatableSections at hS
  obtain ⟨h1, h2⟩ := List.mem_filter.1 hS
  obtain ⟨h3, h4⟩ := h.sections S h1 h2
  exact ⟨h2, h3, h4⟩

/-- Claim C2 (amended). When no allocatable section is overlapped and the index is
laminar, validly nested and has its objects inside their sections, then after
`fixBinaryDataHoles` the parentless objects of every allocatable section are pairwise
disjoint and the union of their ranges is exactly the range of the section. -/
theorem fixBinaryDataHoles_coverage (BC : BinaryContext) (h : IndexOK BC) :
    ∀ S ∈ allocatableSections BC, Covered (fixBinaryDataHoles BC).BinaryDataMap S :=
  (sections_fold (allocatableSections BC) BC h.mapOK (fun _ hS => h.secOK hS)).2.2.1

theorem scanHoles_end : ∀ (L : List BinaryData) (E : Nat),
    ∀ hole ∈ (scanHoles E L).2, ∃ T ∈ L, T.Address = hole.1 + hole.2 ∧ hole.1 < T.Address := by
  intro L
  induction L with
  | nil => intro E hole hh; simp [scanHoles] at hh
  | cons T rest ih =>
    intro E hole hh
    unfold scanHoles at hh
    simp only at hh
    split at hh
    · rcases List.mem_cons.1 hh with rfl | hh
      · exact ⟨T, by simp, by simp; omega, by simpa using ‹T.Address > E›⟩
      · obtain ⟨T', hT', h'⟩ := ih _ hole hh
        exact ⟨T', by simp [hT'], h'⟩
    · obtain ⟨T', hT', h'⟩ := ih _ hole hh
      exact ⟨T', by simp [hT'], h'⟩

/-- Every hole that the scan of a section finds ends at the end of the section or at the
start of a visited object. -/
theorem sectionHoles_end {BC : BinaryContext} {m : List BinaryData} {S : BinarySection}
    (hS : SecOK BC S) :
    ∀ hole ∈ sectionHoles m S, hole.1 + hole.2 = S.Address + S.Size ∨
      ∃ T ∈ m, isNotHole S T = true ∧ T.Address = hole.1 + hole.2 := by
  intro hole hh
  have hb := hS.bound
  have hSend : S.getEndAddress = S.Address + S.Size := by
    simp [BinarySection.getEndAddress, wrap64, Nat.mod_eq_of_lt hb]
  have hscan : ∀ hole ∈ (scanHoles S.Address (m.filter (isNotHole S))).2,
      ∃ T ∈ m, isNotHole S T = true ∧ T.Address = hole.1 + hole.2 := by
    intro hole hh
    obtain ⟨T, hT, h', -⟩ := scanHoles_end _ _ hole hh
    obtain ⟨h1, h2⟩ := List.mem_filter.1 hT
    exact ⟨T, h1, h2, h'⟩
  unfold sectionHoles at hh
  simp only [hSend] at hh
  split at hh
  · rcases List.mem_append.1 hh with hh | hh
    · exact Or.inr (hscan hole hh)
    · simp only [List.mem_singleton] at hh
      subst hh
      left; simp; omega
  · exact Or.inr (hscan hole hh)

/-- Every gap of a section is one of the holes that the scan finds. -/
theorem sectionHoles_complete {BC : BinaryContext} {m : List BinaryData} {S : BinarySection}
    (hm : MapOK BC m) (hS : SecOK BC S) {g e : Nat} (hgap : IsMaximalGap m S g e) :
    (g, e - g) ∈ sectionHoles m S := by
  obtain ⟨⟨k1, k2, k3, k4⟩, hlt, hstart, hend⟩ := hgap
  have hinv := sectionHoles_inv hm hS
  rcases hinv.covering g k2 (by omega) with ⟨X, hX, hXs, h1, h2⟩ | ⟨hole, hh, h1, h2⟩
  · rcases k4 X hX hXs with h | h <;> omega
  · obtain ⟨j1, j2, j3, j4⟩ := hinv.gaps hole hh
    have hg : hole.1 = g := by
      clear hend
      rcases hstart with h | ⟨T, hT, hTs, hTe⟩
      · omega
      · rcases j4 T hT hTs with h | h <;> omega
    clear hstart
    have hle : e ≤ hole.1 + hole.2 := by
      clear hend
      rcases sectionHoles_end hS hole hh with h | ⟨T, hT, hTs, hTa⟩
      · omega
      · rcases k4 T hT hTs with h | h <;> omega
    have hge : hole.1 + hole.2 ≤ e := by
      rcases hend with h | ⟨T, hT, hTs, hTa⟩
      · omega
      · rcases j4 T hT hTs with h | h <;> omega
    clear hend
    have : hole = (g, e - g) := by
      obtain ⟨a, b⟩ := hole
      simp only [Prod.mk.injEq] at *
      omega
    rw [← this]
    exact hh

theorem IsMaximalGap.congrGap {m m' : List BinaryData} {S : BinarySection} {g e : Nat}
    (h : ∀ X, X.Section = S → (X ∈ m' ↔ X ∈ m)) (hg : IsMaximalGap m S g e) :
    IsMaximalGap m' S g e := by
  obtain ⟨⟨k1, k2, k3, k4⟩, hlt, hstart, hend⟩ := hg
  refine ⟨⟨k1, k2, k3, ?_⟩, hlt, ?_, ?_⟩
  · intro T hT hTs
    exact k4 T ((h T (isNotHole_true hTs).1).1 hT) hTs
  · rcases hstart with h' | ⟨T, hT, hTs, hTe⟩
    · exact Or.inl h'
    · exact Or.inr ⟨T, (h T (isNotHole_true hTs).1).2 hT, hTs, hTe⟩
  · rcases hend with h' | ⟨T, hT, hTs, hTe⟩
    · exact Or.inl h'
    · exact Or.inr ⟨T, (h T (isNotHole_true hTs).1).2 hT, hTs, hTe⟩

/-- The loop over the sections puts the gap object into every gap of its sections. -/
theorem sections_gap {S : BinarySection} {g e : Nat} :
    ∀ (secs : List BinarySection) (BC : BinaryContext),
    MapOK BC BC.BinaryDataMap → (∀ S' ∈ secs, SecOK BC S') → S ∈ secs →
    IsMaximalGap BC.BinaryDataMap S g e →
    gapObject BC g (e - g) ∈ (secs.foldl fixSectionHoles BC).BinaryDataMap := by
  intro secs
  induction secs with
  | nil => intro BC _ _ hS; simp at hS
  | cons S' rest ih =>
    intro BC hm hsecs hS hgap
    have hS'ok := hsecs S' (by simp)
    obtain ⟨s1, s2, -, -, -, s6, s7⟩ := fixSectionHoles_spec hm hS'ok
    have hrest : ∀ S'' ∈ rest, SecOK (fixSectionHoles BC S') S'' :=
      fun S'' hS'' => (hsecs S'' (by simp [hS''])).congrSec s2.symm
    simp only [List.foldl_cons]
    by_cases heq : S' = S
    · subst heq
      have hin := s7 _ (sectionHoles_complete hm hS'ok hgap)
      have hz : (gapObject BC g (e - g)).Size ≠ 0 := by
        obtain ⟨pre, post, gi, -⟩ := fillHole_spec hm hS'ok hgap.1
        rw [gi.size]
        have := hgap.2.1
        omega
      exact (sections_fold rest _ s1 hrest).2.2.2.1 _ hin hz
    · have hSr : S ∈ rest := by
        rcases List.mem_cons.1 hS with h | h
        · exact absurd h.symm heq
        · exact h
      have hSok := hsecs S hS
      have hframe : ∀ X, X.Section = S →
          (X ∈ (fixSectionHoles BC S').BinaryDataMap ↔ X ∈ BC.BinaryDataMap) :=
        fun X hXS => s6 X (by rw [hXS]; exact fun h => heq h.symm)
      have hgo : gapObject (fixSectionHoles BC S') g (e - g) = gapObject BC g (e - g) := by
        apply gapObject_congr hm.sorted s1.sorted s2
        intro X hXa
        obtain ⟨k1, k2, k3, -⟩ := hgap.1
        constructor
        · intro hX
          have := obj_section_of_addr s1.inside (hSok.congrSec s2.symm) hX (by omega) (by omega)
          exact (hframe X this).1 hX
        · intro hX
          have := obj_section_of_addr hm.inside hSok hX (by omega) (by omega)
          exact (hframe X this).2 hX
      rw [← hgo]
      exact ih _ s1 hrest hSr (hgap.congrGap hframe)

/-! ### Nesting maintenance changes parent links only -/

theorem fixParentsTail_core (o n : Option Nat) (l : List BinaryData) :
    (fixParentsTail o n l).map (fun X => X.setParent none) = l.map (fun X => X.setParent none) := by
  induction l with
  | nil => simp [fixParentsTail]
  | cons X rest ih =>
    unfold fixParentsTail
    split
    · rw [List.map_cons, List.map_cons, ih]
      rfl
    · rfl

theorem absorbFollowing_core (BD : BinaryData) (l : List BinaryData) :
    (absorbFollowing BD l).map (fun X => X.setParent none) =
      l.map (fun X => X.setParent none) := by
  induction l with
  | nil => simp [absorbFollowing]
  | cons X rest ih =>
    unfold absorbFollowing
    split
    · rw [List.map_cons, List.map_cons, ih]
      rfl
    · rfl

theorem walkPrev_core (pre : List BinaryData) (fuel : Nat) (p : Option Nat) (GAI : BinaryData)
    (post : List BinaryData) :
    (walkPrev pre fuel p GAI post).2.map (fun X => X.setParent none) =
      post.map (fun X => X.setParent none) := by
  induction fuel generalizing p GAI post with
  | zero => simp [walkPrev]
  | succ n ih =>
    cases p with
    | none => simp [walkPrev]
    | some q =>
      simp only [walkPrev]
      split
      · rfl
      · rw [ih, fixParentsTail_core]

/-- `updateObjectNesting` changes nothing but parent links. -/
theorem updateObjectNesting_core (pre : List BinaryData) (GAI : BinaryData)
    (post : List BinaryData) :
    (updateObjectNesting pre GAI post).map (fun X => X.setParent none) =
      (pre ++ GAI :: post).map (fun X => X.setParent none) := by
  unfold updateObjectNesting
  simp only
  cases pre.getLast? with
  | none =>
    simp only
    split
    · split <;> simp [absorbFollowing_core]
    · rfl
  | some Prev =>
    simp only
    have h1 := walkPrev_fields pre (pre.length + post.length + 1) (some Prev.Address) GAI post
    have h2 := walkPrev_core pre (pre.length + post.length + 1) (some Prev.Address) GAI post
    split
    · simp only [List.map_append, List.map_cons, absorbFollowing_core, h1, h2]
    · simp only [List.map_append, List.map_cons, h1, h2]

theorem mem_of_core_eq {m m' : List BinaryData}
    (h : m'.map (fun X => X.setParent none) = m.map (fun X => X.setParent none))
    {X : BinaryData} (hX : X ∈ m') :
    ∃ Y ∈ m, Y.Address = X.Address ∧ Y.Size = X.Size ∧ Y.Section = X.Section ∧
      Y.Symbols = X.Symbols := by
  have : X.setParent none ∈ m'.map (fun X => X.setParent none) := List.mem_map.2 ⟨X, hX, rfl⟩
  rw [h] at this
  obtain ⟨Y, hY, hYX⟩ := List.mem_map.1 this
  have := setParent_none_eq hYX
  exact ⟨Y, hY, this.1, this.2.2.1, this.2.2.2, this.2.1⟩

/-- Laminarity depends on the ranges and sections of the objects only. -/
theorem Laminar.ofCore {m m' : List BinaryData}
    (h : m'.map (fun X => X.setParent none) = m.map (fun X => X.setParent none))
    (hl : Laminar m) : Laminar m' := by
  intro X hX Y hY hXY
  obtain ⟨X0, hX0, a1, a2, a3, -⟩ := mem_of_core_eq h hX
  obtain ⟨Y0, hY0, b1, b2, b3, -⟩ := mem_of_core_eq h hY
  have := hl X0 hX0 Y0 hY0 (by rw [a3, b3, hXY])
  exact laminarPair_congr a1.symm a2.symm b1.symm b2.symm this

/-- Putting an object into a laminar map, or replacing one, keeps the map laminar when
the range of the object is disjoint from or nested with the others of its section. -/
theorem Laminar.insertObj {pre post : List BinaryData} {G : BinaryData}
    (hl : Laminar (pre ++ post))
    (hG : ∀ X ∈ pre ++ post, X.Section = G.Section → LaminarPair X G) :
    Laminar (pre ++ G :: post) := by
  intro X hX Y hY hXY
  have hmem : ∀ Z, Z ∈ pre ++ G :: post → Z = G ∨ Z ∈ pre ++ post := by
    intro Z hZ
    simp only [List.mem_append, List.mem_cons] at hZ ⊢
    tauto
  rcases hmem X hX with rfl | hX' <;> rcases hmem Y hY with rfl | hY'
  · unfold LaminarPair; omega
  · exact laminarPair_symm (hG Y hY' hXY.symm)
  · exact hG X hX' hXY
  · exact hl X hX' Y hY' hXY

theorem Laminar.removeObj {pre post : List BinaryData} {D : BinaryData}
    (hl : Laminar (pre ++ D :: post)) : Laminar (pre ++ post) := by
  intro X hX Y hY
  apply hl
  · simp only [List.mem_append, List.mem_cons] at hX ⊢; tauto
  · simp only [List.mem_append, List.mem_cons] at hY ⊢; tauto

theorem SortedMap.sortedOfCore {m m' : List BinaryData}
    (h : m'.map (fun X => X.setParent none) = m.map (fun X => X.setParent none))
    (hs : SortedMap m) : SortedMap m' := by
  have key : ∀ l : List BinaryData, SortedMap l ↔
      (l.map (fun X => X.setParent none)).Pairwise (fun X Y => X.Address < Y.Address) := by
    intro l
    unfold SortedMap
    rw [List.pairwise_map]
    rfl
  rw [key] at hs ⊢
  rw [h]; exact hs

theorem SortedMap.insertSorted {pre post : List BinaryData} {G : BinaryData}
    (hs : SortedMap (pre ++ post)) (h1 : ∀ X ∈ pre, X.Address < G.Address)
    (h2 : ∀ X ∈ post, G.Address < X.Address) : SortedMap (pre ++ G :: post) := by
  unfold SortedMap at *
  rw [List.pairwise_append] at hs ⊢
  refine ⟨hs.1, List.pairwise_cons.2 ⟨h2, hs.2.1⟩, ?_⟩
  intro X hX Y hY
  rcases List.mem_cons.1 hY with rfl | hY
  · exact h1 X hX
  · exact hs.2.2 X hX Y hY

theorem SortedMap.replace {pre post : List BinaryData} {D G : BinaryData}
    (hs : SortedMap (pre ++ D :: post)) (h : G.Address = D.Address) :
    SortedMap (pre ++ G :: post) := by
  unfold SortedMap at *
  rw [List.pairwise_append, List.pairwise_cons] at hs ⊢
  refine ⟨hs.1, ⟨fun X hX => by rw [h]; exact hs.2.1.1 X hX, hs.2.1.2⟩, ?_⟩
  intro X hX Y hY
  rcases List.mem_cons.1 hY with rfl | hY
  · rw [h]; exact hs.2.2 X hX D (by simp)
  · exact hs.2.2 X hX Y (by simp [hY])

/-- Replacing the object at an address by one of the same address and section keeps the
map sorted and, when the new range is admissible, laminar. -/
theorem replace_ok {pre post : List BinaryData} {D G : BinaryData}
    (hs : SortedMap (pre ++ D :: post)) (hl : Laminar (pre ++ D :: post))
    (ha : G.Address = D.Address) (hsec : G.Section = D.Section)
    (hadm : RangeAdmissible (pre ++ D :: post) D.Section D.Address G.Size) :
    SortedMap (pre ++ G :: post) ∧ Laminar (pre ++ G :: post) := by
  refine ⟨hs.replace ha, Laminar.insertObj hl.removeObj ?_⟩
  intro X hX hXS
  have hXm : X ∈ pre ++ D :: post := by
    simp only [List.mem_append, List.mem_cons] at hX ⊢; tauto
  have hne : X.Address ≠ D.Address := by
    intro h
    have := sorted_addr_inj hs hXm (by simp) h
    subst this
    unfold SortedMap at hs
    rw [List.pairwise_append, List.pairwise_cons] at hs
    rcases List.mem_append.1 hX with hX | hX
    · have := hs.2.2 X hX X (by simp); omega
    · have := hs.2.1.1 X hX; omega
  have := hadm X hXm hne (by rw [hXS, hsec])
  unfold LaminarPair
  rw [ha]
  omega

/-- One mutation keeps a sorted, laminar map sorted and laminar when it is admissible. -/
theorem applyMutation_laminar (BC : BinaryContext) (μ : Mutation)
    (hs : SortedMap BC.BinaryDataMap) (hl : Laminar BC.BinaryDataMap)
    (hadm : Admissible BC μ) :
    SortedMap (applyMutation BC μ).BinaryDataMap ∧ Laminar (applyMutation BC μ).BinaryDataMap := by
  cases μ with
  | registerName n a s al f =>
    simp only [applyMutation]
    simp only [Admissible] at hadm
    cases hf : findIter BC.BinaryDataMap a with
    | none =>
      have hget : getBinaryDataAtAddress BC.BinaryDataMap a = none := by
        simp [getBinaryDataAtAddress, hf]
      rw [hget] at hadm
      simp only at hadm
      rw [registerNameAtAddress_map_new _ _ _ _ _ _ hf]
      have happ := entriesBelow_append_entriesFrom BC.BinaryDataMap a
      have hcore := updateObjectNesting_core (entriesBelow BC.BinaryDataMap a)
        (newBinaryData BC n a s al f) (entriesFrom BC.BinaryDataMap a)
      have hs' : SortedMap (entriesBelow BC.BinaryDataMap a ++
          newBinaryData BC n a s al f :: entriesFrom BC.BinaryDataMap a) :=
        SortedMap.insertSorted (by rw [happ]; exact hs) (entriesBelow_lt _ _)
          (entriesFrom_above hs hf)
      refine ⟨hs'.sortedOfCore hcore, Laminar.ofCore hcore (Laminar.insertObj (by rw [happ]; exact hl) ?_)⟩
      intro X hX hXS
      rw [happ] at hX
      have hne : X.Address ≠ a := by
        intro h
        rw [getBinaryDataAtAddress_eq_some hs hX h] at hget
        exact absurd hget (by simp)
      have := hadm X hX hne hXS
      unfold LaminarPair
      simp only [newBinaryData]
      omega
    | some r =>
      obtain ⟨pre, BD, post⟩ := r
      obtain ⟨hm, hBD, hpre⟩ := findIter_some _ _ _ _ _ hf
      have hget : getBinaryDataAtAddress BC.BinaryDataMap a = some BD := by
        simp [getBinaryDataAtAddress, hf]
      rw [hget] at hadm
      simp only at hadm
      rw [registerNameAtAddress_map_known _ _ _ _ _ _ _ _ _ hf]
      by_cases hn : BD.hasName n = true
      · simp only [hn, if_true]; exact ⟨hs, hl⟩
      · simp only [hn, Bool.false_eq_true, if_false]
        rcases hadm with h | hadm
        · exact absurd h hn
        · rw [hm] at hs hl hadm
          apply replace_ok hs hl
          · simp [addName, updateSize_Address]
          · simp only [addName, BinaryData.updateSize]; split <;> rfl
          · have hsz : (addName BD s n).Size = max BD.Size s := by
              simp only [addName, BinaryData.updateSize]
              split <;> simp <;> omega
            rw [hsz, hBD]; exact hadm
  | setSize a s =>
    simp only [applyMutation, setBinaryDataSize]
    simp only [Admissible] at hadm
    cases hf : findIter BC.BinaryDataMap a with
    | none => exact ⟨hs, hl⟩
    | some r =>
      obtain ⟨pre, BD, post⟩ := r
      obtain ⟨hm, hBD, hpre⟩ := findIter_some _ _ _ _ _ hf
      have hget : getBinaryDataAtAddress BC.BinaryDataMap a = some BD := by
        simp [getBinaryDataAtAddress, hf]
      rw [hget] at hadm
      simp only at hadm ⊢
      by_cases hz : BD.Size = 0
      · simp only [hz, if_true]
        rcases hadm with h | hadm
        · exact absurd hz h
        · have hcore := updateObjectNesting_core pre { BD with Size := s } post
          rw [hm] at hs hl hadm
          have := @replace_ok _ _ _ { BD with Size := s } hs hl rfl rfl
            (by rw [hBD]; exact hadm)
          exact ⟨this.1.sortedOfCore hcore, Laminar.ofCore hcore this.2⟩
      · simp only [hz, if_false]; exact ⟨hs, hl⟩
  | fixHoles =>
    simp only [applyMutation]
    simp only [Admissible] at hadm
    have := (sections_fold (allocatableSections BC) BC hadm.mapOK
      (fun _ hS => hadm.secOK hS)).1
    exact ⟨this.sorted, this.laminar⟩

/-- Claim C4 (amended). Starting from an empty index, after every sequence of mutations
(`registerNameAtAddress`, `setBinaryDataSize`, `fixBinaryDataHoles`) each of which is
admissible where it is applied (the range it commits is disjoint from or nested with the
other objects of its section; hole synthesis runs on a well-formed index), any two
objects of one section have ranges that are disjoint or nested. -/
theorem laminar_reachable (ms : List Mutation) (BC : BinaryContext)
    (h0 : BC.BinaryDataMap = []) (hadm : AllAdmissible BC ms) :
    Laminar (runMutations BC ms).BinaryDataMap := by
  have key : ∀ (ms : List Mutation) (BC : BinaryContext), SortedMap BC.BinaryDataMap →
      Laminar BC.BinaryDataMap → AllAdmissible BC ms →
      Laminar (runMutations BC ms).BinaryDataMap := by
    intro ms
    induction ms with
    | nil => intro BC _ hl _; exact hl
    | cons μ rest ih =>
      intro BC hs hl hadm
      obtain ⟨h1, h2⟩ := applyMutation_laminar BC μ hs hl hadm.1
      exact ih _ h1 h2 hadm.2
  apply key ms BC _ _ hadm
  · rw [h0]; exact List.Pairwise.nil
  · rw [h0]; intro X hX; simp at hX

/-- Claim C3 (amended). On a well-formed index (no allocatable section overlapped, objects
laminar, validly nested and inside their sections), for every gap of an allocatable
section between the end of one object visited by the scan (or the section start) and the
start of the next (or the section end), after `fixBinaryDataHoles` exactly one object is
registered at the first byte of the gap, its size is the length of the gap, and it is
the object of size zero found there, grown, or else a new object named `HOLEat0x...`;
every object that had a non-zero size is still in the map, unchanged. -/
theorem fixBinaryDataHoles_fills_gaps (BC : BinaryContext) (h : IndexOK BC)
    (S : BinarySection) (hS : S ∈ allocatableSections BC) (g e : Nat)
    (hgap : IsMaximalGap BC.BinaryDataMap S g e) :
    (∃ X ∈ (fixBinaryDataHoles BC).BinaryDataMap,
      X.Address = g ∧ X.Size = e - g ∧
      (∀ Y ∈ (fixBinaryDataHoles BC).BinaryDataMap, Y.Address = g → Y = X) ∧
      ((∃ D ∈ BC.BinaryDataMap, D.Address = g ∧ D.Size = 0 ∧ X = { D with Size := e - g }) ∨
        ((∀ D ∈ BC.BinaryDataMap, D.Address ≠ g) ∧
          X.Symbols = ["HOLEat" ++ "0x" ++ utohexstr g]))) ∧
    (∀ X ∈ BC.BinaryDataMap, X.Size ≠ 0 → X ∈ (fixBinaryDataHoles BC).BinaryDataMap) := by
  have hm := h.mapOK
  have hsecs : ∀ S' ∈ allocatableSections BC, SecOK BC S' := fun _ hS' => h.secOK hS'
  obtain ⟨f1, -, -, f4, -⟩ := sections_fold (allocatableSections BC) BC hm hsecs
  have hin := sections_gap (allocatableSections BC) BC hm hsecs hS hgap
  obtain ⟨pre, post, gi, -⟩ := fillHole_spec hm (h.secOK hS) hgap.1
  refine ⟨⟨gapObject BC g (e - g), hin, gi.addr, gi.size, ?_, ?_⟩, f4⟩
  · intro Y hY hYa
    exact sorted_addr_inj f1.sorted hY hin (by rw [hYa, gi.addr])
  · cases hget : getBinaryDataAtAddress BC.BinaryDataMap g with
    | some D =>
      left
      obtain ⟨hD, hDa⟩ := getBinaryDataAtAddress_some hget
      obtain ⟨k1, k2, k3, -⟩ := hgap.1
      have hlt := hgap.2.1
      have hDS := obj_section_of_addr hm.inside (h.secOK hS) hD (by omega) (by omega)
      have hz := (inside_gap hm (h.secOK hS) hgap.1 hD hDS (by omega) (by omega)).2.1
      exact ⟨D, hD, hDa, hz, by simp [gapObject, hget]⟩
    | none =>
      right
      refine ⟨?_, by simp [gapObject, hget, newBinaryData]⟩
      intro D hD hDa
      rw [getBinaryDataAtAddress_eq_some hm.sorted hD hDa] at hget
      exact absurd hget (by simp)

/-! ## Theorems: concrete contexts for hole synthesis and laminarity -/

theorem nestedContext_ok : IndexOK nestedContext :=
  ⟨by unfold SortedMap; decide, by unfold SectionsDisjoint; decide,
    by unfold InsideSections; decide, by unfold Laminar LaminarPair; decide,
    by unfold ValidNesting; decide⟩

/-- Witness of claim C2 (amended): the index `nestedContext` is well formed and its
section `.data` is covered after hole synthesis. -/
theorem fixBinaryDataHoles_coverage_witness :
    IndexOK nestedContext ∧
      ∀ S ∈ allocatableSections nestedContext,
        Covered (fixBinaryDataHoles nestedContext).BinaryDataMap S :=
  ⟨nestedContext_ok, fixBinaryDataHoles_coverage nestedContext nestedContext_ok⟩

/-- Counterexample to claim C2 as stated: with two overlapping allocatable sections and no
object at all (so the objects of `.a` are laminar, validly nested and inside `.a`), the
section `.a` has no parentless object after hole synthesis, and address `0x1000` of `.a`
is not covered. -/
theorem coverage_counterexample :
    overlapContext.BinaryDataMap = [] ∧
    { textSection with Name := ".a" } ∈ allocatableSections overlapContext ∧
    ¬ Covered (fixBinaryDataHoles overlapContext).BinaryDataMap
        { textSection with Name := ".a" } := by
  refine ⟨by decide, by decide, ?_⟩
  intro hc
  have h := (hc.2 0x1000).1 (by decide)
  revert h
  decide

set_option maxRecDepth 100000 in
theorem scenarioContext_ok : IndexOK scenarioContext :=
  ⟨by unfold SortedMap; decide, by unfold SectionsDisjoint; decide,
    by unfold InsideSections; decide, by unfold Laminar LaminarPair; decide,
    by unfold ValidNesting; decide⟩

theorem scenario_gap : IsMaximalGap scenarioContext.BinaryDataMap textSection 0x1050 0x1080 := by
  unfold IsMaximalGap IsGap; decide

/-- Witness of claim C3 (amended), on the scenario of the specification: the index is well
formed, `[0x1050, 0x1080)` is a gap of `.text`, the theorem applies to it, and the pass
ends with exactly four parentless objects: `foo`, `[0x1050, 0x1080)`, `bar`,
`[0x10A0, 0x1100)`. -/
theorem fixBinaryDataHoles_fills_gaps_witness :
    IndexOK scenarioContext ∧ textSection ∈ allocatableSections scenarioContext ∧
    IsMaximalGap scenarioContext.BinaryDataMap textSection 0x1050 0x1080 ∧
    ((∃ X ∈ (fixBinaryDataHoles scenarioContext).BinaryDataMap,
      X.Address = 0x1050 ∧ X.Size = 0x1080 - 0x1050 ∧
      (∀ Y ∈ (fixBinaryDataHoles scenarioContext).BinaryDataMap, Y.Address = 0x1050 → Y = X) ∧
      ((∃ D ∈ scenarioContext.BinaryDataMap, D.Address = 0x1050 ∧ D.Size = 0 ∧
          X = { D with Size := 0x1080 - 0x1050 }) ∨
        ((∀ D ∈ scenarioContext.BinaryDataMap, D.Address ≠ 0x1050) ∧
          X.Symbols = ["HOLEat" ++ "0x" ++ utohexstr 0x1050]))) ∧
    (∀ X ∈ scenarioContext.BinaryDataMap, X.Size ≠ 0 →
      X ∈ (fixBinaryDataHoles scenarioContext).BinaryDataMap)) ∧
    (fixBinaryDataHoles scenarioContext).BinaryDataMap.map
        (fun X => (X.getName, X.Address, X.Size, X.Parent)) =
      [("foo", 0x1000, 0x50, none), ("HOLEat0x1050", 0x1050, 0x30, none),
        ("bar", 0x1080, 0x20, none), ("HOLEat0x10A0", 0x10A0, 0x60, none)] :=
  ⟨scenarioContext_ok, by decide, scenario_gap,
    fixBinaryDataHoles_fills_gaps scenarioContext scenarioContext_ok textSection (by decide)
      0x1050 0x1080 scenario_gap,
    by decide⟩

/-- Counterexample to claim C3 as stated: with two overlapping allocatable sections and no
object, the whole of `.d` = `[0x3000, 0x3020)` is a gap, but after hole synthesis no
object at `0x3000` has the size `0x20` of the gap (the object there has size `0x40`). -/
theorem fills_gaps_counterexample :
    { dataSection with Name := ".d", Address := 0x3000, Size := 0x20 } ∈
      allocatableSections overlapContext2 ∧
    IsMaximalGap overlapContext2.BinaryDataMap
      { dataSection with Name := ".d", Address := 0x3000, Size := 0x20 } 0x3000 0x3020 ∧
    ¬ ∃ X ∈ (fixBinaryDataHoles overlapContext2).BinaryDataMap,
        X.Address = 0x3000 ∧ X.Size = 0x20 := by
  refine ⟨by decide, by unfold IsMaximalGap IsGap; decide, by decide⟩

/-- Counterexample to claim C4 as stated: from an empty index, registering `a` =
`[0x1000, 0x1020)` and then `b` = `[0x1010, 0x1030)` leaves two partially overlapping
objects of `.text` in the index. -/
theorem laminar_counterexample :
    (registerSection emptyContext textSection).BinaryDataMap = [] ∧
    ¬ Laminar (runMutations (registerSection emptyContext textSection)
        [Mutation.registerName "a" 0x1000 0x20 1 0,
          Mutation.registerName "b" 0x1010 0x20 1 0]).BinaryDataMap := by
  refine ⟨by decide, ?_⟩
  unfold Laminar LaminarPair
  decide

/-- A registration at an address without object is admissible when its range is. -/
theorem admissible_register_new {BC : BinaryContext} {n : String} {a s al f : Nat}
    (h : getBinaryDataAtAddress BC.BinaryDataMap a = none)
    (hr : RangeAdmissible BC.BinaryDataMap
      ((getSectionForAddress BC a).getD absoluteSection) a s) :
    Admissible BC (Mutation.registerName n a s al f) := by
  simp only [Admissible, h]
  exact hr

/-- A size update of an object of size zero is admissible when the new range is. -/
theorem admissible_setSize {BC : BinaryContext} {a s : Nat} {BD : BinaryData}
    (h : getBinaryDataAtAddress BC.BinaryDataMap a = some BD)
    (hr : RangeAdmissible BC.BinaryDataMap BD.Section a s) :
    Admissible BC (Mutation.setSize a s) := by
  simp only [Admissible, h]
  exact Or.inr hr

set_option maxRecDepth 100000 in
theorem admissibleRun_ok :
    AllAdmissible (registerSection emptyContext dataSection) admissibleRun := by
  unfold admissibleRun
  refine ⟨?_, ?_, ?_, ?_, ?_, ?_, trivial⟩
  · exact admissible_register_new (by decide) (by unfold RangeAdmissible; decide)
  · exact admissible_register_new (by decide) (by unfold RangeAdmissible; decide)
  · exact admissible_register_new (by decide) (by unfold RangeAdmissible; decide)
  · exact admissible_register_new (by decide) (by unfold RangeAdmissible; decide)
  · exact @admissible_setSize _ _ _
      { Symbols := ["DATAat0x200C"], Address := 0x200C, Size := 0, Alignment := 1,
        Section := dataSection, Flags := 0, Parent := none, IsJumpTable := false }
      (by decide) (by unfold RangeAdmissible; decide)
  · exact ⟨by unfold SortedMap; decide, by unfold SectionsDisjoint; decide,
      by unfold InsideSections; decide, by unfold Laminar LaminarPair; decide,
      by unfold ValidNesting; decide⟩

/-- Witness of claim C4 (amended): the index is empty at the start, every mutation of
`admissibleRun` is admissible, and the index is laminar at the end. -/
theorem laminar_reachable_witness :
    (registerSection emptyContext dataSection).BinaryDataMap = [] ∧
    AllAdmissible (registerSection emptyContext dataSection) admissibleRun ∧
    Laminar (runMutations (registerSection emptyContext dataSection)
      admissibleRun).BinaryDataMap :=
  ⟨rfl, admissibleRun_ok,
    laminar_reachable admissibleRun (registerSection emptyContext dataSection) rfl
      admissibleRun_ok⟩

/-! ## Theorems: jump-table analysis -/

theorem addEntryAddress_fields (s : ScanState) (v : Nat) (u : Bool) :
    (addEntryAddress s v u).HasUnreachable = s.HasUnreachable ∧
    (addEntryAddress s v u).HasStartAsEntry = s.HasStartAsEntry ∧
    (addEntryAddress s v u).NumRealEntries = s.NumRealEntries ∧
    (addEntryAddress s v u).HasEntryInFragment = s.HasEntryInFragment := by
  unfold addEntryAddress
  split <;> simp

theorem hasEntryRelocation_false (BC : BinaryContext) (JTType : JumpTableType) (EA : Nat) :
    hasEntryRelocation BC JTType EA = false ↔
      ((BC.HasRelocations = true ∧ JTType = JumpTableType.JTT_PIC ∧
          BC.DataPCRelocations.contains EA = false) ∨
        (BC.HasRelocations = true ∧ JTType = JumpTableType.JTT_NORMAL ∧
          getRelocationAt BC EA = false)) := by
  unfold hasEntryRelocation
  cases JTType <;> cases BC.HasRelocations <;> simp

/-- The loop of `analyzeJumpTable` records the scanned entries one by one. -/
theorem scanEntries_eq (BC : BinaryContext) (Address : Nat) (JTType : JumpTableType)
    (BF : BinaryFunction) (UpperBound EntrySize : Nat) (fuel : Nat) :
    ∀ (EntryAddress : Nat) (s : ScanState),
      scanEntries BC Address JTType BF UpperBound EntrySize fuel EntryAddress s =
        (scannedFrom BC Address JTType BF UpperBound EntrySize fuel EntryAddress).map
          (fun vs => vs.foldl (recordEntry BF) s) := by
  induction fuel with
  | zero => intro EA s; simp [scanEntries, scannedFrom]
  | succ n ih =>
    intro EA s
    unfold scanEntries scannedFrom
    by_cases hfit : EA ≤ sub64 UpperBound EntrySize
    · simp only [hfit, not_true_eq_false, if_false]
      by_cases hrel : hasEntryRelocation BC JTType EA = false
      · have h := (hasEntryRelocation_false BC JTType EA).1 hrel
        simp only [hrel, if_true]
        rcases h with h | h
        · rw [if_pos h]; rfl
        · have hne : ¬ (BC.HasRelocations = true ∧ JTType = JumpTableType.JTT_PIC ∧
              BC.DataPCRelocations.contains EA = false) := by
            intro hh
            have := hh.2.1
            rw [h.2.1] at this
            exact absurd this (by decide)
          rw [if_neg hne, if_pos h]; rfl
      · have h := (not_congr (hasEntryRelocation_false BC JTType EA)).1 hrel
        simp only [not_or] at h
        rw [if_neg h.1, if_neg h.2, if_neg hrel]
        cases hv : entryValue BC Address JTType EA EntrySize with
        | none => simp
        | some Value =>
          simp only
          by_cases hend : Value = wrap64 (BF.Address + BF.Size)
          · simp only [hend, true_or, if_true, ih, Option.map_map]
            congr 1
            funext vs
            simp [recordEntry]
          · by_cases hstart : Value = BF.Address
            · rw [if_neg hend, if_pos hstart, if_pos (Or.inr hstart), ih, Option.map_map]
              congr 1
              funext vs
              simp only [Function.comp, List.foldl_cons, recordEntry, if_neg hend,
                if_pos hstart]
            · simp only [hend, hstart, or_self, if_false]
              unfold entryTarget
              cases hT : getBinaryFunctionContainingAddress BC Value false false with
              | none => simp
              | some TargetBF =>
                simp only
                by_cases hr : areRelatedFragments BC TargetBF.Address BF.Address = false
                · simp [hr]
                · simp only [Bool.not_eq_false] at hr
                  by_cases hd : TargetBF.CurrentState = FunctionState.Disassembled ∧
                      TargetBF.hasInstructionAtOffset (sub64 Value TargetBF.Address) = false
                  · simp [hr, hd]
                  · simp only [hr, hd, Bool.true_eq_false, if_false, not_false_eq_true,
                      and_self, if_true, ih, Option.map_map]
                    congr 1
                    funext vs
                    simp only [Function.comp, List.foldl_cons, recordEntry, hend, hstart,
                      if_false, decide_eq_true_eq]
    · simp [hfit]

theorem recordEntry_NumRealEntries (BF : BinaryFunction) (s : ScanState) (v : Nat × Bool) :
    (recordEntry BF s v).NumRealEntries = s.NumRealEntries + numRealEntries BF [v] := by
  unfold recordEntry numRealEntries
  by_cases hend : v.1 = wrap64 (BF.Address + BF.Size)
  · rw [if_pos hend]
    simp [List.countP_cons, hend, (addEntryAddress_fields _ _ _).2.2.1]
  · by_cases hstart : v.1 = BF.Address
    · rw [if_neg hend, if_pos hstart]
      simp [List.countP_cons, hstart, (addEntryAddress_fields _ _ _).2.2.1]
    · rw [if_neg hend, if_neg hstart]
      simp only [(addEntryAddress_fields _ _ _).2.2.1]
      split <;> simp [List.countP_cons, hend, hstart]

theorem recordEntry_special (BF : BinaryFunction) (s : ScanState) (v : Nat × Bool) :
    ((recordEntry BF s v).HasUnreachable || (recordEntry BF s v).HasStartAsEntry) =
      ((s.HasUnreachable || s.HasStartAsEntry) || hasSpecialEntry BF [v]) := by
  unfold recordEntry hasSpecialEntry
  by_cases hend : v.1 = wrap64 (BF.Address + BF.Size)
  · rw [if_pos hend]
    simp [hend, (addEntryAddress_fields _ _ _).2.1]
  · by_cases hstart : v.1 = BF.Address
    · rw [if_neg hend, if_pos hstart]
      simp [hstart, (addEntryAddress_fields _ _ _).1, (addEntryAddress_fields _ _ _).2.1]
    · rw [if_neg hend, if_neg hstart]
      simp only [(addEntryAddress_fields _ _ _).1, (addEntryAddress_fields _ _ _).2.1]
      split <;> simp [hend, hstart]

theorem foldl_recordEntry_counts (BF : BinaryFunction) (vs : List (Nat × Bool)) :
    ∀ s : ScanState,
      (vs.foldl (recordEntry BF) s).NumRealEntries = s.NumRealEntries + numRealEntries BF vs ∧
      ((vs.foldl (recordEntry BF) s).HasUnreachable ||
          (vs.foldl (recordEntry BF) s).HasStartAsEntry) =
        ((s.HasUnreachable || s.HasStartAsEntry) || hasSpecialEntry BF vs) := by
  induction vs with
  | nil => intro s; simp [numRealEntries, hasSpecialEntry]
  | cons v rest ih =>
    intro s
    obtain ⟨h1, h2⟩ := ih (recordEntry BF s v)
    simp only [List.foldl_cons]
    rw [h1, h2, recordEntry_NumRealEntries, recordEntry_special]
    constructor
    · simp only [numRealEntries, List.countP_cons, List.countP_nil]
      omega
    · simp only [hasSpecialEntry, List.any_cons, List.any_nil, Bool.or_false, Bool.or_assoc]

/-- The outcome of `analyzeJumpTable` for a candidate inside a section, in terms of the
scanned entries. -/
theorem analyzeJumpTable_of_scan (BC : BinaryContext) (Address : Nat)
    (JTType : JumpTableType) (BF : BinaryFunction) (NextJTAddress : Nat)
    (EntriesAsAddress : Option (List Nat)) (HasEntryInFragment : Option Bool)
    (Section : BinarySection) (vs : List (Nat × Bool))
    (hsec : getSectionForAddress BC Address = some Section)
    (hscan : scannedEntries BC Address JTType BF NextJTAddress = some vs) :
    analyzeJumpTable BC Address JTType BF NextJTAddress EntriesAsAddress HasEntryInFragment =
      some
        { Result := decide (numRealEntries BF vs + (if hasSpecialEntry BF vs then 1 else 0) ≥ 2)
          EntriesAsAddress :=
            match (vs.foldl (recordEntry BF)
                { HasUnreachable := false, HasStartAsEntry := false, NumRealEntries := 0,
                  TrimmedSize := 0, EntriesAsAddress := EntriesAsAddress,
                  HasEntryInFragment := HasEntryInFragment }).EntriesAsAddress with
            | none => none
            | some es =>
              if JTType = JumpTableType.JTT_NORMAL ∧
                  (vs.foldl (recordEntry BF)
                    { HasUnreachable := false, HasStartAsEntry := false, NumRealEntries := 0,
                      TrimmedSize := 0, EntriesAsAddress := EntriesAsAddress,
                      HasEntryInFragment := HasEntryInFragment }).TrimmedSize ≠ es.length ∧
                  (getBinaryFunctionAtAddress BC (wrap64 (BF.Address + BF.Size))).isSome then
                some (es.take (vs.foldl (recordEntry BF)
                    { HasUnreachable := false, HasStartAsEntry := false, NumRealEntries := 0,
                      TrimmedSize := 0, EntriesAsAddress := EntriesAsAddress,
                      HasEntryInFragment := HasEntryInFragment }).TrimmedSize ++
                  List.replicate ((vs.foldl (recordEntry BF)
                    { HasUnreachable := false, HasStartAsEntry := false, NumRealEntries := 0,
                      TrimmedSize := 0, EntriesAsAddress := EntriesAsAddress,
                      HasEntryInFragment := HasEntryInFragment }).TrimmedSize - es.length) 0)
              else some es
          HasEntryInFragment :=
            (vs.foldl (recordEntry BF)
              { HasUnreachable := false, HasStartAsEntry := false, NumRealEntries := 0,
                TrimmedSize := 0, EntriesAsAddress := EntriesAsAddress,
                HasEntryInFragment := HasEntryInFragment }).HasEntryInFragment } := by
  unfold scannedEntries at hscan
  rw [hsec] at hscan
  simp only at hscan
  unfold analyzeJumpTable
  rw [hsec]
  simp only [scanEntries_eq, hscan, Option.map_some']
  obtain ⟨h1, h2⟩ := foldl_recordEntry_counts BF vs
    { HasUnreachable := false, HasStartAsEntry := false, NumRealEntries := 0,
      TrimmedSize := 0, EntriesAsAddress := EntriesAsAddress,
      HasEntryInFragment := HasEntryInFragment }
  simp only [Bool.or_self, Bool.false_or, Nat.zero_add] at h1 h2
  rw [h1, h2]

/-- The value returned by `analyzeJumpTable` when the scan ends. -/
theorem analyzeJumpTable_result_of_scan (BC : BinaryContext) (Address : Nat)
    (JTType : JumpTableType) (BF : BinaryFunction) (NextJTAddress : Nat)
    (EntriesAsAddress : Option (List Nat)) (HasEntryInFragment : Option Bool)
    (vs : List (Nat × Bool))
    (hscan : scannedEntries BC Address JTType BF NextJTAddress = some vs) :
    (analyzeJumpTable BC Address JTType BF NextJTAddress EntriesAsAddress
        HasEntryInFragment).map (fun r => r.Result) =
      some (decide (numRealEntries BF vs + (if hasSpecialEntry BF vs then 1 else 0) ≥ 2)) := by
  cases hsec : getSectionForAddress BC Address with
  | none =>
    unfold scannedEntries at hscan
    rw [hsec] at hscan
    simp only [Option.some.injEq] at hscan
    subst hscan
    unfold analyzeJumpTable
    rw [hsec]
    simp [numRealEntries, hasSpecialEntry]
  | some Section =>
    rw [analyzeJumpTable_of_scan BC Address JTType BF NextJTAddress EntriesAsAddress
      HasEntryInFragment Section vs hsec hscan]
    rfl

/-- The analysis has no result when the scan has none. -/
theorem analyzeJumpTable_none_of_scan (BC : BinaryContext) (Address : Nat)
    (JTType : JumpTableType) (BF : BinaryFunction) (NextJTAddress : Nat)
    (EntriesAsAddress : Option (List Nat)) (HasEntryInFragment : Option Bool)
    (hscan : scannedEntries BC Address JTType BF NextJTAddress = none) :
    analyzeJumpTable BC Address JTType BF NextJTAddress EntriesAsAddress
        HasEntryInFragment = none := by
  unfold scannedEntries at hscan
  unfold analyzeJumpTable
  cases hsec : getSectionForAddress BC Address with
  | none => rw [hsec] at hscan; simp at hscan
  | some Section =>
    rw [hsec] at hscan
    simp only at hscan
    simp only [scanEntries_eq, hscan, Option.map_none']

/-- Claim C5. `analyzeJumpTable` returns true if and only if `N + s >= 2`, where `N` is
the number of scanned entries whose value is neither the start nor the end address of the
owning function and `s` is 1 if some scanned entry equals one of these two addresses and
0 otherwise; the scanned entries are those from the table address up to the first entry
that fails a check or does not fit under the upper bound. The analysis has a result
exactly when the scan has one. -/
theorem analyzeJumpTable_accepts_iff (BC : BinaryContext) (Address : Nat)
    (JTType : JumpTableType) (BF : BinaryFunction) (NextJTAddress : Nat)
    (EntriesAsAddress : Option (List Nat)) (HasEntryInFragment : Option Bool) :
    (analyzeJumpTable BC Address JTType BF NextJTAddress EntriesAsAddress
        HasEntryInFragment).map (fun r => r.Result) =
      (scannedEntries BC Address JTType BF NextJTAddress).map
        (fun vs => decide (numRealEntries BF vs + (if hasSpecialEntry BF vs then 1 else 0) ≥ 2)) := by
  cases hscan : scannedEntries BC Address JTType BF NextJTAddress with
  | none =>
    rw [analyzeJumpTable_none_of_scan BC Address JTType BF NextJTAddress EntriesAsAddress
      HasEntryInFragment hscan]
    rfl
  | some vs =>
    rw [analyzeJumpTable_result_of_scan BC Address JTType BF NextJTAddress EntriesAsAddress
      HasEntryInFragment vs hscan]
    rfl

/-- Claim C6. A candidate whose scanned entries all equal the end address or the start
address of the owning function is rejected, for either table type and any number of
entries: `analyzeJumpTable` returns false. -/
theorem analyzeJumpTable_rejects_sentinels (BC : BinaryContext) (Address : Nat)
    (JTType : JumpTableType) (BF : BinaryFunction) (NextJTAddress : Nat)
    (EntriesAsAddress : Option (List Nat)) (HasEntryInFragment : Option Bool)
    (vs : List (Nat × Bool))
    (hscan : scannedEntries BC Address JTType BF NextJTAddress = some vs)
    (hall : ∀ v ∈ vs, v.1 = wrap64 (BF.Address + BF.Size) ∨ v.1 = BF.Address) :
    (analyzeJumpTable BC Address JTType BF NextJTAddress EntriesAsAddress
        HasEntryInFragment).map (fun r => r.Result) = some false := by
  rw [analyzeJumpTable_result_of_scan BC Address JTType BF NextJTAddress EntriesAsAddress
    HasEntryInFragment vs hscan]
  have hN : numRealEntries BF vs = 0 := by
    unfold numRealEntries
    rw [List.countP_eq_zero]
    intro v hv
    rcases hall v hv with h | h
    · simp [h]
    · simp [h]
  rw [hN]
  congr 1
  rw [decide_eq_false_iff_not]
  split <;> omega

theorem recordEntry_entries_real (BF : BinaryFunction) (s : ScanState) (v : Nat × Bool)
    (es : List Nat) (hv : v.1 ≠ wrap64 (BF.Address + BF.Size))
    (hes : s.EntriesAsAddress = some es) :
    (recordEntry BF s v).EntriesAsAddress = some (es ++ [v.1]) ∧
      (recordEntry BF s v).TrimmedSize = (es ++ [v.1]).length := by
  unfold recordEntry
  rw [if_neg hv]
  by_cases hstart : v.1 = BF.Address
  · rw [if_pos hstart]
    simp [addEntryAddress, hes]
  · rw [if_neg hstart]
    simp only
    split <;> simp [addEntryAddress, hes]

theorem recordEntry_entries_end (BF : BinaryFunction) (s : ScanState) (v : Nat × Bool)
    (es : List Nat) (hv : v.1 = wrap64 (BF.Address + BF.Size))
    (hes : s.EntriesAsAddress = some es) :
    (recordEntry BF s v).EntriesAsAddress = some (es ++ [v.1]) ∧
      (recordEntry BF s v).TrimmedSize = s.TrimmedSize := by
  unfold recordEntry
  rw [if_pos hv]
  simp [addEntryAddress, hes]

theorem foldl_recordEntry_real (BF : BinaryFunction) (vs : List (Nat × Bool)) :
    ∀ (s : ScanState) (es : List Nat),
      (∀ v ∈ vs, v.1 ≠ wrap64 (BF.Address + BF.Size)) →
      s.EntriesAsAddress = some es → s.TrimmedSize = es.length →
      (vs.foldl (recordEntry BF) s).EntriesAsAddress = some (es ++ vs.map (fun v => v.1)) ∧
        (vs.foldl (recordEntry BF) s).TrimmedSize = (es ++ vs.map (fun v => v.1)).length := by
  induction vs with
  | nil => intro s es _ hes ht; simp [hes, ht]
  | cons v rest ih =>
    intro s es hv hes _
    obtain ⟨h1, h2⟩ := recordEntry_entries_real BF s v es (hv v (List.mem_cons_self _ _)) hes
    obtain ⟨h3, h4⟩ := ih (recordEntry BF s v) (es ++ [v.1])
      (fun w hw => hv w (List.mem_cons_of_mem _ hw)) h1 h2
    simp only [List.foldl_cons, List.map_cons]
    rw [h3, h4]
    simp

theorem foldl_recordEntry_end (BF : BinaryFunction) (vs : List (Nat × Bool)) :
    ∀ (s : ScanState) (es : List Nat),
      (∀ v ∈ vs, v.1 = wrap64 (BF.Address + BF.Size)) →
      s.EntriesAsAddress = some es →
      (vs.foldl (recordEntry BF) s).EntriesAsAddress = some (es ++ vs.map (fun v => v.1)) ∧
        (vs.foldl (recordEntry BF) s).TrimmedSize = s.TrimmedSize := by
  induction vs with
  | nil => intro s es _ hes; simp [hes]
  | cons v rest ih =>
    intro s es hv hes
    obtain ⟨h1, h2⟩ := recordEntry_entries_end BF s v es (hv v (List.mem_cons_self _ _)) hes
    obtain ⟨h3, h4⟩ := ih (recordEntry BF s v) (es ++ [v.1])
      (fun w hw => hv w (List.mem_cons_of_mem _ hw)) h1
    simp only [List.foldl_cons, List.map_cons]
    rw [h3, h4, h2]
    simp

/-- Claim C7. For an absolute (non-PIC) table whose scanned entries are at least two
real targets (values other than the start and the end address of the owning function)
followed by `k >= 1` entries equal to the end address of the function, with an empty
output list passed in, `analyzeJumpTable` returns true; the recorded entry list is the
scanned list without its trailing end-address entries when a function exists at the end
address, and the whole scanned list otherwise. -/
theorem analyzeJumpTable_accepts_and_trims (BC : BinaryContext) (Address : Nat)
    (BF : BinaryFunction) (NextJTAddress : Nat) (HasEntryInFragment : Option Bool)
    (reals : List (Nat × Bool)) (k : Nat)
    (hscan : scannedEntries BC Address JumpTableType.JTT_NORMAL BF NextJTAddress =
      some (reals ++ List.replicate k (wrap64 (BF.Address + BF.Size), false)))
    (hreal : ∀ v ∈ reals, v.1 ≠ BF.Address ∧ v.1 ≠ wrap64 (BF.Address + BF.Size))
    (htwo : 2 ≤ reals.length) (hk : 1 ≤ k) :
    ∃ r, analyzeJumpTable BC Address JumpTableType.JTT_NORMAL BF NextJTAddress (some [])
          HasEntryInFragment = some r ∧
      r.Result = true ∧
      r.EntriesAsAddress =
        some (if (getBinaryFunctionAtAddress BC (wrap64 (BF.Address + BF.Size))).isSome then
            reals.map (fun v => v.1)
          else reals.map (fun v => v.1) ++ List.replicate k (wrap64 (BF.Address + BF.Size))) := by
  cases hsec : getSectionForAddress BC Address with
  | none =>
    unfold scannedEntries at hscan
    rw [hsec] at hscan
    simp only [Option.some.injEq] at hscan
    have hlen := congrArg List.length hscan
    simp only [List.length_nil, List.length_append, List.length_replicate] at hlen
    omega
  | some Section =>
    refine ⟨_, analyzeJumpTable_of_scan BC Address JumpTableType.JTT_NORMAL BF NextJTAddress
      (some []) HasEntryInFragment Section _ hsec hscan, ?_, ?_⟩
    · simp only [decide_eq_true_eq]
      have hN : reals.length ≤ numRealEntries BF
          (reals ++ List.replicate k (wrap64 (BF.Address + BF.Size), false)) := by
        unfold numRealEntries
        rw [List.countP_append]
        have : List.countP (fun v : Nat × Bool => decide (v.1 ≠ BF.Address) &&
            decide (v.1 ≠ wrap64 (BF.Address + BF.Size))) reals = reals.length := by
          rw [List.countP_eq_length]
          intro v hv
          have := hreal v hv
          simp [this.1, this.2]
        omega
      omega
    · simp only [List.foldl_append]
      obtain ⟨h1, h2⟩ := foldl_recordEntry_real BF reals
        { HasUnreachable := false, HasStartAsEntry := false, NumRealEntries := 0,
          TrimmedSize := 0, EntriesAsAddress := some [],
          HasEntryInFragment := HasEntryInFragment } [] (fun v hv => (hreal v hv).2) rfl rfl
      obtain ⟨h3, h4⟩ := foldl_recordEntry_end BF
        (List.replicate k (wrap64 (BF.Address + BF.Size), false)) _ _
        (fun v hv => by rw [List.eq_of_mem_replicate hv]) h1
      rw [h3, h4, h2]
      simp only [List.nil_append, List.map_replicate, List.length_map, true_and,
        List.length_append, List.length_replicate]
      by_cases hfn : (getBinaryFunctionAtAddress BC (wrap64 (BF.Address + BF.Size))).isSome = true
      · have hne : reals.length ≠ reals.length + k := by omega
        simp [hfn, hne]
      · simp [hfn]

set_option maxRecDepth 100000 in
/-- Witness of claim C6: the table `[f_end, f_end]` of the function `f` = `[0x1000, 0x1040)`
is scanned in full and rejected. -/
theorem analyzeJumpTable_rejects_sentinels_witness :
    scannedEntries (tableContext [0x1040, 0x1040]) 0x2000 JumpTableType.JTT_NORMAL tableOwner 0 =
        some [(0x1040, false), (0x1040, false)] ∧
      (analyzeJumpTable (tableContext [0x1040, 0x1040]) 0x2000 JumpTableType.JTT_NORMAL
        tableOwner 0 (some []) (some false)).map (fun r => r.Result) = some false :=
  ⟨by decide,
    analyzeJumpTable_rejects_sentinels (tableContext [0x1040, 0x1040]) 0x2000
      JumpTableType.JTT_NORMAL tableOwner 0 (some []) (some false)
      [(0x1040, false), (0x1040, false)] (by decide) (by decide)⟩

/-- The scan ends within the iteration bound when every entry under the upper bound can
be read, the entry size is positive and the entry addresses do not wrap. -/
theorem scannedFrom_isSome (BC : BinaryContext) (Address : Nat) (JTType : JumpTableType)
    (BF : BinaryFunction) (UpperBound EntrySize : Nat) (hES : 0 < EntrySize)
    (hUB : sub64 UpperBound EntrySize + EntrySize < 18446744073709551616)
    (hread : ∀ EA, EA ≤ sub64 UpperBound EntrySize →
      (entryValue BC Address JTType EA EntrySize).isSome = true) :
    ∀ (fuel EntryAddress : Nat), 1 ≤ fuel →
      sub64 UpperBound EntrySize + 2 ≤ fuel + EntryAddress →
      (scannedFrom BC Address JTType BF UpperBound EntrySize fuel EntryAddress).isSome = true := by
  intro fuel
  induction fuel with
  | zero => intro EA h; omega
  | succ n ih =>
    intro EA _ hfuel
    unfold scannedFrom
    by_cases hfit : EA ≤ sub64 UpperBound EntrySize
    · rw [if_neg (not_not.2 hfit)]
      have hw : wrap64 (EA + EntrySize) = EA + EntrySize := by
        unfold wrap64
        exact Nat.mod_eq_of_lt (by omega)
      have hrec := ih (EA + EntrySize) (by omega) (by omega)
      obtain ⟨l, hl⟩ := Option.isSome_iff_exists.1 hrec
      obtain ⟨Value, hValue⟩ := Option.isSome_iff_exists.1 (hread EA hfit)
      rw [hValue, hw, hl]
      simp only [Option.map_some']
      split
      · rfl
      · split
        · rfl
        · split <;> rfl
    · rw [if_pos hfit]; rfl

/-- The scan of `analyzeJumpTable` has a result when every entry under the upper bound
can be read, the entry size is positive and the entry addresses do not wrap. -/
theorem scannedEntries_isSome (BC : BinaryContext) (Address : Nat) (JTType : JumpTableType)
    (BF : BinaryFunction) (NextJTAddress : Nat)
    (hES : 0 < getJumpTableEntrySize BC JTType)
    (hUB : ∀ Section, getSectionForAddress BC Address = some Section →
      sub64 (scanUpperBound BC Section Address NextJTAddress) (getJumpTableEntrySize BC JTType) +
        getJumpTableEntrySize BC JTType < 18446744073709551616)
    (hread : ∀ Section EA, getSectionForAddress BC Address = some Section →
      EA ≤ sub64 (scanUpperBound BC Section Address NextJTAddress)
        (getJumpTableEntrySize BC JTType) →
      (entryValue BC Address JTType EA (getJumpTableEntrySize BC JTType)).isSome = true) :
    (scannedEntries BC Address JTType BF NextJTAddress).isSome = true := by
  unfold scannedEntries
  cases hsec : getSectionForAddress BC Address with
  | none => rfl
  | some Section =>
    have h1 := hUB Section hsec
    exact scannedFrom_isSome BC Address JTType BF _ _ hES h1
      (fun EA h => hread Section EA hsec h) _ _ (by omega) (by omega)

set_option maxRecDepth 100000 in
/-- Witness of claim C7: the table `[f+0x10, f+0x20, f_end]` is accepted; with a function
at `f_end` two entries are recorded, without one all three. -/
theorem analyzeJumpTable_accepts_and_trims_witness :
    (scannedEntries (tableContextNext [0x1010, 0x1020, 0x1040]) 0x2000
        JumpTableType.JTT_NORMAL tableOwner 0 =
      some ([(0x1010, false), (0x1020, false)] ++
        List.replicate 1 (wrap64 (tableOwner.Address + tableOwner.Size), false))) ∧
    (∃ r, analyzeJumpTable (tableContextNext [0x1010, 0x1020, 0x1040]) 0x2000
          JumpTableType.JTT_NORMAL tableOwner 0 (some []) (some false) = some r ∧
        r.Result = true ∧
        r.EntriesAsAddress =
          some (if (getBinaryFunctionAtAddress (tableContextNext [0x1010, 0x1020, 0x1040])
                (wrap64 (tableOwner.Address + tableOwner.Size))).isSome then
              [(0x1010, false), (0x1020, false)].map (fun v => v.1)
            else [(0x1010, false), (0x1020, false)].map (fun v => v.1) ++
              List.replicate 1 (wrap64 (tableOwner.Address + tableOwner.Size)))) ∧
    analyzeJumpTable (tableContextNext [0x1010, 0x1020, 0x1040]) 0x2000
        JumpTableType.JTT_NORMAL tableOwner 0 (some []) (some false) =
      some { Result := true, EntriesAsAddress := some [0x1010, 0x1020],
             HasEntryInFragment := some false } ∧
    analyzeJumpTable (tableContext [0x1010, 0x1020, 0x1040]) 0x2000
        JumpTableType.JTT_NORMAL tableOwner 0 (some []) (some false) =
      some { Result := true, EntriesAsAddress := some [0x1010, 0x1020, 0x1040],
             HasEntryInFragment := some false } :=
  ⟨by decide,
    analyzeJumpTable_accepts_and_trims (tableContextNext [0x1010, 0x1020, 0x1040]) 0x2000
      tableOwner 0 (some false) [(0x1010, false), (0x1020, false)] 1 (by decide) (by decide)
      (by decide) (by decide),
    by decide, by decide⟩

/-! ## Theorems: function folding -/

theorem getFunction_address (fs : List BinaryFunction) (a : Nat) (F : BinaryFunction)
    (h : getFunction fs a = some F) : F.Address = a := by
  unfold getFunction at h
  have := List.find?_some h
  simpa using this

theorem getFunction_updateFunction (fs : List BinaryFunction) (a b : Nat)
    (f : BinaryFunction → BinaryFunction) (hf : ∀ F, (f F).Address = F.Address) :
    getFunction (updateFunction fs a f) b =
      (getFunction fs b).map (fun F => if F.Address = a then f F else F) := by
  unfold getFunction updateFunction
  induction fs with
  | nil => rfl
  | cons G rest ih =>
    have hG : (if G.Address = a then f G else G).Address = G.Address := by
      split
      · exact hf G
      · rfl
    simp only [List.map_cons, List.find?_cons, hG]
    by_cases h : G.Address = b
    · simp [h]
    · simp only [h, decide_False]
      exact ih

theorem getFunction_eraseFunction (fs : List BinaryFunction) (c b : Nat) :
    getFunction (eraseFunction fs c) b = if b = c then none else getFunction fs b := by
  unfold getFunction eraseFunction
  induction fs with
  | nil => simp
  | cons G rest ih =>
    by_cases hc : G.Address = c
    · have : List.filter (fun F => decide (F.Address ≠ c)) (G :: rest) =
          List.filter (fun F => decide (F.Address ≠ c)) rest := by
        simp [List.filter_cons, hc]
      rw [this, ih]
      by_cases hb : b = c
      · simp [hb]
      · have hGb : ¬ G.Address = b := by rw [hc]; exact fun h => hb h.symm
        simp [hb, List.find?_cons, hGb]
    · have : List.filter (fun F => decide (F.Address ≠ c)) (G :: rest) =
          G :: List.filter (fun F => decide (F.Address ≠ c)) rest := by
        simp [List.filter_cons, hc]
      rw [this]
      by_cases hGb : G.Address = b
      · have hb : ¬ b = c := by rw [← hGb]; exact hc
        simp [List.find?_cons, hGb, hb]
      · simp only [List.find?_cons, hGb, decide_False]
        exact ih

theorem lookup_assign_self {β : Type} (m : List (String × β)) (k : String) (v : β) :
    lookup (assign m k v) k = some v := by
  induction m with
  | nil => simp [assign, lookup]
  | cons e rest ih =>
    obtain ⟨k', v'⟩ := e
    unfold assign
    by_cases h : k' = k
    · simp [h, lookup]
    · simp [h, lookup, ih]

theorem lookup_assign_ne {β : Type} (m : List (String × β)) (k k2 : String) (v : β)
    (hne : k2 ≠ k) : lookup (assign m k v) k2 = lookup m k2 := by
  induction m with
  | nil => simp [assign, lookup, Ne.symm hne]
  | cons e rest ih =>
    obtain ⟨k', v'⟩ := e
    unfold assign
    by_cases h : k' = k
    · have h2 : ¬ k' = k2 := by rw [h]; exact Ne.symm hne
      simp [h, lookup, Ne.symm hne]
    · by_cases h2 : k' = k2
      · subst h2
        simp [h, lookup]
      · simp [h, lookup, h2, ih]

theorem lookup_foldl_assign (syms : List String) (P : Nat) (s : String) :
    ∀ m : List (String × Nat), (lookup m s = some P ∨ s ∈ syms) →
      lookup (syms.foldl (fun m Symbol => assign m Symbol P) m) s = some P := by
  induction syms with
  | nil =>
    intro m h
    rcases h with h | h
    · exact h
    · simp at h
  | cons x rest ih =>
    intro m h
    simp only [List.foldl_cons]
    apply ih
    by_cases hx : s = x
    · left; rw [hx]; exact lookup_assign_self m x P
    · rcases h with h | h
      · left; rw [lookup_assign_ne m x s P hx]; exact h
      · right
        rcases List.mem_cons.1 h with h | h
        · exact absurd h hx
        · exact h

/-- The functions registered after a fold in relocation mode. -/
theorem foldFunction_functions_reloc (BC : BinaryContext) (Child Parent : Nat)
    (CB PA : BinaryFunction) (hreloc : BC.HasRelocations = true) (hne : Child ≠ Parent)
    (hC : getFunction BC.BinaryFunctions Child = some CB)
    (hP : getFunction BC.BinaryFunctions Parent = some PA) :
    getFunction (foldFunction BC Child Parent).BinaryFunctions Child = none ∧
    getFunction (foldFunction BC Child Parent).BinaryFunctions Parent =
      some { PA with Symbols := PA.Symbols ++ CB.Symbols, Aliases := PA.Aliases ++ CB.Aliases,
                     HasFunctionsFoldedInto := true } ∧
    (foldFunction BC Child Parent).SymbolToFunctionMap =
      CB.Symbols.foldl (fun m Symbol => assign m Symbol Parent) BC.SymbolToFunctionMap := by
  have hPA := getFunction_address _ _ _ hP
  unfold foldFunction
  simp only [hC, hreloc, if_true]
  refine ⟨?_, ?_, ?_⟩
  · simp [getFunction_updateFunction, getFunction_eraseFunction]
  · simp [getFunction_updateFunction, getFunction_eraseFunction, hP, hPA, Ne.symm hne]
  · trivial

/-- The functions registered after a fold in non-relocation mode. -/
theorem foldFunction_functions_noreloc (BC : BinaryContext) (Child Parent : Nat)
    (CB PA : BinaryFunction) (hreloc : BC.HasRelocations = false) (hne : Child ≠ Parent)
    (hC : getFunction BC.BinaryFunctions Child = some CB)
    (hP : getFunction BC.BinaryFunctions Parent = some PA) :
    getFunction (foldFunction BC Child Parent).BinaryFunctions Child =
      some { CB with Symbols := ["__ICF_" ++ CB.getOneName], Aliases := [],
                     FoldedIntoFunction := some Parent } ∧
    getFunction (foldFunction BC Child Parent).BinaryFunctions Parent =
      some { PA with Symbols := PA.Symbols ++ CB.Symbols, Aliases := PA.Aliases ++ CB.Aliases,
                     HasFunctionsFoldedInto := true } := by
  have hPA := getFunction_address _ _ _ hP
  have hCB := getFunction_address _ _ _ hC
  unfold foldFunction
  simp only [hC, hreloc, Bool.false_eq_true, if_false]
  constructor
  · simp [getFunction_updateFunction, hC, hCB, hne]
  · simp [getFunction_updateFunction, hP, hPA, Ne.symm hne]

/-- Claim C8. In relocation mode, for distinct single-entry registered functions `A`
(the parent) and `B` (the child), after `foldFunction(B, A)` no function is registered
at the address of `B`, the symbol list of `A` is its former list followed by the former
symbols of `B`, and `getFunctionForSymbol` returns `A` for every symbol `B` had. -/
theorem foldFunction_relocation_mode (BC : BinaryContext) (Child Parent : Nat)
    (CB PA : BinaryFunction) (hreloc : BC.HasRelocations = true) (hne : Child ≠ Parent)
    (hC : getFunction BC.BinaryFunctions Child = some CB)
    (hP : getFunction BC.BinaryFunctions Parent = some PA)
    (_hCs : CB.isMultiEntry = false) (_hPs : PA.isMultiEntry = false) :
    getFunction (foldFunction BC Child Parent).BinaryFunctions Child = none ∧
    ∃ A2, getFunction (foldFunction BC Child Parent).BinaryFunctions Parent = some A2 ∧
      A2.Address = Parent ∧
      A2.Symbols = PA.Symbols ++ CB.Symbols ∧
      ∀ Symbol ∈ CB.Symbols,
        (getFunctionForSymbol (foldFunction BC Child Parent) Symbol).map (fun r => r.1) =
          some A2 := by
  obtain ⟨h1, h2, h3⟩ := foldFunction_functions_reloc BC Child Parent CB PA hreloc hne hC hP
  have hPA : PA.Address = Parent := getFunction_address _ _ _ hP
  refine ⟨h1, _, h2, hPA, rfl, ?_⟩
  intro Symbol hS
  unfold getFunctionForSymbol
  rw [h3, lookup_foldl_assign CB.Symbols Parent Symbol _ (Or.inr hS)]
  simp only [h2, Option.map_some']

/-- Claim C9. Without relocations, for distinct single-entry registered functions `A`
(the parent) and `B` (the child), after `foldFunction(B, A)` the function at the address
of `B` is still `B` (the lookup at that address returns it), its symbol list is the one
symbol `"__ICF_"` followed by the former name of `B`, and it is marked as folded into
`A`. -/
theorem foldFunction_non_relocation_mode (BC : BinaryContext) (Child Parent : Nat)
    (CB PA : BinaryFunction) (hreloc : BC.HasRelocations = false) (hne : Child ≠ Parent)
    (hC : getFunction BC.BinaryFunctions Child = some CB)
    (hP : getFunction BC.BinaryFunctions Parent = some PA)
    (_hCs : CB.isMultiEntry = false) (_hPs : PA.isMultiEntry = false) :
    ∃ B2, getFunction (foldFunction BC Child Parent).BinaryFunctions Child = some B2 ∧
      getBinaryFunctionAtAddress (foldFunction BC Child Parent) Child = some B2 ∧
      B2.Address = Child ∧ B2.Address ≠ Parent ∧
      B2.Symbols = ["__ICF_" ++ CB.getOneName] ∧
      B2.FoldedIntoFunction = some Parent := by
  obtain ⟨h1, _⟩ := foldFunction_functions_noreloc BC Child Parent CB PA hreloc hne hC hP
  have hCB := getFunction_address _ _ _ hC
  refine ⟨_, h1, ?_, hCB, ?_, rfl, rfl⟩
  · unfold getBinaryFunctionAtAddress
    rw [h1]
  · show CB.Address ≠ Parent
    rw [hCB]; exact hne

/-- Witness of claim C8: folding `bar` into `foo` in the scenario context, in relocation
mode. -/
theorem foldFunction_relocation_mode_witness :
    getFunction (foldFunction scenarioContextReloc 0x1080 0x1000).BinaryFunctions 0x1080 = none ∧
    ∃ A2, getFunction (foldFunction scenarioContextReloc 0x1080 0x1000).BinaryFunctions 0x1000 =
        some A2 ∧
      A2.Address = 0x1000 ∧
      A2.Symbols = (BinaryFunction.create "foo" 0x1000 0x50).Symbols ++
        (BinaryFunction.create "bar" 0x1080 0x20).Symbols ∧
      ∀ Symbol ∈ (BinaryFunction.create "bar" 0x1080 0x20).Symbols,
        (getFunctionForSymbol (foldFunction scenarioContextReloc 0x1080 0x1000) Symbol).map
            (fun r => r.1) =
          some A2 :=
  foldFunction_relocation_mode scenarioContextReloc 0x1080 0x1000
    (BinaryFunction.create "bar" 0x1080 0x20) (BinaryFunction.create "foo" 0x1000 0x50)
    (by decide) (by decide) (by decide) (by decide) (by decide) (by decide)

/-- Witness of claim C9: folding `bar` into `foo` in the scenario context, without
relocations. -/
theorem foldFunction_non_relocation_mode_witness :
    ∃ B2, getFunction (foldFunction scenarioContext 0x1080 0x1000).BinaryFunctions 0x1080 =
        some B2 ∧
      getBinaryFunctionAtAddress (foldFunction scenarioContext 0x1080 0x1000) 0x1080 = some B2 ∧
      B2.Address = 0x1080 ∧ B2.Address ≠ 0x1000 ∧
      B2.Symbols = ["__ICF_" ++ (BinaryFunction.create "bar" 0x1080 0x20).getOneName] ∧
      B2.FoldedIntoFunction = some 0x1000 :=
  foldFunction_non_relocation_mode scenarioContext 0x1080 0x1000
    (BinaryFunction.create "bar" 0x1080 0x20) (BinaryFunction.create "foo" 0x1000 0x50)
    (by decide) (by decide) (by decide) (by decide) (by decide) (by decide)

/-! ## Theorems: address references -/

theorem getFunction_updateFunction_self (fs : List BinaryFunction) (a : Nat)
    (f : BinaryFunction → BinaryFunction) (hf : ∀ F, F.Address = a → (f F).Address = a) :
    getFunction (updateFunction fs a f) a = (getFunction fs a).map f := by
  unfold getFunction updateFunction
  induction fs with
  | nil => rfl
  | cons G rest ih =>
    by_cases h : G.Address = a
    · simp [List.find?_cons, h, hf G h]
    · simp only [List.map_cons, List.find?_cons, h, if_false, decide_False]
      exact ih

theorem updateFunction_const_idem (fs : List BinaryFunction) (a : Nat) (G : BinaryFunction)
    (hG : G.Address = a) :
    updateFunction (updateFunction fs a (fun _ => G)) a (fun _ => G) =
      updateFunction fs a (fun _ => G) := by
  unfold updateFunction
  rw [List.map_map]
  apply List.map_congr_left
  intro F _
  by_cases h : F.Address = a
  · simp [h, hG]
  · simp [h]

theorem addEntryPointAtOffset_fields (BF : BinaryFunction) (Offset : Nat) :
    (addEntryPointAtOffset BF Offset).2.Address = BF.Address ∧
    (addEntryPointAtOffset BF Offset).2.Size = BF.Size ∧
    (addEntryPointAtOffset BF Offset).2.MaxSize = BF.MaxSize ∧
    (addEntryPointAtOffset BF Offset).2.HasInternalLabelReference =
      BF.HasInternalLabelReference := by
  unfold addEntryPointAtOffset
  split <;> simp

theorem addEntryPointAtOffset_find (BF : BinaryFunction) (Offset : Nat) :
    (addEntryPointAtOffset BF Offset).2.SecondaryEntryPoints.find?
        (fun e => decide (e.1 = Offset)) =
      some (Offset, (addEntryPointAtOffset BF Offset).1) := by
  unfold addEntryPointAtOffset
  cases h : BF.SecondaryEntryPoints.find? (fun e => decide (e.1 = Offset)) with
  | some e =>
    simp only [h]
    have := List.find?_some h
    simp only [decide_eq_true_eq] at this
    rw [← this]
  | none =>
    simp only [List.find?_append, h, Option.none_or]
    simp

theorem addEntryPointAtOffset_idem (BF : BinaryFunction) (Offset : Nat) :
    addEntryPointAtOffset (addEntryPointAtOffset BF Offset).2 Offset =
      ((addEntryPointAtOffset BF Offset).1, (addEntryPointAtOffset BF Offset).2) := by
  have h := addEntryPointAtOffset_find BF Offset
  generalize addEntryPointAtOffset BF Offset = e at h
  unfold addEntryPointAtOffset
  rw [h]

/-- The escaped-label branch of `handleAddressRef`. -/
theorem handleAddressRef_escape (island : IslandAccess) (BC : BinaryContext)
    (Address BF : Nat) (IsPCRel : Bool) (Fn : BinaryFunction) (Section : BinarySection)
    (hF : getFunction BC.BinaryFunctions BF = some Fn)
    (hisland : isAArch64 BC = true → island BC Address BF = none)
    (hsec : getSectionForAddress BC Address = some Section) (htext : Section.IsText = true)
    (hin : Fn.containsAddress Address (isAArch64 BC) = true)
    (hne : Address ≠ Fn.Address) :
    handleAddressRef island BC Address BF IsPCRel =
      some (((addEntryPointAtOffset { Fn with HasInternalLabelReference := true }
              (sub64 Address Fn.Address)).1, 0),
        { BC with
          BinaryFunctions :=
            updateFunction BC.BinaryFunctions BF
              (fun _ => (addEntryPointAtOffset { Fn with HasInternalLabelReference := true }
                (sub64 Address Fn.Address)).2) }) := by
  have hI : (if isAArch64 BC = true then island BC Address BF else none) = none := by
    by_cases h : isAArch64 BC = true
    · rw [if_pos h]; exact hisland h
    · rw [if_neg h]
  unfold handleAddressRef
  simp only [hF, hI, hsec, htext]
  rw [if_pos ⟨trivial, hin, hne⟩]

theorem setInternalLabelReference_eq (F : BinaryFunction)
    (h : F.HasInternalLabelReference = true) :
    { F with HasInternalLabelReference := true } = F := by
  cases F
  simp only at h
  simp [h]

/-- Claim C10 (amended). For a registered function `F` and an address `a` other than the
start of `F` that lies in a text section and inside the range of `F` (taken by its maximum size
on AArch64), when no constant island claims the address, `handleAddressRef(a, F, isPCRel)`
adds the offset `a - F.start` to the entry points of `F` and returns the label of that
entry point with addend 0, and a later call with the same address and function returns
the same label and leaves the context as it is. -/
theorem handleAddressRef_escaped_label (island : IslandAccess) (BC : BinaryContext)
    (Address BF : Nat) (IsPCRel : Bool) (Fn : BinaryFunction) (Section : BinarySection)
    (hF : getFunction BC.BinaryFunctions BF = some Fn)
    (hisland : isAArch64 BC = true → ∀ BC2, island BC2 Address BF = none)
    (hsec : getSectionForAddress BC Address = some Section) (htext : Section.IsText = true)
    (hin : Fn.containsAddress Address (isAArch64 BC) = true)
    (hne : Address ≠ Fn.Address) :
    ∃ Label BC1 F1,
      handleAddressRef island BC Address BF IsPCRel = some ((Label, 0), BC1) ∧
      getFunction BC1.BinaryFunctions BF = some F1 ∧
      (sub64 Address Fn.Address, Label) ∈ F1.SecondaryEntryPoints ∧
      ∀ IsPCRel2, handleAddressRef island BC1 Address BF IsPCRel2 = some ((Label, 0), BC1) := by
  have hFa : Fn.Address = BF := getFunction_address _ _ _ hF
  have h1 := handleAddressRef_escape island BC Address BF IsPCRel Fn Section hF
    (fun h => hisland h BC) hsec htext hin hne
  obtain ⟨ha, hs, hm, hl⟩ := addEntryPointAtOffset_fields
    { Fn with HasInternalLabelReference := true } (sub64 Address Fn.Address)
  have hfind := addEntryPointAtOffset_find
    { Fn with HasInternalLabelReference := true } (sub64 Address Fn.Address)
  have hidem := addEntryPointAtOffset_idem
    { Fn with HasInternalLabelReference := true } (sub64 Address Fn.Address)
  generalize addEntryPointAtOffset { Fn with HasInternalLabelReference := true }
    (sub64 Address Fn.Address) = e at h1 ha hs hm hl hfind hidem
  simp only at ha hs hm hl
  have hea : e.2.Address = BF := by rw [ha, hFa]
  have hF1 : getFunction (updateFunction BC.BinaryFunctions BF (fun _ => e.2)) BF = some e.2 := by
    rw [getFunction_updateFunction_self _ _ _ (fun _ _ => hea), hF]
    rfl
  refine ⟨e.1, _, e.2, h1, hF1, ?_, ?_⟩
  · have := List.mem_of_find?_eq_some hfind
    exact this
  · intro IsPCRel2
    have hin2 : e.2.containsAddress Address (isAArch64 BC) = true := by
      unfold BinaryFunction.containsAddress at hin ⊢
      rw [ha, hs, hm]
      exact hin
    have h2 := handleAddressRef_escape island
      { BC with BinaryFunctions := updateFunction BC.BinaryFunctions BF (fun _ => e.2) }
      Address BF IsPCRel2 e.2 Section hF1 (fun h => hisland h _) hsec htext hin2
      (by rw [ha]; exact hne)
    rw [h2, setInternalLabelReference_eq e.2 hl, ha, hidem]
    simp only [updateFunction_const_idem _ _ _ hea]

/-- Counterexample to claim C10 as stated: for the function `f` = `[0x2000, 0x2020)` lying
in the non-text section `.data`, the reference to `0x2010` adds no entry point (the
context is unchanged) and returns the symbol `f` of the containing object with addend
`0x10`. -/
theorem escaped_label_counterexample :
    getFunction dataFunctionContext.BinaryFunctions 0x2000 =
        some (BinaryFunction.create "f" 0x2000 0x20) ∧
      (BinaryFunction.create "f" 0x2000 0x20).containsAddress 0x2010 false = true ∧
      handleAddressRef noIsland dataFunctionContext 0x2010 0x2000 false =
        some (("f", 0x10), dataFunctionContext) := by
  decide

/-- Witness of claim C10 (amended): the reference to `0x1010` inside `foo` =
`[0x1000, 0x1050)` of `.text` returns the label `__ENTRY_foo@0x1010` with addend 0, now
and on a later call. -/
theorem handleAddressRef_escaped_label_witness :
    (handleAddressRef noIsland scenarioContext 0x1010 0x1000 false).map (fun r => r.1) =
        some ("__ENTRY_foo@0x1010", 0) ∧
    ∃ Label BC1 F1,
      handleAddressRef noIsland scenarioContext 0x1010 0x1000 false = some ((Label, 0), BC1) ∧
      getFunction BC1.BinaryFunctions 0x1000 = some F1 ∧
      (sub64 0x1010 (BinaryFunction.create "foo" 0x1000 0x50).Address, Label) ∈
        F1.SecondaryEntryPoints ∧
      ∀ IsPCRel2, handleAddressRef noIsland BC1 0x1010 0x1000 IsPCRel2 = some ((Label, 0), BC1) :=
  ⟨by decide,
    handleAddressRef_escaped_label noIsland scenarioContext 0x1010 0x1000 false
      (BinaryFunction.create "foo" 0x1000 0x50) textSection (by decide)
      (fun h => absurd h (by decide)) (by decide) (by decide) (by decide) (by decide)⟩

/-! ## Theorems: size updates -/

/-- Claim C11. For an object registered at the address, `setBinaryDataSize(address, size)`
returns true exactly when the committed size of the object was zero, and then the size
of the object becomes `size`; when a non-zero size was committed it returns false and
leaves the map as it is. An object with a non-zero size keeps its size in either case. -/
theorem setBinaryDataSize_contract (m : List BinaryData) (Address Size : Nat)
    (BD : BinaryData) (hBD : getBinaryDataAtAddress m Address = some BD) :
    ((setBinaryDataSize m Address Size).1 = true ↔ BD.Size = 0) ∧
    (BD.Size = 0 →
      (getBinaryDataAtAddress (setBinaryDataSize m Address Size).2 Address).map
        (fun X => X.Size) = some Size) ∧
    (BD.Size ≠ 0 → setBinaryDataSize m Address Size = (false, m)) ∧
    (∀ X ∈ m, X.Size ≠ 0 →
      ∃ Y ∈ (setBinaryDataSize m Address Size).2, Y.Address = X.Address ∧ Y.Size = X.Size) := by
  unfold getBinaryDataAtAddress at hBD
  cases hfi : findIter m Address with
  | none => rw [hfi] at hBD; simp at hBD
  | some r =>
    obtain ⟨pre, NI, post⟩ := r
    rw [hfi] at hBD
    simp only [Option.map_some', Option.some.injEq] at hBD
    subst hBD
    obtain ⟨hm, hNI, hpre⟩ := findIter_some m Address pre post NI hfi
    unfold setBinaryDataSize
    rw [hfi]
    simp only
    by_cases hz : NI.Size = 0
    · simp only [hz, if_true, true_iff, ne_eq, not_true_eq_false, false_implies, true_and,
        forall_true_left]
      obtain ⟨G, post1, hshape, hG⟩ := updateObjectNesting_shape pre { NI with Size := Size } post
      have hGf := setParent_none_eq hG
      simp only at hGf
      constructor
      · rw [hshape]
        have := findIter_split pre G post1 (by rw [hGf.1, hNI]; exact hpre)
        rw [hGf.1, hNI] at this
        unfold getBinaryDataAtAddress
        rw [this]
        simp [hGf.2.2.1]
      · intro X hX hXs
        have hcore := updateObjectNesting_core pre { NI with Size := Size } post
        have hXm : X ∈ pre ++ { NI with Size := Size } :: post := by
          rw [hm] at hX
          simp only [List.mem_append, List.mem_cons] at hX ⊢
          rcases hX with h | h | h
          · exact Or.inl h
          · rw [h] at hXs; exact absurd hz hXs
          · exact Or.inr (Or.inr h)
        have : X.setParent none ∈
            (updateObjectNesting pre { NI with Size := Size } post).map
              (fun X => X.setParent none) := by
          rw [hcore]
          exact List.mem_map.2 ⟨X, hXm, rfl⟩
        obtain ⟨Y, hY, hYX⟩ := List.mem_map.1 this
        have := setParent_none_eq hYX
        exact ⟨Y, hY, this.1, this.2.2.1⟩
    · simp only [hz, if_false, Bool.false_eq_true, false_iff, not_false_eq_true, true_and,
        false_implies, ne_eq, forall_true_left]
      intro X hX _
      exact ⟨X, hX, rfl, rfl⟩

/-- Witness of claim C11: in the scenario context the size of `foo` is committed, and the
call on its address returns false and changes nothing; the object of size zero at
`0x200C` of `nestedContext` takes the size it is given. -/
theorem setBinaryDataSize_contract_witness :
    ((setBinaryDataSize scenarioContext.BinaryDataMap 0x1000 0x60).1 = true ↔
      (newBinaryData (registerSection emptyContext textSection) "foo" 0x1000 0x50 0 0).Size = 0) ∧
    setBinaryDataSize scenarioContext.BinaryDataMap 0x1000 0x60 =
      (false, scenarioContext.BinaryDataMap) ∧
    (setBinaryDataSize nestedContext.BinaryDataMap 0x200C 4).1 = true ∧
    (getBinaryDataAtAddress (setBinaryDataSize nestedContext.BinaryDataMap 0x200C 4).2
      0x200C).map (fun X => X.Size) = some 4 :=
  ⟨(setBinaryDataSize_contract scenarioContext.BinaryDataMap 0x1000 0x60
      (newBinaryData (registerSection emptyContext textSection) "foo" 0x1000 0x50 0 0)
      (by decide)).1,
    (setBinaryDataSize_contract scenarioContext.BinaryDataMap 0x1000 0x60
      (newBinaryData (registerSection emptyContext textSection) "foo" 0x1000 0x50 0 0)
      (by decide)).2.2.1 (by decide),
    by decide, by decide⟩

/-! ## Theorems: function and section lookup -/

/-- The entry before `upper_bound(a)` of a list kept in key order: it is the entry that
splits the list into entries that precede it and entries with keys above `a`. -/
theorem getLast_takeWhile_iff {α : Type} (key : α → Nat) (l : List α)
    (hs : l.Pairwise (fun x y => key x ≤ key y)) (a : Nat) (F : α) :
    (l.takeWhile (fun x => decide (key x ≤ a))).getLast? = some F ↔
      ∃ l1 l2, l = l1 ++ F :: l2 ∧ key F ≤ a ∧ ∀ y ∈ l2, a < key y := by
  constructor
  · intro h
    obtain ⟨l1, hl1⟩ := List.getLast?_eq_some_iff.1 h
    have hsplit := List.takeWhile_append_dropWhile (fun x => decide (key x ≤ a)) l
    have hF : F ∈ l.takeWhile (fun x => decide (key x ≤ a)) := by rw [hl1]; simp
    have hFa : key F ≤ a := by simpa using List.mem_takeWhile_imp hF
    refine ⟨l1, l.dropWhile (fun x => decide (key x ≤ a)), ?_, hFa, ?_⟩
    · rw [← List.singleton_append, ← List.append_assoc, ← hl1, hsplit]
    · intro y hy
      cases hd : l.dropWhile (fun x => decide (key x ≤ a)) with
      | nil => rw [hd] at hy; simp at hy
      | cons z rest =>
        have hz := List.head_dropWhile_not (fun x => decide (key x ≤ a)) l
        simp only [hd, List.head_cons] at hz
        have hz2 : a < key z := by
          have := hz (by simp)
          simpa using this
        rw [hd] at hy
        rcases List.mem_cons.1 hy with h1 | h1
        · rw [h1]; exact hz2
        · have hs2 : (l.takeWhile (fun x => decide (key x ≤ a)) ++ (z :: rest)).Pairwise
              (fun x y => key x ≤ key y) := by rw [← hd, hsplit]; exact hs
          have := (List.pairwise_append.1 hs2).2.1
          have := List.rel_of_pairwise_cons this h1
          omega
  · rintro ⟨l1, l2, hl, hFa, hl2⟩
    subst hl
    have h1 : ∀ x ∈ l1, decide (key x ≤ a) = true := by
      intro x hx
      have := (List.pairwise_append.1 hs).2.2 x hx F (by simp)
      simp only [decide_eq_true_eq]
      omega
    have h2 : List.takeWhile (fun x => decide (key x ≤ a)) l2 = [] := by
      cases l2 with
      | nil => rfl
      | cons z rest =>
        have := hl2 z (by simp)
        simp [List.takeWhile_cons, Nat.not_le.2 this]
    rw [List.takeWhile_append_of_pos h1, List.takeWhile_cons]
    simp [hFa, h2]

/-- The result of `getBinaryFunctionContainingAddress` on a function map in key order,
the end of the range taken in 64-bit arithmetic as the code takes it. -/
theorem getBinaryFunctionContainingAddress_wrap_iff (BC : BinaryContext)
    (hs : SortedFunctions BC.BinaryFunctions) (a : Nat) (CheckPastEnd UseMaxSize : Bool)
    (F : BinaryFunction) :
    getBinaryFunctionContainingAddress BC a CheckPastEnd UseMaxSize = some F ↔
      (F ∈ BC.BinaryFunctions ∧ F.Address ≤ a ∧
        (∀ G ∈ BC.BinaryFunctions, G.Address ≤ a → G.Address ≤ F.Address) ∧
        a < wrap64 (F.Address + (if UseMaxSize then F.MaxSize else F.Size) +
          (if CheckPastEnd then 1 else 0))) := by
  have hs2 : BC.BinaryFunctions.Pairwise (fun x y => x.Address ≤ y.Address) :=
    List.Pairwise.imp (fun h => Nat.le_of_lt h) hs
  have key := getLast_takeWhile_iff (fun G : BinaryFunction => G.Address) BC.BinaryFunctions hs2 a
  unfold getBinaryFunctionContainingAddress
  constructor
  · intro h
    cases hl : (BC.BinaryFunctions.takeWhile (fun F => decide (F.Address ≤ a))).getLast? with
    | none => rw [hl] at h; simp at h
    | some FI =>
      rw [hl] at h
      dsimp only at h
      by_cases hb : a ≥ wrap64 (FI.Address + (if UseMaxSize = true then FI.MaxSize else FI.Size) +
          (if CheckPastEnd = true then 1 else 0))
      · rw [if_pos hb] at h; simp at h
      · rw [if_neg hb] at h
        simp only [Option.some.injEq] at h
        subst h
        obtain ⟨l1, l2, hsplit, hFa, hl2⟩ := (key FI).1 hl
        refine ⟨by rw [hsplit]; simp, hFa, ?_, by omega⟩
        intro G hG hGa
        rw [hsplit] at hG hs2
        rcases List.mem_append.1 hG with h1 | h1
        · exact (List.pairwise_append.1 hs2).2.2 G h1 FI (by simp)
        · rcases List.mem_cons.1 h1 with h2 | h2
          · rw [h2]
          · have := hl2 G h2; omega
  · rintro ⟨hF, hFa, hmax, hb⟩
    obtain ⟨l1, l2, hsplit⟩ := List.append_of_mem hF
    have hl : (BC.BinaryFunctions.takeWhile (fun F => decide (F.Address ≤ a))).getLast? =
        some F := by
      apply (key F).2
      refine ⟨l1, l2, hsplit, hFa, ?_⟩
      intro y hy
      have hy2 : y ∈ BC.BinaryFunctions := by rw [hsplit]; simp [hy]
      have hlt : F.Address < y.Address := by
        unfold SortedFunctions at hs
        rw [hsplit] at hs
        exact List.rel_of_pairwise_cons (List.pairwise_append.1 hs).2.1 hy
      by_contra hcon
      have := hmax y hy2 (by omega)
      omega
    rw [hl]
    dsimp only
    rw [if_neg (by omega)]

theorem dropWhile_above {α : Type} (key : α → Nat) (l : List α)
    (hs : l.Pairwise (fun x y => key x ≤ key y)) (a : Nat) :
    ∀ y ∈ l.dropWhile (fun x => decide (key x ≤ a)), a < key y := by
  intro y hy
  have hsplit := List.takeWhile_append_dropWhile (fun x => decide (key x ≤ a)) l
  cases hd : l.dropWhile (fun x => decide (key x ≤ a)) with
  | nil => rw [hd] at hy; simp at hy
  | cons z rest =>
    have hz := List.head_dropWhile_not (fun x => decide (key x ≤ a)) l
    simp only [hd, List.head_cons] at hz
    have hz2 : a < key z := by
      have := hz (by simp)
      simpa using this
    rw [hd] at hy
    rcases List.mem_cons.1 hy with h1 | h1
    · rw [h1]; exact hz2
    · have hs2 : (l.takeWhile (fun x => decide (key x ≤ a)) ++ (z :: rest)).Pairwise
          (fun x y => key x ≤ key y) := by rw [← hd, hsplit]; exact hs
      have := List.rel_of_pairwise_cons (List.pairwise_append.1 hs2).2.1 h1
      omega

theorem registerSection_addressMap (ss : List BinarySection) (BC : BinaryContext)
    (S : BinarySection) (hS : S ∈ ss) (h : AddressMapOK ss BC.AddressToSection) :
    AddressMapOK ss (registerSection BC S).AddressToSection := by
  unfold registerSection
  simp only
  split
  · rename_i hc
    simp only [Bool.and_eq_true, decide_eq_true_eq] at hc
    have hsplit := List.takeWhile_append_dropWhile
      (fun T : BinarySection => decide (T.Address ≤ S.Address)) BC.AddressToSection
    have hs := h.1
    rw [← hsplit] at hs
    obtain ⟨h1, h2, h3⟩ := List.pairwise_append.1 hs
    have hbelow : ∀ x ∈ BC.AddressToSection.takeWhile
        (fun T : BinarySection => decide (T.Address ≤ S.Address)), x.Address ≤ S.Address := by
      intro x hx
      simpa using List.mem_takeWhile_imp hx
    have habove := dropWhile_above (fun T : BinarySection => T.Address) BC.AddressToSection
      h.1 S.Address
    constructor
    · apply List.pairwise_append.2
      refine ⟨h1, List.pairwise_cons.2 ⟨fun y hy => Nat.le_of_lt (habove y hy), h2⟩, ?_⟩
      intro x hx y hy
      rcases List.mem_cons.1 hy with hy | hy
      · rw [hy]; exact hbelow x hx
      · exact h3 x hx y hy
    · intro T hT
      rcases List.mem_append.1 hT with hT | hT
      · exact h.2 T ((List.takeWhile_sublist _).subset hT)
      · rcases List.mem_cons.1 hT with hT | hT
        · rw [hT]; exact ⟨hc.1, hc.2, hS⟩
        · exact h.2 T ((List.dropWhile_sublist _).subset hT)
  · exact h

theorem registerSections_addressMap (ss : List BinarySection) :
    ∀ (rs : List BinarySection) (BC : BinaryContext), (∀ S ∈ rs, S ∈ ss) →
      AddressMapOK ss BC.AddressToSection →
      AddressMapOK ss (rs.foldl registerSection BC).AddressToSection := by
  intro rs
  induction rs with
  | nil => intro BC _ h; exact h
  | cons S rest ih =>
    intro BC hrs h
    simp only [List.foldl_cons]
    exact ih _ (fun T hT => hrs T (List.mem_cons_of_mem _ hT))
      (registerSection_addressMap ss BC S (hrs S (List.mem_cons_self _ _)) h)

/-- The result of `getSectionForAddress` on an address map in key order. -/
theorem getSectionForAddress_sorted (BC : BinaryContext)
    (hs : BC.AddressToSection.Pairwise (fun S T => S.Address ≤ T.Address)) (a : Nat)
    (S : BinarySection) :
    getSectionForAddress BC a = some S ↔
      ∃ l1 l2, BC.AddressToSection = l1 ++ S :: l2 ∧ S.Address ≤ a ∧ (∀ T ∈ l2, a < T.Address) ∧
        (a < wrap64 (S.Address + S.Size) ∨ (S.Size = 0 ∧ a = S.Address ∧ a < wrap64 (a + 1))) := by
  have key := getLast_takeWhile_iff (fun T : BinarySection => T.Address) BC.AddressToSection hs a
  have hw : ∀ A : Nat, wrap64 (wrap64 A + 1) = wrap64 (A + 1) := by
    intro A; unfold wrap64; omega
  unfold getSectionForAddress
  constructor
  · intro h
    cases hl : (BC.AddressToSection.takeWhile (fun S => decide (S.Address ≤ a))).getLast? with
    | none => rw [hl] at h; simp at h
    | some SI =>
      rw [hl] at h
      dsimp only at h
      obtain ⟨l1, l2, hsplit, hSa, hl2⟩ := (key SI).1 hl
      by_cases hz : SI.Size = 0
      · rw [if_pos hz, hz, Nat.add_zero, hw] at h
        by_cases hb : wrap64 (SI.Address + 1) > a
        · rw [if_pos hb] at h
          simp only [Option.some.injEq] at h
          subst h
          have hle : wrap64 (SI.Address + 1) ≤ SI.Address + 1 := Nat.mod_le _ _
          have hEq : a = SI.Address := by omega
          refine ⟨l1, l2, hsplit, hSa, hl2, Or.inr ⟨hz, hEq, ?_⟩⟩
          rw [hEq]; rw [hEq] at hb; exact hb
        · rw [if_neg hb] at h; simp at h
      · rw [if_neg hz] at h
        by_cases hb : wrap64 (SI.Address + SI.Size) > a
        · rw [if_pos hb] at h
          simp only [Option.some.injEq] at h
          subst h
          exact ⟨l1, l2, hsplit, hSa, hl2, Or.inl hb⟩
        · rw [if_neg hb] at h; simp at h
  · rintro ⟨l1, l2, hsplit, hSa, hl2, hb⟩
    rw [(key S).2 ⟨l1, l2, hsplit, hSa, hl2⟩]
    dsimp only
    have hle : wrap64 (S.Address + S.Size) ≤ S.Address + S.Size := Nat.mod_le _ _
    by_cases hz : S.Size = 0
    · rw [if_pos hz, hz, Nat.add_zero, hw]
      rcases hb with hb | hb
      · rw [hz] at hb hle; omega
      · rw [if_pos (by rw [← hb.2.1]; exact hb.2.2)]
    · rw [if_neg hz]
      rcases hb with hb | hb
      · rw [if_pos hb]
      · exact absurd hb.1 hz

/-! ## Theorems: fragments -/

theorem mem_insertHandle (l : List Nat) (h : Nat) : h ∈ insertHandle l h := by
  unfold insertHandle
  split
  · rename_i hc; simpa using hc
  · simp

theorem areRelatedFragments_unionSets (BC : BinaryContext) (classes : List (List Nat))
    (a b : Nat) (h : BC.FragmentClasses = unionSets classes a b) :
    areRelatedFragments BC a b = true := by
  unfold areRelatedFragments
  rw [h]
  simp [unionSets]

theorem addParentFragment_Address (F : BinaryFunction) (P : Nat) :
    (F.addParentFragment P).Address = F.Address := rfl

theorem addFragment_Address (F : BinaryFunction) (P : Nat) :
    (F.addFragment P).Address = F.Address := rfl

theorem setSimple_Address (F : BinaryFunction) (b : Bool) :
    (F.setSimple b).Address = F.Address := rfl

/-- The functions registered after `registerFragment` links a new fragment. -/
theorem registerFragment_functions (BC : BinaryContext) (Target Owner : Nat)
    (T : BinaryFunction) (hT : getFunction BC.BinaryFunctions Target = some T)
    (hc : T.isChildOf Owner = false) (b : Nat) :
    getFunction (registerFragment BC Target Owner).2.BinaryFunctions b =
      (getFunction BC.BinaryFunctions b).map (fun F =>
        let F1 := if F.Address = Target then F.addParentFragment Owner else F
        let F2 := if F.Address = Owner then F1.addFragment Target else F1
        if BC.HasRelocations then F2
        else
          let F3 := if F.Address = Target then F2.setSimple false else F2
          if F.Address = Owner then F3.setSimple false else F3) := by
  unfold registerFragment
  simp only [hT, hc, Bool.false_eq_true, if_false]
  cases hr : BC.HasRelocations with
  | false =>
    simp only [Bool.not_false, if_true, getFunction_updateFunction, addParentFragment_Address,
      addFragment_Address, setSimple_Address, implies_true, Option.map_map]
    congr 1
    funext F
    simp only [Function.comp]
    by_cases h1 : F.Address = Target
    · subst h1
      by_cases h2 : F.Address = Owner
      · subst h2
        simp [addParentFragment_Address, addFragment_Address, setSimple_Address]
      · simp [h2, addParentFragment_Address, addFragment_Address, setSimple_Address]
    · by_cases h2 : F.Address = Owner
      · subst h2
        simp [h1, addParentFragment_Address, addFragment_Address, setSimple_Address]
      · simp [h1, h2, addParentFragment_Address, addFragment_Address, setSimple_Address]
  | true =>
    simp only [Bool.not_true, Bool.false_eq_true, if_false, getFunction_updateFunction,
      addParentFragment_Address, addFragment_Address, implies_true, Option.map_map, if_true]
    congr 1
    funext F
    simp only [Function.comp]
    by_cases h1 : F.Address = Target
    · subst h1
      by_cases h2 : F.Address = Owner
      · subst h2
        simp [addParentFragment_Address, addFragment_Address]
      · simp [h2, addParentFragment_Address, addFragment_Address]
    · by_cases h2 : F.Address = Owner
      · subst h2
        simp [h1, addParentFragment_Address, addFragment_Address]
      · simp [h1, h2, addParentFragment_Address, addFragment_Address]

/-- Claim C15. For registered functions `target` and `owner`: when `target` is not
already a child of `owner`, after `registerFragment(target, owner)` the owner is among the
parent fragments of the target, the target is among the fragments of the owner, the two
are in one fragment class, and both are marked non-simple when relocations are off while
their simple flags are untouched when relocations are on; when `target` is already a
child of `owner` the call changes no state. -/
theorem registerFragment_contract (BC : BinaryContext) (Target Owner : Nat)
    (T O : BinaryFunction)
    (hT : getFunction BC.BinaryFunctions Target = some T)
    (hO : getFunction BC.BinaryFunctions Owner = some O) :
    (T.isChildOf Owner = false →
      ∃ T2 O2,
        getFunction (registerFragment BC Target Owner).2.BinaryFunctions
          Target = some T2 ∧
        getFunction (registerFragment BC Target Owner).2.BinaryFunctions
          Owner = some O2 ∧
        Owner ∈ T2.ParentFragments ∧ Target ∈ O2.Fragments ∧
        areRelatedFragments (registerFragment BC Target Owner).2
          Target Owner = true ∧
        (BC.HasRelocations = false → T2.IsSimple = false ∧ O2.IsSimple = false) ∧
        (BC.HasRelocations = true → T2.IsSimple = T.IsSimple ∧ O2.IsSimple = O.IsSimple)) ∧
    (T.isChildOf Owner = true → registerFragment BC Target Owner = (true, BC)) := by
  have hTa := getFunction_address _ _ _ hT
  have hOa := getFunction_address _ _ _ hO
  constructor
  · intro hc
    have hfT := registerFragment_functions BC Target Owner T hT hc Target
    have hfO := registerFragment_functions BC Target Owner T hT hc Owner
    rw [hT] at hfT
    rw [hO] at hfO
    simp only [Option.map_some', hTa, hOa, if_true] at hfT hfO
    refine ⟨_, _, hfT, hfO, ?_, ?_, ?_, ?_, ?_⟩
    · cases BC.HasRelocations <;> by_cases hsame : Target = Owner <;>
        simp [hsame, BinaryFunction.setSimple, BinaryFunction.addFragment,
          BinaryFunction.addParentFragment, mem_insertHandle]
    · cases BC.HasRelocations <;> by_cases hsame : Owner = Target <;>
        simp [hsame, BinaryFunction.setSimple, BinaryFunction.addFragment,
          BinaryFunction.addParentFragment, mem_insertHandle]
    · apply areRelatedFragments_unionSets _ BC.FragmentClasses
      unfold registerFragment
      simp only [hT, hc, Bool.false_eq_true, if_false]
    · intro hr
      rw [hr]
      constructor
      · by_cases hsame : Target = Owner <;>
          simp [hsame, BinaryFunction.setSimple, BinaryFunction.addFragment,
            BinaryFunction.addParentFragment]
      · by_cases hsame : Owner = Target <;>
          simp [hsame, BinaryFunction.setSimple, BinaryFunction.addFragment,
            BinaryFunction.addParentFragment]
    · intro hr
      rw [hr]
      constructor
      · by_cases hsame : Target = Owner <;>
          simp [hsame, BinaryFunction.addFragment, BinaryFunction.addParentFragment]
      · by_cases hsame : Owner = Target <;>
          simp [hsame, BinaryFunction.addFragment, BinaryFunction.addParentFragment]
  · intro hc
    unfold registerFragment
    simp only [hT, hc, if_true]

/-- Witness of claim C15: `bar` is registered as a fragment of `foo` in the scenario
context, where relocations are off. -/
theorem registerFragment_contract_witness :
    ∃ T2 O2,
      getFunction (registerFragment scenarioContext 0x1080 0x1000).2.BinaryFunctions 0x1080 =
        some T2 ∧
      getFunction (registerFragment scenarioContext 0x1080 0x1000).2.BinaryFunctions 0x1000 =
        some O2 ∧
      0x1000 ∈ T2.ParentFragments ∧ 0x1080 ∈ O2.Fragments ∧
      areRelatedFragments (registerFragment scenarioContext 0x1080 0x1000).2 0x1080 0x1000 =
        true ∧
      (scenarioContext.HasRelocations = false → T2.IsSimple = false ∧ O2.IsSimple = false) ∧
      (scenarioContext.HasRelocations = true →
        T2.IsSimple = (BinaryFunction.create "bar" 0x1080 0x20).IsSimple ∧
        O2.IsSimple = (BinaryFunction.create "foo" 0x1000 0x50).IsSimple) :=
  (registerFragment_contract scenarioContext 0x1080 0x1000
    (BinaryFunction.create "bar" 0x1080 0x20) (BinaryFunction.create "foo" 0x1000 0x50)
    (by decide) (by decide)).1 (by decide)

/-! ## Theorems: trimming and the bound of the scan -/

theorem dropTrailing_append_end (x : Nat) (l : List Nat) :
    dropTrailing x (l ++ [x]) = dropTrailing x l := by
  simp [dropTrailing, List.dropWhile_cons]

theorem dropTrailing_append_other (x y : Nat) (l : List Nat) (h : y ≠ x) :
    dropTrailing x (l ++ [y]) = l ++ [y] := by
  simp [dropTrailing, List.dropWhile_cons, h]

theorem dropTrailing_take (x : Nat) (l : List Nat) :
    l.take (dropTrailing x l).length = dropTrailing x l ∧ (dropTrailing x l).length ≤ l.length := by
  have h := List.takeWhile_append_dropWhile (fun v => decide (v = x)) l.reverse
  have h2 : l = (l.reverse.dropWhile (fun v => decide (v = x))).reverse ++
      (l.reverse.takeWhile (fun v => decide (v = x))).reverse := by
    rw [← List.reverse_append, h, List.reverse_reverse]
  have hd : dropTrailing x l = (l.reverse.dropWhile (fun v => decide (v = x))).reverse := rfl
  rw [hd]
  generalize (l.reverse.dropWhile (fun v => decide (v = x))).reverse = d at h2
  generalize (l.reverse.takeWhile (fun v => decide (v = x))).reverse = t at h2
  subst h2
  constructor
  · exact List.take_left' rfl
  · simp

/-- The output list and the trimmed size after the scan of any entries. -/
theorem foldl_recordEntry_trimmed (BF : BinaryFunction) (vs : List (Nat × Bool)) :
    ∀ (s : ScanState) (es : List Nat), s.EntriesAsAddress = some es →
      s.TrimmedSize = (dropTrailing (wrap64 (BF.Address + BF.Size)) es).length →
      (vs.foldl (recordEntry BF) s).EntriesAsAddress = some (es ++ vs.map (fun v => v.1)) ∧
        (vs.foldl (recordEntry BF) s).TrimmedSize =
          (dropTrailing (wrap64 (BF.Address + BF.Size)) (es ++ vs.map (fun v => v.1))).length := by
  induction vs with
  | nil => intro s es hes ht; simp [hes, ht]
  | cons v rest ih =>
    intro s es hes ht
    simp only [List.foldl_cons, List.map_cons]
    have happ : es ++ v.1 :: rest.map (fun v => v.1) = (es ++ [v.1]) ++ rest.map (fun v => v.1) := by
      simp
    rw [happ]
    by_cases hv : v.1 = wrap64 (BF.Address + BF.Size)
    · obtain ⟨h1, h2⟩ := recordEntry_entries_end BF s v es hv hes
      apply ih _ _ h1
      rw [h2, ht, hv, dropTrailing_append_end]
    · obtain ⟨h1, h2⟩ := recordEntry_entries_real BF s v es hv hes
      apply ih _ _ h1
      rw [h2, dropTrailing_append_other _ _ _ hv]

/-- Claim C19 (amended). When a function exists at the end address of the owning function
and the output list is empty on entry, the entry list recorded by `analyzeJumpTable` for an
absolute table is the scanned list without its trailing entries equal to that end
address, and for a PIC table it is the whole scanned list. -/
theorem analyzeJumpTable_trims_absolute_only (BC : BinaryContext) (Address : Nat)
    (JTType : JumpTableType) (BF : BinaryFunction) (NextJTAddress : Nat)
    (HasEntryInFragment : Option Bool) (Section : BinarySection) (vs : List (Nat × Bool))
    (hsec : getSectionForAddress BC Address = some Section)
    (hscan : scannedEntries BC Address JTType BF NextJTAddress = some vs)
    (hfn : (getBinaryFunctionAtAddress BC (wrap64 (BF.Address + BF.Size))).isSome = true) :
    ∃ r, analyzeJumpTable BC Address JTType BF NextJTAddress (some []) HasEntryInFragment =
        some r ∧
      r.EntriesAsAddress =
        some (if JTType = JumpTableType.JTT_NORMAL then
            dropTrailing (wrap64 (BF.Address + BF.Size)) (vs.map (fun v => v.1))
          else vs.map (fun v => v.1)) := by
  refine ⟨_, analyzeJumpTable_of_scan BC Address JTType BF NextJTAddress (some [])
    HasEntryInFragment Section vs hsec hscan, ?_⟩
  obtain ⟨h1, h2⟩ := foldl_recordEntry_trimmed BF vs
    { HasUnreachable := false, HasStartAsEntry := false, NumRealEntries := 0,
      TrimmedSize := 0, EntriesAsAddress := some [],
      HasEntryInFragment := HasEntryInFragment } [] rfl rfl
  simp only [List.nil_append] at h1 h2
  obtain ⟨h3, h4⟩ := dropTrailing_take (wrap64 (BF.Address + BF.Size)) (vs.map (fun v => v.1))
  simp only [h1, h2]
  by_cases hn : JTType = JumpTableType.JTT_NORMAL
  · by_cases hlen : (dropTrailing (wrap64 (BF.Address + BF.Size)) (vs.map (fun v => v.1))).length =
        (vs.map (fun v => v.1)).length
    · have : dropTrailing (wrap64 (BF.Address + BF.Size)) (vs.map (fun v => v.1)) =
          vs.map (fun v => v.1) := by
        rw [← h3, hlen, List.take_length]
      simp [hn, hlen, this]
    · rw [if_pos ⟨hn, hlen, hfn⟩, if_pos hn, h3]
      have : (dropTrailing (wrap64 (BF.Address + BF.Size)) (vs.map (fun v => v.1))).length -
          (vs.map (fun v => v.1)).length = 0 := by omega
      rw [this]
      simp
  · simp [hn]

set_option maxRecDepth 100000 in
/-- Counterexample to claim C19 as stated: for the PIC table with targets `f+0x10`,
`f+0x20`, `f_end` and a function `g` at `f_end`, the recorded list keeps the trailing
entry `f_end`. -/
theorem trims_counterexample :
    scannedEntries (picTableContext [0x1010, 0x1020, 0x1040]) 0x2000 JumpTableType.JTT_PIC
        tableOwner 0 = some [(0x1010, false), (0x1020, false), (0x1040, false)] ∧
    wrap64 (tableOwner.Address + tableOwner.Size) = 0x1040 ∧
    (getBinaryFunctionAtAddress (picTableContext [0x1010, 0x1020, 0x1040]) 0x1040).isSome =
      true ∧
    analyzeJumpTable (picTableContext [0x1010, 0x1020, 0x1040]) 0x2000 JumpTableType.JTT_PIC
        tableOwner 0 (some []) (some false) =
      some { Result := true, EntriesAsAddress := some [0x1010, 0x1020, 0x1040],
             HasEntryInFragment := some false } := by
  decide

set_option maxRecDepth 100000 in
/-- Witness of claim C19 (amended): the absolute table `[f+0x10, f+0x20, f_end]` with a
function at `f_end` is recorded without its last entry. -/
theorem analyzeJumpTable_trims_absolute_only_witness :
    ∃ r, analyzeJumpTable (tableContextNext [0x1010, 0x1020, 0x1040]) 0x2000
          JumpTableType.JTT_NORMAL tableOwner 0 (some []) (some false) = some r ∧
      r.EntriesAsAddress =
        some (if JumpTableType.JTT_NORMAL = JumpTableType.JTT_NORMAL then
            dropTrailing (wrap64 (tableOwner.Address + tableOwner.Size))
              ([(0x1010, false), (0x1020, false), (0x1040, false)].map (fun v => v.1))
          else [(0x1010, false), (0x1020, false), (0x1040, false)].map (fun v => v.1)) :=
  analyzeJumpTable_trims_absolute_only (tableContextNext [0x1010, 0x1020, 0x1040]) 0x2000
    JumpTableType.JTT_NORMAL tableOwner 0 (some false) (tableSection [0x1010, 0x1020, 0x1040])
    [(0x1010, false), (0x1020, false), (0x1040, false)] (by decide) (by decide) (by decide)

theorem sub64_of_le (a b : Nat) (h : b ≤ a) (ha : a < 18446744073709551616) :
    sub64 a b = a - b := by
  unfold sub64 wrap64
  omega

/-- The entries of a scan are read at consecutive addresses and end at or below the upper
bound, when the bound is at least one entry size. -/
theorem scannedFrom_bound (BC : BinaryContext) (Address : Nat) (JTType : JumpTableType)
    (BF : BinaryFunction) (UpperBound EntrySize : Nat) (hES : EntrySize ≤ UpperBound)
    (hUB : UpperBound < 18446744073709551616) :
    ∀ (fuel EntryAddress : Nat) (vs : List (Nat × Bool)),
      scannedFrom BC Address JTType BF UpperBound EntrySize fuel EntryAddress = some vs →
      ∀ (i : Nat) (v : Nat × Bool), vs[i]? = some v →
        entryValue BC Address JTType (EntryAddress + i * EntrySize) EntrySize = some v.1 ∧
          EntryAddress + (i + 1) * EntrySize ≤ UpperBound := by
  intro fuel
  induction fuel with
  | zero => intro EA vs h; simp [scannedFrom] at h
  | succ n ih =>
    intro EA vs h i v hi
    unfold scannedFrom at h
    by_cases hfit : EA ≤ sub64 UpperBound EntrySize
    · rw [if_neg (not_not.2 hfit)] at h
      rw [sub64_of_le _ _ hES hUB] at hfit
      have hw : wrap64 (EA + EntrySize) = EA + EntrySize := by
        unfold wrap64
        exact Nat.mod_eq_of_lt (by omega)
      rw [hw] at h
      have step : ∀ (Value : Nat) (flag : Bool) (l : List (Nat × Bool)),
          entryValue BC Address JTType EA EntrySize = some Value →
          scannedFrom BC Address JTType BF UpperBound EntrySize n (EA + EntrySize) = some l →
          vs = (Value, flag) :: l →
          entryValue BC Address JTType (EA + i * EntrySize) EntrySize = some v.1 ∧
            EA + (i + 1) * EntrySize ≤ UpperBound := by
        intro Value flag l hval hrec hvs
        subst hvs
        cases i with
        | zero =>
          simp only [List.getElem?_cons_zero, Option.some.injEq] at hi
          subst hi
          simp only [Nat.zero_mul, Nat.add_zero, Nat.zero_add, Nat.one_mul]
          exact ⟨hval, by omega⟩
        | succ j =>
          simp only [List.getElem?_cons_succ] at hi
          obtain ⟨h1, h2⟩ := ih (EA + EntrySize) l hrec j v hi
          have e1 : EA + (j + 1) * EntrySize = EA + EntrySize + j * EntrySize := by
            rw [Nat.succ_mul]; omega
          have e2 : EA + (j + 1 + 1) * EntrySize = EA + EntrySize + (j + 1) * EntrySize := by
            rw [Nat.succ_mul (j + 1)]; omega
          rw [e1, e2]
          exact ⟨h1, h2⟩
      split at h
      · simp only [Option.some.injEq] at h
        subst h
        simp at hi
      · cases hval : entryValue BC Address JTType EA EntrySize with
        | none => rw [hval] at h; simp at h
        | some Value =>
          rw [hval] at h
          simp only at h
          split at h
          · cases hrec : scannedFrom BC Address JTType BF UpperBound EntrySize n
                (EA + EntrySize) with
            | none => rw [hrec] at h; simp at h
            | some l =>
              rw [hrec] at h
              simp only [Option.map_some', Option.some.injEq] at h
              exact step Value false l hval hrec h.symm
          · split at h
            · simp only [Option.some.injEq] at h
              subst h
              simp at hi
            · rename_i TargetBF _
              cases hrec : scannedFrom BC Address JTType BF UpperBound EntrySize n
                  (EA + EntrySize) with
              | none => rw [hrec] at h; simp at h
              | some l =>
                rw [hrec] at h
                simp only [Option.map_some', Option.some.injEq] at h
                exact step Value _ l hval hrec h.symm
    · rw [if_pos hfit] at h
      simp only [Option.some.injEq] at h
      subst h
      simp at hi

theorem scanUpperBound_lt (BC : BinaryContext) (Section : BinarySection)
    (Address NextJTAddress : Nat) :
    scanUpperBound BC Section Address NextJTAddress < 18446744073709551616 := by
  have h1 : Section.getEndAddress < 18446744073709551616 := Nat.mod_lt _ (by decide)
  have h2 : ∀ BD : BinaryData, BD.getEndAddress < 18446744073709551616 :=
    fun BD => Nat.mod_lt _ (by decide)
  unfold scanUpperBound
  dsimp only
  have h3 : (match getBinaryDataAtAddress BC.BinaryDataMap Address with
      | some JumpTableBD =>
        if JumpTableBD.Size ≠ 0 then JumpTableBD.getEndAddress else Section.getEndAddress
      | none => Section.getEndAddress) < 18446744073709551616 := by
    split
    · split
      · exact h2 _
      · exact h1
    · exact h1
  split
  · exact Nat.lt_of_le_of_lt (Nat.min_le_right _ _) h3
  · exact h3

/-! ## Theorems: the containing-object lookup -/

theorem covers_of_containsAddress {X : BinaryData} {a : Nat}
    (h : X.containsAddress a = true) : Covers X a := by
  simp only [BinaryData.containsAddress, Bool.or_eq_true, Bool.and_eq_true, decide_eq_true_eq,
    BinaryData.getEndAddress, wrap64] at h
  have := Nat.mod_le (X.Address + X.Size) 18446744073709551616
  unfold Covers
  omega

theorem containsAddress_of_covers {X : BinaryData} {a : Nat}
    (hX : X.Address + X.Size < 18446744073709551616) (h : Covers X a) :
    X.containsAddress a = true := by
  simp only [BinaryData.containsAddress, Bool.or_eq_true, Bool.and_eq_true, decide_eq_true_eq,
    BinaryData.getEndAddress, wrap64, Nat.mod_eq_of_lt hX]
  unfold Covers at h
  omega

theorem searchParents_sound (m : List BinaryData) (a : Nat) :
    ∀ (fuel : Nat) (p : Option Nat) (BD : BinaryData),
      searchParents m a fuel p = some BD → BD ∈ m ∧ BD.containsAddress a = true := by
  intro fuel
  induction fuel with
  | zero => intro p BD h; simp [searchParents] at h
  | succ n ih =>
    intro p BD h
    cases p with
    | none => simp [searchParents] at h
    | some q =>
      simp only [searchParents] at h
      cases hq : getBinaryDataAtAddress m q with
      | none => rw [hq] at h; simp at h
      | some Q =>
        rw [hq] at h
        simp only at h
        by_cases hc : Q.containsAddress a = true
        · rw [if_pos hc] at h
          simp only [Option.some.injEq] at h
          subst h
          exact ⟨(getBinaryDataAtAddress_some hq).1, hc⟩
        · rw [if_neg hc] at h
          exact ih _ _ h

/-- The lookup when an object is registered at the address. -/
theorem lookup_of_at (m : List BinaryData) (a : Nat) (X : BinaryData)
    (h : getBinaryDataAtAddress m a = some X) :
    getBinaryDataContainingAddress m a =
      if X.containsAddress a then some X else searchParents m a m.length X.Parent := by
  unfold getBinaryDataAtAddress findIter at h
  unfold getBinaryDataContainingAddress
  cases hf : entriesFrom m a with
  | nil => rw [hf] at h; simp at h
  | cons Y rest =>
    rw [hf] at h
    simp only at h
    by_cases hY : Y.Address = a
    · rw [if_pos hY] at h
      simp only [Option.map_some', Option.some.injEq] at h
      subst h
      simp only [hY, if_true]
    · rw [if_neg hY] at h
      simp at h

/-- The lookup when no object is registered at the address: it starts at the last entry
below the address. -/
theorem lookup_of_none (m : List BinaryData) (a : Nat)
    (h : getBinaryDataAtAddress m a = none) :
    getBinaryDataContainingAddress m a =
      match (entriesBelow m a).getLast? with
      | none => none
      | some NI =>
        if NI.containsAddress a then some NI else searchParents m a m.length NI.Parent := by
  unfold getBinaryDataAtAddress findIter at h
  unfold getBinaryDataContainingAddress
  cases hf : entriesFrom m a with
  | nil => rfl
  | cons Y rest =>
    rw [hf] at h
    simp only at h
    by_cases hY : Y.Address = a
    · rw [if_pos hY] at h
      simp at h
    · simp only [hY, if_false]

theorem getBinaryDataContainingAddress_sound (m : List BinaryData) (a : Nat) (BD : BinaryData)
    (h : getBinaryDataContainingAddress m a = some BD) :
    BD ∈ m ∧ BD.containsAddress a = true := by
  have fin : ∀ NI : BinaryData, NI ∈ m →
      (if NI.containsAddress a then some NI else searchParents m a m.length NI.Parent) =
        some BD → BD ∈ m ∧ BD.containsAddress a = true := by
    intro NI hNI h
    by_cases hc : NI.containsAddress a = true
    · rw [if_pos hc] at h
      simp only [Option.some.injEq] at h
      subst h
      exact ⟨hNI, hc⟩
    · rw [if_neg hc] at h
      exact searchParents_sound m a _ _ _ h
  cases hg : getBinaryDataAtAddress m a with
  | some X =>
    rw [lookup_of_at m a X hg] at h
    exact fin X (getBinaryDataAtAddress_some hg).1 h
  | none =>
    rw [lookup_of_none m a hg] at h
    cases hl : (entriesBelow m a).getLast? with
    | none => rw [hl] at h; simp at h
    | some NI =>
      rw [hl] at h
      obtain ⟨ys, hys⟩ := List.getLast?_eq_some_iff.1 hl
      have hNI : NI ∈ m := by
        apply (List.takeWhile_sublist _).subset
        unfold entriesBelow at hys
        rw [hys]; simp
      exact fin NI hNI h

theorem getBinaryDataContainingAddress_exact (m : List BinaryData) (hs : SortedMap m)
    (a : Nat) (BD : BinaryData) (hBD : BD ∈ m) (ha : BD.Address = a)
    (hw : BD.Address + BD.Size < 18446744073709551616) :
    getBinaryDataContainingAddress m a = some BD := by
  rw [lookup_of_at m a BD (getBinaryDataAtAddress_eq_some hs hBD ha)]
  have : Covers BD a := by unfold Covers; omega
  rw [if_pos (containsAddress_of_covers hw this)]

/-- The inner loop of `validateObjectNesting`: the entries are split into a run of
entries of the section of `Itr` inside its range, each with `Itr` as parent when the run
is valid, and the entries left, the first of which is not such an entry. -/
theorem validateRun_spec (Itr : BinaryData) :
    ∀ (l : List BinaryData), ∃ run,
      l = run ++ (validateRun Itr l).2 ∧
      (∀ Y ∈ run, Itr.Section = Y.Section ∧ Itr.containsRange Y.Address Y.Size = true ∧
        ((validateRun Itr l).1 = true → Y.Parent = some Itr.Address)) ∧
      (∀ Z, (validateRun Itr l).2.head? = some Z →
        ¬ (Itr.Section = Z.Section ∧ Itr.containsRange Z.Address Z.Size = true)) := by
  intro l
  induction l with
  | nil => exact ⟨[], by simp [validateRun]⟩
  | cons Next rest ih =>
    obtain ⟨run, h1, h2, h3⟩ := ih
    unfold validateRun
    by_cases hc : Itr.Section = Next.Section ∧ Itr.containsRange Next.Address Next.Size = true
    · rw [if_pos hc]
      refine ⟨Next :: run, ?_, ?_, h3⟩
      · simp only [List.cons_append]
        rw [← h1]
      · intro Y hY
        rcases List.mem_cons.1 hY with hY | hY
        · subst hY
          refine ⟨hc.1, hc.2, ?_⟩
          intro hv
          simp only [Bool.and_eq_true, decide_eq_true_eq] at hv
          exact hv.1
        · obtain ⟨a1, a2, a3⟩ := h2 Y hY
          refine ⟨a1, a2, ?_⟩
          intro hv
          simp only [Bool.and_eq_true, decide_eq_true_eq] at hv
          exact a3 hv.2
    · rw [if_neg hc]
      refine ⟨[], by simp, by simp, ?_⟩
      intro Z hZ
      simp only [List.head?_cons, Option.some.injEq] at hZ
      subst hZ
      exact hc

/-- On a valid index in which an object that starts inside another one is an object of
its section inside its range, the parent of an object that starts inside `X` is an object
whose range includes the range of `X`. -/
theorem validate_parent :
    ∀ (fuel : Nat) (l : List BinaryData), l.length ≤ fuel → SortedMap l → NoWrap l →
      (∀ X ∈ l, ∀ Y ∈ l, X.Address < Y.Address → Y.Address < X.Address + X.Size →
        X.Section = Y.Section ∧ X.containsRange Y.Address Y.Size = true) →
      validateObjectNestingAux fuel l = true →
      ∀ X ∈ l, ∀ Y ∈ l, X.Address < Y.Address → Y.Address < X.Address + X.Size →
        ∃ T ∈ l, Y.Parent = some T.Address ∧ T.Address ≤ X.Address ∧
          X.Address + X.Size ≤ T.Address + T.Size := by
  intro fuel
  induction fuel with
  | zero =>
    intro l hlen _ _ _ _ X hX
    have : l = [] := List.length_eq_zero.1 (Nat.le_zero.1 hlen)
    rw [this] at hX
    simp at hX
  | succ n ih =>
    intro l hlen hs hnw hstrong hv X hX Y hY hXY hYX
    cases l with
    | nil => simp at hX
    | cons Itr rest =>
      simp only [validateObjectNestingAux, Bool.and_eq_true] at hv
      obtain ⟨run, hsplit, hrun, hhead⟩ := validateRun_spec Itr rest
      have hsorted := hs
      unfold SortedMap at hsorted
      rw [List.pairwise_cons] at hsorted
      have hItr : Itr.Address + Itr.Size < 18446744073709551616 := hnw Itr (by simp)
      have hsub : ∀ Z, Z ∈ (validateRun Itr rest).2 → Z ∈ rest := by
        intro Z hZ; rw [hsplit]; simp [hZ]
      have hrunsub : ∀ Z, Z ∈ run → Z ∈ rest := by
        intro Z hZ; rw [hsplit]; simp [hZ]
      -- the entries of the run lie inside `Itr`
      have F1 : ∀ Z ∈ run, Z.Address < Itr.Address + Itr.Size ∧
          Z.Address + Z.Size ≤ Itr.Address + Itr.Size ∧ Z.Parent = some Itr.Address := by
        intro Z hZ
        obtain ⟨_, hc, hp⟩ := hrun Z hZ
        have hlt := hsorted.1 Z (hrunsub Z hZ)
        have hZw := hnw Z (List.mem_cons_of_mem _ (hrunsub Z hZ))
        have := (containsRange_bounded hItr hZw).1 hc
        exact ⟨by omega, by omega, hp hv.1⟩
      -- the entries left start at or after the end of `Itr`
      have F2 : ∀ Z ∈ (validateRun Itr rest).2, Itr.Address + Itr.Size ≤ Z.Address := by
        intro Z hZ
        cases hr : (validateRun Itr rest).2 with
        | nil => rw [hr] at hZ; simp at hZ
        | cons Z0 tl =>
          have hZ0 : Z0 ∈ rest := hsub Z0 (by rw [hr]; simp)
          have h0 : Itr.Address + Itr.Size ≤ Z0.Address := by
            by_contra hcon
            have := hstrong Itr (by simp) Z0 (List.mem_cons_of_mem _ hZ0)
              (hsorted.1 Z0 hZ0) (by omega)
            exact hhead Z0 (by rw [hr]; rfl) this
          rw [hr] at hZ
          rcases List.mem_cons.1 hZ with hZ | hZ
          · rw [hZ]; exact h0
          · have hs2 : SortedMap (run ++ Z0 :: tl) := by
              rw [← hr, ← hsplit]; exact hsorted.2
            have := List.rel_of_pairwise_cons (List.pairwise_append.1 hs2).2.1 hZ
            omega
      have hmem : ∀ Z, Z ∈ rest → Z ∈ run ∨ Z ∈ (validateRun Itr rest).2 := by
        intro Z hZ
        rw [hsplit] at hZ
        exact List.mem_append.1 hZ
      have hYrest : Y ∈ rest := by
        rcases List.mem_cons.1 hY with h | h
        · subst h
          rcases List.mem_cons.1 hX with h2 | h2
          · subst h2; omega
          · have := hsorted.1 X h2; omega
        · exact h
      rcases List.mem_cons.1 hX with hXI | hXr
      · -- `X` is `Itr`
        subst hXI
        rcases hmem Y hYrest with h | h
        · exact ⟨X, by simp, (F1 Y h).2.2, Nat.le_refl _, Nat.le_refl _⟩
        · have := F2 Y h; omega
      · rcases hmem X hXr with hXrun | hXleft
        · -- `X` is in the run of `Itr`
          have hX1 := F1 X hXrun
          have hXI := hsorted.1 X hXr
          rcases hmem Y hYrest with h | h
          · exact ⟨Itr, by simp, (F1 Y h).2.2, by omega, hX1.2.1⟩
          · have := F2 Y h; omega
        · -- `X` is among the entries left
          have hX2 := F2 X hXleft
          rcases hmem Y hYrest with h | h
          · have := (F1 Y h).1; omega
          · have hlen2 : (validateRun Itr rest).2.length ≤ n := by
              have h1 : rest.length = run.length + (validateRun Itr rest).2.length := by
                conv_lhs => rw [hsplit]
                simp
              simp only [List.length_cons] at hlen
              omega
            have hs2 : SortedMap (validateRun Itr rest).2 := by
              have hs3 : SortedMap (run ++ (validateRun Itr rest).2) := by
                rw [← hsplit]; exact hsorted.2
              exact (List.pairwise_append.1 hs3).2.1
            obtain ⟨T, hT, hT2⟩ := ih (validateRun Itr rest).2 hlen2 hs2
              (fun Z hZ => hnw Z (List.mem_cons_of_mem _ (hsub Z hZ)))
              (fun A hA B hB => hstrong A (List.mem_cons_of_mem _ (hsub A hA)) B
                (List.mem_cons_of_mem _ (hsub B hB)))
              hv.2 X hXleft Y h hXY hYX
            exact ⟨T, List.mem_cons_of_mem _ (hsub T hT), hT2⟩

/-- An object that starts inside another object of a laminar index is an object of its
section inside its range. -/
theorem strong_of_laminar {m : List BinaryData} (hnw : NoWrap m) (hl : Laminar m)
    (hsec : NestsWithinSection m) :
    ∀ X ∈ m, ∀ Y ∈ m, X.Address < Y.Address → Y.Address < X.Address + X.Size →
      X.Section = Y.Section ∧ X.containsRange Y.Address Y.Size = true := by
  intro X hX Y hY hXY hYX
  have hS := hsec X hX Y hY hXY hYX
  refine ⟨hS, ?_⟩
  have := hl X hX Y hY hS
  unfold LaminarPair at this
  rw [containsRange_bounded (hnw X hX) (hnw Y hY)]
  omega

/-- Completeness of the containing-object lookup. -/
theorem getBinaryDataContainingAddress_complete (m : List BinaryData) (hs : SortedMap m)
    (hnw : NoWrap m) (hl : Laminar m) (hsec : NestsWithinSection m)
    (hv : validateObjectNesting m = true) (a : Nat) (X : BinaryData) (hX : X ∈ m)
    (hc : Covers X a) : (getBinaryDataContainingAddress m a).isSome = true := by
  cases hg : getBinaryDataAtAddress m a with
  | some X0 =>
    obtain ⟨h1, h2⟩ := getBinaryDataAtAddress_some hg
    rw [getBinaryDataContainingAddress_exact m hs a X0 h1 h2 (hnw X0 h1)]
    rfl
  | none =>
    rw [lookup_of_none m a hg]
    have hXa : X.Address < a := by
      have hne : X.Address ≠ a := by
        intro h
        rw [getBinaryDataAtAddress_eq_some hs hX h] at hg
        simp at hg
      unfold Covers at hc
      omega
    have hfi : findIter m a = none := by
      unfold getBinaryDataAtAddress at hg
      simpa using hg
    have hXb : X ∈ entriesBelow m a := by
      have : X ∈ entriesBelow m a ++ entriesFrom m a := by
        rw [entriesBelow_append_entriesFrom]; exact hX
      rcases List.mem_append.1 this with h | h
      · exact h
      · have := entriesFrom_above hs hfi X h; omega
    cases hlast : (entriesBelow m a).getLast? with
    | none =>
      rw [List.getLast?_eq_none_iff] at hlast
      rw [hlast] at hXb
      simp at hXb
    | some P =>
      simp only
      obtain ⟨ys, hys⟩ := List.getLast?_eq_some_iff.1 hlast
      have hPb : P ∈ entriesBelow m a := by rw [hys]; simp
      have hPm : P ∈ m := (List.takeWhile_sublist _).subset hPb
      have hPa : P.Address < a := entriesBelow_lt m a P hPb
      by_cases hPc : P.containsAddress a = true
      · rw [if_pos hPc]; rfl
      · rw [if_neg hPc]
        have hXP : X.Address < P.Address := by
          have hne : X ≠ P := by
            intro h
            rw [h] at hc
            exact hPc (containsAddress_of_covers (hnw P hPm) hc)
          rw [hys] at hXb
          rcases List.mem_append.1 hXb with h | h
          · have hsb : SortedMap (entriesBelow m a) :=
              List.Pairwise.sublist (List.takeWhile_sublist _) hs
            rw [hys] at hsb
            exact (List.pairwise_append.1 hsb).2.2 X h P (by simp)
          · simp only [List.mem_singleton] at h
            exact absurd h hne
        have hcov : a < X.Address + X.Size := by
          unfold Covers at hc; omega
        obtain ⟨T, hT, hTp, hT1, hT2⟩ := validate_parent m.length m (Nat.le_refl _) hs hnw
          (strong_of_laminar hnw hl hsec) hv X hX P hPm hXP (by omega)
        have hlen : 0 < m.length := List.length_pos_of_mem hX
        obtain ⟨k, hk⟩ := Nat.exists_eq_succ_of_ne_zero (Nat.pos_iff_ne_zero.1 hlen)
        rw [hk, hTp]
        simp only [searchParents]
        rw [getBinaryDataAtAddress_eq_some hs hT rfl]
        simp only
        have hTc : T.containsAddress a = true := by
          apply containsAddress_of_covers (hnw T hT)
          unfold Covers; omega
        rw [if_pos hTc]
        rfl

/-- Claim C16 (amended). On a map in key order whose ranges do not reach the end of the
64-bit address space: every object returned by `getBinaryDataContainingAddress(a)` is a
registered object that contains `a`; an object registered exactly at `a` is returned;
and when the index is laminar, every object that starts inside another object belongs to
the section of that object, and the index passes `validateObjectNesting`, the lookup
returns an object whenever a registered object contains `a`. -/
theorem getBinaryDataContainingAddress_contract (m : List BinaryData) (hs : SortedMap m)
    (hnw : NoWrap m) (a : Nat) :
    (∀ BD, getBinaryDataContainingAddress m a = some BD → BD ∈ m ∧ Covers BD a) ∧
    (∀ BD ∈ m, BD.Address = a → getBinaryDataContainingAddress m a = some BD) ∧
    (Laminar m → NestsWithinSection m → validateObjectNesting m = true →
      ∀ X ∈ m, Covers X a → (getBinaryDataContainingAddress m a).isSome = true) := by
  refine ⟨?_, ?_, ?_⟩
  · intro BD h
    obtain ⟨h1, h2⟩ := getBinaryDataContainingAddress_sound m a BD h
    exact ⟨h1, covers_of_containsAddress h2⟩
  · intro BD hBD ha
    exact getBinaryDataContainingAddress_exact m hs a BD hBD ha (hnw BD hBD)
  · intro hl hsec hv X hX hc
    exact getBinaryDataContainingAddress_complete m hs hnw hl hsec hv a X hX hc

/-- Counterexample to claim C16 as stated: the index of `crossSectionContext` is laminar
and passes `validateObjectNesting`, the object `x` contains `0x2010`, and the lookup of
`0x2010` returns no object. -/
theorem lookup_counterexample :
    SortedMap crossSectionContext.BinaryDataMap ∧ NoWrap crossSectionContext.BinaryDataMap ∧
    Laminar crossSectionContext.BinaryDataMap ∧
    validateObjectNesting crossSectionContext.BinaryDataMap = true ∧
    (∃ X ∈ crossSectionContext.BinaryDataMap, X.Symbols = ["x"] ∧ Covers X 0x2010) ∧
    getBinaryDataContainingAddress crossSectionContext.BinaryDataMap 0x2010 = none := by
  refine ⟨by unfold SortedMap; decide, by unfold NoWrap; decide,
    by unfold Laminar LaminarPair; decide, by decide, ?_, by decide⟩
  unfold Covers
  decide

/-- Witness of claim C16 (amended): in `nestedContext` the address `0x2016` lies in `b` =
`[0x2010, 0x2018)` after its child `c`, and the lookup returns `b`. -/
theorem getBinaryDataContainingAddress_contract_witness :
    SortedMap nestedContext.BinaryDataMap ∧ NoWrap nestedContext.BinaryDataMap ∧
    ((∀ BD, getBinaryDataContainingAddress nestedContext.BinaryDataMap 0x2016 = some BD →
        BD ∈ nestedContext.BinaryDataMap ∧ Covers BD 0x2016) ∧
      (∀ BD ∈ nestedContext.BinaryDataMap, BD.Address = 0x2016 →
        getBinaryDataContainingAddress nestedContext.BinaryDataMap 0x2016 = some BD) ∧
      (Laminar nestedContext.BinaryDataMap → NestsWithinSection nestedContext.BinaryDataMap →
        validateObjectNesting nestedContext.BinaryDataMap = true →
        ∀ X ∈ nestedContext.BinaryDataMap, Covers X 0x2016 →
          (getBinaryDataContainingAddress nestedContext.BinaryDataMap 0x2016).isSome = true)) ∧
    (getBinaryDataContainingAddress nestedContext.BinaryDataMap 0x2016).map
      (fun X => X.Symbols) = some ["b"] :=
  ⟨by unfold SortedMap; decide, by unfold NoWrap; decide,
    getBinaryDataContainingAddress_contract nestedContext.BinaryDataMap
      (by unfold SortedMap; decide) (by unfold NoWrap; decide) 0x2016,
    by decide⟩

/-! ## Theorems: stability of address references -/

theorem takeWhile_map_comp {α β : Type} (g : α → β) (p : β → Bool) (l : List α) :
    (l.map g).takeWhile p = (l.takeWhile (fun x => p (g x))).map g := by
  induction l with
  | nil => rfl
  | cons x rest ih =>
    simp only [List.map_cons, List.takeWhile_cons]
    split
    · simp [ih]
    · rfl

theorem getLast?_map_comp {α β : Type} (g : α → β) (l : List α) :
    (l.map g).getLast? = l.getLast?.map g := by
  induction l with
  | nil => rfl
  | cons x rest ih =>
    cases rest with
    | nil => rfl
    | cons y tl =>
      simp only [List.map_cons, List.getLast?_cons_cons] at ih ⊢
      exact ih

namespace SameScan

variable {BC BC2 : BinaryContext} {a : Nat} {g : BinaryFunction → BinaryFunction}

theorem getSection (h : SameScan BC BC2 a g) (x : Nat) :
    getSectionForAddress BC2 x = getSectionForAddress BC x :=
  getSectionForAddress_congr h.sections x

theorem entryValue_eq (h : SameScan BC BC2 a g) (Address : Nat) (JTType : JumpTableType)
    (EA ES : Nat) : entryValue BC2 Address JTType EA ES = entryValue BC Address JTType EA ES := by
  unfold entryValue getSignedValueAtAddress getPointerAtAddress getUnsignedValueAtAddress
  rw [h.getSection, h.endian, h.pointer]

theorem entrySize_eq (h : SameScan BC BC2 a g) (JTType : JumpTableType) :
    getJumpTableEntrySize BC2 JTType = getJumpTableEntrySize BC JTType := by
  unfold getJumpTableEntrySize
  rw [h.pointer]

theorem hasEntryRelocation_eq (h : SameScan BC BC2 a g) (JTType : JumpTableType) (EA : Nat) :
    hasEntryRelocation BC2 JTType EA = hasEntryRelocation BC JTType EA := by
  unfold hasEntryRelocation getRelocationAt
  rw [h.getSection, h.relocs, h.pcrel]

theorem containing_eq (h : SameScan BC BC2 a g) (x : Nat) (c u : Bool) :
    getBinaryFunctionContainingAddress BC2 x c u =
      (getBinaryFunctionContainingAddress BC x c u).map g := by
  unfold getBinaryFunctionContainingAddress
  rw [h.functions, takeWhile_map_comp, getLast?_map_comp]
  simp only [h.address]
  cases (BC.BinaryFunctions.takeWhile (fun F => decide (F.Address ≤ x))).getLast? with
  | none => rfl
  | some FI =>
    simp only [Option.map_some', h.address, h.size, h.maxSize, apply_ite (Option.map g),
      Option.map_none']

theorem entryTarget_eq (h : SameScan BC BC2 a g) (BF BF2 : BinaryFunction)
    (hA : BF2.Address = BF.Address) (v : Nat) :
    entryTarget BC2 BF2 v = (entryTarget BC BF v).map g := by
  unfold entryTarget
  rw [h.containing_eq]
  cases getBinaryFunctionContainingAddress BC v false false with
  | none => rfl
  | some T =>
    simp only [Option.map_some']
    unfold areRelatedFragments BinaryFunction.hasInstructionAtOffset
    rw [h.classes, h.address, h.state, h.instructions, hA]
    split <;> rfl

theorem scannedFrom_eq (h : SameScan BC BC2 a g) (Address : Nat) (JTType : JumpTableType)
    (BF BF2 : BinaryFunction) (hA : BF2.Address = BF.Address) (hS : BF2.Size = BF.Size)
    (UB ES : Nat) :
    ∀ (fuel EA : Nat),
      scannedFrom BC2 Address JTType BF2 UB ES fuel EA =
        scannedFrom BC Address JTType BF UB ES fuel EA := by
  intro fuel
  induction fuel with
  | zero => intro EA; rfl
  | succ n ih =>
    intro EA
    unfold scannedFrom
    rw [h.hasEntryRelocation_eq, h.entryValue_eq, hA, hS]
    simp only [ih, h.entryTarget_eq BF BF2 hA]
    split
    · rfl
    · split
      · rfl
      · split
        · rfl
        · split
          · rfl
          · cases entryTarget BC BF _ with
            | none => rfl
            | some T => simp only [Option.map_some', h.address]

theorem scannedEntries_eq (h : SameScan BC BC2 a g) (JTType : JumpTableType)
    (BF BF2 : BinaryFunction) (hA : BF2.Address = BF.Address) (hS : BF2.Size = BF.Size)
    (N : Nat) :
    scannedEntries BC2 a JTType BF2 N = scannedEntries BC a JTType BF N := by
  unfold scannedEntries
  rw [h.getSection]
  cases getSectionForAddress BC a with
  | none => rfl
  | some S =>
    simp only
    rw [h.bound, h.entrySize_eq, h.scannedFrom_eq a JTType BF BF2 hA hS]

theorem result_eq (h : SameScan BC BC2 a g) (JTType : JumpTableType)
    (BF BF2 : BinaryFunction) (hA : BF2.Address = BF.Address) (hS : BF2.Size = BF.Size)
    (N : Nat) (E E2 : Option (List Nat)) (H H2 : Option Bool) :
    (analyzeJumpTable BC2 a JTType BF2 N E2 H2).map (fun r => r.Result) =
      (analyzeJumpTable BC a JTType BF N E H).map (fun r => r.Result) := by
  have hse := h.scannedEntries_eq JTType BF BF2 hA hS N
  cases hs : scannedEntries BC a JTType BF N with
  | none =>
    rw [hs] at hse
    rw [analyzeJumpTable_none_of_scan _ _ _ _ _ _ _ hs,
      analyzeJumpTable_none_of_scan _ _ _ _ _ _ _ hse]
  | some vs =>
    rw [hs] at hse
    rw [analyzeJumpTable_result_of_scan _ _ _ _ _ _ _ vs hs,
      analyzeJumpTable_result_of_scan _ _ _ _ _ _ _ vs hse]
    unfold numRealEntries hasSpecialEntry
    rw [hA, hS]

theorem analyzeMemoryAt_eq (h : SameScan BC BC2 a g) (BF BF2 : BinaryFunction)
    (hA : BF2.Address = BF.Address) (hS : BF2.Size = BF.Size) :
    analyzeMemoryAt BC2 a BF2 = analyzeMemoryAt BC a BF := by
  have h1 := h.result_eq JumpTableType.JTT_PIC BF BF2 hA hS 0 none none none none
  have h2 := h.result_eq JumpTableType.JTT_NORMAL BF BF2 hA hS 0 none none none none
  unfold analyzeMemoryAt isX86
  rw [h.arch, h.getSection]
  split
  · rfl
  · cases getSectionForAddress BC a with
    | none => rfl
    | some S =>
      simp only
      split
      · rfl
      · split
        · rfl
        · cases hp : analyzeJumpTable BC a JumpTableType.JTT_PIC BF 0 none none with
          | none =>
            rw [hp] at h1
            simp only [Option.map_none', Option.map_eq_none'] at h1
            rw [h1]
          | some r =>
            rw [hp] at h1
            simp only [Option.map_some', Option.map_eq_some'] at h1
            obtain ⟨r2, hr2, hres⟩ := h1
            rw [hr2]
            simp only [hres]
            split
            · rfl
            · cases hn : analyzeJumpTable BC a JumpTableType.JTT_NORMAL BF 0 none none with
              | none =>
                rw [hn] at h2
                simp only [Option.map_none', Option.map_eq_none'] at h2
                rw [h2]
              | some q =>
                rw [hn] at h2
                simp only [Option.map_some', Option.map_eq_some'] at h2
                obtain ⟨q2, hq2, hres2⟩ := h2
                rw [hq2]
                simp only [hres2]

end SameScan

/-- Contexts that differ in the list of interprocedural references only are read alike by
the scan. -/
theorem sameScan_references (BC : BinaryContext) (a : Nat) (refs : List (Nat × Nat)) :
    SameScan BC { BC with InterproceduralReferences := refs } a id where
  sections := rfl
  relocs := rfl
  pcrel := rfl
  pointer := rfl
  endian := rfl
  arch := rfl
  classes := rfl
  functions := by simp
  address := fun _ => rfl
  size := fun _ => rfl
  maxSize := fun _ => rfl
  state := fun _ => rfl
  instructions := fun _ => rfl
  bound := fun _ _ => rfl

/-- The result of a call that reaches the fallback step: the list of interprocedural
references may grow, and the containing-object lookup decides between the symbol of the
object found and a new data symbol. -/
theorem handleAddressRef_fallback (island : IslandAccess) (BC : BinaryContext)
    (Address BF : Nat) (IsPCRel : Bool) (h : ReachesFallback island BC Address BF IsPCRel) :
    ∃ refs,
      (∀ BD, getBinaryDataContainingAddress BC.BinaryDataMap Address = some BD →
        handleAddressRef island BC Address BF IsPCRel =
          some ((BD.getSymbol, sub64 Address BD.Address),
            { BC with InterproceduralReferences := refs })) ∧
      (getBinaryDataContainingAddress BC.BinaryDataMap Address = none →
        handleAddressRef island BC Address BF IsPCRel =
          some (((getOrCreateGlobalSymbol { BC with InterproceduralReferences := refs }
              Address "DATAat" 0 0 0).1, 0),
            (getOrCreateGlobalSymbol { BC with InterproceduralReferences := refs }
              Address "DATAat" 0 0 0).2)) := by
  obtain ⟨Fn, hF, hisl, hesc, hmem⟩ := h
  have hI : (if isAArch64 BC = true then island BC Address BF else none) = none := by
    by_cases h : isAArch64 BC = true
    · rw [if_pos h]; exact hisl h
    · rw [if_neg h]
  -- the two ends of the function, for a context whose references are `refs`
  have tail : ∀ refs : List (Nat × Nat),
      (∀ BD, getBinaryDataContainingAddress BC.BinaryDataMap Address = some BD →
        (match (if BC.HasRelocations = true then
            analyzeMemoryAt { BC with InterproceduralReferences := refs } Address Fn
            else some MemoryContentsType.UNKNOWN) with
        | none => none
        | some MemType =>
          if BC.HasRelocations = true ∧ MemType = MemoryContentsType.POSSIBLE_PIC_JUMP_TABLE ∧
              IsPCRel = true then
            some (((getOrCreateJumpTable { BC with InterproceduralReferences := refs } BF Address
                JumpTableType.JTT_PIC).1, 0),
              (getOrCreateJumpTable { BC with InterproceduralReferences := refs } BF Address
                JumpTableType.JTT_PIC).2)
          else
            match getBinaryDataContainingAddress BC.BinaryDataMap Address with
            | some BD => some ((BD.getSymbol, sub64 Address BD.Address),
                { BC with InterproceduralReferences := refs })
            | none =>
              some (((getOrCreateGlobalSymbol { BC with InterproceduralReferences := refs }
                  Address "DATAat" 0 0 0).1, 0),
                (getOrCreateGlobalSymbol { BC with InterproceduralReferences := refs }
                  Address "DATAat" 0 0 0).2)) =
          some ((BD.getSymbol, sub64 Address BD.Address),
            { BC with InterproceduralReferences := refs })) ∧
      (getBinaryDataContainingAddress BC.BinaryDataMap Address = none →
        (match (if BC.HasRelocations = true then
            analyzeMemoryAt { BC with InterproceduralReferences := refs } Address Fn
            else some MemoryContentsType.UNKNOWN) with
        | none => none
        | some MemType =>
          if BC.HasRelocations = true ∧ MemType = MemoryContentsType.POSSIBLE_PIC_JUMP_TABLE ∧
              IsPCRel = true then
            some (((getOrCreateJumpTable { BC with InterproceduralReferences := refs } BF Address
                JumpTableType.JTT_PIC).1, 0),
              (getOrCreateJumpTable { BC with InterproceduralReferences := refs } BF Address
                JumpTableType.JTT_PIC).2)
          else
            match getBinaryDataContainingAddress BC.BinaryDataMap Address with
            | some BD => some ((BD.getSymbol, sub64 Address BD.Address),
                { BC with InterproceduralReferences := refs })
            | none =>
              some (((getOrCreateGlobalSymbol { BC with InterproceduralReferences := refs }
                  Address "DATAat" 0 0 0).1, 0),
                (getOrCreateGlobalSymbol { BC with InterproceduralReferences := refs }
                  Address "DATAat" 0 0 0).2)) =
          some (((getOrCreateGlobalSymbol { BC with InterproceduralReferences := refs }
              Address "DATAat" 0 0 0).1, 0),
            (getOrCreateGlobalSymbol { BC with InterproceduralReferences := refs }
              Address "DATAat" 0 0 0).2)) := by
    intro refs
    have hsame := sameScan_references BC Address refs
    rw [hsame.analyzeMemoryAt_eq Fn Fn rfl rfl]
    cases hr : BC.HasRelocations with
    | false =>
      simp only [Bool.false_eq_true, if_false, false_and]
      constructor
      · intro BD hBD; rw [hBD]
      · intro hn; rw [hn]
    | true =>
      obtain ⟨MemType, hm, hnp⟩ := hmem hr
      simp only [if_true, hm, true_and]
      rw [if_neg hnp]
      constructor
      · intro BD hBD; rw [hBD]
      · intro hn; rw [hn]
  cases hs : getSectionForAddress BC Address with
  | none =>
    refine ⟨BC.InterproceduralReferences, ?_⟩
    have := tail BC.InterproceduralReferences
    unfold handleAddressRef
    simp only [hF, hI, hs, Bool.false_eq_true, false_and, if_false]
    exact this
  | some S =>
    by_cases ht : S.IsText = true
    · by_cases hc : Fn.containsAddress Address (isAArch64 BC) = true
      · have hne : ¬ Address ≠ Fn.Address := fun hne => hesc ⟨⟨S, hs, ht⟩, hc, hne⟩
        refine ⟨BC.InterproceduralReferences, ?_⟩
        have := tail BC.InterproceduralReferences
        unfold handleAddressRef
        simp only [hF, hI, hs, ht, hc, hne, true_and, and_false, if_false,
          Bool.true_eq_false]
        exact this
      · simp only [Bool.not_eq_true] at hc
        refine ⟨BC.InterproceduralReferences ++ [(BF, Address)], ?_⟩
        have := tail (BC.InterproceduralReferences ++ [(BF, Address)])
        unfold handleAddressRef
        simp only [hF, hI, hs, ht, hc, true_and, and_self, if_true, Bool.false_eq_true,
          false_and, if_false]
        exact this
    · refine ⟨BC.InterproceduralReferences, ?_⟩
      have := tail BC.InterproceduralReferences
      unfold handleAddressRef
      simp only [hF, hI, hs, ht, false_and, if_false]
      exact this

theorem sub64_add_cancel (a b : Nat) (h : b ≤ a) (ha : a < 18446744073709551616) :
    b + sub64 a b = a := by
  unfold sub64 wrap64
  omega

/-- The symbol and the context that `getOrCreateGlobalSymbol` returns for an address at
which no object is registered: the new name, and the map with one new object. -/
theorem getOrCreateGlobalSymbol_new (BC : BinaryContext) (a : Nat) (Prefix : String)
    (h : getBinaryDataAtAddress BC.BinaryDataMap a = none) :
    (getOrCreateGlobalSymbol BC a Prefix 0 0 0).1 = Prefix ++ "0x" ++ utohexstr a ∧
    ∃ G post1,
      (getOrCreateGlobalSymbol BC a Prefix 0 0 0).2.BinaryDataMap =
        entriesBelow BC.BinaryDataMap a ++ G :: post1 ∧
      G.Address = a ∧ G.Size = 0 ∧ G.Symbols = [Prefix ++ "0x" ++ utohexstr a] ∧
      (getOrCreateGlobalSymbol BC a Prefix 0 0 0).2.BinaryDataMap.map
          (fun X => X.setParent none) =
        (entriesBelow BC.BinaryDataMap a ++
          newBinaryData BC (Prefix ++ "0x" ++ utohexstr a) a 0 0 0 ::
            entriesFrom BC.BinaryDataMap a).map (fun X => X.setParent none) := by
  have hfi : findIter BC.BinaryDataMap a = none := by
    unfold getBinaryDataAtAddress at h
    simpa using h
  unfold getOrCreateGlobalSymbol
  rw [h]
  simp only
  refine ⟨registerNameAtAddress_fst _ _ _ _ _ _, ?_⟩
  have hmap := registerNameAtAddress_map_new BC (Prefix ++ "0x" ++ utohexstr a) a 0 0 0 hfi
  obtain ⟨G, post1, hshape, hG⟩ := updateObjectNesting_shape (entriesBelow BC.BinaryDataMap a)
    (newBinaryData BC (Prefix ++ "0x" ++ utohexstr a) a 0 0 0) (entriesFrom BC.BinaryDataMap a)
  have hGf := setParent_none_eq hG
  refine ⟨G, post1, by rw [hmap, hshape], hGf.1, hGf.2.2.1, hGf.2.1, ?_⟩
  rw [hmap]
  exact updateObjectNesting_core _ _ _

/-- Claim C13 (amended). Whenever `handleAddressRef(a, F, isPCRel)` reaches its fallback
step, the returned symbol and addend name an object `O` of the resulting index with
`O.address + addend = a`. If the containing-object lookup finds an object before the call,
`O` is that object and no object is created; if no registered object contains `a`, exactly
one new object of size zero named `"DATAat0x<a in hex>"` is registered at `a` and the
addend is 0. -/
theorem handleAddressRef_fallback_exact (island : IslandAccess) (BC : BinaryContext)
    (a BF : Nat) (IsPCRel : Bool) (ha : a < 18446744073709551616)
    (hreach : ReachesFallback island BC a BF IsPCRel) :
    ∃ sym add BC1,
      handleAddressRef island BC a BF IsPCRel = some ((sym, add), BC1) ∧
      (∃ O ∈ BC1.BinaryDataMap, O.getSymbol = sym ∧ O.Address + add = a) ∧
      (∀ BD, getBinaryDataContainingAddress BC.BinaryDataMap a = some BD →
        sym = BD.getSymbol ∧ BD.Address + add = a ∧ BC1.BinaryDataMap = BC.BinaryDataMap) ∧
      ((∀ X ∈ BC.BinaryDataMap, ¬ Covers X a) →
        sym = "DATAat0x" ++ utohexstr a ∧ add = 0 ∧
        ∃ O, O.Address = a ∧ O.Size = 0 ∧ O.Symbols = [sym] ∧
          BC1.BinaryDataMap.map (fun X => X.setParent none) =
            (entriesBelow BC.BinaryDataMap a ++ O :: entriesFrom BC.BinaryDataMap a).map
              (fun X => X.setParent none)) := by
  obtain ⟨refs, hsome, hnone⟩ := handleAddressRef_fallback island BC a BF IsPCRel hreach
  cases hl : getBinaryDataContainingAddress BC.BinaryDataMap a with
  | some BD =>
    obtain ⟨hBDm, hBDc⟩ := getBinaryDataContainingAddress_sound _ _ _ hl
    have hcov := covers_of_containsAddress hBDc
    have hle : BD.Address ≤ a := by unfold Covers at hcov; omega
    have hsum := sub64_add_cancel a BD.Address hle ha
    refine ⟨_, _, _, hsome BD hl, ⟨BD, hBDm, rfl, hsum⟩, ?_, ?_⟩
    · intro BD2 hBD2
      simp only [Option.some.injEq] at hBD2
      subst hBD2
      exact ⟨rfl, hsum, rfl⟩
    · intro hno
      exact absurd hcov (hno BD hBDm)
  | none =>
    cases hat : getBinaryDataAtAddress BC.BinaryDataMap a with
    | some BD =>
      obtain ⟨hBDm, hBDa⟩ := getBinaryDataAtAddress_some hat
      have hg : getOrCreateGlobalSymbol { BC with InterproceduralReferences := refs } a
          "DATAat" 0 0 0 = (BD.getSymbol, { BC with InterproceduralReferences := refs }) := by
        unfold getOrCreateGlobalSymbol
        simp only [hat]
      refine ⟨_, _, _, hnone hl, ?_, ?_, ?_⟩
      · rw [hg]
        exact ⟨BD, hBDm, rfl, by omega⟩
      · intro BD2 hBD2; simp at hBD2
      · intro hno
        exfalso
        apply hno BD hBDm
        unfold Covers
        omega
    | none =>
      obtain ⟨hname, G, post1, hshape, hGa, hGs, hGn, hcore⟩ :=
        getOrCreateGlobalSymbol_new { BC with InterproceduralReferences := refs } a "DATAat" hat
      refine ⟨_, _, _, hnone hl, ?_, ?_, ?_⟩
      · refine ⟨G, by rw [hshape]; simp, ?_, by omega⟩
        rw [hname]
        unfold BinaryData.getSymbol
        rw [hGn]
        rfl
      · intro BD2 hBD2; simp at hBD2
      · intro _
        refine ⟨hname, rfl, newBinaryData { BC with InterproceduralReferences := refs }
          ("DATAat" ++ "0x" ++ utohexstr a) a 0 0 0, rfl, rfl, ?_, hcore⟩
        rw [hname]
        rfl

/-- Counterexample to claim C13 as stated: in `crossSectionContext` the object `x`
contains `0x2010`, yet the containing-object lookup finds nothing and the reference to
`0x2010` creates the new object `DATAat0x2010`. -/
theorem fallback_counterexample :
    (∃ X ∈ crossSectionContext.BinaryDataMap, X.Symbols = ["x"] ∧ Covers X 0x2010) ∧
    getBinaryDataContainingAddress crossSectionContext.BinaryDataMap 0x2010 = none ∧
    (handleAddressRef noIsland crossSectionContext 0x2010 0x1000 false).map (fun r => r.1) =
      some ("DATAat0x2010", 0) ∧
    (handleAddressRef noIsland crossSectionContext 0x2010 0x1000 false).map
        (fun r => r.2.BinaryDataMap.map (fun X => X.Symbols)) =
      some [["f"], ["x"], ["p"], ["DATAat0x2010"]] := by
  refine ⟨?_, by decide, by decide, by decide⟩
  unfold Covers
  decide

/-- Witness of claim C13 (amended): the reference to `0x2010` from the function `f` of
`dataFunctionContext` reaches the fallback step and resolves to the object `f` with
addend `0x10`. -/
theorem handleAddressRef_fallback_exact_witness :
    ReachesFallback noIsland dataFunctionContext 0x2010 0x2000 false ∧
    (∃ sym add BC1,
      handleAddressRef noIsland dataFunctionContext 0x2010 0x2000 false =
        some ((sym, add), BC1) ∧
      (∃ O ∈ BC1.BinaryDataMap, O.getSymbol = sym ∧ O.Address + add = 0x2010) ∧
      (∀ BD, getBinaryDataContainingAddress dataFunctionContext.BinaryDataMap 0x2010 = some BD →
        sym = BD.getSymbol ∧ BD.Address + add = 0x2010 ∧
          BC1.BinaryDataMap = dataFunctionContext.BinaryDataMap) ∧
      ((∀ X ∈ dataFunctionContext.BinaryDataMap, ¬ Covers X 0x2010) →
        sym = "DATAat0x" ++ utohexstr 0x2010 ∧ add = 0 ∧
        ∃ O, O.Address = 0x2010 ∧ O.Size = 0 ∧ O.Symbols = [sym] ∧
          BC1.BinaryDataMap.map (fun X => X.setParent none) =
            (entriesBelow dataFunctionContext.BinaryDataMap 0x2010 ++
              O :: entriesFrom dataFunctionContext.BinaryDataMap 0x2010).map
              (fun X => X.setParent none))) ∧
    (handleAddressRef noIsland dataFunctionContext 0x2010 0x2000 false).map (fun r => r.1) =
      some ("f", 0x10) :=
  ⟨⟨BinaryFunction.create "f" 0x2000 0x20, by decide, fun h => absurd h (by decide),
      fun h => absurd h.1 (by decide), fun h => absurd h (by decide)⟩,
    handleAddressRef_fallback_exact noIsland dataFunctionContext 0x2010 0x2000 false (by decide)
      ⟨BinaryFunction.create "f" 0x2000 0x20, by decide, fun h => absurd h (by decide),
        fun h => absurd h.1 (by decide), fun h => absurd h (by decide)⟩,
    by decide⟩

/-! ## Theorems: referential stability -/

theorem registerNameAtAddress_frame (BC : BinaryContext) (Name : String)
    (Address Size Alignment Flags : Nat) :
    ∃ c m gs, (registerNameAtAddress BC Name Address Size Alignment Flags).2 =
      { BC with Ctx := c, BinaryDataMap := m, GlobalSymbols := gs } := by
  unfold registerNameAtAddress
  simp only
  split
  · exact ⟨_, _, _, rfl⟩
  · split
    · exact ⟨_, BC.BinaryDataMap, BC.GlobalSymbols, rfl⟩
    · exact ⟨_, _, _, rfl⟩

theorem registerNameAtAddress_tables (BC : BinaryContext) (Name : String)
    (Address Size Alignment Flags : Nat) :
    (registerNameAtAddress BC Name Address Size Alignment Flags).2.JumpTables = BC.JumpTables := by
  obtain ⟨c, m, gs, h⟩ := registerNameAtAddress_frame BC Name Address Size Alignment Flags
  rw [h]

theorem getFunction_map (fs : List BinaryFunction) (g : BinaryFunction → BinaryFunction)
    (hA : ∀ F, (g F).Address = F.Address) (b : Nat) :
    getFunction (fs.map g) b = (getFunction fs b).map g := by
  unfold getFunction
  induction fs with
  | nil => rfl
  | cons G rest ih =>
    simp only [List.map_cons, List.find?_cons, hA]
    split
    · rfl
    · exact ih

/-- The result of a call of `handleAddressRef` that is claimed by no constant island and
is not an escaped label: the list of interprocedural references may grow, the memory
analysis decides for a PIC jump table or for the fallback step. -/
theorem handleAddressRef_unescaped (island : IslandAccess) (BC : BinaryContext)
    (a BF : Nat) (p : Bool) (Fn : BinaryFunction)
    (hF : getFunction BC.BinaryFunctions BF = some Fn)
    (hisl : isAArch64 BC = true → island BC a BF = none)
    (hesc : ¬ ((∃ Section, getSectionForAddress BC a = some Section ∧ Section.IsText = true) ∧
        Fn.containsAddress a (isAArch64 BC) = true ∧ a ≠ Fn.Address)) :
    ∃ refs,
      handleAddressRef island BC a BF p =
        (if BC.HasRelocations = true then analyzeMemoryAt BC a Fn
          else some MemoryContentsType.UNKNOWN).bind (fun MemType =>
          if BC.HasRelocations = true ∧ MemType = MemoryContentsType.POSSIBLE_PIC_JUMP_TABLE ∧
              p = true then
            some (((getOrCreateJumpTable { BC with InterproceduralReferences := refs } BF a
                JumpTableType.JTT_PIC).1, 0),
              (getOrCreateJumpTable { BC with InterproceduralReferences := refs } BF a
                JumpTableType.JTT_PIC).2)
          else
            (getBinaryDataContainingAddress BC.BinaryDataMap a).elim
              (some (((getOrCreateGlobalSymbol { BC with InterproceduralReferences := refs }
                  a "DATAat" 0 0 0).1, 0),
                (getOrCreateGlobalSymbol { BC with InterproceduralReferences := refs }
                  a "DATAat" 0 0 0).2))
              (fun BD => some ((BD.getSymbol, sub64 a BD.Address),
                { BC with InterproceduralReferences := refs }))) := by
  have hI : (if isAArch64 BC = true then island BC a BF else none) = none := by
    by_cases h : isAArch64 BC = true
    · rw [if_pos h]; exact hisl h
    · rw [if_neg h]
  have tail : ∀ refs : List (Nat × Nat),
      (match (if BC.HasRelocations = true then
          analyzeMemoryAt { BC with InterproceduralReferences := refs } a Fn
          else some MemoryContentsType.UNKNOWN) with
      | none => none
      | some MemType =>
        if BC.HasRelocations = true ∧ MemType = MemoryContentsType.POSSIBLE_PIC_JUMP_TABLE ∧
            p = true then
          some (((getOrCreateJumpTable { BC with InterproceduralReferences := refs } BF a
              JumpTableType.JTT_PIC).1, 0),
            (getOrCreateJumpTable { BC with InterproceduralReferences := refs } BF a
              JumpTableType.JTT_PIC).2)
        else
          match getBinaryDataContainingAddress BC.BinaryDataMap a with
          | some BD => some ((BD.getSymbol, sub64 a BD.Address),
              { BC with InterproceduralReferences := refs })
          | none =>
            some (((getOrCreateGlobalSymbol { BC with InterproceduralReferences := refs }
                a "DATAat" 0 0 0).1, 0),
              (getOrCreateGlobalSymbol { BC with InterproceduralReferences := refs }
                a "DATAat" 0 0 0).2)) =
      (if BC.HasRelocations = true then analyzeMemoryAt BC a Fn
        else some MemoryContentsType.UNKNOWN).bind (fun MemType =>
        if BC.HasRelocations = true ∧ MemType = MemoryContentsType.POSSIBLE_PIC_JUMP_TABLE ∧
            p = true then
          some (((getOrCreateJumpTable { BC with InterproceduralReferences := refs } BF a
              JumpTableType.JTT_PIC).1, 0),
            (getOrCreateJumpTable { BC with InterproceduralReferences := refs } BF a
              JumpTableType.JTT_PIC).2)
        else
          (getBinaryDataContainingAddress BC.BinaryDataMap a).elim
            (some (((getOrCreateGlobalSymbol { BC with InterproceduralReferences := refs }
                a "DATAat" 0 0 0).1, 0),
              (getOrCreateGlobalSymbol { BC with InterproceduralReferences := refs }
                a "DATAat" 0 0 0).2))
            (fun BD => some ((BD.getSymbol, sub64 a BD.Address),
              { BC with InterproceduralReferences := refs }))) := by
    intro refs
    rw [(sameScan_references BC a refs).analyzeMemoryAt_eq Fn Fn rfl rfl]
    generalize (if BC.HasRelocations = true then analyzeMemoryAt BC a Fn
      else some MemoryContentsType.UNKNOWN) = M
    cases M with
    | none => rfl
    | some MemType =>
      simp only [Option.some_bind]
      split
      · rfl
      · cases getBinaryDataContainingAddress BC.BinaryDataMap a <;> rfl
  cases hs : getSectionForAddress BC a with
  | none =>
    refine ⟨BC.InterproceduralReferences, ?_⟩
    have := tail BC.InterproceduralReferences
    unfold handleAddressRef
    simp only [hF, hI, hs, Bool.false_eq_true, false_and, if_false]
    exact this
  | some S =>
    by_cases ht : S.IsText = true
    · by_cases hc : Fn.containsAddress a (isAArch64 BC) = true
      · have hne : ¬ a ≠ Fn.Address := fun hne => hesc ⟨⟨S, hs, ht⟩, hc, hne⟩
        refine ⟨BC.InterproceduralReferences, ?_⟩
        have := tail BC.InterproceduralReferences
        unfold handleAddressRef
        simp only [hF, hI, hs, ht, hc, hne, true_and, and_false, if_false,
          Bool.true_eq_false]
        exact this
      · simp only [Bool.not_eq_true] at hc
        refine ⟨BC.InterproceduralReferences ++ [(BF, a)], ?_⟩
        have := tail (BC.InterproceduralReferences ++ [(BF, a)])
        unfold handleAddressRef
        simp only [hF, hI, hs, ht, hc, true_and, and_self, if_true, Bool.false_eq_true,
          false_and, if_false]
        exact this
    · refine ⟨BC.InterproceduralReferences, ?_⟩
      have := tail BC.InterproceduralReferences
      unfold handleAddressRef
      simp only [hF, hI, hs, ht, false_and, if_false]
      exact this

/-- A reference to an escaped label returns its label, and so does any later reference
to the same address from the same function. -/
theorem handleAddressRef_escape_stable (island : IslandAccess) (BC : BinaryContext)
    (Address BF : Nat) (IsPCRel : Bool) (Fn : BinaryFunction) (Section : BinarySection)
    (hF : getFunction BC.BinaryFunctions BF = some Fn)
    (hisland : isAArch64 BC = true → ∀ BC2, island BC2 Address BF = none)
    (hsec : getSectionForAddress BC Address = some Section) (htext : Section.IsText = true)
    (hin : Fn.containsAddress Address (isAArch64 BC) = true)
    (hne : Address ≠ Fn.Address) :
    ∃ Label BC1,
      handleAddressRef island BC Address BF IsPCRel = some ((Label, 0), BC1) ∧
      ∀ IsPCRel2, handleAddressRef island BC1 Address BF IsPCRel2 = some ((Label, 0), BC1) := by
  have hFa : Fn.Address = BF := getFunction_address _ _ _ hF
  have h1 := handleAddressRef_escape island BC Address BF IsPCRel Fn Section hF
    (fun h => hisland h BC) hsec htext hin hne
  obtain ⟨ha, hs, hm, hl⟩ := addEntryPointAtOffset_fields
    { Fn with HasInternalLabelReference := true } (sub64 Address Fn.Address)
  have hidem := addEntryPointAtOffset_idem
    { Fn with HasInternalLabelReference := true } (sub64 Address Fn.Address)
  generalize addEntryPointAtOffset { Fn with HasInternalLabelReference := true }
    (sub64 Address Fn.Address) = e at h1 ha hs hm hl hidem
  simp only at ha hs hm hl
  have hea : e.2.Address = BF := by rw [ha, hFa]
  have hF1 : getFunction (updateFunction BC.BinaryFunctions BF (fun _ => e.2)) BF = some e.2 := by
    rw [getFunction_updateFunction_self _ _ _ (fun _ _ => hea), hF]
    rfl
  refine ⟨e.1, _, h1, ?_⟩
  intro IsPCRel2
  have hin2 : e.2.containsAddress Address (isAArch64 BC) = true := by
    unfold BinaryFunction.containsAddress at hin ⊢
    rw [ha, hs, hm]
    exact hin
  have h2 := handleAddressRef_escape island
    { BC with BinaryFunctions := updateFunction BC.BinaryFunctions BF (fun _ => e.2) }
    Address BF IsPCRel2 e.2 Section hF1 (fun h => hisland h _) hsec htext hin2
    (by rw [ha]; exact hne)
  rw [h2, setInternalLabelReference_eq e.2 hl, ha, hidem]
  simp only [updateFunction_const_idem _ _ _ hea]

/-! ## Theorems: parents in a flat index -/

theorem containsRange_iff_encloses {A B : BinaryData}
    (hA : A.Address + A.Size < 18446744073709551616)
    (hB : B.Address + B.Size < 18446744073709551616) (hne : A.Address ≠ B.Address) :
    A.containsRange B.Address B.Size = true ↔ Encloses A B := by
  rw [containsRange_bounded hA hB]
  unfold Encloses
  omega

theorem encloses_trans {A B C : BinaryData} (h1 : Encloses A B) (h2 : Encloses B C) :
    Encloses A C := by
  unfold Encloses at *
  omega

/-- Two parentless objects that contain the same object are one object. -/
theorem FlatIndex.top_unique {S : BinarySection} {m : List BinaryData} (h : FlatIndex S m)
    {A Q B : BinaryData} (hA : A ∈ m) (hQ : Q ∈ m) (hAp : A.Parent = none)
    (hQp : Q.Parent = none) (hAB : Encloses A B) (hQB : Encloses Q B) : A = Q := by
  by_contra hne
  have hadr : A.Address ≠ Q.Address := fun e => hne (sorted_addr_inj h.sorted hA hQ e)
  have hl := h.laminar A hA Q hQ
  have h1 := (h.parents A hA).2 hAp Q hQ
  have h2 := (h.parents Q hQ).2 hQp A hA
  unfold LaminarPair at hl
  unfold Encloses at *
  omega

/-- An object that some object contains is contained in a parentless object. -/
theorem FlatIndex.root_encloses {S : BinarySection} {m : List BinaryData} (h : FlatIndex S m)
    {A B : BinaryData} (hA : A ∈ m) (hAB : Encloses A B) :
    ∃ R ∈ m, R.Parent = none ∧ Encloses R B := by
  cases hp : A.Parent with
  | none => exact ⟨A, hA, hp, hAB⟩
  | some p =>
    obtain ⟨R, hR, -, hRp, hRA⟩ := (h.parents A hA).1 p hp
    exact ⟨R, hR, hRp, encloses_trans hRA hAB⟩

/-- The parent of an object that a parentless object contains is that object. -/
theorem FlatIndex.parent_eq {S : BinarySection} {m : List BinaryData} (h : FlatIndex S m)
    {R X : BinaryData} (hR : R ∈ m) (hX : X ∈ m) (hRp : R.Parent = none)
    (hRX : Encloses R X) : X.Parent = some R.Address := by
  cases hp : X.Parent with
  | none => exact absurd hRX ((h.parents X hX).2 hp R hR)
  | some q =>
    obtain ⟨Q, hQ, hQa, hQp, hQX⟩ := (h.parents X hX).1 q hp
    have := h.top_unique hR hQ hRp hQp hRX hQX
    rw [← hQa, this]

/-- No object has a parent at an address where nothing is registered. -/
theorem FlatIndex.parent_ne {S : BinarySection} {m : List BinaryData} (h : FlatIndex S m)
    {X : BinaryData} (hX : X ∈ m) {a : Nat} (ha : ∀ Y ∈ m, Y.Address ≠ a) :
    X.Parent ≠ some a := by
  intro hp
  obtain ⟨A, hA, hAa, -⟩ := (h.parents X hX).1 a hp
  exact ha A hA hAa

theorem setParent_Address (G : BinaryData) (p : Option Nat) :
    (G.setParent p).Address = G.Address := rfl

theorem setParent_Size (G : BinaryData) (p : Option Nat) : (G.setParent p).Size = G.Size := rfl

theorem setParent_Section (G : BinaryData) (p : Option Nat) :
    (G.setParent p).Section = G.Section := rfl

theorem setParent_Parent (G : BinaryData) (p : Option Nat) : (G.setParent p).Parent = p := rfl

theorem setParent_setParent (G : BinaryData) (p q : Option Nat) :
    (G.setParent p).setParent q = G.setParent q := rfl

theorem setParent_same (G : BinaryData) (p : Option Nat) (h : G.Parent = p) :
    G.setParent p = G := by
  cases G
  simp only [BinaryData.setParent, BinaryData.mk.injEq, true_and]
  simp_all

theorem walkPrev_none (pre : List BinaryData) (n : Nat) (G : BinaryData)
    (post : List BinaryData) : walkPrev pre n none G post = (G, post) := by
  cases n <;> rfl

/-- One turn of the loop `while (Prev)`. -/
theorem walkPrev_step (pre post : List BinaryData) (G Q : BinaryData) (n : Nat)
    (hl : getBinaryDataAtAddress (pre ++ G :: post) Q.Address = some Q) :
    walkPrev pre (n + 1) (some Q.Address) G post =
      walkPrev pre n
        ((getBinaryDataAtAddress
          (pre ++ G.setParent (if Q.Section = G.Section ∧
              Q.containsRange G.Address G.Size = true then some Q.Address else none) ::
            fixParentsTail G.Parent (if Q.Section = G.Section ∧
              Q.containsRange G.Address G.Size = true then some Q.Address else none) post)
          Q.Address).bind (fun P => P.Parent))
        (G.setParent (if Q.Section = G.Section ∧
          Q.containsRange G.Address G.Size = true then some Q.Address else none))
        (fixParentsTail G.Parent (if Q.Section = G.Section ∧
          Q.containsRange G.Address G.Size = true then some Q.Address else none) post) := by
  simp only [walkPrev, hl]

theorem fixParentsTail_id (o n : Option Nat) (l : List BinaryData)
    (h : ∀ X ∈ l, X.Parent ≠ o) : fixParentsTail o n l = l := by
  cases l with
  | nil => rfl
  | cons X rest =>
    have := h X (by simp)
    simp [fixParentsTail, this]

theorem absorbFollowing_id (BD : BinaryData) (l : List BinaryData)
    (h : ∀ X ∈ l, BD.containsRange X.Address X.Size = true → X.Parent = some BD.Address) :
    absorbFollowing BD l = l := by
  induction l with
  | nil => rfl
  | cons X rest ih =>
    unfold absorbFollowing
    split
    · rename_i hc
      rw [setParent_same X _ (h X (by simp) hc), ih (fun Y hY => h Y (by simp [hY]))]
    · rfl

theorem getLast_max {pre : List BinaryData} {Prev : BinaryData} (hs : SortedMap pre)
    (hlast : pre.getLast? = some Prev) : ∀ X ∈ pre, X ≠ Prev → X.Address < Prev.Address := by
  obtain ⟨ys, rfl⟩ := List.getLast?_eq_some_iff.1 hlast
  intro X hX hne
  unfold SortedMap at hs
  rw [List.pairwise_append] at hs
  rcases List.mem_append.1 hX with hX | hX
  · exact hs.2.2 X hX Prev (by simp)
  · simp only [List.mem_singleton] at hX
    exact absurd hX hne

namespace FlatInsert

variable {S : BinarySection} {pre post : List BinaryData} {G : BinaryData}

theorem addr_ne (f : FlatInsert S pre post G) : ∀ X ∈ pre ++ post, X.Address ≠ G.Address := by
  intro X hX
  rcases List.mem_append.1 hX with h | h
  · have := f.below X h; omega
  · have := f.above X h; omega

theorem lookup_old (f : FlatInsert S pre post G) (G1 : BinaryData) (hG1 : G1.Address = G.Address)
    {Q : BinaryData} (hQ : Q ∈ pre ++ post) :
    getBinaryDataAtAddress (pre ++ G1 :: post) Q.Address = some Q := by
  apply getBinaryDataAtAddress_eq_some
    (f.map.sorted.insertSorted (by rw [hG1]; exact f.below) (by rw [hG1]; exact f.above)) _ rfl
  simp only [List.mem_append, List.mem_cons] at hQ ⊢
  tauto

theorem contains_iff (f : FlatInsert S pre post G) {Q : BinaryData} (hQ : Q ∈ pre ++ post) :
    (Q.Section = G.Section ∧ Q.containsRange G.Address G.Size = true) ↔ Encloses Q G := by
  rw [containsRange_iff_encloses (f.map.nowrap Q hQ) f.nowrap (f.addr_ne Q hQ),
    f.map.sec Q hQ, f.sec]
  simp

theorem mem_pre_of_encloses (f : FlatInsert S pre post G) {R : BinaryData}
    (hR : R ∈ pre ++ post) (hRG : Encloses R G) : R ∈ pre := by
  rcases List.mem_append.1 hR with h | h
  · exact h
  · have := f.above R h
    unfold Encloses at hRG
    omega

/-- The loop `while (Prev)` gives an object that a parentless object `R` contains the
parent `R` and changes no other entry. -/
theorem walkPrev_child (f : FlatInsert S pre post G) {R Prev : BinaryData}
    (hR : R ∈ pre ++ post) (hRp : R.Parent = none) (hRG : Encloses R G)
    (hlast : pre.getLast? = some Prev) (k : Nat) :
    walkPrev pre (k + 2) (some Prev.Address) G post = (G.setParent (some R.Address), post) := by
  have hPrev : Prev ∈ pre := List.mem_of_getLast?_eq_some hlast
  have hPrevm : Prev ∈ pre ++ post := List.mem_append.2 (Or.inl hPrev)
  have hRpre := f.mem_pre_of_encloses hR hRG
  have hspre : SortedMap pre := by
    have := f.map.sorted
    unfold SortedMap at this ⊢
    exact (List.pairwise_append.1 this).1
  rw [walkPrev_step pre post G Prev (k + 1) (f.lookup_old G rfl hPrevm)]
  simp only [f.parent, fixParentsTail_none]
  have hl1 : ∀ p, getBinaryDataAtAddress (pre ++ G.setParent p :: post) Prev.Address =
      some Prev := fun p => f.lookup_old (G.setParent p) rfl hPrevm
  rw [hl1]
  simp only [Option.some_bind]
  by_cases hPR : Prev = R
  · subst hPR
    rw [if_pos ((f.contains_iff hPrevm).2 hRG), hRp, walkPrev_none]
  · have hlt := getLast_max hspre hlast R hRpre (fun e => hPR e.symm)
    have hRPrev : Encloses R Prev := by
      have hl := f.map.laminar R hR Prev hPrevm
      have hb := f.below Prev hPrev
      unfold LaminarPair at hl
      unfold Encloses at hRG ⊢
      omega
    have hpp := f.map.parent_eq hR hPrevm hRp hRPrev
    rw [hpp]
    have hl2 : ∀ p, getBinaryDataAtAddress (pre ++ G.setParent p :: post) R.Address =
        some R := fun p => f.lookup_old (G.setParent p) rfl hR
    rw [walkPrev_step pre post _ R k (hl2 _)]
    have hcond : (R.Section = G.Section ∧ R.containsRange G.Address G.Size = true) :=
      (f.contains_iff hR).2 hRG
    simp only [setParent_Address, setParent_Size, setParent_Section, setParent_Parent,
      hcond.1, hcond.2, and_self, if_true, setParent_setParent]
    have hfix : ∀ o : Option Nat, o = none ∨ o = some Prev.Address →
        fixParentsTail o (some R.Address) post = post := by
      intro o ho
      rcases ho with rfl | rfl
      · exact fixParentsTail_none _ _
      · apply fixParentsTail_id
        intro X hX hXp
        obtain ⟨A, hA, hAa, hAp, -⟩ :=
          (f.map.parents X (List.mem_append.2 (Or.inr hX))).1 _ hXp
        have := sorted_addr_inj f.map.sorted hA hPrevm hAa
        subst this
        rw [hAp] at hpp
        exact absurd hpp (by simp)
    have hpar : (if Prev.Section = G.Section ∧
        Prev.containsRange G.Address G.Size = true then some Prev.Address else none) =
          none ∨
        (if Prev.Section = G.Section ∧
        Prev.containsRange G.Address G.Size = true then some Prev.Address else none) =
          some Prev.Address := by
      split
      · exact Or.inr rfl
      · exact Or.inl rfl
    rw [hfix _ hpar, hl2]
    simp only [Option.some_bind, hRp, walkPrev_none]

end FlatInsert

theorem encloses_absorbIf_left (H X Y : BinaryData) :
    Encloses (absorbIf H X) Y ↔ Encloses X Y := by
  unfold Encloses
  rw [absorbIf_Address, absorbIf_Size]

theorem encloses_absorbIf_right (H X Y : BinaryData) :
    Encloses Y (absorbIf H X) ↔ Encloses Y X := by
  unfold Encloses
  rw [absorbIf_Address, absorbIf_Size]

theorem encloses_congr {A A0 B : BinaryData} (h1 : A0.Address = A.Address)
    (h2 : A0.Size = A.Size) : Encloses A B ↔ Encloses A0 B := by
  unfold Encloses
  rw [h1, h2]

namespace FlatInsert

variable {S : BinarySection} {pre post : List BinaryData} {G : BinaryData}

/-- The update for an object that a parentless object `R` contains: the object becomes
a child of `R`, no other entry changes. -/
theorem update_child (f : FlatInsert S pre post G) {R : BinaryData}
    (hR : R ∈ pre ++ post) (hRp : R.Parent = none) (hRG : Encloses R G) :
    updateObjectNesting pre G post = pre ++ G.setParent (some R.Address) :: post := by
  have hRpre := f.mem_pre_of_encloses hR hRG
  obtain ⟨Prev, hlast⟩ : ∃ Prev, pre.getLast? = some Prev := by
    cases h : pre.getLast? with
    | none =>
      rw [List.getLast?_eq_none_iff] at h
      subst h
      simp at hRpre
    | some P => exact ⟨P, rfl⟩
  have hlen : pre.length + post.length + 1 = (pre.length - 1 + post.length) + 2 := by
    have : 0 < pre.length := List.length_pos_of_mem hRpre
    omega
  unfold updateObjectNesting
  rw [hlast]
  simp only
  rw [hlen, f.walkPrev_child hR hRp hRG hlast]
  simp only [setParent_Size, setParent_Parent]
  split
  · rw [f.lookup_old (G.setParent (some R.Address)) rfl hR]
    simp only [Option.getD_some]
    rw [absorbFollowing_id]
    intro X hX hc
    have hXm : X ∈ pre ++ post := List.mem_append.2 (Or.inr hX)
    have hne : R.Address ≠ X.Address := by
      have := f.below R hRpre
      have := f.above X hX
      omega
    exact f.map.parent_eq hR hXm hRp
      ((containsRange_iff_encloses (f.map.nowrap R hR) (f.map.nowrap X hXm) hne).1 hc)
  · rfl

theorem absorb_iff (f : FlatInsert S pre post G) {X : BinaryData} (hX : X ∈ post) :
    G.containsRange X.Address X.Size = true ↔ Encloses G X :=
  containsRange_iff_encloses f.nowrap (f.map.nowrap X (List.mem_append.2 (Or.inr hX)))
    (by have := f.above X hX; omega)

/-- The update for an object that no object contains: the object stays parentless and
the entries that it contains become its children. -/
theorem update_top (f : FlatInsert S pre post G)
    (hno : ∀ A ∈ pre ++ post, ¬ Encloses A G) :
    updateObjectNesting pre G post = pre ++ G :: post.map (absorbIf G) := by
  have hno2 : ∀ Q ∈ pre ++ post, Q.Parent ≠ some G.Address ∧
      ¬ (Q.Section = G.Section ∧ Q.containsRange G.Address G.Size = true) := by
    intro Q hQ
    refine ⟨f.map.parent_ne hQ f.addr_ne, ?_⟩
    rw [f.contains_iff hQ]
    exact hno Q hQ
  by_cases hS : G.Size = 0
  · have hmap : post.map (absorbIf G) = post := by
      calc post.map (absorbIf G) = post.map id := by
            apply List.map_congr_left
            intro X hX
            exact absorbIf_of_not (GapInsert.zero_size_contains hS
              (by have := f.above X hX; omega))
        _ = post := by simp
    rw [hmap]
    unfold updateObjectNesting
    cases hlast : pre.getLast? with
    | none => simp [hS]
    | some Prev =>
      have hPrev : Prev ∈ pre := List.mem_of_getLast?_eq_some hlast
      have := walkPrev_root pre post G f.parent hno2 (pre.length + post.length + 1)
        (some Prev.Address) (by
          intro h
          have := f.below Prev hPrev
          simp only [Option.some.injEq] at h
          omega)
      simp [this, hS]
  · rw [updateObjectNesting_root pre post G f.parent hS
      (fun Q hQ => f.addr_ne Q (List.mem_append.2 (Or.inl hQ))) hno2]
    rw [absorbFollowing_eq_map]
    · rfl
    · intro l1 X l2 hl hX Y hY
      have hXp : X ∈ post := by rw [hl]; simp
      have hYp : Y ∈ post := by rw [hl]; simp [hY]
      have hlt : X.Address < Y.Address := by
        have hs := f.map.sorted
        unfold SortedMap at hs
        rw [hl] at hs
        have := (List.pairwise_append.1 (List.pairwise_append.1 hs).2.1).2.1
        exact (List.pairwise_cons.1 this).1 Y hY
      have hXn : ¬ Encloses G X := by
        rw [← f.absorb_iff hXp, hX]
        simp
      have hlam := f.laminar X (List.mem_append.2 (Or.inr hXp))
      have ha := f.above X hXp
      have hYn : ¬ Encloses G Y := by
        unfold LaminarPair at hlam
        unfold Encloses at hXn ⊢
        omega
      rw [← f.absorb_iff hYp] at hYn
      simpa using hYn

/-- The fields that the update does not change keep the index ordered, in the section,
inside the address space, and laminar. -/
theorem fields_of_core (f : FlatInsert S pre post G) {m : List BinaryData}
    (hcore : m.map (fun X => X.setParent none) =
      (pre ++ G :: post).map (fun X => X.setParent none)) :
    SortedMap m ∧ (∀ X ∈ m, X.Section = S) ∧ NoWrap m ∧
      (∀ X ∈ m, ∀ Y ∈ m, LaminarPair X Y) := by
  have hbase : ∀ Y ∈ pre ++ G :: post, Y.Section = S ∧
      Y.Address + Y.Size < 18446744073709551616 := by
    intro Y hY
    simp only [List.mem_append, List.mem_cons] at hY
    rcases hY with h | rfl | h
    · exact ⟨f.map.sec Y (List.mem_append.2 (Or.inl h)),
        f.map.nowrap Y (List.mem_append.2 (Or.inl h))⟩
    · exact ⟨f.sec, f.nowrap⟩
    · exact ⟨f.map.sec Y (List.mem_append.2 (Or.inr h)),
        f.map.nowrap Y (List.mem_append.2 (Or.inr h))⟩
  have hlam : ∀ X ∈ pre ++ G :: post, ∀ Y ∈ pre ++ G :: post, LaminarPair X Y := by
    have hmem : ∀ Z, Z ∈ pre ++ G :: post → Z = G ∨ Z ∈ pre ++ post := by
      intro Z hZ
      simp only [List.mem_append, List.mem_cons] at hZ ⊢
      tauto
    intro X hX Y hY
    rcases hmem X hX with rfl | hX' <;> rcases hmem Y hY with rfl | hY'
    · unfold LaminarPair; omega
    · exact laminarPair_symm (f.laminar Y hY')
    · exact f.laminar X hX'
    · exact f.map.laminar X hX' Y hY'
  refine ⟨SortedMap.sortedOfCore hcore (f.map.sorted.insertSorted f.below f.above), ?_, ?_, ?_⟩
  · intro X hX
    obtain ⟨Y, hY, -, -, h3, -⟩ := mem_of_core_eq hcore hX
    rw [← h3]
    exact (hbase Y hY).1
  · intro X hX
    obtain ⟨Y, hY, h1, h2, -, -⟩ := mem_of_core_eq hcore hX
    rw [← h1, ← h2]
    exact (hbase Y hY).2
  · intro X hX Y hY
    obtain ⟨X0, hX0, a1, a2, -, -⟩ := mem_of_core_eq hcore hX
    obtain ⟨Y0, hY0, b1, b2, -, -⟩ := mem_of_core_eq hcore hY
    exact laminarPair_congr a1.symm a2.symm b1.symm b2.symm (hlam X0 hX0 Y0 hY0)

theorem parents_child (f : FlatInsert S pre post G) {R : BinaryData}
    (hR : R ∈ pre ++ post) (hRp : R.Parent = none) (hRG : Encloses R G) :
    OutermostParents (pre ++ G.setParent (some R.Address) :: post) := by
  have hin : ∀ X, X ∈ pre ++ post → X ∈ pre ++ G.setParent (some R.Address) :: post := by
    intro X hX
    simp only [List.mem_append, List.mem_cons] at hX ⊢
    tauto
  have hmem : ∀ Z, Z ∈ pre ++ G.setParent (some R.Address) :: post →
      Z = G.setParent (some R.Address) ∨ Z ∈ pre ++ post := by
    intro Z hZ
    simp only [List.mem_append, List.mem_cons] at hZ ⊢
    tauto
  intro B hB
  rcases hmem B hB with rfl | hB'
  · constructor
    · intro p hp
      simp only [setParent_Parent, Option.some.injEq] at hp
      subst hp
      exact ⟨R, hin R hR, rfl, hRp, hRG⟩
    · intro hn
      simp [setParent_Parent] at hn
  · constructor
    · intro p hp
      obtain ⟨A, hA, h1, h2, h3⟩ := (f.map.parents B hB').1 p hp
      exact ⟨A, hin A hA, h1, h2, h3⟩
    · intro hn A hA hAB
      rcases hmem A hA with rfl | hA'
      · have hGB : Encloses G B := hAB
        exact (f.map.parents B hB').2 hn R hR (encloses_trans hRG hGB)
      · exact (f.map.parents B hB').2 hn A hA' hAB

theorem parents_top (f : FlatInsert S pre post G)
    (hno : ∀ A ∈ pre ++ post, ¬ Encloses A G) :
    OutermostParents (pre ++ G :: post.map (absorbIf G)) := by
  have hmem : ∀ Z, Z ∈ pre ++ G :: post.map (absorbIf G) →
      Z ∈ pre ∨ Z = G ∨ ∃ X ∈ post, absorbIf G X = Z := by
    intro Z hZ
    simp only [List.mem_append, List.mem_cons, List.mem_map] at hZ
    exact hZ
  have hpre : ∀ X ∈ pre, X ∈ pre ++ G :: post.map (absorbIf G) := by
    intro X hX
    simp [hX]
  have hpost : ∀ X ∈ post, absorbIf G X ∈ pre ++ G :: post.map (absorbIf G) := by
    intro X hX
    simp only [List.mem_append, List.mem_cons, List.mem_map]
    exact Or.inr (Or.inr ⟨X, hX, rfl⟩)
  -- every entry of the new map is the new object or has the range of an old entry
  have shadow : ∀ A ∈ pre ++ G :: post.map (absorbIf G),
      A = G ∨ ∃ A0 ∈ pre ++ post, A0.Address = A.Address ∧ A0.Size = A.Size := by
    intro A hA
    rcases hmem A hA with h | rfl | ⟨X, hX, rfl⟩
    · exact Or.inr ⟨A, List.mem_append.2 (Or.inl h), rfl, rfl⟩
    · exact Or.inl rfl
    · exact Or.inr ⟨X, List.mem_append.2 (Or.inr hX), (absorbIf_Address G X).symm,
        (absorbIf_Size G X).symm⟩
  intro B hB
  rcases hmem B hB with hBpre | rfl | ⟨X, hX, rfl⟩
  · have hBm : B ∈ pre ++ post := List.mem_append.2 (Or.inl hBpre)
    constructor
    · intro p hp
      obtain ⟨A, hA, h1, h2, h3⟩ := (f.map.parents B hBm).1 p hp
      have hApre : A ∈ pre := by
        rcases List.mem_append.1 hA with h | h
        · exact h
        · have := f.above A h
          have := f.below B hBpre
          unfold Encloses at h3
          omega
      exact ⟨A, hpre A hApre, h1, h2, h3⟩
    · intro hn A hA hAB
      rcases shadow A hA with rfl | ⟨A0, hA0, e1, e2⟩
      · have := f.below B hBpre
        unfold Encloses at hAB
        omega
      · exact (f.map.parents B hBm).2 hn A0 hA0 ((encloses_congr e1 e2).1 hAB)
  · constructor
    · intro p hp
      rw [f.parent] at hp
      exact absurd hp (by simp)
    · intro _ A hA hAB
      rcases shadow A hA with rfl | ⟨A0, hA0, e1, e2⟩
      · unfold Encloses at hAB
        omega
      · exact hno A0 hA0 ((encloses_congr e1 e2).1 hAB)
  · have hXm : X ∈ pre ++ post := List.mem_append.2 (Or.inr hX)
    by_cases hc : G.containsRange X.Address X.Size = true
    · rw [absorbIf_of_contains hc]
      constructor
      · intro p hp
        simp only [setParent_Parent, Option.some.injEq] at hp
        subst hp
        refine ⟨G, by simp, rfl, f.parent, ?_⟩
        exact (f.absorb_iff hX).1 hc
      · intro hn
        simp [setParent_Parent] at hn
    · have hGX : ¬ Encloses G X := fun h => hc ((f.absorb_iff hX).2 h)
      simp only [Bool.not_eq_true] at hc
      rw [absorbIf_of_not hc]
      constructor
      · intro p hp
        obtain ⟨A, hA, h1, h2, h3⟩ := (f.map.parents X hXm).1 p hp
        rcases List.mem_append.1 hA with h | h
        · exact ⟨A, hpre A h, h1, h2, h3⟩
        · have hGA : ¬ Encloses G A := fun hGA => hGX (encloses_trans hGA h3)
          have hcA : G.containsRange A.Address A.Size = false := by
            rw [← Bool.not_eq_true, f.absorb_iff h]
            exact hGA
          have := hpost A h
          rw [absorbIf_of_not hcA] at this
          exact ⟨A, this, h1, h2, h3⟩
      · intro hn A hA hAB
        rcases shadow A hA with rfl | ⟨A0, hA0, e1, e2⟩
        · exact hGX hAB
        · exact (f.map.parents X hXm).2 hn A0 hA0 ((encloses_congr e1 e2).1 hAB)

/-- The update after an insertion keeps the index flat, and the entries of the new index
are those of the old one and the new object, with their ranges. -/
theorem flat_update (f : FlatInsert S pre post G) :
    FlatIndex S (updateObjectNesting pre G post) := by
  obtain ⟨h1, h2, h3, h4⟩ := f.fields_of_core (updateObjectNesting_core pre G post)
  refine ⟨h1, h2, h3, h4, ?_⟩
  by_cases h : ∃ A ∈ pre ++ post, Encloses A G
  · obtain ⟨A, hA, hAG⟩ := h
    obtain ⟨R, hR, hRp, hRG⟩ := f.map.root_encloses hA hAG
    rw [f.update_child hR hRp hRG]
    exact f.parents_child hR hRp hRG
  · have hno : ∀ A ∈ pre ++ post, ¬ Encloses A G := fun A hA hAG => h ⟨A, hA, hAG⟩
    rw [f.update_top hno]
    exact f.parents_top hno

end FlatInsert

theorem flatIndex_nil (S : BinarySection) : FlatIndex S [] where
  sorted := List.Pairwise.nil
  sec := fun _ h => absurd h (List.not_mem_nil _)
  nowrap := fun _ h => absurd h (List.not_mem_nil _)
  laminar := fun _ h => absurd h (List.not_mem_nil _)
  parents := fun _ h => absurd h (List.not_mem_nil _)

/-- In a flat index the parent of an object is the object that contains it and that no
object contains, and an object has no parent when no object contains it. -/
theorem FlatIndex.outermost {S : BinarySection} {m : List BinaryData} (h : FlatIndex S m) :
    ∀ B ∈ m,
      (∀ A ∈ m, B.Parent = some A.Address ↔ (Encloses A B ∧ ∀ X ∈ m, ¬ Encloses X A)) ∧
      (B.Parent = none ↔ ∀ A ∈ m, ¬ Encloses A B) := by
  have top : ∀ A ∈ m, (∀ X ∈ m, ¬ Encloses X A) → A.Parent = none := by
    intro A hA hno
    cases hp : A.Parent with
    | none => rfl
    | some q =>
      obtain ⟨Q, hQ, -, -, hQA⟩ := (h.parents A hA).1 q hp
      exact absurd hQA (hno Q hQ)
  intro B hB
  constructor
  · intro A hA
    constructor
    · intro hp
      obtain ⟨A1, hA1, e, hA1p, hA1B⟩ := (h.parents B hB).1 _ hp
      have := sorted_addr_inj h.sorted hA1 hA e
      subst this
      exact ⟨hA1B, (h.parents A1 hA1).2 hA1p⟩
    · intro ⟨hAB, hno⟩
      exact h.parent_eq hA hB (top A hA hno) hAB
  · exact ⟨(h.parents B hB).2, top B hB⟩

theorem findIter_none_of_new {m : List BinaryData} {a : Nat}
    (h : ∀ X ∈ m, X.Address ≠ a) : findIter m a = none := by
  cases hf : findIter m a with
  | none => rfl
  | some r =>
    obtain ⟨pre, X, post⟩ := r
    have hat : getBinaryDataAtAddress m a = some X := by
      unfold getBinaryDataAtAddress
      rw [hf]
      rfl
    obtain ⟨hX, hXa⟩ := getBinaryDataAtAddress_some hat
    exact absurd hXa (h X hX)

/-- One registration at a new address, of a range that is disjoint from or nested with
the ranges of a flat index, gives a flat index with one more range. -/
theorem registerNameAtAddress_flat (BC : BinaryContext) (S : BinarySection) (r : Registration)
    (hflat : FlatIndex S BC.BinaryDataMap)
    (hsec : (getSectionForAddress BC r.Address).getD absoluteSection = S)
    (hnew : ∀ X ∈ BC.BinaryDataMap, X.Address ≠ r.Address)
    (hw : r.Address + r.Size < 18446744073709551616)
    (hlam : ∀ X ∈ BC.BinaryDataMap, RangesNested X.Address X.Size r.Address r.Size) :
    FlatIndex S
      (registerNameAtAddress BC r.Name r.Address r.Size r.Alignment r.Flags).2.BinaryDataMap ∧
    (registerNameAtAddress BC r.Name r.Address r.Size r.Alignment r.Flags).2.BinaryDataMap.map
        (fun X => X.setParent none) =
      (entriesBelow BC.BinaryDataMap r.Address ++
        newBinaryData BC r.Name r.Address r.Size r.Alignment r.Flags ::
          entriesFrom BC.BinaryDataMap r.Address).map (fun X => X.setParent none) := by
  have hfi := findIter_none_of_new hnew
  have hsplit := entriesBelow_append_entriesFrom BC.BinaryDataMap r.Address
  have f : FlatInsert S (entriesBelow BC.BinaryDataMap r.Address)
      (entriesFrom BC.BinaryDataMap r.Address)
      (newBinaryData BC r.Name r.Address r.Size r.Alignment r.Flags) :=
    { map := by rw [hsplit]; exact hflat
      below := entriesBelow_lt _ _
      above := entriesFrom_above hflat.sorted hfi
      sec := hsec
      parent := rfl
      nowrap := hw
      laminar := by
        rw [hsplit]
        intro X hX
        exact hlam X hX }
  rw [registerNameAtAddress_map_new BC r.Name r.Address r.Size r.Alignment r.Flags hfi]
  exact ⟨f.flat_update, updateObjectNesting_core _ _ _⟩

/-- The registrations of a list at new, pairwise distinct addresses of one section, of
ranges that are disjoint from or nested with each other and with those of a flat index,
give a flat index whose ranges are those of the index and of the list. -/
theorem registerObjects_flat (S : BinarySection) :
    ∀ (rs : List Registration) (BC : BinaryContext),
      FlatIndex S BC.BinaryDataMap →
      (∀ r ∈ rs, (getSectionForAddress BC r.Address).getD absoluteSection = S) →
      (rs.map (fun r => r.Address)).Nodup →
      (∀ r ∈ rs, ∀ X ∈ BC.BinaryDataMap, X.Address ≠ r.Address) →
      (∀ r ∈ rs, r.Address + r.Size < 18446744073709551616) →
      (∀ r1 ∈ rs, ∀ r2 ∈ rs, RangesNested r1.Address r1.Size r2.Address r2.Size) →
      (∀ r ∈ rs, ∀ X ∈ BC.BinaryDataMap, RangesNested X.Address X.Size r.Address r.Size) →
      FlatIndex S (registerObjects BC rs).BinaryDataMap ∧
      (∀ r ∈ rs, ∃ B ∈ (registerObjects BC rs).BinaryDataMap,
        B.Address = r.Address ∧ B.Size = r.Size) ∧
      (∀ X ∈ BC.BinaryDataMap, ∃ B ∈ (registerObjects BC rs).BinaryDataMap,
        B.Address = X.Address ∧ B.Size = X.Size) ∧
      (∀ B ∈ (registerObjects BC rs).BinaryDataMap,
        (∃ X ∈ BC.BinaryDataMap, B.Address = X.Address ∧ B.Size = X.Size) ∨
        (∃ r ∈ rs, B.Address = r.Address ∧ B.Size = r.Size)) := by
  intro rs
  induction rs with
  | nil =>
    intro BC hflat _ _ _ _ _ _
    refine ⟨hflat, ?_, ?_, ?_⟩
    · intro r hr
      exact absurd hr (List.not_mem_nil _)
    · intro X hX
      exact ⟨X, hX, rfl, rfl⟩
    · intro B hB
      exact Or.inl ⟨B, hB, rfl, rfl⟩
  | cons r rest ih =>
    intro BC hflat hsec hdist hnew hw hlam hlamM
    obtain ⟨hflat1, hcore⟩ := registerNameAtAddress_flat BC S r hflat
      (hsec r (by simp)) (hnew r (by simp)) (hw r (by simp)) (hlamM r (by simp))
    have hsplit := entriesBelow_append_entriesFrom BC.BinaryDataMap r.Address
    -- the entries of the index after the first registration
    have hfwd : ∀ Y ∈ (registerNameAtAddress BC r.Name r.Address r.Size r.Alignment
        r.Flags).2.BinaryDataMap,
        (Y.Address = r.Address ∧ Y.Size = r.Size) ∨
          ∃ X ∈ BC.BinaryDataMap, Y.Address = X.Address ∧ Y.Size = X.Size := by
      intro Y hY
      obtain ⟨Z, hZ, h1, h2, -, -⟩ := mem_of_core_eq hcore hY
      simp only [List.mem_append, List.mem_cons] at hZ
      rcases hZ with h | rfl | h
      · exact Or.inr ⟨Z, by rw [← hsplit]; exact List.mem_append.2 (Or.inl h), h1.symm, h2.symm⟩
      · exact Or.inl ⟨h1.symm, h2.symm⟩
      · exact Or.inr ⟨Z, by rw [← hsplit]; exact List.mem_append.2 (Or.inr h), h1.symm, h2.symm⟩
    have hbwd : ∀ Z ∈ entriesBelow BC.BinaryDataMap r.Address ++
        newBinaryData BC r.Name r.Address r.Size r.Alignment r.Flags ::
          entriesFrom BC.BinaryDataMap r.Address,
        ∃ Y ∈ (registerNameAtAddress BC r.Name r.Address r.Size r.Alignment
          r.Flags).2.BinaryDataMap, Y.Address = Z.Address ∧ Y.Size = Z.Size := by
      intro Z hZ
      obtain ⟨Y, hY, h1, h2, -, -⟩ := mem_of_core_eq hcore.symm hZ
      exact ⟨Y, hY, h1, h2⟩
    have hsec1 : ∀ a, getSectionForAddress
        (registerNameAtAddress BC r.Name r.Address r.Size r.Alignment r.Flags).2 a =
          getSectionForAddress BC a := by
      intro a
      obtain ⟨c, m, gs, hfr⟩ :=
        registerNameAtAddress_frame BC r.Name r.Address r.Size r.Alignment r.Flags
      rw [hfr]
      exact getSectionForAddress_congr rfl a
    have hnd : r.Address ∉ rest.map (fun r => r.Address) ∧
        (rest.map (fun r => r.Address)).Nodup := by
      rw [List.map_cons] at hdist
      exact List.nodup_cons.1 hdist
    have hne : ∀ q ∈ rest, r.Address ≠ q.Address := by
      intro q hq e
      exact hnd.1 (List.mem_map.2 ⟨q, hq, e.symm⟩)
    obtain ⟨g1, g2, g3, g4⟩ := ih
      (registerNameAtAddress BC r.Name r.Address r.Size r.Alignment r.Flags).2 hflat1
      (fun q hq => by rw [hsec1]; exact hsec q (by simp [hq]))
      hnd.2
      (fun q hq Y hY => by
        rcases hfwd Y hY with ⟨e, -⟩ | ⟨X, hX, e, -⟩
        · rw [e]; exact hne q hq
        · rw [e]; exact hnew q (by simp [hq]) X hX)
      (fun q hq => hw q (by simp [hq]))
      (fun q1 h1 q2 h2 => hlam q1 (by simp [h1]) q2 (by simp [h2]))
      (fun q hq Y hY => by
        rcases hfwd Y hY with ⟨e1, e2⟩ | ⟨X, hX, e1, e2⟩
        · rw [e1, e2]; exact hlam r (by simp) q (by simp [hq])
        · rw [e1, e2]; exact hlamM q (by simp [hq]) X hX)
    have hobj : registerObjects BC (r :: rest) =
        registerObjects (registerNameAtAddress BC r.Name r.Address r.Size r.Alignment
          r.Flags).2 rest := rfl
    rw [hobj]
    refine ⟨g1, ?_, ?_, ?_⟩
    · intro q hq
      rcases List.mem_cons.1 hq with rfl | hq
      · obtain ⟨Y, hY, e1, e2⟩ := hbwd
          (newBinaryData BC q.Name q.Address q.Size q.Alignment q.Flags) (by simp)
        obtain ⟨B, hB, b1, b2⟩ := g3 Y hY
        exact ⟨B, hB, by rw [b1, e1]; rfl, by rw [b2, e2]; rfl⟩
      · exact g2 q hq
    · intro X hX
      obtain ⟨Y, hY, e1, e2⟩ := hbwd X (by
        rw [← hsplit] at hX
        simp only [List.mem_append, List.mem_cons] at hX ⊢
        tauto)
      obtain ⟨B, hB, b1, b2⟩ := g3 Y hY
      exact ⟨B, hB, by rw [b1, e1], by rw [b2, e2]⟩
    · intro B hB
      rcases g4 B hB with ⟨Y, hY, e1, e2⟩ | ⟨q, hq, e1, e2⟩
      · rcases hfwd Y hY with ⟨c1, c2⟩ | ⟨X, hX, c1, c2⟩
        · exact Or.inr ⟨r, by simp, by rw [e1, c1], by rw [e2, c2]⟩
        · exact Or.inl ⟨X, hX, by rw [e1, c1], by rw [e2, c2]⟩
      · exact Or.inr ⟨q, by simp [hq], e1, e2⟩

/-- Claim C18 (amended). Parent is the outermost container: in every index state reached
from an empty index by registering, at pairwise distinct addresses of one section, objects
whose ranges are pairwise disjoint or nested, the registered objects are those of the
index, the parent of each object `B` is the object `A` whose range contains the range of
`B` and that no registered object contains, and `B` has no parent when nothing contains
it. -/
theorem parent_is_outermost (BC : BinaryContext) (S : BinarySection) (rs : List Registration)
    (h0 : BC.BinaryDataMap = [])
    (hsec : ∀ r ∈ rs, (getSectionForAddress BC r.Address).getD absoluteSection = S)
    (hdist : (rs.map (fun r => r.Address)).Nodup)
    (hw : ∀ r ∈ rs, r.Address + r.Size < 18446744073709551616)
    (hlam : ∀ r1 ∈ rs, ∀ r2 ∈ rs, RangesNested r1.Address r1.Size r2.Address r2.Size) :
    (∀ r ∈ rs, ∃ B ∈ (registerObjects BC rs).BinaryDataMap,
      B.Address = r.Address ∧ B.Size = r.Size) ∧
    (∀ B ∈ (registerObjects BC rs).BinaryDataMap,
      ∃ r ∈ rs, B.Address = r.Address ∧ B.Size = r.Size) ∧
    ∀ B ∈ (registerObjects BC rs).BinaryDataMap,
      (∀ A ∈ (registerObjects BC rs).BinaryDataMap,
        B.Parent = some A.Address ↔
          (Encloses A B ∧ ∀ X ∈ (registerObjects BC rs).BinaryDataMap, ¬ Encloses X A)) ∧
      (B.Parent = none ↔ ∀ A ∈ (registerObjects BC rs).BinaryDataMap, ¬ Encloses A B) := by
  have hmem : ∀ X, X ∈ BC.BinaryDataMap → False := by
    intro X hX
    rw [h0] at hX
    exact absurd hX (List.not_mem_nil _)
  obtain ⟨g1, g2, -, g4⟩ := registerObjects_flat S rs BC (by rw [h0]; exact flatIndex_nil S)
    hsec hdist (fun _ _ X hX => (hmem X hX).elim) hw hlam (fun _ _ X hX => (hmem X hX).elim)
  refine ⟨g2, ?_, g1.outermost⟩
  intro B hB
  rcases g4 B hB with ⟨X, hX, -⟩ | h
  · exact (hmem X hX).elim
  · exact h

/-- Counterexample to claim C18 as stated: after registering `A` = `[0, 100)`,
`B` = `[10, 50)`, `C` = `[20, 30)` in that order, the parent of `C` is `A` (the object at
address 0), not `B`, the innermost object that contains `C`; the index passes
`validateObjectNesting`. -/
theorem innermost_parent_counterexample :
    (registerObjects emptyContext nestingExample).BinaryDataMap.map
        (fun X => (X.Symbols, X.Address, X.Size, X.Parent)) =
      [(["A"], 0, 100, none), (["B"], 10, 40, some 0), (["C"], 20, 10, some 0)] ∧
    ((getBinaryDataAtAddress (registerObjects emptyContext nestingExample).BinaryDataMap
        20).map (fun X => X.Parent)) ≠ some (some 10) ∧
    validateObjectNesting (registerObjects emptyContext nestingExample).BinaryDataMap = true := by
  decide

/-- Witness of claim C18 (amended): the registrations `A`, `B`, `C` of `nestingExample`
are at distinct addresses of the absolute section and nested, and in the index reached
the parent of each object is the outermost object that contains it. -/
theorem parent_is_outermost_witness :
    (∀ r ∈ nestingExample, ∃ B ∈ (registerObjects emptyContext nestingExample).BinaryDataMap,
      B.Address = r.Address ∧ B.Size = r.Size) ∧
    (∀ B ∈ (registerObjects emptyContext nestingExample).BinaryDataMap,
      ∃ r ∈ nestingExample, B.Address = r.Address ∧ B.Size = r.Size) ∧
    ∀ B ∈ (registerObjects emptyContext nestingExample).BinaryDataMap,
      (∀ A ∈ (registerObjects emptyContext nestingExample).BinaryDataMap,
        B.Parent = some A.Address ↔
          (Encloses A B ∧
            ∀ X ∈ (registerObjects emptyContext nestingExample).BinaryDataMap,
              ¬ Encloses X A)) ∧
      (B.Parent = none ↔
        ∀ A ∈ (registerObjects emptyContext nestingExample).BinaryDataMap, ¬ Encloses A B) :=
  parent_is_outermost emptyContext absoluteSection nestingExample rfl (by decide) (by decide)
    (by decide) (by decide)

/-! ## Theorems: the scan of analyzeJumpTable, relocations and outputs -/

/-- Every scanned entry is read at its address under the upper bound, has passed the
relocation check, and is the start or the end of the owning function or has a target. -/
theorem scannedFrom_trace (BC : BinaryContext) (Address : Nat) (JTType : JumpTableType)
    (BF : BinaryFunction) (UpperBound EntrySize : Nat) :
    ∀ (fuel EntryAddress : Nat) (vs : List (Nat × Bool)),
      scannedFrom BC Address JTType BF UpperBound EntrySize fuel EntryAddress = some vs →
      ∀ (i : Nat) (v : Nat × Bool), vs[i]? = some v →
        entryAddressAt EntrySize i EntryAddress ≤ sub64 UpperBound EntrySize ∧
        hasEntryRelocation BC JTType (entryAddressAt EntrySize i EntryAddress) = true ∧
        entryValue BC Address JTType (entryAddressAt EntrySize i EntryAddress) EntrySize =
          some v.1 ∧
        (((v.1 = wrap64 (BF.Address + BF.Size) ∨ v.1 = BF.Address) ∧ v.2 = false) ∨
          (¬ (v.1 = wrap64 (BF.Address + BF.Size) ∨ v.1 = BF.Address) ∧
            ∃ T, entryTarget BC BF v.1 = some T ∧ v.2 = decide (T.Address ≠ BF.Address))) := by
  intro fuel
  induction fuel with
  | zero => intro EA vs h; simp [scannedFrom] at h
  | succ n ih =>
    intro EA vs h i v hi
    unfold scannedFrom at h
    by_cases hfit : EA ≤ sub64 UpperBound EntrySize
    · rw [if_neg (not_not.2 hfit)] at h
      by_cases hrel : hasEntryRelocation BC JTType EA = false
      · rw [if_pos hrel] at h
        simp only [Option.some.injEq] at h
        subst h
        simp at hi
      · rw [if_neg hrel] at h
        simp only [Bool.not_eq_false] at hrel
        cases hval : entryValue BC Address JTType EA EntrySize with
        | none => rw [hval] at h; simp at h
        | some Value =>
          rw [hval] at h
          simp only at h
          -- the entry at `EA` and the entries after it
          have step : ∀ (flag : Bool) (l : List (Nat × Bool)),
              scannedFrom BC Address JTType BF UpperBound EntrySize n
                (wrap64 (EA + EntrySize)) = some l →
              vs = (Value, flag) :: l →
              (((Value = wrap64 (BF.Address + BF.Size) ∨ Value = BF.Address) ∧ flag = false) ∨
                (¬ (Value = wrap64 (BF.Address + BF.Size) ∨ Value = BF.Address) ∧
                  ∃ T, entryTarget BC BF Value = some T ∧
                    flag = decide (T.Address ≠ BF.Address))) →
              entryAddressAt EntrySize i EA ≤ sub64 UpperBound EntrySize ∧
              hasEntryRelocation BC JTType (entryAddressAt EntrySize i EA) = true ∧
              entryValue BC Address JTType (entryAddressAt EntrySize i EA) EntrySize =
                some v.1 ∧
              (((v.1 = wrap64 (BF.Address + BF.Size) ∨ v.1 = BF.Address) ∧ v.2 = false) ∨
                (¬ (v.1 = wrap64 (BF.Address + BF.Size) ∨ v.1 = BF.Address) ∧
                  ∃ T, entryTarget BC BF v.1 = some T ∧
                    v.2 = decide (T.Address ≠ BF.Address))) := by
            intro flag l hrec hvs hkind
            subst hvs
            cases i with
            | zero =>
              simp only [List.getElem?_cons_zero, Option.some.injEq] at hi
              subst hi
              exact ⟨hfit, hrel, hval, hkind⟩
            | succ j =>
              simp only [List.getElem?_cons_succ] at hi
              exact ih (wrap64 (EA + EntrySize)) l hrec j v hi
          by_cases hsp : Value = wrap64 (BF.Address + BF.Size) ∨ Value = BF.Address
          · rw [if_pos hsp] at h
            cases hrec : scannedFrom BC Address JTType BF UpperBound EntrySize n
                (wrap64 (EA + EntrySize)) with
            | none => rw [hrec] at h; simp at h
            | some l =>
              rw [hrec] at h
              simp only [Option.map_some', Option.some.injEq] at h
              exact step false l hrec h.symm (Or.inl ⟨hsp, rfl⟩)
          · rw [if_neg hsp] at h
            cases htar : entryTarget BC BF Value with
            | none =>
              rw [htar] at h
              simp only [Option.some.injEq] at h
              subst h
              simp at hi
            | some T =>
              rw [htar] at h
              simp only at h
              cases hrec : scannedFrom BC Address JTType BF UpperBound EntrySize n
                  (wrap64 (EA + EntrySize)) with
              | none => rw [hrec] at h; simp at h
              | some l =>
                rw [hrec] at h
                simp only [Option.map_some', Option.some.injEq] at h
                exact step _ l hrec h.symm (Or.inr ⟨hsp, T, htar, rfl⟩)
    · rw [if_pos hfit] at h
      simp only [Option.some.injEq] at h
      subst h
      simp at hi

/-- Claim C27. For the same state, table address, table type, owning function and
next-table hint, `analyzeJumpTable` returns the same boolean whether or not the entry list
and the `HasEntryInFragment` flag are supplied, whatever they hold on entry. -/
theorem analyzeJumpTable_result_independent (BC : BinaryContext) (Address : Nat)
    (JTType : JumpTableType) (BF : BinaryFunction) (NextJTAddress : Nat)
    (EntriesAsAddress : Option (List Nat)) (HasEntryInFragment : Option Bool) :
    (analyzeJumpTable BC Address JTType BF NextJTAddress EntriesAsAddress
        HasEntryInFragment).map (fun r => r.Result) =
      (analyzeJumpTable BC Address JTType BF NextJTAddress none none).map
        (fun r => r.Result) := by
  cases hs : scannedEntries BC Address JTType BF NextJTAddress with
  | none =>
    rw [analyzeJumpTable_none_of_scan _ _ _ _ _ _ _ hs,
      analyzeJumpTable_none_of_scan _ _ _ _ _ _ _ hs]
  | some vs =>
    rw [analyzeJumpTable_result_of_scan _ _ _ _ _ _ _ vs hs,
      analyzeJumpTable_result_of_scan _ _ _ _ _ _ _ vs hs]

/-- What a call of `analyzeJumpTable` with an empty output list counts and records: the
result is decided by the scanned entries, and the recorded list is the list of their
values or a beginning of it. -/
theorem analyzeJumpTable_records_scan (BC : BinaryContext) (Address : Nat)
    (JTType : JumpTableType) (BF : BinaryFunction) (NextJTAddress : Nat)
    (HasEntryInFragment : Option Bool) (vs : List (Nat × Bool))
    (hscan : scannedEntries BC Address JTType BF NextJTAddress = some vs) :
    ∃ r E, analyzeJumpTable BC Address JTType BF NextJTAddress (some []) HasEntryInFragment =
        some r ∧
      r.Result = decide (numRealEntries BF vs + (if hasSpecialEntry BF vs then 1 else 0) ≥ 2) ∧
      r.EntriesAsAddress = some E ∧ E <+: vs.map (fun v => v.1) := by
  cases hsec : getSectionForAddress BC Address with
  | none =>
    have hvs : vs = [] := by
      unfold scannedEntries at hscan
      rw [hsec] at hscan
      simpa using hscan.symm
    subst hvs
    refine ⟨_, [], by unfold analyzeJumpTable; rw [hsec], ?_, rfl, ?_⟩
    · simp [numRealEntries, hasSpecialEntry]
    · simp
  | some Section =>
    obtain ⟨h1, h2⟩ := foldl_recordEntry_trimmed BF vs
      { HasUnreachable := false, HasStartAsEntry := false, NumRealEntries := 0,
        TrimmedSize := 0, EntriesAsAddress := some [],
        HasEntryInFragment := HasEntryInFragment } [] rfl rfl
    simp only [List.nil_append] at h1 h2
    obtain ⟨h3, h4⟩ := dropTrailing_take (wrap64 (BF.Address + BF.Size)) (vs.map (fun v => v.1))
    have hrep : (dropTrailing (wrap64 (BF.Address + BF.Size)) (vs.map (fun v => v.1))).length -
        (vs.map (fun v => v.1)).length = 0 := by omega
    by_cases hc : JTType = JumpTableType.JTT_NORMAL ∧
        (dropTrailing (wrap64 (BF.Address + BF.Size)) (vs.map (fun v => v.1))).length ≠
          (vs.map (fun v => v.1)).length ∧
        (getBinaryFunctionAtAddress BC (wrap64 (BF.Address + BF.Size))).isSome = true
    · refine ⟨_, (vs.map (fun v => v.1)).take
          (dropTrailing (wrap64 (BF.Address + BF.Size)) (vs.map (fun v => v.1))).length,
        analyzeJumpTable_of_scan BC Address JTType BF NextJTAddress (some [])
          HasEntryInFragment Section vs hsec hscan, rfl, ?_, List.take_prefix _ _⟩
      simp only [h1, h2]
      rw [if_pos hc, hrep]
      simp
    · refine ⟨_, vs.map (fun v => v.1),
        analyzeJumpTable_of_scan BC Address JTType BF NextJTAddress (some [])
          HasEntryInFragment Section vs hsec hscan, rfl, ?_, List.prefix_refl _⟩
      simp only [h1, h2]
      rw [if_neg hc]

/-- Claim C21. When `HasRelocations` is set, every entry that `analyzeJumpTable` scans
(counts or records) is read at an address that has a relocation: the address is in the set
of PC-relative data relocations for a PIC table, and its section has a relocation record
at it for an absolute table. The first entry without one ends the scan: no entry at or
after it is scanned. The call counts the scanned entries and records their values, or a
beginning of them, and nothing else. -/
theorem analyzeJumpTable_relocations_authoritative (BC : BinaryContext) (Address : Nat)
    (JTType : JumpTableType) (BF : BinaryFunction) (NextJTAddress : Nat)
    (vs : List (Nat × Bool)) (hrel : BC.HasRelocations = true)
    (hscan : scannedEntries BC Address JTType BF NextJTAddress = some vs) :
    (∀ (i : Nat) (v : Nat × Bool), vs[i]? = some v →
      entryValue BC Address JTType
          (entryAddressAt (getJumpTableEntrySize BC JTType) i Address)
          (getJumpTableEntrySize BC JTType) = some v.1 ∧
        (JTType = JumpTableType.JTT_PIC →
          BC.DataPCRelocations.contains
            (entryAddressAt (getJumpTableEntrySize BC JTType) i Address) = true) ∧
        (JTType = JumpTableType.JTT_NORMAL →
          getRelocationAt BC
            (entryAddressAt (getJumpTableEntrySize BC JTType) i Address) = true)) ∧
    (∀ k : Nat,
      ((JTType = JumpTableType.JTT_PIC ∧
          BC.DataPCRelocations.contains
            (entryAddressAt (getJumpTableEntrySize BC JTType) k Address) = false) ∨
        (JTType = JumpTableType.JTT_NORMAL ∧
          getRelocationAt BC
            (entryAddressAt (getJumpTableEntrySize BC JTType) k Address) = false)) →
      vs.length ≤ k) ∧
    (∃ r E, analyzeJumpTable BC Address JTType BF NextJTAddress (some []) none = some r ∧
      r.Result = decide (numRealEntries BF vs + (if hasSpecialEntry BF vs then 1 else 0) ≥ 2) ∧
      r.EntriesAsAddress = some E ∧ E <+: vs.map (fun v => v.1)) := by
  have key : ∀ (i : Nat) (v : Nat × Bool), vs[i]? = some v →
      hasEntryRelocation BC JTType
          (entryAddressAt (getJumpTableEntrySize BC JTType) i Address) = true ∧
        entryValue BC Address JTType
          (entryAddressAt (getJumpTableEntrySize BC JTType) i Address)
          (getJumpTableEntrySize BC JTType) = some v.1 := by
    intro i v hi
    unfold scannedEntries at hscan
    cases hsec : getSectionForAddress BC Address with
    | none =>
      rw [hsec] at hscan
      simp only [Option.some.injEq] at hscan
      subst hscan
      simp at hi
    | some Section =>
      rw [hsec] at hscan
      obtain ⟨-, h2, h3, -⟩ := scannedFrom_trace BC Address JTType BF _ _ _ _ vs hscan i v hi
      exact ⟨h2, h3⟩
  refine ⟨?_, ?_, analyzeJumpTable_records_scan BC Address JTType BF NextJTAddress none vs hscan⟩
  · intro i v hi
    obtain ⟨h2, h3⟩ := key i v hi
    refine ⟨h3, ?_, ?_⟩
    · intro hp
      unfold hasEntryRelocation at h2
      simpa [hrel, hp] using h2
    · intro hn
      unfold hasEntryRelocation at h2
      simpa [hrel, hn] using h2
  · intro k hk
    by_contra hlt
    have hlt2 : k < vs.length := by omega
    obtain ⟨h2, -⟩ := key k (vs[k]) (List.getElem?_eq_getElem hlt2)
    unfold hasEntryRelocation at h2
    rcases hk with ⟨hp, hno⟩ | ⟨hn, hno⟩
    · subst hp
      simp only [hrel, Bool.not_true, Bool.false_or, if_true] at h2
      rw [h2] at hno
      exact absurd hno (by decide)
    · subst hn
      simp only [hrel, Bool.not_true, Bool.false_or] at h2
      rw [if_neg (by decide)] at h2
      rw [h2] at hno
      exact absurd hno (by decide)

set_option maxRecDepth 100000 in
/-- Witness of claim C21: in `picRelocContext` the entries at `0x2000` and `0x2004` have a
PC-relative relocation and are scanned, the entry at `0x2008` has none and ends the
scan. -/
theorem analyzeJumpTable_relocations_authoritative_witness :
    picRelocContext.HasRelocations = true ∧
    scannedEntries picRelocContext 0x2000 JumpTableType.JTT_PIC tableOwner 0 =
      some [(0x1010, false), (0x1020, false)] ∧
    picRelocContext.DataPCRelocations.contains 0x2008 = false ∧
    ((∀ (i : Nat) (v : Nat × Bool),
      [((0x1010 : Nat), false), (0x1020, false)][i]? = some v →
      entryValue picRelocContext 0x2000 JumpTableType.JTT_PIC
          (entryAddressAt (getJumpTableEntrySize picRelocContext JumpTableType.JTT_PIC) i
            0x2000)
          (getJumpTableEntrySize picRelocContext JumpTableType.JTT_PIC) = some v.1 ∧
        (JumpTableType.JTT_PIC = JumpTableType.JTT_PIC →
          picRelocContext.DataPCRelocations.contains
            (entryAddressAt (getJumpTableEntrySize picRelocContext JumpTableType.JTT_PIC) i
              0x2000) = true) ∧
        (JumpTableType.JTT_PIC = JumpTableType.JTT_NORMAL →
          getRelocationAt picRelocContext
            (entryAddressAt (getJumpTableEntrySize picRelocContext JumpTableType.JTT_PIC) i
              0x2000) = true)) ∧
    (∀ k : Nat,
      ((JumpTableType.JTT_PIC = JumpTableType.JTT_PIC ∧
          picRelocContext.DataPCRelocations.contains
            (entryAddressAt (getJumpTableEntrySize picRelocContext JumpTableType.JTT_PIC) k
              0x2000) = false) ∨
        (JumpTableType.JTT_PIC = JumpTableType.JTT_NORMAL ∧
          getRelocationAt picRelocContext
            (entryAddressAt (getJumpTableEntrySize picRelocContext JumpTableType.JTT_PIC) k
              0x2000) = false)) →
      [((0x1010 : Nat), false), (0x1020, false)].length ≤ k) ∧
    (∃ r E, analyzeJumpTable picRelocContext 0x2000 JumpTableType.JTT_PIC tableOwner 0
        (some []) none = some r ∧
      r.Result = decide (numRealEntries tableOwner [((0x1010 : Nat), false), (0x1020, false)] +
        (if hasSpecialEntry tableOwner [((0x1010 : Nat), false), (0x1020, false)] then 1
          else 0) ≥ 2) ∧
      r.EntriesAsAddress = some E ∧
      E <+: [((0x1010 : Nat), false), (0x1020, false)].map (fun v => v.1))) :=
  ⟨by decide, by decide, by decide,
    analyzeJumpTable_relocations_authoritative picRelocContext 0x2000 JumpTableType.JTT_PIC
      tableOwner 0 [(0x1010, false), (0x1020, false)] (by decide) (by decide)⟩

theorem entryTarget_some {BC : BinaryContext} {BF T : BinaryFunction} {Value : Nat}
    (h : entryTarget BC BF Value = some T) :
    getBinaryFunctionContainingAddress BC Value false false = some T := by
  unfold entryTarget at h
  cases hc : getBinaryFunctionContainingAddress BC Value false false with
  | none => rw [hc] at h; simp at h
  | some T2 =>
    rw [hc] at h
    simp only at h
    split at h
    · simp only [Option.some.injEq] at h
      rw [h]
    · simp at h

theorem entryTarget_related {BC : BinaryContext} {BF T : BinaryFunction} {Value : Nat}
    (h : entryTarget BC BF Value = some T) :
    areRelatedFragments BC T.Address BF.Address = true := by
  unfold entryTarget at h
  cases hc : getBinaryFunctionContainingAddress BC Value false false with
  | none => rw [hc] at h; simp at h
  | some T2 =>
    rw [hc] at h
    simp only at h
    split at h
    · rename_i hcond
      simp only [Option.some.injEq] at h
      rw [← h]
      exact hcond.1
    · simp at h

/-- The flag `HasEntryInFragment` after the scanned entries are recorded: a null pointer
stays null, and the flag is set when an entry that is neither the end nor the start of the
owning function carries the mark of another function. -/
theorem foldl_recordEntry_fragment (BF : BinaryFunction) (vs : List (Nat × Bool)) :
    ∀ s : ScanState,
      (vs.foldl (recordEntry BF) s).HasEntryInFragment =
        s.HasEntryInFragment.map (fun b => b || vs.any (fun v =>
          !(decide (v.1 = wrap64 (BF.Address + BF.Size)) || decide (v.1 = BF.Address)) &&
            v.2)) := by
  induction vs with
  | nil =>
    intro s
    cases h : s.HasEntryInFragment <;> simp [h]
  | cons v rest ih =>
    intro s
    rw [List.foldl_cons, ih]
    have h1 : (recordEntry BF s v).HasEntryInFragment =
        s.HasEntryInFragment.map (fun b => b ||
          (!(decide (v.1 = wrap64 (BF.Address + BF.Size)) || decide (v.1 = BF.Address)) &&
            v.2)) := by
      unfold recordEntry
      by_cases he : v.1 = wrap64 (BF.Address + BF.Size)
      · rw [if_pos he]
        show (addEntryAddress s v.1 true).HasEntryInFragment = _
        rw [(addEntryAddress_fields s v.1 true).2.2.2]
        cases h : s.HasEntryInFragment <;> simp [he]
      · rw [if_neg he]
        by_cases hst : v.1 = BF.Address
        · rw [if_pos hst]
          rw [(addEntryAddress_fields { s with HasStartAsEntry := true } v.1 false).2.2.2]
          show s.HasEntryInFragment = _
          cases h : s.HasEntryInFragment <;> simp [hst]
        · rw [if_neg hst]
          dsimp only
          rw [(addEntryAddress_fields _ v.1 false).2.2.2]
          cases hf : s.HasEntryInFragment with
          | none => simp [hf]
          | some b =>
            cases hv : v.2 with
            | false => simp [hf, he, hst]
            | true => simp [hf, he, hst]
    rw [h1]
    cases h : s.HasEntryInFragment with
    | none => rfl
    | some b => simp [List.any_cons, Bool.or_assoc]

/-- Claim C22. For a call of `analyzeJumpTable` that returns, with the flag
`HasEntryInFragment` false on entry the flag is true on return if and only if some
scanned entry that is counted as a real entry (its value is neither the start nor the end
address of the owning function) lies in a function other than the owning function, which
then is a related fragment; with the flag true on entry it is true on return. -/
theorem analyzeJumpTable_crossesFragment (BC : BinaryContext) (Address : Nat)
    (JTType : JumpTableType) (BF : BinaryFunction) (NextJTAddress : Nat)
    (EntriesAsAddress : Option (List Nat)) (vs : List (Nat × Bool))
    (hscan : scannedEntries BC Address JTType BF NextJTAddress = some vs) :
    ∃ r rt,
      analyzeJumpTable BC Address JTType BF NextJTAddress EntriesAsAddress (some false) =
        some r ∧
      analyzeJumpTable BC Address JTType BF NextJTAddress EntriesAsAddress (some true) =
        some rt ∧
      (r.HasEntryInFragment = some true ∨ r.HasEntryInFragment = some false) ∧
      (r.HasEntryInFragment = some true ↔
        ∃ v ∈ vs, v.1 ≠ BF.Address ∧ v.1 ≠ wrap64 (BF.Address + BF.Size) ∧
          ∃ T, getBinaryFunctionContainingAddress BC v.1 false false = some T ∧
            T.Address ≠ BF.Address ∧ areRelatedFragments BC T.Address BF.Address = true) ∧
      rt.HasEntryInFragment = some true := by
  cases hsec : getSectionForAddress BC Address with
  | none =>
    have hvs : vs = [] := by
      unfold scannedEntries at hscan
      rw [hsec] at hscan
      simpa using hscan.symm
    subst hvs
    refine ⟨_, _, by unfold analyzeJumpTable; rw [hsec], by unfold analyzeJumpTable; rw [hsec],
      Or.inr rfl, ?_, rfl⟩
    simp
  | some Section =>
    have hkind : ∀ v ∈ vs,
        (((v.1 = wrap64 (BF.Address + BF.Size) ∨ v.1 = BF.Address) ∧ v.2 = false) ∨
          (¬ (v.1 = wrap64 (BF.Address + BF.Size) ∨ v.1 = BF.Address) ∧
            ∃ T, entryTarget BC BF v.1 = some T ∧ v.2 = decide (T.Address ≠ BF.Address))) := by
      intro v hv
      obtain ⟨i, hi, hiv⟩ := List.getElem_of_mem hv
      have hget : vs[i]? = some v := by rw [List.getElem?_eq_getElem hi, hiv]
      unfold scannedEntries at hscan
      rw [hsec] at hscan
      exact (scannedFrom_trace BC Address JTType BF _ _ _ _ vs hscan i v hget).2.2.2
    have hany : vs.any (fun v =>
        !(decide (v.1 = wrap64 (BF.Address + BF.Size)) || decide (v.1 = BF.Address)) &&
          v.2) = true ↔
        ∃ v ∈ vs, v.1 ≠ BF.Address ∧ v.1 ≠ wrap64 (BF.Address + BF.Size) ∧
          ∃ T, getBinaryFunctionContainingAddress BC v.1 false false = some T ∧
            T.Address ≠ BF.Address ∧ areRelatedFragments BC T.Address BF.Address = true := by
      rw [List.any_eq_true]
      constructor
      · rintro ⟨v, hv, hc⟩
        simp only [Bool.and_eq_true, Bool.not_eq_true', Bool.or_eq_false_iff,
          decide_eq_false_iff_not] at hc
        obtain ⟨⟨he, hst⟩, hflag⟩ := hc
        rcases hkind v hv with ⟨hsp, -⟩ | ⟨-, T, hT, hf⟩
        · rcases hsp with h | h
          · exact absurd h he
          · exact absurd h hst
        · rw [hf] at hflag
          exact ⟨v, hv, hst, he, T, entryTarget_some hT, by simpa using hflag,
            entryTarget_related hT⟩
      · rintro ⟨v, hv, hst, he, T, hT, hne, -⟩
        refine ⟨v, hv, ?_⟩
        simp only [Bool.and_eq_true, Bool.not_eq_true', Bool.or_eq_false_iff,
          decide_eq_false_iff_not]
        refine ⟨⟨he, hst⟩, ?_⟩
        rcases hkind v hv with ⟨hsp, -⟩ | ⟨-, T2, hT2, hf⟩
        · rcases hsp with h | h
          · exact absurd h he
          · exact absurd h hst
        · have := entryTarget_some hT2
          rw [hT] at this
          simp only [Option.some.injEq] at this
          subst this
          rw [hf]
          simpa using hne
    refine ⟨_, _, analyzeJumpTable_of_scan BC Address JTType BF NextJTAddress EntriesAsAddress
      (some false) Section vs hsec hscan,
      analyzeJumpTable_of_scan BC Address JTType BF NextJTAddress EntriesAsAddress
      (some true) Section vs hsec hscan, ?_, ?_, ?_⟩
    · simp only [foldl_recordEntry_fragment, Option.map_some', Bool.false_or,
        Option.some.injEq]
      cases vs.any (fun v =>
        !(decide (v.1 = wrap64 (BF.Address + BF.Size)) || decide (v.1 = BF.Address)) && v.2)
      · exact Or.inr rfl
      · exact Or.inl rfl
    · simp only [foldl_recordEntry_fragment, Option.map_some', Bool.false_or,
        Option.some.injEq]
      exact hany
    · simp only [foldl_recordEntry_fragment, Option.map_some', Bool.true_or]

set_option maxRecDepth 100000 in
/-- Witness of claim C22: in `splitTableContext` the entry `0x1050` lies in the fragment
`g` of the owning function `f`, and the flag is true on return. -/
theorem analyzeJumpTable_crossesFragment_witness :
    scannedEntries splitTableContext 0x2000 JumpTableType.JTT_NORMAL tableOwner 0 =
      some [(0x1010, false), (0x1050, true)] ∧
    (analyzeJumpTable splitTableContext 0x2000 JumpTableType.JTT_NORMAL tableOwner 0 (some [])
      (some false)).map (fun r => r.HasEntryInFragment) = some (some true) ∧
    ∃ r rt,
      analyzeJumpTable splitTableContext 0x2000 JumpTableType.JTT_NORMAL tableOwner 0
        (some []) (some false) = some r ∧
      analyzeJumpTable splitTableContext 0x2000 JumpTableType.JTT_NORMAL tableOwner 0
        (some []) (some true) = some rt ∧
      (r.HasEntryInFragment = some true ∨ r.HasEntryInFragment = some false) ∧
      (r.HasEntryInFragment = some true ↔
        ∃ v ∈ [((0x1010 : Nat), false), (0x1050, true)],
          v.1 ≠ tableOwner.Address ∧ v.1 ≠ wrap64 (tableOwner.Address + tableOwner.Size) ∧
          ∃ T, getBinaryFunctionContainingAddress splitTableContext v.1 false false = some T ∧
            T.Address ≠ tableOwner.Address ∧
            areRelatedFragments splitTableContext T.Address tableOwner.Address = true) ∧
      rt.HasEntryInFragment = some true :=
  ⟨by decide, by decide,
    analyzeJumpTable_crossesFragment splitTableContext 0x2000 JumpTableType.JTT_NORMAL
      tableOwner 0 (some []) [(0x1010, false), (0x1050, true)] (by decide)⟩

/-! ## Theorems: acceptance and the next-table hint -/

/-- The scan under a lower bound stops no later than the scan under a higher bound: the
entries scanned under the lower bound are the first entries scanned under the higher
one. -/
theorem scannedFrom_mono (BC : BinaryContext) (Address : Nat) (JTType : JumpTableType)
    (BF : BinaryFunction) (UB1 UB2 EntrySize : Nat) (hES : EntrySize ≤ UB1) (hle : UB1 ≤ UB2)
    (hUB : UB2 < 18446744073709551616) :
    ∀ (fuel EntryAddress : Nat) (vs1 vs2 : List (Nat × Bool)),
      scannedFrom BC Address JTType BF UB1 EntrySize fuel EntryAddress = some vs1 →
      scannedFrom BC Address JTType BF UB2 EntrySize fuel EntryAddress = some vs2 →
      ∃ ext, vs2 = vs1 ++ ext := by
  intro fuel
  induction fuel with
  | zero => intro EA vs1 vs2 h1; simp [scannedFrom] at h1
  | succ n ih =>
    intro EA vs1 vs2 h1 h2
    unfold scannedFrom at h1 h2
    rw [sub64_of_le _ _ hES (by omega)] at h1
    rw [sub64_of_le _ _ (by omega) hUB] at h2
    by_cases hfit : EA ≤ UB1 - EntrySize
    · have hfit2 : EA ≤ UB2 - EntrySize := by omega
      rw [if_neg (not_not.2 hfit)] at h1
      rw [if_neg (not_not.2 hfit2)] at h2
      by_cases hrel : hasEntryRelocation BC JTType EA = false
      · rw [if_pos hrel] at h1 h2
        simp only [Option.some.injEq] at h1 h2
        subst h1 h2
        exact ⟨[], rfl⟩
      · rw [if_neg hrel] at h1 h2
        cases hval : entryValue BC Address JTType EA EntrySize with
        | none => rw [hval] at h1; simp at h1
        | some Value =>
          rw [hval] at h1 h2
          simp only at h1 h2
          have step : ∀ (flag : Bool),
              (scannedFrom BC Address JTType BF UB1 EntrySize n
                (wrap64 (EA + EntrySize))).map (fun l => (Value, flag) :: l) = some vs1 →
              (scannedFrom BC Address JTType BF UB2 EntrySize n
                (wrap64 (EA + EntrySize))).map (fun l => (Value, flag) :: l) = some vs2 →
              ∃ ext, vs2 = vs1 ++ ext := by
            intro flag g1 g2
            simp only [Option.map_eq_some'] at g1 g2
            obtain ⟨l1, r1, e1⟩ := g1
            obtain ⟨l2, r2, e2⟩ := g2
            obtain ⟨ext, hext⟩ := ih _ l1 l2 r1 r2
            exact ⟨ext, by rw [← e1, ← e2, hext]; rfl⟩
          by_cases hsp : Value = wrap64 (BF.Address + BF.Size) ∨ Value = BF.Address
          · rw [if_pos hsp] at h1 h2
            exact step false h1 h2
          · rw [if_neg hsp] at h1 h2
            cases htar : entryTarget BC BF Value with
            | none =>
              rw [htar] at h1 h2
              simp only [Option.some.injEq] at h1 h2
              subst h1 h2
              exact ⟨[], rfl⟩
            | some T =>
              rw [htar] at h1 h2
              exact step _ h1 h2
    · rw [if_pos hfit] at h1
      simp only [Option.some.injEq] at h1
      subst h1
      exact ⟨vs2, rfl⟩

/-- The scan ends within the iteration bound when every entry under the upper bound, at
the table address or a whole number of entries after it, can be read. -/
theorem scannedFrom_isSome_at (BC : BinaryContext) (Address : Nat) (JTType : JumpTableType)
    (BF : BinaryFunction) (UpperBound EntrySize : Nat) (hpos : 0 < EntrySize)
    (hES : EntrySize ≤ UpperBound) (hUB : UpperBound < 18446744073709551616)
    (hread : ∀ i, i < (UpperBound - Address) / EntrySize →
      (entryValue BC Address JTType (Address + i * EntrySize) EntrySize).isSome = true) :
    ∀ (fuel j : Nat), 1 ≤ fuel → (UpperBound - Address) / EntrySize + 1 ≤ fuel + j →
      (scannedFrom BC Address JTType BF UpperBound EntrySize fuel
        (Address + j * EntrySize)).isSome = true := by
  intro fuel
  induction fuel with
  | zero => intro j h; omega
  | succ n ih =>
    intro j _ hsum
    unfold scannedFrom
    rw [sub64_of_le _ _ hES hUB]
    by_cases hfit : Address + j * EntrySize ≤ UpperBound - EntrySize
    · rw [if_neg (not_not.2 hfit)]
      have hj : j < (UpperBound - Address) / EntrySize := by
        have h3 : (j + 1) * EntrySize = j * EntrySize + EntrySize := Nat.succ_mul j EntrySize
        exact (Nat.le_div_iff_mul_le hpos).2 (by rw [h3]; omega)
      have hw : wrap64 (Address + j * EntrySize + EntrySize) =
          Address + (j + 1) * EntrySize := by
        have hlt : Address + j * EntrySize + EntrySize < 18446744073709551616 := by omega
        unfold wrap64
        rw [Nat.mod_eq_of_lt hlt, Nat.succ_mul]
        omega
      have hrec := ih (j + 1) (by omega) (by omega)
      split
      · rfl
      · have hv := hread j hj
        cases hval : entryValue BC Address JTType (Address + j * EntrySize) EntrySize with
        | none => rw [hval] at hv; simp at hv
        | some Value =>
          simp only
          rw [hw]
          split
          · simpa using hrec
          · split
            · rfl
            · simpa using hrec
    · rw [if_pos hfit]
      rfl

theorem hint_bound_le (U h h2 : Nat) (hh : h ≠ 0) (hh2 : h2 = 0 ∨ h ≤ h2) :
    (if h ≠ 0 then min h U else U) ≤ (if h2 ≠ 0 then min h2 U else U) := by
  rw [if_pos hh]
  by_cases h0 : h2 = 0
  · rw [if_neg (not_not.2 h0)]
    exact Nat.min_le_right _ _
  · rw [if_pos h0]
    rcases hh2 with h1 | hle
    · exact absurd h1 h0
    · simp only [Nat.min_def]
      split <;> split <;> omega

theorem scanUpperBound_hint_le (BC : BinaryContext) (Section : BinarySection)
    (Address h h2 : Nat) (hh : h ≠ 0) (hh2 : h2 = 0 ∨ h ≤ h2) :
    scanUpperBound BC Section Address h ≤ scanUpperBound BC Section Address h2 := by
  unfold scanUpperBound
  dsimp only
  exact hint_bound_le _ h h2 hh hh2

theorem accepts_append (BF : BinaryFunction) (vs ext : List (Nat × Bool))
    (h : decide (numRealEntries BF vs + (if hasSpecialEntry BF vs then 1 else 0) ≥ 2) = true) :
    decide (numRealEntries BF (vs ++ ext) +
      (if hasSpecialEntry BF (vs ++ ext) then 1 else 0) ≥ 2) = true := by
  simp only [decide_eq_true_eq] at h ⊢
  unfold numRealEntries hasSpecialEntry at h ⊢
  rw [List.countP_append, List.any_append]
  cases h1 : vs.any (fun v =>
      decide (v.1 = BF.Address) || decide (v.1 = wrap64 (BF.Address + BF.Size)))
  · rw [h1] at h
    simp only [Bool.false_eq_true, if_false, Bool.false_or] at h ⊢
    split <;> omega
  · rw [h1] at h
    simp only [if_true, Bool.true_or] at h ⊢
    omega

/-- Claim C28. With state, table address, table type and owning function fixed, a
positive entry size, every bound at least one entry size and every entry under the bound
readable: if `analyzeJumpTable` accepts with the next-table hint `h` then it accepts with
every hint `h2 >= h` and with no hint. The converse fails: the table of `tableContext` with
three entries is accepted without a hint and rejected with the hint `0x2008`. -/
theorem analyzeJumpTable_monotone_in_hint :
    (∀ (BC : BinaryContext) (Address : Nat) (JTType : JumpTableType) (BF : BinaryFunction)
      (h h2 : Nat) (E E2 : Option (List Nat)) (H H2 : Option Bool) (Section : BinarySection),
      getSectionForAddress BC Address = some Section →
      0 < getJumpTableEntrySize BC JTType →
      getJumpTableEntrySize BC JTType ≤ scanUpperBound BC Section Address h →
      h ≠ 0 → (h2 = 0 ∨ h ≤ h2) →
      (∀ i, i < (scanUpperBound BC Section Address h2 - Address) /
            getJumpTableEntrySize BC JTType →
        (entryValue BC Address JTType (Address + i * getJumpTableEntrySize BC JTType)
          (getJumpTableEntrySize BC JTType)).isSome = true) →
      (analyzeJumpTable BC Address JTType BF h E H).map (fun r => r.Result) = some true →
      (analyzeJumpTable BC Address JTType BF h2 E2 H2).map (fun r => r.Result) = some true) ∧
    ((analyzeJumpTable (tableContext [0x1010, 0x1020, 0x1030]) 0x2000 JumpTableType.JTT_NORMAL
        tableOwner 0 none none).map (fun r => r.Result) = some true ∧
      getJumpTableEntrySize (tableContext [0x1010, 0x1020, 0x1030]) JumpTableType.JTT_NORMAL ≤
        scanUpperBound (tableContext [0x1010, 0x1020, 0x1030])
          (tableSection [0x1010, 0x1020, 0x1030]) 0x2000 0x2008 ∧
      (analyzeJumpTable (tableContext [0x1010, 0x1020, 0x1030]) 0x2000 JumpTableType.JTT_NORMAL
        tableOwner 0x2008 none none).map (fun r => r.Result) = some false) := by
  constructor
  · intro BC Address JTType BF h h2 E E2 H H2 Section hsec hpos hES hh hh2 hread hacc
    have hle := scanUpperBound_hint_le BC Section Address h h2 hh hh2
    have hUB2 := scanUpperBound_lt BC Section Address h2
    cases hs1 : scannedEntries BC Address JTType BF h with
    | none =>
      rw [analyzeJumpTable_none_of_scan _ _ _ _ _ _ _ hs1] at hacc
      simp at hacc
    | some vs1 =>
      rw [analyzeJumpTable_result_of_scan _ _ _ _ _ _ _ vs1 hs1] at hacc
      simp only [Option.some.injEq] at hacc
      have hsome := scannedFrom_isSome_at BC Address JTType BF
        (scanUpperBound BC Section Address h2) (getJumpTableEntrySize BC JTType) hpos
        (by omega) hUB2 hread 18446744073709551616 0 (by decide) (by
          have : (scanUpperBound BC Section Address h2 - Address) /
              getJumpTableEntrySize BC JTType ≤ scanUpperBound BC Section Address h2 - Address :=
            Nat.div_le_self _ _
          omega)
      simp only [Nat.zero_mul, Nat.add_zero] at hsome
      obtain ⟨vs2, hvs2⟩ := Option.isSome_iff_exists.1 hsome
      have hs2 : scannedEntries BC Address JTType BF h2 = some vs2 := by
        unfold scannedEntries
        rw [hsec]
        exact hvs2
      have hs1b : scannedFrom BC Address JTType BF (scanUpperBound BC Section Address h)
          (getJumpTableEntrySize BC JTType) 18446744073709551616 Address = some vs1 := by
        unfold scannedEntries at hs1
        rw [hsec] at hs1
        exact hs1
      obtain ⟨ext, hext⟩ := scannedFrom_mono BC Address JTType BF _ _ _ hES hle hUB2 _ _
        vs1 vs2 hs1b hvs2
      rw [analyzeJumpTable_result_of_scan _ _ _ _ _ _ _ vs2 hs2, hext]
      rw [accepts_append BF vs1 ext hacc]
  · decide

set_option maxRecDepth 100000 in
/-- Witness of claim C28: the table of `tableContext` with three entries is accepted with
the hint `0x2010` and with the hint `0x2018`. -/
theorem analyzeJumpTable_monotone_in_hint_witness :
    (analyzeJumpTable (tableContext [0x1010, 0x1020, 0x1030]) 0x2000 JumpTableType.JTT_NORMAL
      tableOwner 0x2010 (some []) (some false)).map (fun r => r.Result) = some true ∧
    (analyzeJumpTable (tableContext [0x1010, 0x1020, 0x1030]) 0x2000 JumpTableType.JTT_NORMAL
      tableOwner 0x2018 none none).map (fun r => r.Result) = some true :=
  ⟨by decide,
    analyzeJumpTable_monotone_in_hint.1 (tableContext [0x1010, 0x1020, 0x1030]) 0x2000
      JumpTableType.JTT_NORMAL tableOwner 0x2010 0x2018 (some []) none (some false) none
      (tableSection [0x1010, 0x1020, 0x1030]) (by decide) (by decide) (by decide) (by decide)
      (Or.inr (by decide)) (by decide) (by decide)⟩

/-! ## Theorems: lookup by address after a fold -/

theorem getFunction_emplaceFunction_self (fs : List BinaryFunction) (F : BinaryFunction)
    (hnew : getFunction fs F.Address = none) :
    getFunction (emplaceFunction fs F) F.Address = some F := by
  unfold emplaceFunction
  rw [hnew]
  unfold getFunction
  rw [List.find?_append]
  have h1 : (fs.takeWhile (fun G => decide (G.Address < F.Address))).find?
      (fun G => decide (G.Address = F.Address)) = none := by
    rw [List.find?_eq_none]
    intro G hG
    have := List.mem_takeWhile_imp hG
    simp only [decide_eq_true_eq] at this ⊢
    omega
  rw [h1]
  simp [List.find?_cons]

theorem getFunction_emplaceFunction_other (fs : List BinaryFunction) (F : BinaryFunction)
    (a : Nat) (hne : F.Address ≠ a) :
    getFunction (emplaceFunction fs F) a = getFunction fs a := by
  unfold emplaceFunction
  split
  · rfl
  · unfold getFunction
    rw [List.find?_append, List.find?_cons]
    simp only [hne, decide_False]
    rw [← List.find?_append, List.takeWhile_append_dropWhile]

theorem foldFunction_BinaryDataMap (BC : BinaryContext) (Child Parent : Nat) :
    (foldFunction BC Child Parent).BinaryDataMap = BC.BinaryDataMap := by
  unfold foldFunction
  split
  · rfl
  · simp only
    split <;> rfl

/-- The object that `registerNameAtAddress` creates at an unoccupied address has the
registered name as its only symbol. -/
theorem registerNameAtAddress_new_object (BC : BinaryContext) (Name : String)
    (Address Size Alignment Flags : Nat)
    (hfree : getBinaryDataAtAddress BC.BinaryDataMap Address = none) :
    ∃ BD, getBinaryDataAtAddress
        (registerNameAtAddress BC Name Address Size Alignment Flags).2.BinaryDataMap Address =
          some BD ∧ BD.Symbols = [Name] := by
  have hfind : findIter BC.BinaryDataMap Address = none := by
    unfold getBinaryDataAtAddress at hfree
    simpa using hfree
  rw [registerNameAtAddress_map_new _ _ _ _ _ _ hfind]
  obtain ⟨G, post1, hshape, hG⟩ := updateObjectNesting_shape
    (entriesBelow BC.BinaryDataMap Address)
    (newBinaryData BC Name Address Size Alignment Flags)
    (entriesFrom BC.BinaryDataMap Address)
  have hf := setParent_none_eq hG
  simp only [newBinaryData] at hf
  have hfi := findIter_split (entriesBelow BC.BinaryDataMap Address) G post1
    (by rw [hf.1]; exact entriesBelow_lt _ _)
  rw [hf.1] at hfi
  refine ⟨G, ?_, hf.2.1⟩
  rw [hshape]
  unfold getBinaryDataAtAddress
  rw [hfi]
  rfl

/-- Claim C29 (amended). In relocation mode, let `A` be a registered single-entry function
and let `B` be created with `createBinaryFunction` at an address where neither a function
nor an object is registered. After `foldFunction(B, A)` the object that the creation of
`B` registered is still at the address of `B`, its symbol is the name of `B`,
`getFunctionForSymbol` maps that symbol to `A` with entry ID 0, and
`getBinaryFunctionAtAddress` at the address of `B` returns `A`. -/
theorem getBinaryFunctionAtAddress_after_fold (BC : BinaryContext) (Name : String)
    (Child Size SymbolSize Alignment Parent : Nat) (PA : BinaryFunction)
    (hreloc : BC.HasRelocations = true) (hne : Child ≠ Parent)
    (hP : getFunction BC.BinaryFunctions Parent = some PA)
    (hPs : PA.isMultiEntry = false)
    (hnew : getFunction BC.BinaryFunctions Child = none)
    (hfree : getBinaryDataAtAddress BC.BinaryDataMap Child = none) :
    ∃ A2 BD,
      getFunction (foldFunction (createBinaryFunction BC Name Child Size SymbolSize Alignment)
        Child Parent).BinaryFunctions Parent = some A2 ∧
      A2.Address = Parent ∧
      getBinaryDataAtAddress (foldFunction
        (createBinaryFunction BC Name Child Size SymbolSize Alignment)
        Child Parent).BinaryDataMap Child = some BD ∧
      BD.getSymbol = Name ∧
      getFunctionForSymbol (foldFunction
        (createBinaryFunction BC Name Child Size SymbolSize Alignment) Child Parent) Name =
          some (A2, 0) ∧
      getBinaryFunctionAtAddress (foldFunction
        (createBinaryFunction BC Name Child Size SymbolSize Alignment) Child Parent) Child =
          some A2 := by
  have hCB : (BinaryFunction.create Name Child Size).Address = Child := rfl
  have hfs : (createBinaryFunction BC Name Child Size SymbolSize Alignment).BinaryFunctions =
      emplaceFunction BC.BinaryFunctions (BinaryFunction.create Name Child Size) := by
    unfold createBinaryFunction registerNameAtAddress
    simp only
    split
    · rfl
    · split <;> rfl
  have hrel2 : (createBinaryFunction BC Name Child Size SymbolSize Alignment).HasRelocations =
      true := by
    rw [← hreloc]
    unfold createBinaryFunction registerNameAtAddress
    simp only
    split
    · rfl
    · split <;> rfl
  have hmap : (createBinaryFunction BC Name Child Size SymbolSize Alignment).BinaryDataMap =
      (registerNameAtAddress
        { BC with BinaryFunctions :=
            emplaceFunction BC.BinaryFunctions (BinaryFunction.create Name Child Size) }
        Name Child (if SymbolSize ≠ 0 then SymbolSize else Size) Alignment 0).2.BinaryDataMap :=
    rfl
  have hC2 : getFunction (createBinaryFunction BC Name Child Size SymbolSize
      Alignment).BinaryFunctions Child = some (BinaryFunction.create Name Child Size) := by
    rw [hfs]
    exact getFunction_emplaceFunction_self _ _ hnew
  have hP2 : getFunction (createBinaryFunction BC Name Child Size SymbolSize
      Alignment).BinaryFunctions Parent = some PA := by
    rw [hfs, getFunction_emplaceFunction_other _ _ _ (by rw [hCB]; exact hne)]
    exact hP
  obtain ⟨BD, hBD, hsym⟩ := registerNameAtAddress_new_object
    { BC with BinaryFunctions :=
        emplaceFunction BC.BinaryFunctions (BinaryFunction.create Name Child Size) }
    Name Child (if SymbolSize ≠ 0 then SymbolSize else Size) Alignment 0 hfree
  obtain ⟨h1, h2, h3⟩ := foldFunction_functions_reloc _ Child Parent _ PA hrel2 hne hC2 hP2
  have hPA : PA.Address = Parent := getFunction_address _ _ _ hP
  have hget : getBinaryDataAtAddress (foldFunction
      (createBinaryFunction BC Name Child Size SymbolSize Alignment)
      Child Parent).BinaryDataMap Child = some BD := by
    rw [foldFunction_BinaryDataMap, hmap]
    exact hBD
  have hBDsym : BD.getSymbol = Name := by
    unfold BinaryData.getSymbol
    rw [hsym]
    rfl
  have hfor : getFunctionForSymbol (foldFunction
      (createBinaryFunction BC Name Child Size SymbolSize Alignment) Child Parent) Name =
        some ({ PA with Symbols := PA.Symbols ++ (BinaryFunction.create Name Child Size).Symbols,
                        Aliases := PA.Aliases ++ (BinaryFunction.create Name Child Size).Aliases,
                        HasFunctionsFoldedInto := true }, 0) := by
    unfold getFunctionForSymbol
    rw [h3, lookup_foldl_assign _ Parent Name _
      (Or.inr (by simp [BinaryFunction.create]))]
    simp only [h2]
    have hm : BinaryFunction.isMultiEntry
        { PA with Symbols := PA.Symbols ++ (BinaryFunction.create Name Child Size).Symbols,
                  Aliases := PA.Aliases ++ (BinaryFunction.create Name Child Size).Aliases,
                  HasFunctionsFoldedInto := true } = false := hPs
    simp [BinaryFunction.getEntryIDForSymbol, hm]
  refine ⟨_, BD, h2, hPA, hget, hBDsym, hfor, ?_⟩
  unfold getBinaryFunctionAtAddress
  rw [h1]
  simp only [hget, hBDsym, hfor, if_true]

/-- Counterexample to claim C29 as stated: the name `d` is registered at `0x1080` before
the function `bar` is created there, so the object at `0x1080` has `d` as its first
symbol; after `foldFunction(bar, foo)` in relocation mode no function is registered at
`0x1080`, the symbol `d` maps to no function, and `getBinaryFunctionAtAddress(0x1080)`
returns nothing although `bar` was folded into `foo`. -/
theorem after_fold_counterexample :
    aliasedBarContext.HasRelocations = true ∧
    getFunction aliasedBarContext.BinaryFunctions 0x1000 =
      some (BinaryFunction.create "foo" 0x1000 0x50) ∧
    getFunction aliasedBarContext.BinaryFunctions 0x1080 =
      some (BinaryFunction.create "bar" 0x1080 0x20) ∧
    (BinaryFunction.create "foo" 0x1000 0x50).isMultiEntry = false ∧
    (BinaryFunction.create "bar" 0x1080 0x20).isMultiEntry = false ∧
    (getBinaryDataAtAddress (foldFunction aliasedBarContext 0x1080 0x1000).BinaryDataMap
      0x1080).map (fun BD => BD.Symbols) = some ["d", "bar"] ∧
    (getFunctionForSymbol (foldFunction aliasedBarContext 0x1080 0x1000) "bar").map
      (fun r => r.1.Address) = some 0x1000 ∧
    getBinaryFunctionAtAddress (foldFunction aliasedBarContext 0x1080 0x1000) 0x1080 = none := by
  decide

/-- Witness of claim C29: `bar` is created at `0x1080` in `relocFooContext` and folded
into `foo`. -/
theorem getBinaryFunctionAtAddress_after_fold_witness :
    ∃ A2 BD,
      getFunction (foldFunction (createBinaryFunction relocFooContext "bar" 0x1080 0x20 0 0)
        0x1080 0x1000).BinaryFunctions 0x1000 = some A2 ∧
      A2.Address = 0x1000 ∧
      getBinaryDataAtAddress (foldFunction
        (createBinaryFunction relocFooContext "bar" 0x1080 0x20 0 0)
        0x1080 0x1000).BinaryDataMap 0x1080 = some BD ∧
      BD.getSymbol = "bar" ∧
      getFunctionForSymbol (foldFunction
        (createBinaryFunction relocFooContext "bar" 0x1080 0x20 0 0) 0x1080 0x1000) "bar" =
          some (A2, 0) ∧
      getBinaryFunctionAtAddress (foldFunction
        (createBinaryFunction relocFooContext "bar" 0x1080 0x20 0 0) 0x1080 0x1000) 0x1080 =
          some A2 :=
  getBinaryFunctionAtAddress_after_fold relocFooContext "bar" 0x1080 0x20 0 0 0x1000
    (BinaryFunction.create "foo" 0x1000 0x50) (by decide) (by decide) (by decide) (by decide)
    (by decide) (by decide)

/-! ## Theorems: verifyInBoundsSlice of ViewLikeInterface.cpp -/

theorem wrapInt64_of_range (x : Int) (h1 : -9223372036854775808 ≤ x)
    (h2 : x < 9223372036854775808) : wrapInt64 x = x := by
  unfold wrapInt64
  rw [Int.emod_eq_of_lt (by omega) (by omega)]
  omega

theorem wrapInt64_add_wrap (a b : Int) : wrapInt64 (a + wrapInt64 b) = wrapInt64 (a + b) := by
  unfold wrapInt64
  have h : (a + ((b + 9223372036854775808) % 18446744073709551616 - 9223372036854775808) +
      9223372036854775808) % 18446744073709551616 =
      (a + b + 9223372036854775808) % 18446744073709551616 := by
    omega
  rw [h]

theorem wrapInt64_wrap_mul (a b : Int) : wrapInt64 (wrapInt64 a * b) = wrapInt64 (a * b) := by
  unfold wrapInt64
  have h : ((a + 9223372036854775808) % 18446744073709551616 - 9223372036854775808) * b =
      a * b + (-((a + 9223372036854775808) / 18446744073709551616) * b) *
        18446744073709551616 := by
    have := Int.emod_add_ediv (a + 9223372036854775808) 18446744073709551616
    have h3 : (a + 9223372036854775808) % 18446744073709551616 =
        a + 9223372036854775808 -
          18446744073709551616 * ((a + 9223372036854775808) / 18446744073709551616) := by
      omega
    rw [h3]
    ring
  rw [h]
  have h4 : a * b + (-((a + 9223372036854775808) / 18446744073709551616) * b) *
      18446744073709551616 + 9223372036854775808 =
      a * b + 9223372036854775808 +
        (-((a + 9223372036854775808) / 18446744073709551616) * b) * 18446744073709551616 := by
    ring
  rw [h4, Int.add_mul_emod_self]

theorem lastPos_eq (off sz st : Int) :
    wrapInt64 (off + wrapInt64 (wrapInt64 (sz - 1) * st)) = wrapInt64 (off + (sz - 1) * st) := by
  rw [wrapInt64_add_wrap, ← wrapInt64_add_wrap off (wrapInt64 (sz - 1) * st),
    wrapInt64_wrap_mul, wrapInt64_add_wrap]

/-- One pass of the loop of `verifyInBoundsSlice` on a dimension whose last position is
an `int64_t` value: the dimension is in bounds and the loop goes on, or the loop returns
the failure with the message of this dimension. -/
theorem verifyDims_step (shape offsets sizes strides : List Int) (n i : Nat)
    (hi : i < shape.length) (ho : offsets.length = shape.length)
    (hs : sizes.length = shape.length) (ht : strides.length = shape.length)
    (hr : LastPosInRange shape offsets sizes strides i) :
    (dimInBoundsAt shape offsets sizes strides i = true ∧
      verifyDims shape offsets sizes strides (n + 1) i =
        verifyDims shape offsets sizes strides n (i + 1)) ∨
    (dimInBoundsAt shape offsets sizes strides i = false ∧
      verifyDims shape offsets sizes strides (n + 1) i =
        some { isValid := false, errorMessage := boundsMessage shape offsets sizes strides i }) := by
  have e1 : shape[i]? = some (shape.getD i 0) := by
    rw [List.getD_eq_getElem?_getD, List.getElem?_eq_getElem hi]; rfl
  have e2 : offsets[i]? = some (offsets.getD i 0) := by
    rw [List.getD_eq_getElem?_getD, List.getElem?_eq_getElem (by omega)]; rfl
  have e3 : sizes[i]? = some (sizes.getD i 0) := by
    rw [List.getD_eq_getElem?_getD, List.getElem?_eq_getElem (by omega)]; rfl
  have e4 : strides[i]? = some (strides.getD i 0) := by
    rw [List.getD_eq_getElem?_getD, List.getElem?_eq_getElem (by omega)]; rfl
  unfold LastPosInRange at hr
  unfold dimInBoundsAt dimInBounds boundsMessage
  rw [verifyDims, e1]
  simp only [e2, e3, e4]
  generalize shape.getD i 0 = d at hr ⊢
  generalize offsets.getD i 0 = off at hr ⊢
  generalize sizes.getD i 0 = sz at hr ⊢
  generalize strides.getD i 0 = st at hr ⊢
  cases hd : ShapedType.isDynamic d
  · cases hoff : ShapedType.isDynamic off
    · simp only [Bool.false_eq_true, if_false, Bool.or_false]
      by_cases hge : off ≥ d
      · right
        rw [if_pos hge, if_pos hge]
        refine ⟨?_, rfl⟩
        simp only [Bool.and_eq_false_imp, decide_eq_true_eq]
        intro h; omega
      · rw [if_neg hge, if_neg hge]
        have hlt : decide (off < d) = true := by simp only [decide_eq_true_eq]; omega
        rw [hlt, Bool.true_and]
        cases hsz : ShapedType.isDynamic sz
        · cases hst : ShapedType.isDynamic st
          · simp only [Bool.false_eq_true, if_false, Bool.or_false]
            obtain ⟨r1, r2⟩ := hr hd hoff hsz hst
            rw [lastPos_eq, wrapInt64_of_range _ r1 r2]
            by_cases hl : off + (sz - 1) * st ≥ d
            · right
              rw [if_pos hl]
              refine ⟨?_, rfl⟩
              simp only [decide_eq_false_iff_not]
              omega
            · left
              rw [if_neg hl]
              refine ⟨?_, rfl⟩
              simp only [decide_eq_true_eq]
              omega
          · left
            simp only [Bool.false_eq_true, if_false, if_true, Bool.or_true, and_self]
        · left
          simp only [if_true, Bool.true_or, and_self]
    · left
      simp only [Bool.false_eq_true, if_false, if_true, Bool.or_true, and_self]
  · left
    simp only [if_true, Bool.true_or, and_self]

/-- On lists of one length whose last positions are `int64_t` values, the loop of
`verifyInBoundsSlice` from dimension `i` on returns a result, valid exactly when every
dimension from `i` on is in bounds; a failure carries the message of the first dimension
from `i` on that is out of bounds. -/
theorem verifyDims_spec (shape offsets sizes strides : List Int)
    (ho : offsets.length = shape.length) (hs : sizes.length = shape.length)
    (ht : strides.length = shape.length)
    (hr : ∀ i, i < shape.length → LastPosInRange shape offsets sizes strides i) :
    ∀ n i, i + n = shape.length →
      ∃ r, verifyDims shape offsets sizes strides n i = some r ∧
        (r.isValid = true ↔
          ∀ j, i ≤ j → j < shape.length → dimInBoundsAt shape offsets sizes strides j = true) ∧
        (r.isValid = false →
          ∃ k, i ≤ k ∧ k < shape.length ∧
            (∀ j, i ≤ j → j < k → dimInBoundsAt shape offsets sizes strides j = true) ∧
            dimInBoundsAt shape offsets sizes strides k = false ∧
            r.errorMessage = boundsMessage shape offsets sizes strides k) := by
  intro n
  induction n with
  | zero =>
    intro i hi
    refine ⟨_, rfl, ?_, ?_⟩
    · constructor
      · intro _ j h1 h2; omega
      · intro _; rfl
    · intro h; exact absurd h (by decide)
  | succ n ih =>
    intro i hi
    rcases verifyDims_step shape offsets sizes strides n i (by omega) ho hs ht
      (hr i (by omega)) with ⟨hok, hstep⟩ | ⟨hbad, hstep⟩
    · obtain ⟨r, hr1, hr2, hr3⟩ := ih (i + 1) (by omega)
      refine ⟨r, by rw [hstep]; exact hr1, ?_, ?_⟩
      · constructor
        · intro hv j h1 h2
          by_cases hj : j = i
          · rw [hj]; exact hok
          · exact hr2.1 hv j (by omega) h2
        · intro h
          exact hr2.2 (fun j h1 h2 => h j (by omega) h2)
      · intro hv
        obtain ⟨k, k1, k2, k3, k4, k5⟩ := hr3 hv
        refine ⟨k, by omega, k2, ?_, k4, k5⟩
        intro j h1 h2
        by_cases hj : j = i
        · rw [hj]; exact hok
        · exact k3 j (by omega) h2
    · refine ⟨_, hstep, ?_, ?_⟩
      · constructor
        · intro h; exact absurd h (by simp)
        · intro h
          have := h i (Nat.le_refl i) (by omega)
          rw [hbad] at this
          exact absurd this (by decide)
      · intro _
        exact ⟨i, Nat.le_refl i, by omega, fun j h1 h2 => by omega, hbad, rfl⟩

/-- Within `int64_t`: on lists of one length whose last positions are `int64_t` values,
`verifyInBoundsSlice` returns a result that is valid if and only if every dimension is in
bounds; when it is not, the message is the one of the lowest dimension out of bounds,
with its offending value. -/
theorem verifyInBoundsSlice_in_range (shape offsets sizes strides : List Int) (g : Bool)
    (ho : offsets.length = shape.length) (hs : sizes.length = shape.length)
    (ht : strides.length = shape.length)
    (hr : ∀ i, i < shape.length → LastPosInRange shape offsets sizes strides i) :
    ∃ r, verifyInBoundsSlice shape offsets sizes strides g = some r ∧
      (r.isValid = true ↔ sliceInBounds shape offsets sizes strides = true) ∧
      (r.isValid = false →
        ∃ k, k < shape.length ∧
          (∀ j, j < k → dimInBoundsAt shape offsets sizes strides j = true) ∧
          dimInBoundsAt shape offsets sizes strides k = false ∧
          r.errorMessage = boundsMessage shape offsets sizes strides k) := by
  obtain ⟨r, h1, h2, h3⟩ := verifyDims_spec shape offsets sizes strides ho hs ht hr
    shape.length 0 (by omega)
  refine ⟨r, h1, ?_, ?_⟩
  · rw [h2]
    unfold sliceInBounds
    simp only [List.all_eq_true, List.mem_range]
    constructor
    · intro h j hj; exact h j (Nat.zero_le j) hj
    · intro h j _ hj; exact h j hj
  · intro hv
    obtain ⟨k, _, k2, k3, k4, k5⟩ := h3 hv
    exact ⟨k, k2, fun j hj => k3 j (Nat.zero_le j) hj, k4, k5⟩

/-- Claim C30, at the failing input: for the extent 10, the static offset 0, the static
size `2^62` and the static stride 4, the last position `0 + (2^62 - 1) * 4` is
`2^64 - 4`, far beyond the extent, so the slice is out of bounds; in `int64_t` the
product wraps to `-4`, the comparison `lastPos >= shape[i]` fails, and
`verifyInBoundsSlice` reports the slice valid with an empty message. -/
theorem verifyInBoundsSlice_overflow :
    sliceInBounds [10] [0] [4611686018427387904] [4] = false ∧
    (0 : Int) + (4611686018427387904 - 1) * 4 = 18446744073709551612 ∧
    wrapInt64 (0 + wrapInt64 (wrapInt64 (4611686018427387904 - 1) * 4)) = -4 ∧
    verifyInBoundsSlice [10] [0] [4611686018427387904] [4] true =
      some { isValid := true, errorMessage := "" } := by
  decide

/-! ## Theorems: deferred interprocedural references -/

/-- The containing-function lookup after the maximum size of `G` was set to its size. -/
theorem containing_after_setMaxSize (BC : BinaryContext) (G : Nat) (a : Nat) (u : Bool) :
    getBinaryFunctionContainingAddress
      { BC with
        BinaryFunctions :=
          updateFunction BC.BinaryFunctions G (fun T => T.setMaxSize T.Size) } a false u =
    ((BC.BinaryFunctions.takeWhile (fun F => decide (F.Address ≤ a))).getLast?).bind
      (fun FI =>
        if a ≥ wrap64 (FI.Address + (if u = true ∧ FI.Address ≠ G then FI.MaxSize else FI.Size) + 0)
        then none
        else some (if FI.Address = G then FI.setMaxSize FI.Size else FI)) := by
  unfold getBinaryFunctionContainingAddress updateFunction
  simp only
  have hA : ∀ F : BinaryFunction,
      (if F.Address = G then F.setMaxSize F.Size else F).Address = F.Address := by
    intro F; split <;> rfl
  rw [takeWhile_map_comp, getLast?_map_comp]
  simp only [hA]
  cases (BC.BinaryFunctions.takeWhile (fun F => decide (F.Address ≤ a))).getLast? with
  | none => rfl
  | some FI =>
    simp only [Option.map_some', Option.some_bind, hA, Bool.false_eq_true, if_false]
    by_cases hG : FI.Address = G
    · cases u <;> simp [hG, BinaryFunction.setMaxSize]
    · cases u <;> simp [hG]

/-- Claim C23 (amended). In `processInterproceduralReferences` with the strict mode off,
for a deferred address `a` in a text, non-PLT section that lies in no function's declared
range, is not a veneer, and for which the lookup by maximum size finds the function `G`
(`a` falls in the padding of `G`): the pass goes on; the declared size of every function,
`G` included, is unchanged and `a` still lies in no declared range; when `G` is simple
its maximum size is lowered to its declared size, after which `a` is outside the padded
range of every function; when `G` is not simple the context is unchanged. -/
theorem processInterproceduralReference_padding (HasBATSection : Bool)
    (veneer : VeneerHandler) (BC : BinaryContext) (F a : Nat) (Fn G : BinaryFunction)
    (Section : BinarySection)
    (hF : getFunction BC.BinaryFunctions F = some Fn)
    (ha : a ≠ 0) (hign : ¬ (Fn.IsIgnored = true ∧ HasBATSection = false))
    (hnone : getBinaryFunctionContainingAddress BC a false false = none)
    (hsec : getSectionForAddress BC a = some Section) (htext : Section.IsText = true)
    (hplt : Section.Name ≠ ".plt" ∧ Section.Name ≠ ".plt.got")
    (hven : isAArch64 BC = true → veneer BC a = none)
    (hG : getBinaryFunctionContainingAddress BC a false true = some G) :
    ∃ BC2, processInterproceduralReference HasBATSection false veneer BC (F, a) = some BC2 ∧
      (wrap64 (G.Address + G.Size) ≤ a ∧ G.Address ≤ a ∧ a < wrap64 (G.Address + G.MaxSize)) ∧
      BC2.BinaryFunctions.map (fun T => (T.Address, T.Size)) =
        BC.BinaryFunctions.map (fun T => (T.Address, T.Size)) ∧
      getBinaryFunctionContainingAddress BC2 a false false = none ∧
      (G.IsSimple = true →
        BC2 = { BC with
                BinaryFunctions :=
                  updateFunction BC.BinaryFunctions G.Address (fun T => T.setMaxSize T.Size) } ∧
        getBinaryFunctionContainingAddress BC2 a false true = none) ∧
      (G.IsSimple = false → BC2 = BC) := by
  have hv : (if isAArch64 BC then veneer BC a else none) = none := by
    split
    · rename_i h; exact hven h
    · rfl
  have hstep : processInterproceduralReference HasBATSection false veneer BC (F, a) =
      some (if G.IsSimple then
        { BC with
          BinaryFunctions :=
            updateFunction BC.BinaryFunctions G.Address (fun T => T.setMaxSize T.Size) }
        else BC) := by
    unfold processInterproceduralReference
    simp only [hF, hnone, hsec, hG, hv]
    rw [if_neg (by
      intro h
      rcases h with h | h
      · exact ha h
      · exact hign h)]
    rw [if_neg (by rw [htext]; decide), if_neg (by
      intro h
      rcases h with h | h
      · exact hplt.1 h
      · exact hplt.2 h)]
    simp only [Bool.false_eq_true, if_false]
    split <;> rfl
  -- the lookups before the call
  have hlast : ∃ FI, (BC.BinaryFunctions.takeWhile
      (fun F => decide (F.Address ≤ a))).getLast? = some FI := by
    cases h : (BC.BinaryFunctions.takeWhile (fun F => decide (F.Address ≤ a))).getLast? with
    | none =>
      unfold getBinaryFunctionContainingAddress at hG
      rw [h] at hG
      simp at hG
    | some FI => exact ⟨FI, rfl⟩
  obtain ⟨FI, hFI⟩ := hlast
  have hFIa : FI.Address ≤ a := by
    have hmem : FI ∈ BC.BinaryFunctions.takeWhile (fun F => decide (F.Address ≤ a)) := by
      obtain ⟨l1, hl1⟩ := List.getLast?_eq_some_iff.1 hFI
      rw [hl1]; simp
    simpa using List.mem_takeWhile_imp hmem
  have hGeq : a < wrap64 (FI.Address + FI.MaxSize) ∧ FI = G := by
    unfold getBinaryFunctionContainingAddress at hG
    rw [hFI] at hG
    simp only [if_true, Bool.false_eq_true, if_false, Nat.add_zero] at hG
    split at hG
    · simp at hG
    · rename_i hlt
      simp only [Option.some.injEq] at hG
      exact ⟨by omega, hG⟩
  have hsize : wrap64 (FI.Address + FI.Size) ≤ a := by
    unfold getBinaryFunctionContainingAddress at hnone
    rw [hFI] at hnone
    simp only [Bool.false_eq_true, if_false, Nat.add_zero] at hnone
    split at hnone
    · rename_i hge; exact hge
    · simp at hnone
  obtain ⟨hmax, hFG⟩ := hGeq
  subst hFG
  have hmapsize : (updateFunction BC.BinaryFunctions FI.Address
      (fun T => T.setMaxSize T.Size)).map (fun T => (T.Address, T.Size)) =
      BC.BinaryFunctions.map (fun T => (T.Address, T.Size)) := by
    unfold updateFunction
    rw [List.map_map]
    apply List.map_congr_left
    intro T _
    simp only [Function.comp]
    split <;> rfl
  have hafter : ∀ u, getBinaryFunctionContainingAddress
      { BC with
        BinaryFunctions :=
          updateFunction BC.BinaryFunctions FI.Address (fun T => T.setMaxSize T.Size) }
      a false u = none := by
    intro u
    rw [containing_after_setMaxSize, hFI]
    simp only [Option.some_bind, ne_eq, not_true_eq_false, and_false, if_false, Nat.add_zero]
    rw [if_pos hsize]
  refine ⟨_, hstep, ⟨hsize, hFIa, hmax⟩, ?_, ?_, ?_, ?_⟩
  · cases hs : FI.IsSimple
    · simp only [Bool.false_eq_true, if_false]
    · simp only [if_true]
      exact hmapsize
  · cases hs : FI.IsSimple
    · simp only [Bool.false_eq_true, if_false]
      exact hnone
    · simp only [if_true]
      exact hafter false
  · intro hs
    simp only [hs, if_true, true_and]
    exact hafter true
  · intro hs
    simp only [hs, Bool.false_eq_true, if_false]

set_option maxRecDepth 100000 in
/-- Counterexample to claim C23 as stated: in `paddedContext` the deferred address
`0x1060` lies in the text section `.text`, in no function's declared range, and in the
padding `[0x1050, 0x1080)` of the simple function `foo`. After
`processInterproceduralReferences` with the strict mode off the declared size of `foo`
is still `0x50`, not grown: its maximum size is `0x50` instead, and `0x1060` lies in
no function's declared or padded range. -/
theorem padding_counterexample :
    (getSectionForAddress paddedContext 0x1060).map (fun S => (S.Name, S.IsText)) =
      some (".text", true) ∧
    getBinaryFunctionContainingAddress paddedContext 0x1060 false false = none ∧
    (getBinaryFunctionContainingAddress paddedContext 0x1060 false true).map
      (fun G => (G.Address, G.Size, G.MaxSize, G.IsSimple)) = some (0x1000, 0x50, 0x80, true) ∧
    ((processInterproceduralReferences false false noVeneer paddedContext).bind
      (fun BC2 => getFunction BC2.BinaryFunctions 0x1000)).map
        (fun G => (G.Size, G.MaxSize)) = some (0x50, 0x50) ∧
    (processInterproceduralReferences false false noVeneer paddedContext).map
      (fun BC2 => (getBinaryFunctionContainingAddress BC2 0x1060 false false,
        getBinaryFunctionContainingAddress BC2 0x1060 false true)) = some (none, none) := by
  decide

set_option maxRecDepth 100000 in
/-- Witness of claim C23: the deferred reference of `paddedContext`, from `bar` to the
address `0x1060` in the padding of `foo`. -/
theorem processInterproceduralReference_padding_witness :
    ∃ BC2, processInterproceduralReference false false noVeneer paddedContext
        (0x1080, 0x1060) = some BC2 ∧
      (wrap64 ((0x1000 : Nat) + 0x50) ≤ 0x1060 ∧ (0x1000 : Nat) ≤ 0x1060 ∧
        0x1060 < wrap64 ((0x1000 : Nat) + 0x80)) ∧
      BC2.BinaryFunctions.map (fun T => (T.Address, T.Size)) =
        paddedContext.BinaryFunctions.map (fun T => (T.Address, T.Size)) ∧
      getBinaryFunctionContainingAddress BC2 0x1060 false false = none ∧
      (true = true →
        BC2 = { paddedContext with
                BinaryFunctions := updateFunction paddedContext.BinaryFunctions 0x1000
                  (fun T => T.setMaxSize T.Size) } ∧
        getBinaryFunctionContainingAddress BC2 0x1060 false true = none) ∧
      (true = false → BC2 = paddedContext) :=
  processInterproceduralReference_padding false noVeneer paddedContext 0x1080 0x1060
    (BinaryFunction.create "bar" 0x1080 0x20)
    ((BinaryFunction.create "foo" 0x1000 0x50).setMaxSize 0x80) textSection
    (by decide) (by decide) (by decide) (by decide) (by decide) (by decide) (by decide)
    (fun _ => rfl) (by decide)

/-! ## Theorems: insertion and validateObjectNesting -/

/-- A valid index of one section, in key order, with ranges inside the address space
that are pairwise disjoint or nested, and whose parent links name objects that contain
the child, is a flat index. -/
theorem flat_of_valid (S : BinarySection) (m : List BinaryData)
    (hsorted : SortedMap m) (hsecs : ∀ X ∈ m, X.Section = S) (hnw : NoWrap m)
    (hlam : ∀ X ∈ m, ∀ Y ∈ m, LaminarPair X Y)
    (hlinks : ∀ B ∈ m, ∀ p, B.Parent = some p → ∃ A ∈ m, A.Address = p ∧ Encloses A B)
    (hvalid : validateObjectNesting m = true) : FlatIndex S m := by
  have hstrong := strong_of_laminar hnw (fun X hX Y hY _ => hlam X hX Y hY)
    (fun X hX Y hY _ _ => by rw [hsecs X hX, hsecs Y hY])
  have hpar := validate_parent m.length m (Nat.le_refl _) hsorted hnw hstrong hvalid
  refine ⟨hsorted, hsecs, hnw, hlam, ?_⟩
  intro B hB
  constructor
  · intro p hp
    obtain ⟨A, hA, hAp, hAB⟩ := hlinks B hB p hp
    refine ⟨A, hA, hAp, ?_, hAB⟩
    cases hq : A.Parent with
    | none => rfl
    | some q =>
      exfalso
      obtain ⟨Q, hQ, -, hQA⟩ := hlinks A hA q hq
      have hQB := encloses_trans hQA hAB
      obtain ⟨T, hT, hTp, hT1, -⟩ := hpar Q hQ B hB hQB.1 hQB.2.1
      rw [hp] at hTp
      simp only [Option.some.injEq] at hTp
      unfold Encloses at hQA
      omega
  · intro hp A hA hAB
    obtain ⟨T, -, hTp, -⟩ := hpar A hA B hB hAB.1 hAB.2.1
    rw [hp] at hTp
    exact absurd hTp (by simp)

/-! ## Theorems: skipMarkedFragments -/

theorem addToWorklist_spec (s : SkipState) (g : Nat)
    (hq : s.FragmentsToSkip = s.FragmentQueue) :
    (addToWorklist s g).FragmentsToSkip = (addToWorklist s g).FragmentQueue ∧
    (∃ ext, (addToWorklist s g).FragmentQueue = s.FragmentQueue ++ ext ∧ ∀ x ∈ ext, x = g) ∧
    g ∈ (addToWorklist s g).FragmentQueue ∧
    (s.FragmentQueue.Nodup → (addToWorklist s g).FragmentQueue.Nodup) := by
  unfold addToWorklist
  by_cases hc : s.FragmentsToSkip.contains g = true
  · rw [if_pos hc]
    have hmem : g ∈ s.FragmentQueue := by
      rw [← hq]
      simpa using hc
    exact ⟨hq, ⟨[], by simp, by simp⟩, hmem, id⟩
  · rw [if_neg hc]
    have hnot : g ∉ s.FragmentQueue := by
      rw [← hq]
      simpa using hc
    refine ⟨?_, ⟨[g], rfl, by simp⟩, by simp, ?_⟩
    · show insertHandle s.FragmentsToSkip g = s.FragmentQueue ++ [g]
      unfold insertHandle
      rw [if_neg hc, hq]
    · intro hn
      show (s.FragmentQueue ++ [g]).Nodup
      rw [List.nodup_append]
      refine ⟨hn, List.nodup_singleton g, ?_⟩
      intro x hx hy
      simp only [List.mem_singleton] at hy
      rw [hy] at hx
      exact hnot hx

theorem foldl_addToWorklist (L : List Nat) :
    ∀ s : SkipState, s.FragmentsToSkip = s.FragmentQueue →
      (L.foldl addToWorklist s).FragmentsToSkip = (L.foldl addToWorklist s).FragmentQueue ∧
      (∃ ext, (L.foldl addToWorklist s).FragmentQueue = s.FragmentQueue ++ ext ∧
        ∀ x ∈ ext, x ∈ L) ∧
      (∀ g ∈ L, g ∈ (L.foldl addToWorklist s).FragmentQueue) ∧
      (s.FragmentQueue.Nodup → (L.foldl addToWorklist s).FragmentQueue.Nodup) := by
  induction L with
  | nil => intro s hq; exact ⟨hq, ⟨[], by simp, by simp⟩, by simp, id⟩
  | cons g rest ih =>
    intro s hq
    obtain ⟨a1, ⟨e1, a2, a3⟩, a4, a5⟩ := addToWorklist_spec s g hq
    obtain ⟨b1, ⟨e2, b2, b3⟩, b4, b5⟩ := ih (addToWorklist s g) a1
    simp only [List.foldl_cons]
    refine ⟨b1, ⟨e1 ++ e2, ?_, ?_⟩, ?_, fun hn => b5 (a5 hn)⟩
    · rw [b2, a2, List.append_assoc]
    · intro x hx
      rcases List.mem_append.1 hx with h | h
      · rw [a3 x h]; simp
      · exact List.mem_cons_of_mem _ (b3 x h)
    · intro x hx
      rcases List.mem_cons.1 hx with h | h
      · rw [h, b2]
        exact List.mem_append_left _ a4
      · exact b4 x h

theorem markedUpTo_step (fs0 : List BinaryFunction) (done : List Nat) (h : Nat) :
    updateFunction (markedUpTo fs0 done) h
        (fun G => (G.setSimple false).setHasIndirectTargetToSplitFragment true) =
      markedUpTo fs0 (done ++ [h]) := by
  unfold updateFunction markedUpTo
  rw [List.map_map]
  apply List.map_congr_left
  intro F _
  simp only [Function.comp]
  have hA : (if done.contains F.Address then skipMark F else F).Address = F.Address := by
    split <;> rfl
  rw [hA]
  have hc : (done ++ [h]).contains F.Address =
      (done.contains F.Address || decide (F.Address = h)) := by
    simp [List.contains_eq_any_beq, List.any_append]
  rw [hc]
  by_cases h1 : done.contains F.Address = true
  · simp only [h1, if_true, Bool.true_or]
    split <;> rfl
  · simp only [h1, Bool.false_eq_true, if_false, Bool.false_or, decide_eq_true_eq]
    split <;> rfl

theorem getFunction_markedUpTo (fs0 : List BinaryFunction) (done : List Nat) (h : Nat) :
    getFunction (markedUpTo fs0 done) h =
      (getFunction fs0 h).map (fun F => if done.contains F.Address then skipMark F else F) := by
  unfold markedUpTo
  apply getFunction_map
  intro F
  split <;> rfl

theorem getFunction_mem {fs : List BinaryFunction} {h : Nat} {F : BinaryFunction}
    (hF : getFunction fs h = some F) : F ∈ fs := by
  unfold getFunction at hF
  exact List.mem_of_find?_eq_some hF

theorem queue_length_le (fs0 : List BinaryFunction) (q : List Nat) (hn : q.Nodup)
    (hreg : ∀ h ∈ q, ∃ F, getFunction fs0 h = some F) : q.length ≤ fs0.length := by
  have hsub : q ⊆ fs0.map (fun F => F.Address) := by
    intro h hh
    obtain ⟨F, hF⟩ := hreg h hh
    exact List.mem_map.2 ⟨F, getFunction_mem hF, getFunction_address _ _ _ hF⟩
  have := (List.subperm_of_subset hn hsub).length_le
  simpa using this

/-- The loop of `skipMarkedFragments` ends within the number of registered functions and
keeps its invariant. -/
theorem skipLoop_spec (fs0 : List BinaryFunction) (init : List Nat)
    (hreg : ∀ h, FragmentReachable fs0 init h → ∃ F, getFunction fs0 h = some F) :
    ∀ (fuel I : Nat) (s : SkipState) (fs : List BinaryFunction),
      SkipInv fs0 init I s fs → fs0.length + 1 ≤ fuel + I →
      ∃ s2 fs2, skipLoop fuel I s fs = some (s2, fs2) ∧
        SkipInv fs0 init s2.FragmentQueue.length s2 fs2 := by
  intro fuel
  induction fuel with
  | zero =>
    intro I s fs inv hf
    have := queue_length_le fs0 s.FragmentQueue inv.nodup (fun h hh => hreg h (inv.reach h hh))
    have := inv.le
    omega
  | succ n ih =>
    intro I s fs inv hf
    unfold skipLoop
    by_cases hI : I = s.FragmentQueue.length
    · rw [if_pos hI]
      exact ⟨s, fs, rfl, by rw [← hI]; exact inv⟩
    · rw [if_neg hI]
      have hlt : I < s.FragmentQueue.length := Nat.lt_of_le_of_ne inv.le hI
      have hqI : s.FragmentQueue[I]? = some (s.FragmentQueue[I]) := List.getElem?_eq_getElem hlt
      generalize hh : s.FragmentQueue[I] = h at hqI
      have hmem : h ∈ s.FragmentQueue := by rw [← hh]; exact List.getElem_mem _
      have hcont : s.FragmentsToSkip.contains h = true := by
        rw [inv.eq]
        simpa using hmem
      obtain ⟨F0, hF0⟩ := hreg h (inv.reach h hmem)
      have hget : getFunction fs h =
          some (if (s.FragmentQueue.take I).contains F0.Address then skipMark F0 else F0) := by
        rw [inv.marked, getFunction_markedUpTo, hF0]
        rfl
      have hfr : (if (s.FragmentQueue.take I).contains F0.Address then skipMark F0
          else F0).Fragments = F0.Fragments := by
        split <;> rfl
      have hpa : (if (s.FragmentQueue.take I).contains F0.Address then skipMark F0
          else F0).ParentFragments = F0.ParentFragments := by
        split <;> rfl
      simp only [hqI, hcont, hget, hfr, hpa, Bool.true_eq_false, if_false]
      obtain ⟨a1, ⟨e1, a2, a3⟩, a4, a5⟩ := foldl_addToWorklist F0.Fragments s inv.eq
      obtain ⟨b1, ⟨e2, b2, b3⟩, b4, b5⟩ :=
        foldl_addToWorklist F0.ParentFragments (F0.Fragments.foldl addToWorklist s) a1
      have hq2 : (F0.ParentFragments.foldl addToWorklist
          (F0.Fragments.foldl addToWorklist s)).FragmentQueue =
          s.FragmentQueue ++ (e1 ++ e2) := by
        rw [b2, a2, List.append_assoc]
      have htake : ((F0.ParentFragments.foldl addToWorklist
          (F0.Fragments.foldl addToWorklist s)).FragmentQueue).take (I + 1) =
          s.FragmentQueue.take I ++ [h] := by
        rw [hq2, List.take_append_of_le_length (by omega), List.take_succ, hqI]
        rfl
      apply ih (I + 1)
      · refine ⟨b1, b5 (a5 inv.nodup), ?_, ?_, ?_, ?_, ?_⟩
        · rw [hq2, List.length_append]; omega
        · intro x hx
          rw [hq2]
          exact List.mem_append_left _ (inv.init_sub x hx)
        · intro x hx
          rw [hq2] at hx
          rcases List.mem_append.1 hx with h1 | h1
          · exact inv.reach x h1
          · rcases List.mem_append.1 h1 with h2 | h2
            · exact FragmentReachable.fragment h x F0 (inv.reach h hmem) hF0 (a3 x h2)
            · exact FragmentReachable.parent h x F0 (inv.reach h hmem) hF0 (b3 x h2)
        · intro x hx F hF g hg
          rw [htake] at hx
          rcases List.mem_append.1 hx with h1 | h1
          · rw [hq2]
            exact List.mem_append_left _ (inv.closed x h1 F hF g hg)
          · simp only [List.mem_singleton] at h1
            rw [h1, hF0] at hF
            simp only [Option.some.injEq] at hF
            subst hF
            rcases hg with hg | hg
            · rw [b2]
              exact List.mem_append_left _ (a4 g hg)
            · exact b4 g hg
        · rw [htake, inv.marked]
          exact markedUpTo_step fs0 _ h
      · omega

/-- Claim C25. For a set of marked functions and a fragment graph whose handles name
registered functions, `skipMarkedFragments` terminates within one iteration per
registered function and one more; afterwards the skip set is exactly the set of functions
reachable from the marked functions through `Fragments` and `ParentFragments` links, it
contains every marked function and is closed under both links, every function in it is
marked non-simple and as having an indirect target to a split fragment, and the links
of all functions are unchanged. -/
theorem skipMarkedFragments_closure (BC : BinaryContext) (init : List Nat)
    (hnodup : init.Nodup)
    (hinit : ∀ h ∈ init, (getFunction BC.BinaryFunctions h).isSome = true)
    (hlinks : ∀ F ∈ BC.BinaryFunctions, ∀ g ∈ F.Fragments ++ F.ParentFragments,
      (getFunction BC.BinaryFunctions g).isSome = true) :
    ∀ fuel, BC.BinaryFunctions.length + 1 ≤ fuel →
      ∃ BC2 skip, skipMarkedFragments fuel BC init = some (BC2, skip) ∧
        (∀ h, h ∈ skip ↔ FragmentReachable BC.BinaryFunctions init h) ∧
        (∀ h ∈ init, h ∈ skip) ∧
        (∀ h ∈ skip, ∀ F, getFunction BC.BinaryFunctions h = some F →
          ∀ g, (g ∈ F.Fragments ∨ g ∈ F.ParentFragments) → g ∈ skip) ∧
        (∀ h ∈ skip, ∃ F, getFunction BC2.BinaryFunctions h = some F ∧
          F.IsSimple = false ∧ F.HasIndirectTargetToSplitFragment = true) ∧
        BC2.BinaryFunctions.map (fun F => (F.Address, F.Fragments, F.ParentFragments)) =
          BC.BinaryFunctions.map (fun F => (F.Address, F.Fragments, F.ParentFragments)) := by
  intro fuel hfuel
  have hreg : ∀ h, FragmentReachable BC.BinaryFunctions init h →
      ∃ F, getFunction BC.BinaryFunctions h = some F := by
    intro h hr
    induction hr with
    | marked h hh => exact Option.isSome_iff_exists.1 (hinit h hh)
    | fragment h g F _ hF hg _ =>
      exact Option.isSome_iff_exists.1
        (hlinks F (getFunction_mem hF) g (List.mem_append_left _ hg))
    | parent h g F _ hF hg _ =>
      exact Option.isSome_iff_exists.1
        (hlinks F (getFunction_mem hF) g (List.mem_append_right _ hg))
  have inv0 : SkipInv BC.BinaryFunctions init 0
      { FragmentQueue := init, FragmentsToSkip := init } BC.BinaryFunctions :=
    { eq := rfl
      nodup := hnodup
      le := Nat.zero_le _
      init_sub := fun h hh => hh
      reach := fun h hh => FragmentReachable.marked h hh
      closed := by
        intro h hh
        simp at hh
      marked := by
        unfold markedUpTo
        simp }
  obtain ⟨s2, fs2, hrun, inv⟩ := skipLoop_spec BC.BinaryFunctions init hreg fuel 0 _ _ inv0
    (by omega)
  have htake : s2.FragmentQueue.take s2.FragmentQueue.length = s2.FragmentQueue :=
    List.take_length _
  refine ⟨{ BC with BinaryFunctions := fs2 }, s2.FragmentsToSkip, ?_, ?_, ?_, ?_, ?_, ?_⟩
  · unfold skipMarkedFragments
    rw [hrun]
    rfl
  · intro h
    rw [inv.eq]
    constructor
    · exact inv.reach h
    · intro hr
      induction hr with
      | marked h hh => exact inv.init_sub h hh
      | fragment h g F _ hF hg ih =>
        exact inv.closed h (by rw [htake]; exact ih) F hF g (Or.inl hg)
      | parent h g F _ hF hg ih =>
        exact inv.closed h (by rw [htake]; exact ih) F hF g (Or.inr hg)
  · intro h hh
    rw [inv.eq]
    exact inv.init_sub h hh
  · intro h hh F hF g hg
    rw [inv.eq] at hh ⊢
    exact inv.closed h (by rw [htake]; exact hh) F hF g hg
  · intro h hh
    rw [inv.eq] at hh
    obtain ⟨F0, hF0⟩ := hreg h (inv.reach h hh)
    have hA := getFunction_address _ _ _ hF0
    refine ⟨skipMark F0, ?_, rfl, rfl⟩
    show getFunction fs2 h = some (skipMark F0)
    rw [inv.marked, htake, getFunction_markedUpTo, hF0]
    have hc : s2.FragmentQueue.contains F0.Address = true := by
      rw [hA]
      simpa using hh
    simp only [Option.map_some', hc, if_true]
  · show fs2.map (fun F => (F.Address, F.Fragments, F.ParentFragments)) = _
    rw [inv.marked]
    unfold markedUpTo
    rw [List.map_map]
    apply List.map_congr_left
    intro F _
    simp only [Function.comp]
    split <;> rfl

set_option maxRecDepth 100000 in
/-- Witness of claim C25: in `splitTableContext`, where `0x1040` is a fragment of the
function at `0x1000`, the pass is run with the function at `0x1040` marked. -/
theorem skipMarkedFragments_closure_witness :
    ∃ BC2 skip, skipMarkedFragments 3 splitTableContext [0x1040] = some (BC2, skip) ∧
      (∀ h, h ∈ skip ↔ FragmentReachable splitTableContext.BinaryFunctions [0x1040] h) ∧
      (∀ h ∈ [0x1040], h ∈ skip) ∧
      (∀ h ∈ skip, ∀ F, getFunction splitTableContext.BinaryFunctions h = some F →
        ∀ g, (g ∈ F.Fragments ∨ g ∈ F.ParentFragments) → g ∈ skip) ∧
      (∀ h ∈ skip, ∃ F, getFunction BC2.BinaryFunctions h = some F ∧
        F.IsSimple = false ∧ F.HasIndirectTargetToSplitFragment = true) ∧
      BC2.BinaryFunctions.map (fun F => (F.Address, F.Fragments, F.ParentFragments)) =
        splitTableContext.BinaryFunctions.map
          (fun F => (F.Address, F.Fragments, F.ParentFragments)) :=
  skipMarkedFragments_closure splitTableContext [0x1040] (by decide) (by decide) (by decide)
    3 (by decide)

/-! ## Theorems: zero-size objects after hole synthesis -/

theorem getSectionForAddress_lt {BC : BinaryContext} {a : Nat} {S : BinarySection}
    (h : getSectionForAddress BC a = some S) (hS : S.Size ≠ 0) :
    a < wrap64 (S.Address + S.Size) := by
  unfold getSectionForAddress at h
  split at h
  · simp at h
  · rename_i SI hlast
    simp only at h
    by_cases hz : SI.Size = 0
    · simp only [hz, if_true] at h
      split at h
      · simp only [Option.some.injEq] at h
        rw [h] at hz
        exact absurd hz hS
      · simp at h
    · simp only [hz, if_false] at h
      split at h
      · rename_i hgt
        simp only [Option.some.injEq] at h
        rw [h] at hgt
        exact hgt
      · simp at h

/-- Claim C24 (amended). When no allocatable section is overlapped and the index is
laminar, validly nested and has its objects inside their sections, then after
`fixBinaryDataHoles` no object of a non-empty allocatable section is both parentless and
zero-size; when moreover every object is of an allocatable section and the allocatable
sections are non-empty, the zero-size check of `postProcessSymbolTable` reports
nothing. -/
theorem fixBinaryDataHoles_no_zero_size (BC : BinaryContext) (h : IndexOK BC) :
    (∀ X ∈ (fixBinaryDataHoles BC).BinaryDataMap, X.Section ∈ allocatableSections BC →
      X.Section.Size ≠ 0 → ¬ (X.Parent = none ∧ X.Size = 0)) ∧
    ((∀ X ∈ BC.BinaryDataMap, X.Section ∈ allocatableSections BC) →
      (∀ S ∈ allocatableSections BC, S.Size ≠ 0) →
      ∀ (isAbsolute : BinaryData → Bool) (sectionValid : BinarySection → Bool),
        (postProcessSymbolTable isAbsolute sectionValid BC).2 = true) := by
  obtain ⟨t1, t2, t3, -, t5⟩ := sections_fold (allocatableSections BC) BC h.mapOK
    (fun _ hS => h.secOK hS)
  have key : ∀ X ∈ (fixBinaryDataHoles BC).BinaryDataMap, X.Section ∈ allocatableSections BC →
      X.Section.Size ≠ 0 → ¬ (X.Parent = none ∧ X.Size = 0) := by
    intro X hX hS hsz hbad
    obtain ⟨hp, hz⟩ := hbad
    have hsec := h.secOK hS
    have hin := (t1.inside X hX).1
    have hsome : getSectionForAddress ((allocatableSections BC).foldl fixSectionHoles BC)
        X.Address = some X.Section := by
      cases hl : getSectionForAddress ((allocatableSections BC).foldl fixSectionHoles BC)
          X.Address with
      | none =>
        rw [hl] at hin
        simp only [Option.getD_none] at hin
        have := hsec.alloc
        rw [hin] at this
        exact absurd this (by decide)
      | some S' =>
        rw [hl] at hin
        simp only [Option.getD_some] at hin
        rw [hin]
    have hlo := getSectionForAddress_some hsome
    have hhi := getSectionForAddress_lt hsome hsz
    unfold wrap64 at hhi
    rw [Nat.mod_eq_of_lt hsec.bound] at hhi
    obtain ⟨Y, hY, hYS, hYp, hY1, hY2⟩ := ((t3 X.Section hS).2 X.Address).1 ⟨hlo, hhi⟩
    by_cases hadr : Y.Address = X.Address
    · have := sorted_addr_inj t1.sorted hY hX hadr
      subst this
      omega
    · have := (t3 X.Section hS).1 X hX Y hY rfl hYS hp hYp (fun e => hadr e.symm)
      omega
  refine ⟨key, ?_⟩
  intro hall hne isAbsolute sectionValid
  unfold postProcessSymbolTable
  simp only [List.all_eq_true, Bool.not_eq_true']
  intro X hX
  have hXS : X.Section ∈ allocatableSections BC := by
    by_contra hno
    have hold := (t5 X (fun S hS e => hno (e ▸ hS))).1 hX
    exact hno (hall X hold)
  have hk := key X hX hXS (hne _ hXS)
  unfold isZeroSizedTopLevel
  cases hp : X.Parent with
  | some p => simp
  | none =>
    have hz : X.Size ≠ 0 := fun hz => hk ⟨hp, hz⟩
    simp [hz]

set_option maxRecDepth 100000 in
/-- Counterexample to claim C24 as stated: in `staggeredContext` the index is laminar,
validly nested, passes `validateObjectNesting`, and its two objects lie inside the
non-empty allocatable section `.b` of their addresses. Hole synthesis fills `.a` first:
the new object `[0x1000, 0x1020)` takes `o` as a child; the scan of `.b` then visits no
object, its one hole starts at `o`, whose size is set already, and nothing is registered.
The anonymous object at `0x1020` stays parentless with size zero, and the zero-size
check of `postProcessSymbolTable` reports it. -/
theorem no_zero_size_counterexample :
    Laminar staggeredContext.BinaryDataMap ∧
    ValidNesting staggeredContext.BinaryDataMap ∧
    InsideSections staggeredContext staggeredContext.BinaryDataMap ∧
    validateObjectNesting staggeredContext.BinaryDataMap = true ∧
    (∀ X ∈ staggeredContext.BinaryDataMap,
      X.Section ∈ allocatableSections staggeredContext ∧ X.Section.Size ≠ 0) ∧
    (fixBinaryDataHoles staggeredContext).BinaryDataMap.map
        (fun X => (X.getName, X.Address, X.Size, X.Section.Name, X.Parent)) =
      [("HOLEat0x1000", 0x1000, 0x20, ".a", none), ("o", 0x1010, 0x8, ".b", some 0x1000),
       ("DATAat0x1020", 0x1020, 0, ".b", none)] ∧
    (postProcessSymbolTable (fun _ => false) (fun _ => true) staggeredContext).2 = false := by
  refine ⟨by unfold Laminar LaminarPair; decide, by unfold ValidNesting; decide,
    by unfold InsideSections; decide, by decide, by decide, by decide, by decide⟩

/-- Witness of claim C24 (amended): the index `nestedContext`, with its anonymous object
of size zero at `0x200C`, is well formed, and no object of a non-empty allocatable
section is parentless with size zero after hole synthesis. -/
theorem fixBinaryDataHoles_no_zero_size_witness :
    (∀ X ∈ (fixBinaryDataHoles nestedContext).BinaryDataMap,
      X.Section ∈ allocatableSections nestedContext →
      X.Section.Size ≠ 0 → ¬ (X.Parent = none ∧ X.Size = 0)) ∧
    ((∀ X ∈ nestedContext.BinaryDataMap, X.Section ∈ allocatableSections nestedContext) →
      (∀ S ∈ allocatableSections nestedContext, S.Size ≠ 0) →
      ∀ (isAbsolute : BinaryData → Bool) (sectionValid : BinarySection → Bool),
        (postProcessSymbolTable isAbsolute sectionValid nestedContext).2 = true) :=
  fixBinaryDataHoles_no_zero_size nestedContext nestedContext_ok

/-! ## Theorems: function and section lookup, ranges and the end of the address space -/

/-- Claim C12 (amended). On a function map in key order, for a function `F` whose range
`F.start + U + c` does not reach the end of the 64-bit address space,
`getBinaryFunctionContainingAddress(a, checkPastEnd, useMaxSize)` returns `F` if and only
if `F` is the registered function with the greatest start address at or below `a` and
`a < F.start + U + c`, where `U` is the maximum size of `F` when `useMaxSize` is set and
its size otherwise, and `c` is 1 under `checkPastEnd` and 0 otherwise. -/
theorem getBinaryFunctionContainingAddress_iff (BC : BinaryContext)
    (hs : SortedFunctions BC.BinaryFunctions) (a : Nat) (CheckPastEnd UseMaxSize : Bool)
    (F : BinaryFunction)
    (hnw : F.Address + (if UseMaxSize then F.MaxSize else F.Size) +
      (if CheckPastEnd then 1 else 0) < 2 ^ 64) :
    getBinaryFunctionContainingAddress BC a CheckPastEnd UseMaxSize = some F ↔
      (F ∈ BC.BinaryFunctions ∧ F.Address ≤ a ∧
        (∀ G ∈ BC.BinaryFunctions, G.Address ≤ a → G.Address ≤ F.Address) ∧
        a < F.Address + (if UseMaxSize then F.MaxSize else F.Size) +
          (if CheckPastEnd then 1 else 0)) := by
  have hw : wrap64 (F.Address + (if UseMaxSize then F.MaxSize else F.Size) +
      (if CheckPastEnd then 1 else 0)) = F.Address +
      (if UseMaxSize then F.MaxSize else F.Size) + (if CheckPastEnd then 1 else 0) :=
    Nat.mod_eq_of_lt hnw
  rw [getBinaryFunctionContainingAddress_wrap_iff BC hs a CheckPastEnd UseMaxSize F, hw]

/-- Witness of claim C12 (amended): in the scenario context `0x1050`, the end of `foo`, is
attributed to `foo` under `checkPastEnd` only. -/
theorem getBinaryFunctionContainingAddress_iff_witness :
    SortedFunctions scenarioContext.BinaryFunctions ∧
    (BinaryFunction.create "foo" 0x1000 0x50).Address +
      (if false = true then (BinaryFunction.create "foo" 0x1000 0x50).MaxSize
        else (BinaryFunction.create "foo" 0x1000 0x50).Size) +
      (if true = true then 1 else 0) < 2 ^ 64 ∧
    (getBinaryFunctionContainingAddress scenarioContext 0x1050 true false =
        some (BinaryFunction.create "foo" 0x1000 0x50) ↔
      (BinaryFunction.create "foo" 0x1000 0x50 ∈ scenarioContext.BinaryFunctions ∧
        (BinaryFunction.create "foo" 0x1000 0x50).Address ≤ 0x1050 ∧
        (∀ G ∈ scenarioContext.BinaryFunctions, G.Address ≤ 0x1050 →
          G.Address ≤ (BinaryFunction.create "foo" 0x1000 0x50).Address) ∧
        0x1050 < (BinaryFunction.create "foo" 0x1000 0x50).Address +
          (if false = true then (BinaryFunction.create "foo" 0x1000 0x50).MaxSize
            else (BinaryFunction.create "foo" 0x1000 0x50).Size) +
          (if true = true then 1 else 0))) ∧
    getBinaryFunctionContainingAddress scenarioContext 0x1050 true false =
      some (BinaryFunction.create "foo" 0x1000 0x50) ∧
    getBinaryFunctionContainingAddress scenarioContext 0x1050 false false = none :=
  ⟨by unfold SortedFunctions; decide, by decide,
    getBinaryFunctionContainingAddress_iff scenarioContext (by unfold SortedFunctions; decide)
      0x1050 true false (BinaryFunction.create "foo" 0x1000 0x50) (by decide),
    by decide, by decide⟩

/-- Counterexample to claim C12 as worded: the function `h` registered with
`createBinaryFunction` at `0xFFFFFFFFFFFFFFF0` with size `0x10` ends at `2^64`. It is the
registered function with the greatest start at or below `0xFFFFFFFFFFFFFFF8`, and
`0xFFFFFFFFFFFFFFF8 < h.start + h.size`, but the sum wraps to `0` in 64-bit arithmetic and
the lookup returns nothing. -/
theorem containing_function_counterexample :
    SortedFunctions topFunctionContext.BinaryFunctions ∧
    topFunctionContext.BinaryFunctions = [BinaryFunction.create "h" 0xFFFFFFFFFFFFFFF0 0x10] ∧
    (BinaryFunction.create "h" 0xFFFFFFFFFFFFFFF0 0x10 ∈ topFunctionContext.BinaryFunctions ∧
      (BinaryFunction.create "h" 0xFFFFFFFFFFFFFFF0 0x10).Address ≤ 0xFFFFFFFFFFFFFFF8 ∧
      (∀ G ∈ topFunctionContext.BinaryFunctions, G.Address ≤ 0xFFFFFFFFFFFFFFF8 →
        G.Address ≤ (BinaryFunction.create "h" 0xFFFFFFFFFFFFFFF0 0x10).Address) ∧
      0xFFFFFFFFFFFFFFF8 < (BinaryFunction.create "h" 0xFFFFFFFFFFFFFFF0 0x10).Address +
        (BinaryFunction.create "h" 0xFFFFFFFFFFFFFFF0 0x10).Size + 0) ∧
    getBinaryFunctionContainingAddress topFunctionContext 0xFFFFFFFFFFFFFFF8 false false =
      none := by
  refine ⟨by unfold SortedFunctions; decide, by decide, by decide, by decide⟩

/-- Claim C17 (amended). In a context whose sections were registered with
`registerSection`, for a section `S` whose range does not reach the end of the 64-bit
address space, `getSectionForAddress(a)` returns `S` if and only if `S` is the entry of
the address map with the greatest start address at or below `a` (the last of them in the
map) and `a < S.start + S.size`, or `S.size = 0` and `a = S.start`; a section that is
returned is a registered, allocatable section with a non-zero address. -/
theorem getSectionForAddress_iff (BC0 : BinaryContext) (h0 : BC0.AddressToSection = [])
    (ss : List BinarySection) (a : Nat) (S : BinarySection)
    (hnw : S.Address + S.Size < 2 ^ 64) (hnw0 : S.Size = 0 → S.Address + 1 < 2 ^ 64) :
    (getSectionForAddress (ss.foldl registerSection BC0) a = some S ↔
      ∃ l1 l2, (ss.foldl registerSection BC0).AddressToSection = l1 ++ S :: l2 ∧
        (∀ T ∈ l1, T.Address ≤ S.Address) ∧ S.Address ≤ a ∧ (∀ T ∈ l2, a < T.Address) ∧
        (a < S.Address + S.Size ∨ (S.Size = 0 ∧ a = S.Address))) ∧
    (getSectionForAddress (ss.foldl registerSection BC0) a = some S →
      S ∈ ss ∧ S.IsAllocatable = true ∧ S.Address ≠ 0) := by
  have hok := registerSections_addressMap ss ss BC0 (fun _ h => h)
    (by rw [h0]; exact ⟨List.Pairwise.nil, fun T hT => by simp at hT⟩)
  have hiff := getSectionForAddress_sorted (ss.foldl registerSection BC0) hok.1 a S
  have hw1 : wrap64 (S.Address + S.Size) = S.Address + S.Size := Nat.mod_eq_of_lt hnw
  constructor
  · rw [hiff, hw1]
    constructor
    · rintro ⟨l1, l2, hsplit, hSa, hl2, hb⟩
      refine ⟨l1, l2, hsplit, ?_, hSa, hl2, ?_⟩
      · intro T hT
        have hs := hok.1
        rw [hsplit] at hs
        exact (List.pairwise_append.1 hs).2.2 T hT S (by simp)
      · rcases hb with hb | hb
        · exact Or.inl hb
        · exact Or.inr ⟨hb.1, hb.2.1⟩
    · rintro ⟨l1, l2, hsplit, _, hSa, hl2, hb⟩
      refine ⟨l1, l2, hsplit, hSa, hl2, ?_⟩
      rcases hb with hb | hb
      · exact Or.inl hb
      · refine Or.inr ⟨hb.1, hb.2, ?_⟩
        have h1 := hnw0 hb.1
        have h2 : wrap64 (S.Address + 1) = S.Address + 1 := Nat.mod_eq_of_lt h1
        rw [hb.2, h2]
        omega
  · intro h
    obtain ⟨l1, l2, hsplit, _⟩ := hiff.1 h
    have := hok.2 S (by rw [hsplit]; simp)
    exact ⟨this.2.2, this.1, this.2.1⟩

/-- Witness of claim C17 (amended): with `.text` and `.data` registered, `0x2010` is
attributed to `.data`, and `0x2020`, the end of `.data`, to no section. -/
theorem getSectionForAddress_iff_witness :
    emptyContext.AddressToSection = [] ∧
    dataSection.Address + dataSection.Size < 2 ^ 64 ∧
    (dataSection.Size = 0 → dataSection.Address + 1 < 2 ^ 64) ∧
    (getSectionForAddress ([textSection, dataSection].foldl registerSection emptyContext) 0x2010 =
        some dataSection ↔
      ∃ l1 l2, ([textSection, dataSection].foldl registerSection emptyContext).AddressToSection =
          l1 ++ dataSection :: l2 ∧
        (∀ T ∈ l1, T.Address ≤ dataSection.Address) ∧ dataSection.Address ≤ 0x2010 ∧
        (∀ T ∈ l2, 0x2010 < T.Address) ∧
        (0x2010 < dataSection.Address + dataSection.Size ∨
          (dataSection.Size = 0 ∧ 0x2010 = dataSection.Address))) ∧
    getSectionForAddress ([textSection, dataSection].foldl registerSection emptyContext) 0x2010 =
      some dataSection ∧
    getSectionForAddress ([textSection, dataSection].foldl registerSection emptyContext) 0x2020 =
      none :=
  ⟨rfl, by decide, by decide,
    (getSectionForAddress_iff emptyContext rfl [textSection, dataSection] 0x2010 dataSection
      (by decide) (by decide)).1,
    by decide, by decide⟩

/-- Counterexample to claim C17 as worded: the section `.hi` registered with
`registerSection` at `0xFFFFFFFFFFFFFF00` with size `0x100` ends at `2^64`. It is the one
entry of the address map, it starts at or below `0xFFFFFFFFFFFFFF10`, and
`0xFFFFFFFFFFFFFF10 < .hi.start + .hi.size`, but the sum wraps to `0` in 64-bit arithmetic
and the lookup returns the error value. -/
theorem section_lookup_counterexample :
    (registerSection emptyContext highSection).AddressToSection = [] ++ highSection :: [] ∧
    highSection.IsAllocatable = true ∧
    highSection.Address ≤ 0xFFFFFFFFFFFFFF10 ∧
    0xFFFFFFFFFFFFFF10 < highSection.Address + highSection.Size ∧
    getSectionForAddress (registerSection emptyContext highSection) 0xFFFFFFFFFFFFFF10 = none := by
  refine ⟨by decide, by decide, by decide, by decide, by decide⟩

/-! ## Theorems: the bound of the scan and what analyzeJumpTable records -/

/-- Claim C20 (amended). For a table address `t` in a section, when the upper bound of the
scan is at least one entry size, every entry that `analyzeJumpTable` scans is read at
`t + i * EntrySize` and ends at or below that bound; the bound is at most the end of the
section (an object registered at `t` ending inside the section), at most the end of the
object registered exactly at `t` when its size is not zero, and at most the next-table
hint when one is given. The call of `analyzeJumpTable` counts the scanned entries and
records their values, or a beginning of them: every entry of the recorded list is read at
`t + i * EntrySize` and ends at or below the bound. The start of the next registered
object is not part of the bound. -/
theorem analyzeJumpTable_scan_bound (BC : BinaryContext) (Address : Nat)
    (JTType : JumpTableType) (BF : BinaryFunction) (NextJTAddress : Nat)
    (Section : BinarySection) (vs : List (Nat × Bool))
    (hsec : getSectionForAddress BC Address = some Section)
    (hscan : scannedEntries BC Address JTType BF NextJTAddress = some vs)
    (hES : getJumpTableEntrySize BC JTType ≤ scanUpperBound BC Section Address NextJTAddress)
    (hobj : ∀ BD, getBinaryDataAtAddress BC.BinaryDataMap Address = some BD → BD.Size ≠ 0 →
      BD.getEndAddress ≤ Section.getEndAddress) :
    (∀ (i : Nat) (v : Nat × Bool), vs[i]? = some v →
      entryValue BC Address JTType (Address + i * getJumpTableEntrySize BC JTType)
          (getJumpTableEntrySize BC JTType) = some v.1 ∧
        Address + (i + 1) * getJumpTableEntrySize BC JTType ≤
          scanUpperBound BC Section Address NextJTAddress) ∧
    scanUpperBound BC Section Address NextJTAddress ≤ Section.getEndAddress ∧
    (NextJTAddress ≠ 0 → scanUpperBound BC Section Address NextJTAddress ≤ NextJTAddress) ∧
    (∀ BD, getBinaryDataAtAddress BC.BinaryDataMap Address = some BD → BD.Size ≠ 0 →
      scanUpperBound BC Section Address NextJTAddress ≤ BD.getEndAddress) ∧
    (∃ r E, analyzeJumpTable BC Address JTType BF NextJTAddress (some []) none = some r ∧
      r.Result = decide (numRealEntries BF vs + (if hasSpecialEntry BF vs then 1 else 0) ≥ 2) ∧
      r.EntriesAsAddress = some E ∧ E <+: vs.map (fun v => v.1) ∧
      ∀ (i e : Nat), E[i]? = some e →
        entryValue BC Address JTType (Address + i * getJumpTableEntrySize BC JTType)
            (getJumpTableEntrySize BC JTType) = some e ∧
          Address + (i + 1) * getJumpTableEntrySize BC JTType ≤
            scanUpperBound BC Section Address NextJTAddress) := by
  have hscan0 := hscan
  unfold scannedEntries at hscan
  rw [hsec] at hscan
  simp only at hscan
  have hbound := scannedFrom_bound BC Address JTType BF _ _ hES (scanUpperBound_lt _ _ _ _) _ _
    vs hscan
  refine ⟨hbound, ?_, ?_, ?_, ?_⟩
  · unfold scanUpperBound
    dsimp only
    cases hget : getBinaryDataAtAddress BC.BinaryDataMap Address with
    | none =>
      simp only
      split
      · exact Nat.min_le_right _ _
      · exact Nat.le_refl _
    | some BD =>
      simp only
      by_cases hz : BD.Size ≠ 0
      · rw [if_pos hz]
        split
        · exact Nat.le_trans (Nat.min_le_right _ _) (hobj BD hget hz)
        · exact hobj BD hget hz
      · rw [if_neg hz]
        split
        · exact Nat.min_le_right _ _
        · exact Nat.le_refl _
  · intro hn
    unfold scanUpperBound
    dsimp only
    rw [if_pos hn]
    exact Nat.min_le_left _ _
  · intro BD hget hz
    unfold scanUpperBound
    dsimp only
    rw [hget]
    simp only
    rw [if_pos hz]
    split
    · exact Nat.min_le_right _ _
    · exact Nat.le_refl _
  · obtain ⟨r, E, hr, hres, hE, hpre⟩ :=
      analyzeJumpTable_records_scan BC Address JTType BF NextJTAddress none vs hscan0
    refine ⟨r, E, hr, hres, hE, hpre, ?_⟩
    intro i e hi
    obtain ⟨t, ht⟩ := hpre
    have h1 : (vs.map (fun v => v.1))[i]? = some e := by
      rw [← ht]
      have hlt : i < E.length := by
        by_contra hcon
        rw [List.getElem?_eq_none (by omega)] at hi
        exact absurd hi (by simp)
      rw [List.getElem?_append_left hlt]
      exact hi
    rw [List.getElem?_map] at h1
    cases hv : vs[i]? with
    | none => rw [hv] at h1; simp at h1
    | some v =>
      rw [hv] at h1
      simp only [Option.map_some', Option.some.injEq] at h1
      subst h1
      exact hbound i v hv

set_option maxRecDepth 100000 in
/-- Counterexample to claim C20 as stated: with no object at the table address `0x2000`
and the object `next` = `[0x2008, 0x2010)` registered, `analyzeJumpTable` accepts the
table and records all three entries; those read at `0x2008` and `0x2010` lie at or after
the start of `next`. With the next-table hint `4`, below the entry size, the entries at
`0x2000` and `0x2008` are counted and recorded although they lie above the hint. -/
theorem scan_bound_counterexample :
    getBinaryDataAtAddress (tableContextObject [0x1010, 0x1020, 0x1030]).BinaryDataMap 0x2000 =
      none ∧
    (getBinaryDataAtAddress (tableContextObject [0x1010, 0x1020, 0x1030]).BinaryDataMap
      0x2008).map (fun X => (X.Address, X.Size)) = some (0x2008, 8) ∧
    analyzeJumpTable (tableContextObject [0x1010, 0x1020, 0x1030]) 0x2000
        JumpTableType.JTT_NORMAL tableOwner 0 (some []) none =
      some { Result := true, EntriesAsAddress := some [0x1010, 0x1020, 0x1030],
             HasEntryInFragment := none } ∧
    entryValue (tableContextObject [0x1010, 0x1020, 0x1030]) 0x2000 JumpTableType.JTT_NORMAL
      0x2008 8 = some 0x1020 ∧
    entryValue (tableContextObject [0x1010, 0x1020, 0x1030]) 0x2000 JumpTableType.JTT_NORMAL
      0x2010 8 = some 0x1030 ∧
    analyzeJumpTable (tableContext [0x1010, 0x1020, 0]) 0x2000 JumpTableType.JTT_NORMAL
        tableOwner 4 (some []) none =
      some { Result := true, EntriesAsAddress := some [0x1010, 0x1020],
             HasEntryInFragment := none } ∧
    entryValue (tableContext [0x1010, 0x1020, 0]) 0x2000 JumpTableType.JTT_NORMAL
      0x2008 8 = some 0x1020 := by
  decide

set_option maxRecDepth 100000 in
/-- Witness of claim C20 (amended): `analyzeJumpTable` records the three entries of the
table at `0x2000`, and each ends at or below `0x2018`, the end of its section. -/
theorem analyzeJumpTable_scan_bound_witness :
    getSectionForAddress (tableContext [0x1010, 0x1020, 0x1030]) 0x2000 =
      some (tableSection [0x1010, 0x1020, 0x1030]) ∧
    scannedEntries (tableContext [0x1010, 0x1020, 0x1030]) 0x2000 JumpTableType.JTT_NORMAL
      tableOwner 0 = some [(0x1010, false), (0x1020, false), (0x1030, false)] ∧
    scanUpperBound (tableContext [0x1010, 0x1020, 0x1030])
      (tableSection [0x1010, 0x1020, 0x1030]) 0x2000 0 = 0x2018 ∧
    analyzeJumpTable (tableContext [0x1010, 0x1020, 0x1030]) 0x2000
        JumpTableType.JTT_NORMAL tableOwner 0 (some []) none =
      some { Result := true, EntriesAsAddress := some [0x1010, 0x1020, 0x1030],
             HasEntryInFragment := none } ∧
    (∃ r E, analyzeJumpTable (tableContext [0x1010, 0x1020, 0x1030]) 0x2000
          JumpTableType.JTT_NORMAL tableOwner 0 (some []) none = some r ∧
      r.Result = decide (numRealEntries tableOwner
          [((0x1010 : Nat), false), (0x1020, false), (0x1030, false)] +
        (if hasSpecialEntry tableOwner
          [((0x1010 : Nat), false), (0x1020, false), (0x1030, false)] then 1 else 0) ≥ 2) ∧
      r.EntriesAsAddress = some E ∧
      E <+: [((0x1010 : Nat), false), (0x1020, false), (0x1030, false)].map (fun v => v.1) ∧
      ∀ (i e : Nat), E[i]? = some e →
        entryValue (tableContext [0x1010, 0x1020, 0x1030]) 0x2000 JumpTableType.JTT_NORMAL
            (0x2000 + i * getJumpTableEntrySize (tableContext [0x1010, 0x1020, 0x1030])
              JumpTableType.JTT_NORMAL)
            (getJumpTableEntrySize (tableContext [0x1010, 0x1020, 0x1030])
              JumpTableType.JTT_NORMAL) = some e ∧
          0x2000 + (i + 1) * getJumpTableEntrySize (tableContext [0x1010, 0x1020, 0x1030])
              JumpTableType.JTT_NORMAL ≤
            scanUpperBound (tableContext [0x1010, 0x1020, 0x1030])
              (tableSection [0x1010, 0x1020, 0x1030]) 0x2000 0) :=
  ⟨by decide, by decide, by decide, by decide,
    (analyzeJumpTable_scan_bound (tableContext [0x1010, 0x1020, 0x1030]) 0x2000
      JumpTableType.JTT_NORMAL tableOwner 0 (tableSection [0x1010, 0x1020, 0x1030])
      [(0x1010, false), (0x1020, false), (0x1030, false)] (by decide) (by decide) (by decide)
      (by decide)).2.2.2.2⟩

/-! ## Theorems: insertion into an index of several sections -/

theorem getOrCreateGlobalSymbol_tables (BC : BinaryContext) (a : Nat) (Prefix : String)
    (Size Alignment Flags : Nat) :
    (getOrCreateGlobalSymbol BC a Prefix Size Alignment Flags).2.JumpTables = BC.JumpTables := by
  unfold getOrCreateGlobalSymbol
  split
  · rfl
  · exact registerNameAtAddress_tables _ _ _ _ _ _

/-- A call of `handleAddressRef` that finds no island leads from a state whose jump-table
map `getOrCreateJumpTable` has built to another such state. -/
theorem handleAddressRef_tablesBuilt (island : IslandAccess) (BC : BinaryContext)
    (a BF : Nat) (p : Bool) (ha : a < 18446744073709551616) (hbuilt : TablesBuilt BC)
    (hnone : isAArch64 BC = true → island BC a BF = none)
    (r : (MCSymbol × Nat) × BinaryContext)
    (hr : handleAddressRef island BC a BF p = some r) : TablesBuilt r.2 := by
  cases hF : getFunction BC.BinaryFunctions BF with
  | none =>
    exfalso
    unfold handleAddressRef at hr
    simp only [hF] at hr
    exact absurd hr (by simp)
  | some Fn =>
    by_cases hesc : ((∃ Section, getSectionForAddress BC a = some Section ∧
        Section.IsText = true) ∧
        Fn.containsAddress a (isAArch64 BC) = true ∧ a ≠ Fn.Address)
    · obtain ⟨⟨S, hs, ht⟩, hin, hne⟩ := hesc
      have h1 := handleAddressRef_escape island BC a BF p Fn S hF hnone hs ht hin hne
      rw [h1] at hr
      simp only [Option.some.injEq] at hr
      rw [← hr]
      exact TablesBuilt.other BC _ hbuilt rfl
    · obtain ⟨refs, hu⟩ := handleAddressRef_unescaped island BC a BF p Fn hF hnone hesc
      rw [hu] at hr
      cases hM : (if BC.HasRelocations = true then analyzeMemoryAt BC a Fn
          else some MemoryContentsType.UNKNOWN) with
      | none =>
        rw [hM] at hr
        simp at hr
      | some MemType =>
        rw [hM] at hr
        simp only [Option.some_bind] at hr
        have hrefs : TablesBuilt { BC with InterproceduralReferences := refs } :=
          TablesBuilt.other BC _ hbuilt rfl
        by_cases hpic : BC.HasRelocations = true ∧
            MemType = MemoryContentsType.POSSIBLE_PIC_JUMP_TABLE ∧ p = true
        · rw [if_pos hpic] at hr
          simp only [Option.some.injEq] at hr
          rw [← hr]
          exact TablesBuilt.create _ BF a JumpTableType.JTT_PIC hrefs ha
        · rw [if_neg hpic] at hr
          cases hl : getBinaryDataContainingAddress BC.BinaryDataMap a with
          | some BD =>
            rw [hl] at hr
            simp only [Option.elim, Option.some.injEq] at hr
            rw [← hr]
            exact hrefs
          | none =>
            rw [hl] at hr
            simp only [Option.elim, Option.some.injEq] at hr
            rw [← hr]
            exact TablesBuilt.other _ _ hrefs (getOrCreateGlobalSymbol_tables _ _ _ _ _ _)

end Bolt
